import Mathlib

/-!
# kvstore: a shallow embedding of the LSM storage engine

The definitions follow the C++ headers under `include/`:
`Buffer.hpp`, `KeyValue.hpp`, `AppendableMMap.hpp`, `Table.hpp`,
`TableIterator.hpp`, `TableBuilder.hpp`, `MemTable.hpp`, `Level.hpp`,
`LSMTree.hpp`, `KVStore.hpp`, `Config.hpp`, `FileSystem.hpp`,
`ConcurrentQueue.hpp`, `ParallelKVStore.hpp`.

Modelling conventions
* a byte is a `Fin 256`; memory is a `List Byte`;
* `uint16_t` / `uint32_t` values are naturals, reduced `% 2^16` / `% 2^32`
  wherever the C++ arithmetic is carried out in that width;
* a failed `assert`, a null `shared_ptr` dereference and an out-of-range
  `vector::operator[]` are results of type `Err`; every operation that can
  reach one returns `Except Err _`;
* `while` loops are structural recursions on a step budget; running out of
  budget is the result `Err.fuel`;
* the members of a store run one after another; where threads matter (the queue of
  a shard) a run is a sequence of events, each of them one critical section, one
  task of the worker or one pass of the background merger (`ShardEvent`);
* a directory is the list of the files it holds, a file is the bytes of its mapping
  (`Level.files`, `Level.load`); `KVStore.new` opens a store over empty directories,
  and `delete_from_fs` has no effect on the mapped bytes;
* the signedness of plain `char` is a parameter (`Buffer.charValue`);
* `merge_with(Level0)` is also given in its three sections (snapshot, merge, publish),
  with the dumps of the writer threads between the first and the last
  (`LevelN.merge_with_level0_during`);
* a sequential run of a tree is a list of flushes and merger passes (`TreeEvent`); a
  record comes from flush `n` when the `n`-th flushed memtable holds its key with its
  value (`ComesFrom`);
* the close of a store (`KVStore.close`) is a run of the flush of `~KVStore()` and of
  `~LSMTree()`, with a pass of the background merger, or none, before the flush and
  after it (the merger is stopped only by `~LSMTree()`);
* `add`, `remove` and `destroy` are also given with the store in which the call ends,
  whether it returns or stops at an assertion (`KVStore.add_end`, `KVStore.remove_end`,
  `KVStore.destroy_end`).

The section *Properties* first relates the byte-level code to record sequences:
`Table.Holds t rs` says that `t` is a well-formed table file with the records `rs`
(every table returned by `finalize` is one, `TableBuilder.Holds.finalize_some`), and
`TableBuilder.Holds b S cur` says that the builder `b` has accepted the records `cur`.
The statements about `Table::get`, iteration and `merge_tables` are proved on top of
these.
-/

namespace KV

/-! ## Bytes and machine integers -/

abbrev Byte := Fin 256

abbrev Bytes := List Byte

/-- Ways in which an operation can stop without a result. -/
inductive Err where
  | assertion
  | nullDeref
  | outOfRange
  | fuel
  deriving DecidableEq, Repr

deriving instance DecidableEq for Except

/-- The modulus of `uint32_t` arithmetic. -/
def U32 : Nat := 4294967296

/-- The modulus of `uint16_t` arithmetic. -/
def U16 : Nat := 65536

/-- `UINT16_MAX`. -/
def UINT16_MAX : Nat := 65535

/-- The C `assert`. -/
def assert (c : Bool) : Except Err Unit :=
  if c then .ok () else .error .assertion

/-- Little-endian image of a `uint16_t` in memory. -/
def u16le (n : Nat) : Bytes :=
  [⟨n % 256, Nat.mod_lt _ (by decide)⟩, ⟨n / 256 % 256, Nat.mod_lt _ (by decide)⟩]

/-- Little-endian image of a `uint32_t` in memory. -/
def u32le (n : Nat) : Bytes :=
  [⟨n % 256, Nat.mod_lt _ (by decide)⟩, ⟨n / 256 % 256, Nat.mod_lt _ (by decide)⟩,
   ⟨n / 65536 % 256, Nat.mod_lt _ (by decide)⟩, ⟨n / 16777216 % 256, Nat.mod_lt _ (by decide)⟩]

/-- The byte at address `i` of a mapping (bytes outside the mapping read as 0). -/
def byteAt (mem : Bytes) (i : Nat) : Nat := (mem.getD i 0).val

/-- Load of a `uint16_t` at byte offset `off`. -/
def readU16 (mem : Bytes) (off : Nat) : Nat :=
  byteAt mem off + 256 * byteAt mem (off + 1)

/-- Load of a `uint32_t` at byte offset `off`. -/
def readU32 (mem : Bytes) (off : Nat) : Nat :=
  byteAt mem off + 256 * byteAt mem (off + 1) + 65536 * byteAt mem (off + 2)
    + 16777216 * byteAt mem (off + 3)

/-- The `n` bytes of a mapping that start at offset `off`
(bytes outside the mapping read as 0). -/
def slice (mem : Bytes) (off n : Nat) : Bytes :=
  (mem.drop off ++ List.replicate n 0).take n

/-- The effect of `memcpy(mem + pos, bs, |bs|)` on the mapping. -/
def writeAt (mem : Bytes) (pos : Nat) (bs : Bytes) : Bytes :=
  mem.take pos ++ bs ++ mem.drop (pos + bs.length)

/-! ## Buffer.hpp -/

/-- A `Buffer`: `m_size` bytes starting at `m_buffer`. The field `m_size` is a
`uint16_t`, so the content is shorter than 65536 bytes. -/
structure Buffer where
  bytes : Bytes
  size_lt : bytes.length < 65536
  deriving DecidableEq

namespace Buffer

/-- The constructor `Buffer()`. -/
def empty : Buffer := ⟨[], by decide⟩

/-- The constructors `Buffer(const std::string &)`, `Buffer(const char *)` and
`Buffer(const void *, uint32_t)`: each asserts `size < UINT16_MAX`. (For a
`const char *` the bytes are those before the terminating NUL.) -/
def ofString (x : Bytes) : Except Err Buffer :=
  if h : x.length < UINT16_MAX then
    .ok ⟨x, Nat.lt_trans h (by decide)⟩
  else .error .assertion

/-- The member `size()`. -/
def size (b : Buffer) : Nat := b.bytes.length

/-- The member `total_size()`: `m_size + sizeof(uint16_t)`. -/
def total_size (b : Buffer) : Nat := b.size + 2

/-- The libc `memcmp` on the first `n` bytes: the difference of the first pair of
bytes that differ, read as `unsigned char`, and 0 when there is none. -/
def memcmp : Bytes → Bytes → Nat → Int
  | _, _, 0 => 0
  | [], _, _ + 1 => 0
  | _ :: _, [], _ + 1 => 0
  | a :: as, b :: bs, n + 1 =>
    if a = b then memcmp as bs n else (a.val : Int) - (b.val : Int)

/-- The member `compare`. -/
def compare (self that : Buffer) : Int :=
  let size := min self.size that.size
  let cmp := memcmp self.bytes that.bytes size
  let size_diff : Int := (self.size : Int) - (that.size : Int)
  if cmp = 0 then size_diff else cmp

/-- The member `operator==`. -/
def eq (self that : Buffer) : Bool := decide (self.compare that = 0)

/-- The member `operator!=`. -/
def ne (self that : Buffer) : Bool := decide (self.compare that ≠ 0)

/-- The member `operator<`. -/
def lt (self that : Buffer) : Bool := decide (self.compare that < 0)

/-- The member `operator<=`. -/
def le (self that : Buffer) : Bool := decide (self.compare that ≤ 0)

/-- The member `operator>`. -/
def gt (self that : Buffer) : Bool := decide (self.compare that > 0)

/-- The member `operator>=`. -/
def ge (self that : Buffer) : Bool := decide (self.compare that ≥ 0)

/-- The static member `Buffer::min`. -/
def min (x y : Buffer) : Buffer := if x.lt y then x else y

/-- The static member `Buffer::max`. -/
def max (x y : Buffer) : Buffer := if x.gt y then x else y

/-- The static member `deserialize`: a `uint16_t` length at `raw`, the content
right after it. -/
def deserialize (mem : Bytes) (raw : Nat) : Buffer :=
  ⟨slice mem (raw + 2) (readU16 mem raw), by
    have h0 : byteAt mem raw < 256 := (mem.getD raw 0).isLt
    have h1 : byteAt mem (raw + 1) < 256 := (mem.getD (raw + 1) 0).isLt
    simp only [slice, readU16, List.length_take, List.length_append, List.length_drop,
      List.length_replicate]
    omega⟩

end Buffer

/-! ## AppendableMMap.hpp -/

/-- A fixed-size mapping with a head cursor and a tail cursor. -/
structure AppendableMMap where
  m_buffer : Bytes
  m_head_index : Nat
  m_tail_index : Nat
  m_size : Nat
  deriving DecidableEq

namespace AppendableMMap

/-- The constructors `AppendableMMap(uint32_t size)` and
`AppendableMMap(uint32_t size, filename)`: a zero-filled mapping of `size` bytes,
`m_tail_index = size - 1` in `uint32_t`. -/
def create (size : Nat) : AppendableMMap :=
  { m_buffer := List.replicate size 0
    m_head_index := 0
    m_tail_index := (size + U32 - 1) % U32
    m_size := size }

/-- The constructor `AppendableMMap(filename)`: the mapping of an existing file;
`m_size` is the file size as a `uint32_t`. -/
def load (file : Bytes) : AppendableMMap :=
  { m_buffer := file.take (file.length % U32)
    m_head_index := 0
    m_tail_index := (file.length % U32 + U32 - 1) % U32
    m_size := file.length % U32 }

/-- The private member `free()`: `m_tail_index - m_head_index + 1` in `uint32_t`. -/
def free (m : AppendableMMap) : Nat :=
  (m.m_tail_index + U32 - m.m_head_index + 1) % U32

/-- The member `appendFront`. -/
def appendFront (m : AppendableMMap) (bs : Bytes) : Except Err AppendableMMap := do
  assert (decide (bs.length ≤ m.free))
  pure { m with
    m_buffer := writeAt m.m_buffer m.m_head_index bs
    m_head_index := (m.m_head_index + bs.length) % U32 }

/-- The member `appendBack`. -/
def appendBack (m : AppendableMMap) (bs : Bytes) : Except Err AppendableMMap := do
  assert (decide (bs.length ≤ m.free))
  pure { m with
    m_buffer := writeAt m.m_buffer (m.m_tail_index + 1 - bs.length) bs
    m_tail_index := (m.m_tail_index + U32 - bs.length) % U32 }

end AppendableMMap

/-- The member `Buffer::serialize`: the length as a `uint16_t`, then the content. -/
def Buffer.serialize (b : Buffer) (mmap : AppendableMMap) : Except Err AppendableMMap := do
  let m1 ← mmap.appendFront (u16le b.size)
  m1.appendFront b.bytes

/-! ## KeyValue.hpp -/

/-- A record: a key and a value. -/
structure KeyValue where
  key : Buffer
  value : Buffer
  deriving DecidableEq

/-- The constructor `KeyValue(const char *buffer)`: the key at `buffer`, the value
right after the key. -/
def KeyValue.decode (mem : Bytes) (off : Nat) : KeyValue :=
  let key := Buffer.deserialize mem off
  { key := key, value := Buffer.deserialize mem (off + key.total_size) }

/-! ## Table.hpp and TableIterator.hpp -/

/-- A `Table`: the mapping, the position of the offset index (`m_index`) and of the
end of the records (`m_end`) as byte offsets into the mapping, the entry count and
the cached first and last key. -/
structure Table where
  m_mmap : AppendableMMap
  m_index : Nat
  m_end : Nat
  m_num_entries : Nat
  m_min_key : Buffer
  m_max_key : Buffer
  deriving DecidableEq

/-- A `std::shared_ptr<Table>`; `none` is `nullptr`. -/
abbrev TablePtr := Option Table

/-- Dereference of a `std::shared_ptr`. -/
def deref {α : Type} : Option α → Except Err α
  | some t => .ok t
  | none => .error .nullDeref

namespace Table

/-- The body of `operator[]`, on the fields it reads: the start offset of record `i`
from the offset index. -/
def entryOffset (mmap : AppendableMMap) (m_index m_num_entries i : Nat) : Except Err Nat := do
  assert (decide (i < m_num_entries))
  pure (readU32 mmap.m_buffer (m_index + 4 * i))

/-- The body of `operator[]`, on the fields it reads. -/
def entry (mmap : AppendableMMap) (m_index m_num_entries i : Nat) : Except Err KeyValue := do
  let offset ← entryOffset mmap m_index m_num_entries i
  pure (KeyValue.decode mmap.m_buffer offset)

/-- The member `operator[]`. -/
def get_at (t : Table) (i : Nat) : Except Err KeyValue :=
  entry t.m_mmap t.m_index t.m_num_entries i

/-- The constructor `Table(std::shared_ptr<AppendableMMap>)`. -/
def ofMMap (mmap : AppendableMMap) : Except Err Table := do
  let table_size := mmap.m_size - 4
  let m_num_entries := readU32 mmap.m_buffer table_size
  let m_index := table_size - 4 * m_num_entries
  assert (decide (m_num_entries ≠ 0))
  let last_off ← entryOffset mmap m_index m_num_entries ((m_num_entries + U32 - 1) % U32)
  let last := KeyValue.decode mmap.m_buffer last_off
  let m_end := last_off + last.key.total_size + 2 + last.value.size
  assert (decide (m_end ≤ m_index))
  let first ← entry mmap m_index m_num_entries 0
  let last2 ← entry mmap m_index m_num_entries ((m_num_entries + U32 - 1) % U32)
  pure
    { m_mmap := mmap
      m_index := m_index
      m_end := m_end
      m_num_entries := m_num_entries
      m_min_key := first.key
      m_max_key := last2.key }

/-- The static member `load_table`. -/
def load_table (file : Bytes) : Except Err Table :=
  ofMMap (AppendableMMap.load file)

/-- The loop of `Table::get`: `min` and `max` are `int64_t`. -/
def getLoop (t : Table) (key : Buffer) : Nat → Int → Int → Except Err (Option Buffer)
  | 0, _, _ => .error .fuel
  | fuel + 1, min, max =>
    if min ≤ max then do
      let half := (min + max) / 2
      let item ← t.get_at (half.toNat % U32)
      if key.lt item.key then getLoop t key fuel min (half - 1)
      else if key.gt item.key then getLoop t key fuel (half + 1) max
      else pure (some item.value)
    else pure none

/-- The member `get`: binary search over the offset index. The budget
`m_num_entries + 1` covers every run of the loop. -/
def get (t : Table) (key : Buffer) : Except Err (Option Buffer) :=
  getLoop t key (t.m_num_entries + 1) 0 (((t.m_num_entries + U32 - 1) % U32 : Nat) : Int)

/-- The member `size()`. -/
def size (t : Table) : Nat := t.m_num_entries

/-- The member `min_key()`. -/
def min_key (t : Table) : Buffer := t.m_min_key

/-- The member `max_key()`. -/
def max_key (t : Table) : Buffer := t.m_max_key

/-- The member `begin()`: an iterator is the byte offset of its `m_current`. -/
def begin_ (_t : Table) : Nat := 0

/-- The member `end()`. -/
def end_ (t : Table) : Nat := t.m_end

/-- The `TableIterator::operator*` of an iterator into this table. -/
def iter_deref (t : Table) (m_current : Nat) : KeyValue :=
  KeyValue.decode t.m_mmap.m_buffer m_current

/-- The `TableIterator::operator++` of an iterator into this table. -/
def iter_next (t : Table) (m_current : Nat) : Nat :=
  let kv := t.iter_deref m_current
  m_current + (kv.key.total_size + kv.value.total_size)

/-- The range-based `for` over a table, from iterator position `it`. -/
def iterLoop (t : Table) : Nat → Nat → Except Err (List KeyValue)
  | 0, _ => .error .fuel
  | fuel + 1, it =>
    if it ≠ t.end_ then do
      let rest ← iterLoop t fuel (t.iter_next it)
      pure (t.iter_deref it :: rest)
    else pure []

/-- The records that `for (const auto &item : table)` visits, in order. The budget
`m_num_entries + 1` covers every table whose records end at `m_end`. -/
def records (t : Table) : Except Err (List KeyValue) :=
  iterLoop t (t.m_num_entries + 1) t.begin_

end Table

/-! ## FileSystem.hpp and Config.hpp -/

/-- The helper `ends_with(value, "/")`. -/
def ends_with_slash (value : List Char) : Bool :=
  match value.reverse with
  | c :: _ => decide (c = '/')
  | [] => false

/-- The helper `path_append`. -/
def path_append (p1 p2 : List Char) : List Char :=
  if ends_with_slash p1 then p1 ++ p2 else p1 ++ ['/'] ++ p2

/-- The `std::to_string` of an unsigned number. -/
def to_string (n : Nat) : List Char := (Nat.toDigits 10 n)

/-- A `LevelConfig`. -/
structure LevelConfig where
  path : List Char
  path_db : List Char
  path_level : List Char
  level : Nat
  table_size : Nat
  threshold : Nat
  overwrite : Bool
  deriving DecidableEq

/-- The constructor `LevelConfig(path, db_name, level, table_size, threshold, overwrite)`. -/
def LevelConfig.new (path db_name : List Char) (level table_size threshold : Nat)
    (overwrite : Bool) : LevelConfig :=
  { path := path
    path_db := path_append path db_name
    path_level := path_append (path_append path db_name) (to_string level)
    level := level
    table_size := table_size
    threshold := threshold
    overwrite := overwrite }

/-- The loop of the helper `split`: `buff` is the piece being read. -/
def splitLoop (c : Char) : List Char → List Char → List (List Char) → List (List Char)
  | [], buff, v => if buff ≠ [] then v ++ [buff] else v
  | n :: rest, buff, v =>
    if n ≠ c then splitLoop c rest (buff ++ [n]) v
    else if buff ≠ [] then splitLoop c rest [] (v ++ [buff])
    else splitLoop c rest buff v

/-- The helper `split`. -/
def split (s : List Char) (c : Char) : List (List Char) := splitLoop c s [] []

/-- A `Config`. -/
structure Config where
  levels : List LevelConfig
  name : List Char
  path : List Char
  memtable_size : Nat
  parallelism : Nat
  deriving DecidableEq

/-- The loop of the `Config` constructor that builds the level configurations:
`t` starts as `threshold` and is multiplied by `threshold` (in 32 bits) per level. -/
def Config.levelsLoop (name : List Char) (table_size threshold : Nat) (overwrite : Bool) :
    List (List Char) → Nat → Nat → List LevelConfig
  | [], _, _ => []
  | dir :: dirs, i, t =>
    LevelConfig.new dir name i table_size (t % U32) overwrite ::
      Config.levelsLoop name table_size threshold overwrite dirs (i + 1) (t * threshold % U32)

/-- The constructor `Config(name, path, num_levels, table_size, threshold,
memtable_size, parallelism, overwrite)`. -/
def Config.new (name path : List Char) (num_levels table_size threshold memtable_size
    parallelism : Nat) (overwrite : Bool) : Except Err Config := do
  assert (decide (name ≠ []))
  assert (decide (path ≠ []))
  let directories := split path ','
  assert (decide (directories.length = 1 ∨ directories.length = num_levels))
  let directories :=
    if directories.length = 1 then List.replicate num_levels (directories.headD [])
    else directories
  pure
    { levels := Config.levelsLoop name table_size threshold overwrite
        (directories.take num_levels) 0 threshold
      name := name
      path := path
      memtable_size := memtable_size
      parallelism := parallelism }

/-- The static member `Config::create_partition`. -/
def Config.create_partition (config : Config) (partition_id : Nat) : Config :=
  let new_name := config.name ++ ['_'] ++ to_string partition_id
  { config with
    name := new_name
    levels := config.levels.enum.map (fun (i, level) =>
      { level with
        path_db := path_append level.path new_name
        path_level := path_append (path_append level.path new_name) (to_string i) }) }

/-! ## TableBuilder.hpp -/

/-- A `std::vector<std::shared_ptr<Table>>`. -/
abbrev table_list := List TablePtr

/-- A `TableBuilder`: the lazily created mapping (`none` is `nullptr`), the target
size and the offsets recorded so far. -/
structure TableBuilder where
  m_mmap : Option AppendableMMap
  m_table_size : Nat
  m_index : List Nat
  deriving DecidableEq

namespace TableBuilder

/-- The private member `clear()`. -/
def clear (b : TableBuilder) : TableBuilder :=
  { b with m_mmap := none, m_index := [] }

/-- The constructor `TableBuilder(table_size, path)`. -/
def new (table_size : Nat) : TableBuilder :=
  clear { m_mmap := none, m_table_size := table_size, m_index := [] }

/-- The private member that creates the mapping when there is none (`initialize()` in
the source). -/
def init_mmap (b : TableBuilder) : TableBuilder :=
  match b.m_mmap with
  | none => { b with m_mmap := some (AppendableMMap.create b.m_table_size) }
  | some _ => b

/-- The member `current_size()`, a `uint32_t`. -/
def current_size (b : TableBuilder) : Except Err Nat := do
  let m ← deref b.m_mmap
  pure ((m.m_head_index + 4 * b.m_index.length + 4) % U32)

/-- The member `add`. The first two additions of the size test are carried out in
`uint32_t`, the last one in `size_t`. -/
def add (b : TableBuilder) (key value : Buffer) : Except Err (TableBuilder × Bool) := do
  assert (decide (key.size ≠ 0))
  let b := b.init_mmap
  let cs ← b.current_size
  if (cs + key.total_size + value.total_size) % U32 + 4 > b.m_table_size then
    pure (b, false)
  else do
    let m ← deref b.m_mmap
    let m_index := b.m_index ++ [m.m_head_index]
    let m1 ← key.serialize m
    let m2 ← value.serialize m1
    pure ({ b with m_mmap := some m2, m_index := m_index }, true)

/-- The member `finalize`. -/
def finalize (b : TableBuilder) : Except Err (TableBuilder × TablePtr) := do
  let m ← deref b.m_mmap
  if m.m_head_index = 0 then
    pure (b, none)
  else do
    let index_size := b.m_index.length % U32
    let m1 ← m.appendBack (u32le index_size)
    let m2 ← m1.appendBack ((b.m_index.flatMap u32le).take (4 * index_size % U32))
    let res ← Table.ofMMap m2
    pure (b.clear, some res)

/-- The search for the input with the smallest current key in `merge_tables`:
`i` is the index of the next input, `min_index` and `min_iterator` the best so far. -/
def findMin : List (Table × Nat) → Nat → Nat → Table × Nat → Nat × (Table × Nat)
  | [], _, min_index, min_iterator => (min_index, min_iterator)
  | it :: rest, i, min_index, min_iterator =>
    if ((it.1.iter_deref it.2).key.compare (min_iterator.1.iter_deref min_iterator.2).key) < 0 then
      findMin rest (i + 1) i it
    else
      findMin rest (i + 1) min_index min_iterator

/-- The state of the `while (true)` loop of `merge_tables`. -/
structure MergeState where
  builder : TableBuilder
  result : table_list
  last_added_key : Buffer
  iterators : List (Table × Nat)
  deriving DecidableEq

/-- The block of `merge_tables` that hands a record to the builder:
`if (!builder.add(k, v)) { result.push_back(builder.finalize()); builder.add(k, v); }`.
The result of the second `add` is not looked at. -/
def addOrRoll (builder : TableBuilder) (result : table_list) (item : KeyValue) :
    Except Err (TableBuilder × table_list) := do
  let (b1, added) ← builder.add item.key item.value
  if !added then do
    let (b2, t) ← b1.finalize
    let (b3, _) ← b2.add item.key item.value
    pure (b3, result ++ [t])
  else
    pure (b1, result)

/-- One run of the body of the `while (true)` loop of `merge_tables`, entered with
`iterators = first :: others`. -/
def mergeStep (st : MergeState) (first : Table × Nat) (others : List (Table × Nat)) :
    Except Err MergeState := do
  let (min_index, min_iterator) := findMin others 1 0 first
  let item := min_iterator.1.iter_deref min_iterator.2
  let (builder, result, last_added_key) ←
    if item.key.ne st.last_added_key then do
      let (b, r) ← addOrRoll st.builder st.result item
      pure (b, r, item.key)
    else
      pure (st.builder, st.result, st.last_added_key)
  let next := min_iterator.1.iter_next min_iterator.2
  let iterators := (first :: others).set min_index (min_iterator.1, next)
  let iterators :=
    if next = min_iterator.1.end_ then iterators.eraseIdx min_index else iterators
  pure
    { builder := builder, result := result, last_added_key := last_added_key,
      iterators := iterators }

/-- The `while (true)` loop of `merge_tables`. -/
def mergeLoop : Nat → MergeState → Except Err MergeState
  | 0, _ => .error .fuel
  | fuel + 1, st =>
    match st.iterators with
    | [] => pure st
    | first :: others => do
      let st ← mergeStep st first others
      mergeLoop fuel st

/-- The first loop of `merge_tables`: one iterator per input table, at `begin()`. -/
def openIterators : table_list → Except Err (List (Table × Nat))
  | [] => pure []
  | it :: rest => do
    let t ← deref it
    let others ← openIterators rest
    pure ((t, t.begin_) :: others)

/-- The static member `merge_tables`. Front tables have precedence over tail tables.
The loop budget is the number of records announced by the inputs plus one. -/
def merge_tables (tables : table_list) (config : LevelConfig) : Except Err table_list := do
  let builder := TableBuilder.new config.table_size
  let iterators ← openIterators tables
  let fuel := (iterators.map (fun it => it.1.m_num_entries)).sum + 1
  let st ← mergeLoop fuel
    { builder := builder, result := [], last_added_key := Buffer.empty, iterators := iterators }
  let (_, last) ← st.builder.finalize
  match last with
  | some t => pure (st.result ++ [some t])
  | none => pure st.result

end TableBuilder

/-! ## MemTable.hpp -/

/-- The order of `std::map<std::string, std::string>`: `std::string::operator<`,
lexicographic on `unsigned char`, a proper initial segment first. -/
def strLt : Bytes → Bytes → Bool
  | [], [] => false
  | [], _ :: _ => true
  | _ :: _, [] => false
  | a :: as, b :: bs =>
    if a.val < b.val then true else if b.val < a.val then false else strLt as bs

/-- The member `std::map::find`: the value of the entry whose key is equivalent to `key`. -/
def mapFind : List (Bytes × Bytes) → Bytes → Option Bytes
  | [], _ => none
  | (k, v) :: rest, key =>
    if !strLt k key && !strLt key k then some v else mapFind rest key

/-- The members `std::map::insert` followed by the assignment
`ret.first->second = value` that `MemTable::add` makes when the key is present:
the new map and the value that was replaced, if any. -/
def mapUpsert (key value : Bytes) : List (Bytes × Bytes) → List (Bytes × Bytes) × Option Bytes
  | [] => ([(key, value)], none)
  | (k, v) :: rest =>
    if strLt key k then ((key, value) :: (k, v) :: rest, none)
    else if strLt k key then
      let r := mapUpsert key value rest
      ((k, v) :: r.1, r.2)
    else ((k, value) :: rest, some v)

/-- A `MemTable`: the ordered map, as the list of its entries in key order, and the
byte counter `m_size` (a `uint32_t`). -/
structure MemTable where
  m_table : List (Bytes × Bytes)
  m_size : Nat
  deriving DecidableEq

namespace MemTable

/-- The constructor `MemTable()`. -/
def new : MemTable := { m_table := [], m_size := 0 }

/-- The member `get`: the value is copied into an `OwnedBuffer`, whose constructor
asserts `size < UINT16_MAX`. -/
def get (m : MemTable) (key : Buffer) : Except Err (Option Buffer) :=
  match mapFind m.m_table key.bytes with
  | some v => do
    let b ← Buffer.ofString v
    pure (some b)
  | none => pure none

/-- The member `add`. -/
def add (m : MemTable) (key value : Buffer) : Except Err MemTable := do
  let ret := mapUpsert key.bytes value.bytes m.m_table
  let m_size :=
    match ret.2 with
    | some old => (m.m_size + U32 - old.length % U32 + value.size) % U32
    | none => (m.m_size + key.size + value.size) % U32
  assert (decide (m_size ≠ 0))
  pure { m_table := ret.1, m_size := m_size }

/-- The member `clear`. -/
def clear (_m : MemTable) : MemTable := { m_table := [], m_size := 0 }

/-- The member `size`. -/
def size (m : MemTable) : Except Err Nat := do
  assert (decide ((m.m_size ≠ 0 ∧ m.m_table.length ≠ 0) ∨ (m.m_size = 0 ∧ m.m_table.length = 0)))
  pure m.m_size

end MemTable

/-! ## Level.hpp -/

/-- A `Level`: its configuration and its tables. -/
structure Level where
  m_config : LevelConfig
  m_tables : table_list
  deriving DecidableEq

namespace Level

/-- A level over an empty directory. -/
def new (config : LevelConfig) : Level := { m_config := config, m_tables := [] }

/-- The member `size`. -/
def size (l : Level) : Nat := l.m_tables.length

/-- The member `needs_merging`. -/
def needs_merging (l : Level) : Bool := decide (l.m_tables.length > l.m_config.threshold)

/-- The member `destroy`. -/
def destroy (l : Level) : Level := { l with m_tables := [] }

end Level

namespace Level0

/-- The loop of `Level0::get` over the tables from `rbegin()` to `rend()`. -/
def getLoop (key : Buffer) : table_list → Except Err (Option Buffer)
  | [] => pure none
  | it :: rest => do
    let table ← deref it
    let value ← table.get key
    match value with
    | some v => pure (some v)
    | none => getLoop key rest

/-- The member `Level0::get`. -/
def get (l : Level) (key : Buffer) : Except Err (Option Buffer) :=
  getLoop key l.m_tables.reverse

/-- The loop of `Level0::dump_memtable` over the entries of the memtable. Each entry
is converted with `Buffer(const std::string &)`. -/
def dumpLoop : TableBuilder → table_list → List (Bytes × Bytes) →
    Except Err (TableBuilder × table_list)
  | builder, tables, [] => pure (builder, tables)
  | builder, tables, item :: rest => do
    let key ← Buffer.ofString item.1
    let value ← Buffer.ofString item.2
    let (b1, added) ← builder.add key value
    if !added then do
      let (b2, t) ← b1.finalize
      let (b3, res) ← b2.add key value
      assert res
      dumpLoop b3 (tables ++ [t]) rest
    else
      dumpLoop b1 tables rest

/-- The member `Level0::dump_memtable`. -/
def dump_memtable (l : Level) (mem_table : MemTable) : Except Err Level := do
  let builder := TableBuilder.new l.m_config.table_size
  let (builder, tables) ← dumpLoop builder [] mem_table.m_table
  let (_, last) ← builder.finalize
  let tables :=
    match last with
    | some t => tables ++ [some t]
    | none => tables
  pure { l with m_tables := l.m_tables ++ tables }

end Level0

namespace LevelN

/-- Conversion of an unsigned value to `int32_t`. -/
def toInt32 (n : Nat) : Int :=
  if n % U32 < 2147483648 then ((n % U32 : Nat) : Int) else ((n % U32 : Nat) : Int) - 4294967296

/-- The `vector::operator[]` of a table list followed by the dereference of the
pointer. -/
def tableAt (tables : table_list) (i : Nat) : Except Err Table :=
  match tables.get? i with
  | some p => deref p
  | none => .error .outOfRange

/-- The binary search of `LevelN::get`; `min` and `max` are `int32_t`. -/
def getLoop (tables : table_list) (key : Buffer) : Nat → Int → Int → Except Err (Option Buffer)
  | 0, _, _ => .error .fuel
  | fuel + 1, min, max =>
    if min ≤ max then do
      let half := (min + max) / 2
      let table ← tableAt tables half.toNat
      if key.lt table.min_key then getLoop tables key fuel min (half - 1)
      else if key.gt table.max_key then getLoop tables key fuel (half + 1) max
      else table.get key
    else pure none

/-- The member `LevelN::get`. The budget `size + 1` covers every run of the loop. -/
def get (l : Level) (key : Buffer) : Except Err (Option Buffer) :=
  getLoop l.m_tables key (l.m_tables.length + 1) 0 (toInt32 (l.m_tables.length + U32 - 1))

/-- The loop of `merge_with(Level0)` that widens `[min, max]` over the snapshot. -/
def rangeLoop : table_list → Buffer → Buffer → Except Err (Buffer × Buffer)
  | [], min, max => pure (min, max)
  | it :: rest, min, max => do
    let table ← deref it
    let min := if table.min_key.lt min then table.min_key else min
    let max := if table.max_key.gt max then table.max_key else max
    rangeLoop rest min max

/-- The loop of `merge_with` over the tables of the current level: `i` is the
position of the next table, `endIdx` stands for `m_tables.end()`; the result is
`first`, `last` and the tables to append to `tmp`. -/
def overlapLoop (min max : Buffer) (endIdx : Nat) :
    table_list → Nat → Nat → Nat → table_list → Except Err (Nat × Nat × table_list)
  | [], _, first, last, acc => pure (first, last, acc)
  | it :: rest, i, first, last, acc => do
    let table ← deref it
    if (Buffer.min table.max_key max).ge (Buffer.max table.min_key min) then
      let first := if first = endIdx then i else first
      overlapLoop min max endIdx rest (i + 1) first i (acc ++ [it])
    else
      overlapLoop min max endIdx rest (i + 1) first last acc

/-- The last step of `merge_with`: erase `[first, last]` when an overlapping table
was found, and insert the merged tables at `last`. -/
def replaceTables (m_tables : table_list) (first last : Nat) (merged_tables : table_list) :
    table_list :=
  let endIdx := m_tables.length
  if last ≠ endIdx then
    let erased := m_tables.take first ++ m_tables.drop (last + 1)
    erased.take first ++ merged_tables ++ erased.drop first
  else
    m_tables.take last ++ merged_tables ++ m_tables.drop last

/-- The member `merge_with(std::shared_ptr<Level0>)`: the new state of this level and
of `other`. -/
def merge_with_level0 (self other : Level) : Except Err (Level × Level) := do
  let tmp := other.m_tables.reverse
  let level0_size := other.m_tables.length
  let endIdx := self.m_tables.length
  let t0 ← tableAt tmp 0
  let (min, max) ← rangeLoop tmp t0.min_key t0.max_key
  let (first, last, overlapping) ← overlapLoop min max endIdx self.m_tables 0 endIdx endIdx []
  let merged_tables ← TableBuilder.merge_tables (tmp ++ overlapping) self.m_config
  let other_tables := other.m_tables.drop level0_size
  pure
    ({ self with m_tables := replaceTables self.m_tables first last merged_tables },
     { other with m_tables := other_tables })

/-- The member `merge_with(std::shared_ptr<LevelN>)`: the new state of this level and
of `other`. -/
def merge_with_levelN (self other : Level) : Except Err (Level × Level) := do
  let tmp := other.m_tables
  let endIdx := self.m_tables.length
  let t0 ← tableAt other.m_tables 0
  let tlast ← tableAt other.m_tables (other.m_tables.length - 1)
  let min := t0.min_key
  let max := tlast.max_key
  let (first, last, overlapping) ← overlapLoop min max endIdx self.m_tables 0 endIdx endIdx []
  let merged_tables ← TableBuilder.merge_tables (tmp ++ overlapping) self.m_config
  pure
    ({ self with m_tables := replaceTables self.m_tables first last merged_tables },
     { other with m_tables := [] })

end LevelN

/-! ## LSMTree.hpp -/

/-- An `LSMTree`: Level 0, the levels 1..L-1 and the flag `m_terminate_merge`. -/
structure LSMTree where
  m_config : Config
  m_level0 : Level
  m_levels : List Level
  m_terminate_merge : Bool
  deriving DecidableEq

namespace LSMTree

/-- The constructor `LSMTree(config)` over empty level directories. -/
def new (config : Config) : Except Err LSMTree := do
  assert (decide (config.levels.length > 1))
  let c0 ← match config.levels.head? with
    | some c => pure c
    | none => .error .outOfRange
  pure
    { m_config := config
      m_level0 := Level.new c0
      m_levels := config.levels.tail.map Level.new
      m_terminate_merge := false }

/-- The loop of `LSMTree::get` over the levels 1..L-1. -/
def getLoop (key : Buffer) : List Level → Except Err (Option Buffer)
  | [] => pure none
  | level :: rest => do
    let value ← LevelN.get level key
    match value with
    | some v => pure (some v)
    | none => getLoop key rest

/-- The member `LSMTree::get`. -/
def get (t : LSMTree) (key : Buffer) : Except Err (Option Buffer) := do
  assert (!t.m_terminate_merge)
  let value ← Level0.get t.m_level0 key
  match value with
  | some v => pure (some v)
  | none => getLoop key t.m_levels

/-- The member `LSMTree::dump_memtable`. -/
def dump_memtable (t : LSMTree) (mem_table : MemTable) : Except Err LSMTree := do
  assert (!t.m_terminate_merge)
  let sz ← mem_table.size
  if sz = 0 then
    pure t
  else do
    let l0 ← Level0.dump_memtable t.m_level0 mem_table
    pure { t with m_level0 := l0 }

/-- The cascade of `background_merger`: `prev` is level `i - 1`, the list holds the
levels from `i` on; the result is the new list of levels from `i - 1` on. -/
def cascade : Level → List Level → Except Err (List Level)
  | prev, [] => pure [prev]
  | prev, curr :: rest =>
    if !prev.needs_merging then do
      let tail ← cascade curr rest
      pure (prev :: tail)
    else do
      let (curr, prev) ← LevelN.merge_with_levelN curr prev
      let tail ← cascade curr rest
      pure (prev :: tail)

/-- One pass of `background_merger` after its wait: the wait returns when Level 0
needs merging or the tree is terminating. -/
def merger_pass (t : LSMTree) : Except Err LSMTree :=
  if t.m_terminate_merge then pure t
  else if !t.m_level0.needs_merging then pure t
  else
    match t.m_levels with
    | [] => .error .outOfRange
    | level1 :: rest => do
      let (level1, level0) ← LevelN.merge_with_level0 level1 t.m_level0
      let levels ← cascade level1 rest
      pure { t with m_level0 := level0, m_levels := levels }

/-- The member `destroy`. -/
def destroy (t : LSMTree) : LSMTree :=
  if t.m_terminate_merge then t
  else
    { t with
      m_terminate_merge := true
      m_level0 := t.m_level0.destroy
      m_levels := t.m_levels.map Level.destroy }

/-- The destructor `~LSMTree()`. -/
def close (t : LSMTree) : Except Err LSMTree :=
  if t.m_terminate_merge then pure t
  else if t.m_level0.size > 0 then
    match t.m_levels with
    | [] => .error .outOfRange
    | level1 :: rest => do
      let (level1, level0) ← LevelN.merge_with_level0 level1 t.m_level0
      pure { t with m_terminate_merge := true, m_level0 := level0, m_levels := level1 :: rest }
  else pure { t with m_terminate_merge := true }

end LSMTree

/-! ## KVStore.hpp -/

/-- A `KVStore`. -/
structure KVStore where
  m_config : Config
  m_tree : LSMTree
  m_memtable : MemTable
  m_destroyed : Bool
  deriving DecidableEq

namespace KVStore

/-- The constructor `KVStore(config)` over empty level directories. -/
def new (config : Config) : Except Err KVStore := do
  let tree ← LSMTree.new config
  pure { m_config := config, m_tree := tree, m_memtable := MemTable.new, m_destroyed := false }

/-- The member `get`. -/
def get (s : KVStore) (key : Buffer) : Except Err (Option Buffer) := do
  assert (!s.m_destroyed)
  let value ← s.m_memtable.get key
  let value ← match value with
    | none => s.m_tree.get key
    | some v => pure (some v)
  match value with
  | none => pure none
  | some v => if v.eq Buffer.empty then pure none else pure (some v)

/-- The member `add`. -/
def add (s : KVStore) (key value : Buffer) : Except Err KVStore := do
  assert (!s.m_destroyed)
  assert (decide (key.size > 0) && decide (value.size > 0))
  let memtable ← s.m_memtable.add key value
  let sz ← memtable.size
  if sz > s.m_config.memtable_size then do
    let tree ← s.m_tree.dump_memtable memtable
    pure { s with m_tree := tree, m_memtable := memtable.clear }
  else
    pure { s with m_memtable := memtable }

/-- The member `remove`. -/
def remove (s : KVStore) (key : Buffer) : Except Err KVStore := do
  assert (!s.m_destroyed)
  assert (decide (key.size > 0))
  let memtable ← s.m_memtable.add key Buffer.empty
  pure { s with m_memtable := memtable }

/-- The member `destroy`. -/
def destroy (s : KVStore) : Except Err KVStore := do
  assert (!s.m_destroyed)
  pure { s with m_memtable := s.m_memtable.clear, m_tree := s.m_tree.destroy, m_destroyed := true }

/-- The destructor `~KVStore()`, followed by the destructor of the tree it owns. The
background merger runs until `~LSMTree()` sets `m_terminate_merge` and joins it, so the
close is a run of up to four steps: a pass of the merger (the merge of Level 0 and the
cascade) when `pass_first` is set, which stands for a pass that the merger owes to an
earlier flush or that is under way when the destructor starts; the flush of the
memtable, which notifies the merger; a pass of the merger when `merger_runs` is set;
and `~LSMTree()`. A pass holds the mutex of the tree, so it is over when `~LSMTree()`
goes on, and it leaves Level 0 empty, so that between two flushes at most one pass finds
something to merge. -/
def close (s : KVStore) (pass_first merger_runs : Bool) : Except Err KVStore := do
  let tree ← if pass_first then s.m_tree.merger_pass else pure s.m_tree
  let tree ← if !s.m_destroyed then tree.dump_memtable s.m_memtable else pure tree
  let tree ← if merger_runs then tree.merger_pass else pure tree
  let tree ← tree.close
  pure { s with m_tree := tree }

/-- One wake-up of the background merger of the tree of the store. -/
def merger_pass (s : KVStore) : Except Err KVStore := do
  let tree ← s.m_tree.merger_pass
  pure { s with m_tree := tree }

end KVStore

/-- The order of the specification on byte strings: at the first position where the
two strings differ the byte of `a`, as an unsigned value, is the smaller one, or else
`a` ends there and `b` goes on. -/
def lexLess (a b : Bytes) : Prop :=
  ∃ i, i ≤ a.length ∧ i ≤ b.length ∧ a.take i = b.take i ∧
    ((i = a.length ∧ i < b.length) ∨
      (i < a.length ∧ i < b.length ∧ (a.getD i 0).val < (b.getD i 0).val))

/-- The value of `Buffer::compare` on the contents. -/
def cmpBytes (a b : Bytes) : Int :=
  if Buffer.memcmp a b (min a.length b.length) = 0 then (a.length : Int) - (b.length : Int)
  else Buffer.memcmp a b (min a.length b.length)

/-! ## The record format, as the specification words it -/

/-- The encoding of a record: 2-byte key length, key bytes, 2-byte value length,
value bytes (little-endian lengths). -/
def KeyValue.encode (kv : KeyValue) : Bytes :=
  u16le kv.key.size ++ kv.key.bytes ++ (u16le kv.value.size ++ kv.value.bytes)

/-- The number of bytes of an encoded record. -/
def KeyValue.byteSize (kv : KeyValue) : Nat := kv.key.total_size + kv.value.total_size

/-- The concatenation of the encoded records. -/
def encodeAll (rs : List KeyValue) : Bytes := rs.flatMap KeyValue.encode

/-- The number of bytes of the concatenation of the encoded records. -/
def encLen (rs : List KeyValue) : Nat := (rs.map KeyValue.byteSize).sum

/-- The start offsets of consecutive records, the first one at `start`. -/
def offsetsFrom : Nat → List KeyValue → List Nat
  | _, [] => []
  | start, r :: rs => start :: offsetsFrom (start + r.byteSize) rs

/-! ## Well-formed mappings -/

/-- The states of a mapping that `create`, `load`, `appendFront` and `appendBack`
produce: the buffer has `m_size` bytes, `m_size` is a `uint32_t`, and the free bytes
follow the head cursor inside the buffer. -/
def AppendableMMap.WF (m : AppendableMMap) : Prop :=
  m.m_buffer.length = m.m_size ∧ m.m_size < U32 ∧ m.m_head_index + m.free ≤ m.m_size

/-- The state after a successful `appendFront`. -/
def AppendableMMap.pushFront (m : AppendableMMap) (bs : Bytes) : AppendableMMap :=
  { m with
    m_buffer := writeAt m.m_buffer m.m_head_index bs
    m_head_index := m.m_head_index + bs.length }

/-! ## The table format, as the specification words it -/

/-- The bytes of a table file: the encoded records from offset 0, unused bytes, the
start offset of each record as a `uint32_t`, and the entry count in the last 4 bytes. -/
def tableBytes (rs : List KeyValue) (pad : Bytes) : Bytes :=
  encodeAll rs ++ (pad ++ ((offsetsFrom 0 rs).flatMap u32le ++ u32le rs.length))

/-- The table that the constructor `Table(mmap)` builds over a mapping that holds the
records `rs`. -/
def Table.ofRecords (m : AppendableMMap) (rs : List KeyValue) : Table :=
  { m_mmap := m
    m_index := m.m_size - 4 - 4 * rs.length
    m_end := encLen rs
    m_num_entries := rs.length
    m_min_key := ((rs.head?).map KeyValue.key).getD Buffer.empty
    m_max_key := ((rs.getLast?).map KeyValue.key).getD Buffer.empty }

/-- `t.Holds rs`: the table `t` is a well-formed table file with the records `rs`: at
least one record, every key non-empty, the bytes laid out in the table format over the
whole mapping, and the fields as the constructor computes them. -/
structure Table.Holds (t : Table) (rs : List KeyValue) : Prop where
  ne : rs ≠ []
  keys : ∀ r ∈ rs, r.key.size ≠ 0
  size_lt : t.m_mmap.m_size < U32
  length : t.m_mmap.m_buffer.length = t.m_mmap.m_size
  bytes : ∃ pad, t.m_mmap.m_buffer = tableBytes rs pad
  fields : t = Table.ofRecords t.m_mmap rs

/-- A sequence of `add` calls on one builder: the final builder and the records that
were accepted, in order. -/
def TableBuilder.addMany : TableBuilder → List KeyValue →
    Except Err (TableBuilder × List KeyValue)
  | b, [] => pure (b, [])
  | b, r :: rs => do
    let (b1, added) ← b.add r.key r.value
    let (b2, acc) ← TableBuilder.addMany b1 rs
    pure (b2, if added then r :: acc else acc)

/-- The state after a successful `appendBack`. -/
def AppendableMMap.pushBack (m : AppendableMMap) (bs : Bytes) : AppendableMMap :=
  { m with
    m_buffer := writeAt m.m_buffer (m.m_tail_index + 1 - bs.length) bs
    m_tail_index := (m.m_tail_index + U32 - bs.length) % U32 }

/-- The mapping of a builder of table size `S` that has accepted the records `cur`. -/
def builderMap (S : Nat) (cur : List KeyValue) : AppendableMMap :=
  { m_buffer := encodeAll cur ++ List.replicate (S - encLen cur) 0
    m_head_index := encLen cur
    m_tail_index := (S + U32 - 1) % U32
    m_size := S }

/-- The builder of table size `S` that has accepted the records `cur`. -/
def builderOf (S : Nat) (cur : List KeyValue) : TableBuilder :=
  { m_mmap := some (builderMap S cur)
    m_table_size := S
    m_index := offsetsFrom 0 cur }

/-- The mapping of a builder of table size `S` after `finalize` has written the offset
index and the entry count of the records `cur`. -/
def finalMap (S : Nat) (cur : List KeyValue) : AppendableMMap :=
  { m_buffer := tableBytes cur (List.replicate (S - encLen cur - 4 * cur.length - 4) 0)
    m_head_index := encLen cur
    m_tail_index := S - 5 - 4 * cur.length
    m_size := S }

/-- `b.Holds S cur`: the builder `b` of table size `S` has accepted the records `cur`
since it was constructed or last finalized. -/
def TableBuilder.Holds (b : TableBuilder) (S : Nat) (cur : List KeyValue) : Prop :=
  (∀ r ∈ cur, r.key.size ≠ 0) ∧ encLen cur ≤ S ∧
    ((b = TableBuilder.new S ∧ cur = []) ∨ b = builderOf S cur)

/-- `m.HoldsTable rs`: the mapping `m` is a table file with the records `rs`. -/
def AppendableMMap.HoldsTable (m : AppendableMMap) (rs : List KeyValue) : Prop :=
  rs ≠ [] ∧ m.m_size < U32 ∧ m.m_buffer.length = m.m_size ∧
    ∃ pad, m.m_buffer = tableBytes rs pad

/-! ## Sorted record sequences and lookup -/

/-- A sequence of records is strictly ascending by key under `Buffer::compare`. -/
def Ascending (rs : List KeyValue) : Prop :=
  rs.Pairwise (fun a b => a.key.compare b.key < 0)

/-- The value stored with `key` in a sequence of records: the value of the first
record with that key. -/
def lookup : List KeyValue → Buffer → Option Buffer
  | [], _ => none
  | r :: rs, key => if r.key = key then some r.value else lookup rs key

/-! ## Sample data -/

/-- The record `a -> x`. -/
def recA : KeyValue := ⟨⟨[97], by decide⟩, ⟨[120], by decide⟩⟩

/-- The record `b -> y`. -/
def recB : KeyValue := ⟨⟨[98], by decide⟩, ⟨[121], by decide⟩⟩

/-! ## The k-way merge on record sequences -/

/-- The current key of an input: the key of its first remaining record. -/
def headKey : List KeyValue → Buffer
  | [] => Buffer.empty
  | r :: _ => r.key

/-- The search of `findMin` on the current keys alone: the index it ends with. -/
def minIndex : List Buffer → Nat → Nat → Buffer → Nat
  | [], _, min_index, _ => min_index
  | k :: rest, i, min_index, min_key =>
    if k.compare min_key < 0 then minIndex rest (i + 1) i k
    else minIndex rest (i + 1) min_index min_key

/-- The inputs after input `i` has given up its first record; an input with nothing
left is removed. -/
def advance : List (List KeyValue) → Nat → List (List KeyValue)
  | [], _ => []
  | rem :: its, 0 => if rem.tail = [] then its else rem.tail :: its
  | rem :: its, i + 1 => rem :: advance its i

/-- The records that the loop of `merge_tables` hands to the builder, in order, when
the inputs still hold the record sequences `its` and `last` was the last key handed
over. -/
def mergeStream : Nat → List (List KeyValue) → Buffer → List KeyValue
  | 0, _, _ => []
  | _ + 1, [], _ => []
  | fuel + 1, first :: others, last =>
    match (first :: others).getD (minIndex (others.map headKey) 1 0 (headKey first)) [] with
    | [] => []
    | item :: _ =>
      if item.key = last then
        mergeStream fuel
          (advance (first :: others) (minIndex (others.map headKey) 1 0 (headKey first))) last
      else
        item :: mergeStream fuel
          (advance (first :: others) (minIndex (others.map headKey) 1 0 (headKey first))) item.key

/-- The value of `key` in the lowest-index input that contains `key`. -/
def firstValue : List (List KeyValue) → Buffer → Option Buffer
  | [], _ => none
  | rs :: rest, key =>
    match lookup rs key with
    | some v => some v
    | none => firstValue rest key

/-- The number of records in the inputs. -/
def totalRecords (its : List (List KeyValue)) : Nat := (its.map List.length).sum

/-- `r` is the first index of a smallest key of `ks`. -/
def IsFirstMin (ks : List Buffer) (r : Nat) : Prop :=
  r < ks.length ∧ ∀ (j : Nat) (k kr : Buffer), ks[j]? = some k → ks[r]? = some kr →
    ¬ k.compare kr < 0 ∧ (j < r → kr.compare k < 0)

/-! ## The merge loop and the stream it hands to the builder -/

/-- The block `addOrRoll` run over a sequence of records, in order. -/
def emitAll : TableBuilder → table_list → List KeyValue → Except Err (TableBuilder × table_list)
  | b, res, [] => pure (b, res)
  | b, res, r :: rs => do
    let (b1, res1) ← TableBuilder.addOrRoll b res r
    emitAll b1 res1 rs

/-- An iterator `(table, m_current)` stands before the records `rem` of its table. -/
def IterRep (it : Table × Nat) (rem : List KeyValue) : Prop :=
  rem ≠ [] ∧ ∃ pre, it.1.Holds (pre ++ rem) ∧ it.2 = encLen pre

/-- The builder and the result list of a merge state. -/
def TableBuilder.MergeState.output (st : TableBuilder.MergeState) : TableBuilder × table_list := (st.builder, st.result)


/-- A fresh table of size `S` has room for the record `r`, its offset and the entry
count. -/
def fits (S : Nat) (r : KeyValue) : Prop := r.byteSize + 8 ≤ S

/-- The table that a builder of table size `S` makes of the records `c`. -/
def tableOf (S : Nat) (c : List KeyValue) : Table := Table.ofRecords (finalMap S c) c


/-- `ChunkRep b res S chunks cur`: the tables of the record sequences `chunks` have
been finalized into `res`, and the builder `b` has accepted `cur` since. -/
def ChunkRep (b : TableBuilder) (res : table_list) (S : Nat) (chunks : List (List KeyValue))
    (cur : List KeyValue) : Prop :=
  res = chunks.map (fun c => some (tableOf S c)) ∧ (∀ c ∈ chunks, (tableOf S c).Holds c) ∧
    b.Holds S cur


/-- The tables of a list are well-formed tables with the record sequences `inputs`. -/
def TablesHold (tables : table_list) (inputs : List (List KeyValue)) : Prop :=
  List.Forall₂ (fun tp rs => ∃ t, tp = some t ∧ Table.Holds t rs) tables inputs

/-- The records obtained by iterating the tables of a list, in list order. -/
def concatRecords : table_list → Except Err (List KeyValue)
  | [] => pure []
  | tp :: rest => do
    let t ← deref tp
    let rs ← t.records
    let more ← concatRecords rest
    pure (rs ++ more)


/-- The record `a -> y`. -/
def recA2 : KeyValue := ⟨⟨[97], by decide⟩, ⟨[121], by decide⟩⟩

/-- The record `c -> z`. -/
def recC : KeyValue := ⟨⟨[99], by decide⟩, ⟨[122], by decide⟩⟩

/-- A level configuration with table size 32 and threshold 1 (the paths are
irrelevant). -/
def sampleConfig : LevelConfig :=
  { path := [], path_db := [], path_level := [], level := 1, table_size := 32, threshold := 1,
    overwrite := false }

/-- The key `a`. -/
def keyA : Buffer := ⟨[97], by decide⟩

/-- The key `b`. -/
def keyB : Buffer := ⟨[98], by decide⟩

/-- The key `c`. -/
def keyC : Buffer := ⟨[99], by decide⟩

/-- The key `d`. -/
def keyD : Buffer := ⟨[100], by decide⟩

/-- The value `x`. -/
def valX : Buffer := ⟨[120], by decide⟩

/-- The configuration of Level 0 used in the examples: table size 32, threshold 1. -/
def sampleConfig0 : LevelConfig := { sampleConfig with level := 0 }

/-- A Level N that holds the single table `[c -> z]`. -/
def upperC : Level := { m_config := sampleConfig, m_tables := [some (tableOf 32 [recC])] }

/-- A Level 0 that holds the single table `[a -> x]`. -/
def lowerA : Level := { m_config := sampleConfig0, m_tables := [some (tableOf 32 [recA])] }

/-- A Level 0 that holds the single table `[c -> z]`. -/
def lowerC : Level := { m_config := sampleConfig0, m_tables := [some (tableOf 32 [recC])] }

/-- The first and last key of every table of a level, in list order. -/
def Level.keyRanges (l : Level) : List (Option (Buffer × Buffer)) :=
  l.m_tables.map (fun tp => tp.map (fun t => (t.min_key, t.max_key)))

/-! ## A table of 4 GiB -/

/-- The 2-byte key number `i`, high byte first, so that the keys ascend with `i`. -/
def bigKey (i : Nat) : Buffer :=
  ⟨[⟨i / 256 % 256, Nat.mod_lt _ (by decide)⟩, ⟨i % 256, Nat.mod_lt _ (by decide)⟩],
    by simp only [List.length_cons, List.length_nil]; decide⟩

/-- A value of 65526 zero bytes. -/
def bigValue : Buffer := ⟨List.replicate 65526 0, by rw [List.length_replicate]; decide⟩

/-- The record of key number `i`: 65532 bytes when encoded. -/
def bigRec (i : Nat) : KeyValue := ⟨bigKey i, bigValue⟩

/-- The records of the keys number `0` to `n - 1`. -/
def bigRecs (n : Nat) : List KeyValue := (List.range n).map bigRec
/-- A level configuration with table size 6, the encoded size of the record `a -> x`. -/
def tightConfig : LevelConfig := { sampleConfig0 with table_size := 6 }

/-- The memtable that holds the single entry `a -> x`. -/
def memA : MemTable := { m_table := [([97], [120])], m_size := 2 }

/-- The results of the levels of a tree for `key`, in probe order: Level 0 first, then
the levels 1 to L-1. -/
def LSMTree.levelResults (t : LSMTree) (key : Buffer) : List (Except Err (Option Buffer)) :=
  Level0.get t.m_level0 key :: t.m_levels.map (fun l => LevelN.get l key)

/-- `rs` has its first hit at position `i`, with the value `v`: every earlier level
returned "not found". -/
def FirstHitAt (rs : List (Except Err (Option Buffer))) (i : Nat) (v : Buffer) : Prop :=
  rs[i]? = some (.ok (some v)) ∧ ∀ j, j < i → rs[j]? = some (.ok none)

/-- The record `a -> ""`, a tombstone. -/
def recDelA : KeyValue := ⟨⟨[97], by decide⟩, Buffer.empty⟩

/-- A tree with three levels: Level 0 holds `[c -> z]`, Level 1 holds `[a -> ""]` and
Level 2 holds `[a -> x]`. -/
def sampleTree : LSMTree :=
  { m_config := { levels := [sampleConfig0, sampleConfig, sampleConfig], name := ['d', 'b'],
                  path := ['/'], memtable_size := 1, parallelism := 1 }
    m_level0 := lowerC
    m_levels := [{ m_config := sampleConfig, m_tables := [some (tableOf 32 [recDelA])] },
                 { m_config := sampleConfig, m_tables := [some (tableOf 32 [recA])] }]
    m_terminate_merge := false }

/-- The invariant of the `std::map` of a memtable: the entries are in strictly
ascending key order. -/
def MemTable.Sorted (m : MemTable) : Prop :=
  m.m_table.Pairwise (fun a b => strLt a.1 b.1 = true)

/-- The key bytes and the value bytes of a record. -/
def KeyValue.pair (r : KeyValue) : Bytes × Bytes := (r.key.bytes, r.value.bytes)

/-- A fresh table of size `S` has room for the memtable entry `e` as a record, with its
offset and the entry count. -/
def fitsEntry (S : Nat) (e : Bytes × Bytes) : Prop := (e.1.length + 2) + (e.2.length + 2) + 8 ≤ S

/-- The memtable with the entries `a -> x`, `b -> y`, `c -> z`. -/
def memABC : MemTable := { m_table := [([97], [120]), ([98], [121]), ([99], [122])], m_size := 6 }

/-- A sequence of `dump_memtable` calls on a Level 0, the memtables in the order in
which they are dumped. -/
def Level0.dumpAll : Level → List MemTable → Except Err Level
  | l, [] => pure l
  | l, mt :: rest => do
    let l1 ← Level0.dump_memtable l mt
    Level0.dumpAll l1 rest

/-- The value that the key bytes `k` have in the most recently dumped memtable that
holds `k`; the memtables are listed in the order in which they were dumped. -/
def latestValue : List MemTable → Bytes → Option Bytes
  | [], _ => none
  | mt :: rest, k =>
    match latestValue rest k with
    | some v => some v
    | none => mapFind mt.m_table k

/-- The memtable that holds the single entry `a -> y`. -/
def memA2 : MemTable := { m_table := [([97], [121])], m_size := 2 }

/-- The memtable that holds the single entry `b -> ""`. -/
def memDelB : MemTable := { m_table := [([98], [])], m_size := 1 }

/-- The key lies in the key range of the table: `min_key <= key <= max_key`. -/
def Table.InRange (t : Table) (key : Buffer) : Prop :=
  ¬ key.compare t.min_key < 0 ∧ ¬ t.max_key.compare key < 0

/-- A Level 1 that holds the tables `[a -> x, b -> y]` and `[c -> z]`, in key order. -/
def sortedLevel : Level :=
  { m_config := sampleConfig,
    m_tables := [some (tableOf 32 [recA, recB]), some (tableOf 32 [recC])] }

/-- A sequence of `add` calls on a memtable, the records in the order in which they are
added. -/
def MemTable.addAll : MemTable → List KeyValue → Except Err MemTable
  | m, [] => pure m
  | m, r :: rs => do
    let m1 ← m.add r.key r.value
    MemTable.addAll m1 rs

/-- The sum of `len(key) + len(value)` over the entries of the map. -/
def MemTable.byteSum (m : MemTable) : Nat :=
  (m.m_table.map (fun e => e.1.length + e.2.length)).sum

/-- A value of 65534 zero bytes. -/
def wideValue : Buffer := ⟨List.replicate 65534 0, by rw [List.length_replicate]; decide⟩

/-- The record of key number `i` with a value of 65534 bytes: key and value have 65536
bytes together. -/
def wideRec (i : Nat) : KeyValue := ⟨bigKey i, wideValue⟩

/-- The memtable that holds the records `wideRec 0` to `wideRec (n - 1)`. -/
def wideMem (n : Nat) : MemTable :=
  { m_table := (List.range n).map (fun i => (wideRec i).pair), m_size := n * 65536 }

/-! ## Reopening a store -/

/-- The records of a table, as the iteration over the table yields them. -/
def Table.recs (t : Table) : List KeyValue :=
  match t.records with
  | .ok rs => rs
  | .error _ => []

/-- The files in the directory of a level, one per table: the builder creates the file
with the mapping (`MAP_SHARED`, synced when the mapping is released), `merge_tables`
deletes the files of its inputs, and `merge_with` removes exactly these tables from the
levels when the tables of the level are in key order. -/
def Level.files (l : Level) : List Bytes :=
  l.m_tables.filterMap (fun tp => tp.map (fun t => t.m_mmap.m_buffer))

/-- The place of a table in a list ordered by `min_key`. -/
def insertByMinKey (t : Table) : List Table → List Table
  | [] => [t]
  | u :: us => if t.min_key.lt u.min_key then t :: u :: us else u :: insertByMinKey t us

/-- The call `std::sort` of the `Level` constructor, with the comparator
`x->min_key() < y->min_key()`. -/
def sortByMinKey : List Table → List Table
  | [] => []
  | t :: ts => insertByMinKey t (sortByMinKey ts)

/-- The loop of the `Level` constructor over the files of the directory. -/
def Level.loadTables : List Bytes → Except Err (List Table)
  | [] => pure []
  | file :: rest => do
    let t ← Table.load_table file
    let ts ← Level.loadTables rest
    pure (t :: ts)

/-- The constructor `Level(config)` over a directory in which `ls` lists the files
`files`; with `overwrite` the directory is deleted first. -/
def Level.load (config : LevelConfig) (files : List Bytes) : Except Err Level := do
  let files := if config.overwrite then [] else files
  let tables ← Level.loadTables files
  assert (decide (config.level = 0 → tables.length = 0))
  pure { m_config := config, m_tables := (sortByMinKey tables).map some }

/-- The loop of the `LSMTree` constructor over the levels 1 to L-1; `dirs` lists the
files of the directories of these levels. -/
def LSMTree.loadLevels : List LevelConfig → List (List Bytes) → Except Err (List Level)
  | [], _ => pure []
  | c :: cs, dirs => do
    let l ← Level.load c (dirs.headD [])
    let ls ← LSMTree.loadLevels cs dirs.tail
    pure (l :: ls)

/-- The constructor `LSMTree(config)` over level directories that list the files
`dirs`, the directory of Level 0 first. -/
def LSMTree.load (config : Config) (dirs : List (List Bytes)) : Except Err LSMTree := do
  assert (decide (config.levels.length > 1))
  let c0 ← match config.levels.head? with
    | some c => pure c
    | none => .error .outOfRange
  let level0 ← Level.load c0 (dirs.headD [])
  let levels ← LSMTree.loadLevels config.levels.tail dirs.tail
  pure
    { m_config := config
      m_level0 := level0
      m_levels := levels
      m_terminate_merge := false }

/-- The constructor `KVStore(config)` over level directories that list the files
`dirs`. -/
def KVStore.load (config : Config) (dirs : List (List Bytes)) : Except Err KVStore := do
  let tree ← LSMTree.load config dirs
  pure { m_config := config, m_tree := tree, m_memtable := MemTable.new, m_destroyed := false }

/-- The files in the level directories of a store, the directory of Level 0 first. -/
def KVStore.dirs (s : KVStore) : List (List Bytes) :=
  s.m_tree.m_level0.files :: s.m_tree.m_levels.map Level.files

/-- The table that the `Level` constructor loads from the file `file` (a table without
entries when the constructor of `Table` fails). -/
def loadedTable (file : Bytes) : Table :=
  match Table.load_table file with
  | .ok t => t
  | .error _ =>
    { m_mmap := AppendableMMap.load file, m_index := 0, m_end := 0, m_num_entries := 0,
      m_min_key := Buffer.empty, m_max_key := Buffer.empty }

/-- The table that the `Level` constructor loads from the file of the table `t`. -/
def Table.reload (t : Table) : Table := loadedTable t.m_mmap.m_buffer

/-- A table is well formed, its records ascend by key, and each record fits a fresh
table of size `S`. -/
def Table.Good (S : Nat) (t : Table) : Prop :=
  t.Holds t.recs ∧ Ascending t.recs ∧ ∀ r ∈ t.recs, fits S r

/-- The tables of a list are in key order: the records of all tables, read table after
table, ascend by key (so the key ranges are disjoint and sorted by `min_key`). -/
def InKeyOrder (ts : List Table) : Prop := Ascending (ts.map Table.recs).flatten

/-- The number of records in the tables of a level. -/
def Level.recordCount (l : Level) : Nat :=
  ((l.m_tables.filterMap id).map (fun t => t.recs.length)).sum

/-- The state of a store between two calls, for a table size `S`: the store has not
been destroyed, the levels are those of the configuration, which does not ask to
overwrite, every table is well formed with records in ascending order that fit a fresh
table, the tables of every level from Level 1 on are in key order, the memtable holds
non-empty keys in map order with records that fit a fresh table, and the store holds
at most 2^30 records (so that the `int32_t` search of `LevelN::get` is exact). -/
structure KVStore.Ordered (s : KVStore) (S : Nat) : Prop where
  live : s.m_destroyed = false
  running : s.m_tree.m_terminate_merge = false
  config : s.m_config = s.m_tree.m_config
  levels : s.m_tree.m_config.levels =
    s.m_tree.m_level0.m_config :: s.m_tree.m_levels.map Level.m_config
  upper : s.m_tree.m_levels ≠ []
  level0 : s.m_tree.m_level0.m_config.level = 0 ∧
    s.m_tree.m_level0.m_config.table_size = S ∧ s.m_tree.m_level0.m_config.overwrite = false
  levelN : ∀ l ∈ s.m_tree.m_levels,
    l.m_config.level ≠ 0 ∧ l.m_config.table_size = S ∧ l.m_config.overwrite = false
  mem_sorted : s.m_memtable.Sorted
  mem_valid : ∀ e ∈ s.m_memtable.m_table,
    e.1 ≠ [] ∧ e.1.length < 65535 ∧ e.2.length < 65535 ∧ fitsEntry S e
  mem_size : (s.m_memtable.m_size ≠ 0 ∧ s.m_memtable.m_table ≠ []) ∨
    (s.m_memtable.m_size = 0 ∧ s.m_memtable.m_table = [])
  tables0 : ∃ ts : List Table, s.m_tree.m_level0.m_tables = ts.map some ∧ ∀ t ∈ ts, t.Good S
  tablesN : ∀ l ∈ s.m_tree.m_levels, ∃ ts : List Table,
    l.m_tables = ts.map some ∧ (∀ t ∈ ts, t.Good S) ∧ InKeyOrder ts
  few : ∀ l ∈ s.m_tree.m_levels,
    s.m_memtable.m_table.length + s.m_tree.m_level0.recordCount + l.recordCount ≤ 1073741824

/-- The configuration that `Config("db", "/tmp", 3, 32, 1, 100, 1, false)` builds. -/
def durableConfig : Config :=
  { levels :=
      [LevelConfig.new ['/', 't', 'm', 'p'] ['d', 'b'] 0 32 1 false,
       LevelConfig.new ['/', 't', 'm', 'p'] ['d', 'b'] 1 32 1 false,
       LevelConfig.new ['/', 't', 'm', 'p'] ['d', 'b'] 2 32 1 false]
    name := ['d', 'b']
    path := ['/', 't', 'm', 'p']
    memtable_size := 100
    parallelism := 1 }

/-- A store with three levels: the memtable holds `b -> y`, Level 0 holds the table
`[c -> z]`, Level 1 holds `[a -> ""]` (a deletion marker) and Level 2 holds `[a -> x]`. -/
def durableStore : KVStore :=
  { m_config := durableConfig
    m_tree :=
      { m_config := durableConfig
        m_level0 :=
          { m_config := LevelConfig.new ['/', 't', 'm', 'p'] ['d', 'b'] 0 32 1 false
            m_tables := [some (tableOf 32 [recC])] }
        m_levels :=
          [{ m_config := LevelConfig.new ['/', 't', 'm', 'p'] ['d', 'b'] 1 32 1 false
             m_tables := [some (tableOf 32 [recDelA])] },
           { m_config := LevelConfig.new ['/', 't', 'm', 'p'] ['d', 'b'] 2 32 1 false
             m_tables := [some (tableOf 32 [recA])] }]
        m_terminate_merge := false }
    m_memtable := { m_table := [([98], [121])], m_size := 2 }
    m_destroyed := false }

/-! ## Buffer::hash -/

/-- The modulus of `uint64_t` arithmetic. -/
def U64 : Nat := 18446744073709551616

/-- The conversion to `uint64_t` of `c` in `hash + c`, where `auto c = m_buffer[i]` is a
plain `char`. Whether `char` is signed is left to the platform: where it is signed
(`signedChar = true`, as in the x86-64 System V ABI) a byte from 128 on is the negative
value `b - 256`, which the conversion takes modulo 2^64; where it is unsigned (as in
the AArch64 ABI) the value is `b`. -/
def Buffer.charValue (signedChar : Bool) (b : Byte) : Nat :=
  if signedChar && decide (128 ≤ b.val) then U64 - 256 + b.val else b.val

/-- The loop of `Buffer::hash`: `hash = ((hash << 5) + hash) + c` in `uint64_t`. -/
def Buffer.hashLoop (signedChar : Bool) : Bytes → Nat → Nat
  | [], hash => hash
  | c :: rest, hash =>
    Buffer.hashLoop signedChar rest
      (((hash * 32 % U64 + hash) % U64 + Buffer.charValue signedChar c) % U64)

/-- The member `Buffer::hash`. -/
def Buffer.hash (signedChar : Bool) (b : Buffer) : Nat :=
  Buffer.hashLoop signedChar b.bytes 5381

/-- The hash as the specification words it: from `h = 5381`, `h = (h * 33 + c) mod 2^64`
for each byte `c` in order, `c` being the unsigned value of the byte. -/
def djb2 (bs : Bytes) : Nat := bs.foldl (fun h c => (h * 33 + c.val) % U64) 5381

/-- The one-byte buffer that holds the byte `0x80`. -/
def key80 : Buffer := ⟨[128], by decide⟩

/-! ## ConcurrentQueue.hpp and ParallelKVStore.hpp -/

/-- The tasks of a shard: `AddTask`, `GetTask`, `RemoveTask`, `DestroyTask` and
`TerminateTask`. A `GetTask` owns a promise, which is named by its position among the
promises of the shard. -/
inductive Task where
  | add (key value : Buffer)
  | get (key : Buffer) (promise : Nat)
  | remove (key : Buffer)
  | destroy
  | terminate
  deriving DecidableEq

/-- A `KVStorePartition`: the store, the queue of tasks (the front of the `std::queue`
first) and the worker thread, of which `m_running` says whether it is still in the loop
of `run`. The promises handed out by `get` are kept in `m_promises`: `none` while a
promise is not fulfilled, `some value` once `set_value(value)` has run. -/
structure KVStorePartition where
  m_store : KVStore
  m_queue : List Task
  m_promises : List (Option (Option Buffer))
  m_running : Bool
  deriving DecidableEq

namespace KVStorePartition

/-- The constructor `KVStorePartition(config, partition)` over empty level
directories (the CPU affinity of the worker is not modelled). -/
def new (config : Config) (partition : Nat) : Except Err KVStorePartition := do
  let store ← KVStore.new (Config.create_partition config partition)
  pure { m_store := store, m_queue := [], m_promises := [], m_running := true }

/-- The member `ConcurrentQueue::push` on the queue of the shard: one critical
section. -/
def push (p : KVStorePartition) (task : Task) : KVStorePartition :=
  { p with m_queue := p.m_queue ++ [task] }

/-- The member `add`. -/
def add (p : KVStorePartition) (key value : Buffer) : KVStorePartition :=
  p.push (Task.add key value)

/-- The member `get`: the new state and the future, named by the position of its
promise. -/
def get (p : KVStorePartition) (key : Buffer) : KVStorePartition × Nat :=
  ({ p with m_promises := p.m_promises ++ [none] }.push (Task.get key p.m_promises.length),
    p.m_promises.length)

/-- The member `remove`. -/
def remove (p : KVStorePartition) (key : Buffer) : KVStorePartition :=
  p.push (Task.remove key)

/-- The member `destroy`. -/
def destroy (p : KVStorePartition) : KVStorePartition :=
  p.push Task.destroy

/-- The destructor `~KVStorePartition()` up to the `join`: it pushes a
`TerminateTask`. -/
def close (p : KVStorePartition) : KVStorePartition :=
  p.push Task.terminate

/-- The virtual member `Task::run` of a task other than `TerminateTask`. -/
def runTask (p : KVStorePartition) : Task → Except Err KVStorePartition
  | .add key value => do
    let store ← p.m_store.add key value
    pure { p with m_store := store }
  | .get key promise => do
    let value ← p.m_store.get key
    pure { p with m_promises := p.m_promises.set promise (some value) }
  | .remove key => do
    let store ← p.m_store.remove key
    pure { p with m_store := store }
  | .destroy => do
    let store ← p.m_store.destroy
    pure { p with m_store := store }
  | .terminate => pure p

/-- One iteration of the loop of `KVStorePartition::run` on the worker thread: `pop`
takes the task at the front of the queue (the worker waits while the queue is empty,
and does nothing once it has left the loop); a `TerminateTask` ends the loop, any other
task is run. The result also names the task that was popped. -/
def work (p : KVStorePartition) : Except Err (KVStorePartition × Option Task) :=
  if !p.m_running then pure (p, none)
  else
    match p.m_queue with
    | [] => pure (p, none)
    | task :: rest =>
      if task = Task.terminate then
        pure ({ p with m_queue := rest, m_running := false }, some task)
      else do
        let p1 ← runTask { p with m_queue := rest } task
        pure (p1, some task)

/-- One wake-up of the background merger of the tree of the shard. -/
def merge (p : KVStorePartition) : Except Err KVStorePartition := do
  let store ← p.m_store.merger_pass
  pure { p with m_store := store }

end KVStorePartition

/-- What the threads around a shard do, one critical section or one task at a time:
a client thread calls `add`, `get`, `remove` or `destroy` on the partition or starts
its destructor (`close`), the worker thread makes one iteration of its loop (`work`),
the background merger of the tree makes one pass (`merge`). -/
inductive ShardEvent where
  | add (key value : Buffer)
  | get (key : Buffer)
  | remove (key : Buffer)
  | destroy
  | close
  | work
  | merge
  deriving DecidableEq

/-- A run of a shard: the partition, with the tasks that have been pushed and the tasks
that the worker has popped so far, each in order (history variables, not part of the
C++ state). -/
structure ShardRun where
  part : KVStorePartition
  pushed : List Task
  popped : List Task
  deriving DecidableEq

namespace ShardRun

/-- The run that starts at the partition `p`, whose queue holds the tasks pushed so
far. -/
def start (p : KVStorePartition) : ShardRun := { part := p, pushed := p.m_queue, popped := [] }

/-- One event of a run. -/
def step (r : ShardRun) : ShardEvent → Except Err ShardRun
  | .add key value =>
    pure { r with part := r.part.add key value, pushed := r.pushed ++ [Task.add key value] }
  | .get key =>
    pure { r with
      part := (r.part.get key).1
      pushed := r.pushed ++ [Task.get key r.part.m_promises.length] }
  | .remove key =>
    pure { r with part := r.part.remove key, pushed := r.pushed ++ [Task.remove key] }
  | .destroy =>
    pure { r with part := r.part.destroy, pushed := r.pushed ++ [Task.destroy] }
  | .close =>
    pure { r with part := r.part.close, pushed := r.pushed ++ [Task.terminate] }
  | .work => do
    let (p, task) ← r.part.work
    pure { r with part := p, popped := r.popped ++ task.toList }
  | .merge => do
    let p ← r.part.merge
    pure { r with part := p }

/-- A sequence of events, in the order in which the threads take their turns. -/
def run (r : ShardRun) : List ShardEvent → Except Err ShardRun
  | [] => pure r
  | e :: es => do
    let r1 ← r.step e
    run r1 es

end ShardRun

/-- A `ParallelKVStore`. -/
structure ParallelKVStore where
  m_stores : List KVStorePartition
  m_config : Config
  deriving DecidableEq

namespace ParallelKVStore

/-- The loop of the constructor over the partitions `i, i + 1, ...`. -/
def newLoop (config : Config) : Nat → Nat → Except Err (List KVStorePartition)
  | 0, _ => pure []
  | n + 1, i => do
    let p ← KVStorePartition.new config i
    let ps ← newLoop config n (i + 1)
    pure (p :: ps)

/-- The constructor `ParallelKVStore(config)`. -/
def new (config : Config) : Except Err ParallelKVStore := do
  assert (decide (config.parallelism > 0))
  let stores ← newLoop config config.parallelism 0
  pure { m_stores := stores, m_config := config }

/-- The private member `get_partition`: the index `key.hash() % m_config.parallelism`
(the constructor asserts `parallelism > 0`) and the partition `m_stores[index]`. -/
def get_partition (signedChar : Bool) (s : ParallelKVStore) (key : Buffer) :
    Except Err (Nat × KVStorePartition) :=
  let index := key.hash signedChar % s.m_config.parallelism
  match s.m_stores.get? index with
  | some p => pure (index, p)
  | none => .error .outOfRange

/-- The member `add`. -/
def add (signedChar : Bool) (s : ParallelKVStore) (key value : Buffer) :
    Except Err ParallelKVStore := do
  let (index, partition) ← s.get_partition signedChar key
  pure { s with m_stores := s.m_stores.set index (partition.add key value) }

/-- The member `get`: the new state and the future, named by the shard and the position
of its promise in the shard. -/
def get (signedChar : Bool) (s : ParallelKVStore) (key : Buffer) :
    Except Err (ParallelKVStore × Nat × Nat) := do
  let (index, partition) ← s.get_partition signedChar key
  let (partition, fut) := partition.get key
  pure ({ s with m_stores := s.m_stores.set index partition }, index, fut)

/-- The member `remove`. -/
def remove (signedChar : Bool) (s : ParallelKVStore) (key : Buffer) :
    Except Err ParallelKVStore := do
  let (index, partition) ← s.get_partition signedChar key
  pure { s with m_stores := s.m_stores.set index (partition.remove key) }

/-- The member `destroy`. -/
def destroy (s : ParallelKVStore) : ParallelKVStore :=
  { s with m_stores := s.m_stores.map KVStorePartition.destroy }

end ParallelKVStore

/-- The parallel store of `Config("db", "/tmp", 2, 32, 1, 100, 2, false)`: two shards. -/
def twoShards : ParallelKVStore :=
  match Config.new ['d', 'b'] ['/', 't', 'm', 'p'] 2 32 1 100 2 false >>= ParallelKVStore.new with
  | .ok s => s
  | .error _ => { m_stores := [], m_config := durableConfig }

/-- A path component without its trailing `/`, if it has one. -/
def dropSlash (x : List Char) : List Char := if ends_with_slash x then x.dropLast else x

/-- The configuration that `Config("db", "/l0,/l1,/l2", 3, 32, 2, 100, 1, false)`
builds: three levels with a directory each and the base threshold 2. -/
def geometricConfig : Config :=
  { levels :=
      [LevelConfig.new ['/', 'l', '0'] ['d', 'b'] 0 32 2 false,
       LevelConfig.new ['/', 'l', '1'] ['d', 'b'] 1 32 4 false,
       LevelConfig.new ['/', 'l', '2'] ['d', 'b'] 2 32 8 false]
    name := ['d', 'b']
    path := ['/', 'l', '0', ',', '/', 'l', '1', ',', '/', 'l', '2']
    memtable_size := 100
    parallelism := 1 }

/-- The store of `Config("db", "/tmp", 3, 32, 1, 1, 1, false)` after `add(a, x)`,
`add(b, x)`, a merger pass, `add(c, x)` and `add(d, x)`: Level 0 holds the tables `[c]`
and `[d]`, Level 1 holds the table `[a, b]`. -/
def fillStore : KVStore :=
  match (do
      let config ← Config.new ['d', 'b'] ['/', 't', 'm', 'p'] 3 32 1 1 1 false
      let s ← KVStore.new config
      let s ← s.add keyA valX
      let s ← s.add keyB valX
      let s ← s.merger_pass
      let s ← s.add keyC valX
      s.add keyD valX) with
  | .ok s => s
  | .error _ => durableStore

/-- The tree of `fillStore` after one more merger pass. -/
def fillTree : LSMTree :=
  match fillStore.m_tree.merger_pass with
  | .ok t => t
  | .error _ => fillStore.m_tree

/-- The state of a run: the tasks popped so far, followed by the queue, are the tasks
pushed so far (the queue is first in, first out); the worker has stopped exactly when
it has popped a `TerminateTask`, which is then the last task it popped. -/
def ShardRun.Fifo (r : ShardRun) : Prop :=
  r.pushed = r.popped ++ r.part.m_queue ∧
  ((r.part.m_running = true ∧ Task.terminate ∉ r.popped) ∨
    (r.part.m_running = false ∧
      ∃ before, r.popped = before ++ [Task.terminate] ∧ Task.terminate ∉ before))

/-- The store `durableStore` with `memtable_size = 1`. -/
def flushStore : KVStore :=
  { durableStore with m_config := { durableConfig with memtable_size := 1 } }

/-- The store `flushStore` after `add(a, x)`: the memtable `a -> x`, `b -> y` has been
dumped to Level 0 as one table. -/
def flushedStore : KVStore :=
  { flushStore with
    m_memtable := MemTable.new
    m_tree :=
      { flushStore.m_tree with
        m_level0 :=
          { flushStore.m_tree.m_level0 with
            m_tables := [some (tableOf 32 [recC]), some (tableOf 32 [recA, recB])] } } }

/-- The key range `[min_key, max_key]` of the table and the range `[mn, mx]` share a
key. -/
def Table.SharesKey (t : Table) (mn mx : Buffer) : Prop :=
  ∃ key : Buffer, t.InRange key ∧ ¬ key.compare mn < 0 ∧ ¬ mx.compare key < 0

/-- The first section of `merge_with(Level0)`, under the lock of Level 0: the snapshot
`tmp` of the tables of Level 0, newest first, and their number `level0_size`. -/
def LevelN.snapshot_level0 (other : Level) : table_list × Nat :=
  (other.m_tables.reverse, other.m_tables.length)

/-- The middle section of `merge_with(Level0)`, which holds no lock: the key range of
the snapshot, the overlap search and the merge; the result is `first`, `last` and
`merged_tables`. -/
def LevelN.merge_snapshot (self : Level) (tmp : table_list) :
    Except Err (Nat × Nat × table_list) := do
  let endIdx := self.m_tables.length
  let t0 ← LevelN.tableAt tmp 0
  let (min, max) ← LevelN.rangeLoop tmp t0.min_key t0.max_key
  let (first, last, overlapping) ←
    LevelN.overlapLoop min max endIdx self.m_tables 0 endIdx endIdx []
  let merged_tables ← TableBuilder.merge_tables (tmp ++ overlapping) self.m_config
  pure (first, last, merged_tables)

/-- The last section of `merge_with(Level0)`, under the locks of both levels: the first
`level0_size` tables of Level 0 are erased and the merged tables replace the span
`first..last` of this level. -/
def LevelN.publish_level0 (self other : Level) (level0_size first last : Nat)
    (merged_tables : table_list) : Level × Level :=
  ({ self with m_tables := LevelN.replaceTables self.m_tables first last merged_tables },
   { other with m_tables := other.m_tables.drop level0_size })

/-- A run of `merge_with(Level0)` during which the writer threads dump the memtables
`mts` to Level 0 after the snapshot was taken and before the publish step. -/
def LevelN.merge_with_level0_during (self other : Level) (mts : List MemTable) :
    Except Err (Level × Level) := do
  let snap := LevelN.snapshot_level0 other
  let other1 ← Level0.dumpAll other mts
  let (first, last, merged_tables) ← LevelN.merge_snapshot self snap.1
  pure (LevelN.publish_level0 self other1 snap.2 first last merged_tables)

/-- The `while (true)` loop of `merge_tables`, with a count of the runs of its body. -/
def TableBuilder.mergeLoopCount :
    Nat → TableBuilder.MergeState → Except Err (TableBuilder.MergeState × Nat)
  | 0, _ => .error .fuel
  | fuel + 1, st =>
    match st.iterators with
    | [] => pure (st, 0)
    | first :: others => do
      let st ← TableBuilder.mergeStep st first others
      let (st, n) ← TableBuilder.mergeLoopCount fuel st
      pure (st, n + 1)

/-- An event of a sequential run of the tree: a flush of a memtable
(`LSMTree::dump_memtable`) or a pass of the background merger. -/
inductive TreeEvent where
  | flush (mem_table : MemTable)
  | pass

/-- One event of a run. -/
def LSMTree.step (t : LSMTree) : TreeEvent → Except Err LSMTree
  | .flush mem_table => t.dump_memtable mem_table
  | .pass => t.merger_pass

/-- A sequential run of flushes and merger passes. -/
def LSMTree.run : LSMTree → List TreeEvent → Except Err LSMTree
  | t, [] => pure t
  | t, e :: es => do
    let t1 ← t.step e
    LSMTree.run t1 es

/-- The memtables that a run flushes, in order: flush `n` is the entry at index `n`. -/
def TreeEvent.flushes : List TreeEvent → List MemTable
  | [] => []
  | .flush mem_table :: es => mem_table :: TreeEvent.flushes es
  | .pass :: es => TreeEvent.flushes es

/-- The record comes from flush `n`: the `n`-th flushed memtable holds its key with its
value. -/
def ComesFrom (flushed : List MemTable) (r : KeyValue) (n : Nat) : Prop :=
  ∃ mt, flushed[n]? = some mt ∧ r.pair ∈ mt.m_table

/-- The record `r` comes from a more recent flush than the record `r'`. -/
def MoreRecent (flushed : List MemTable) (r r' : KeyValue) : Prop :=
  ∃ n n', n' < n ∧ ComesFrom flushed r n ∧ ComesFrom flushed r' n'

/-- The records of the tables of a level. -/
def Level.recs (l : Level) : List KeyValue :=
  ((l.m_tables.filterMap id).map Table.recs).flatten

/-- No memtable entry (a key with its value) is flushed twice, so that every record
identifies the flush it comes from. -/
def DistinctFlushes (flushed : List MemTable) : Prop :=
  ∀ (n n' : Nat) (r : KeyValue), ComesFrom flushed r n → ComesFrom flushed r n' → n = n'

/-- A level all of whose tables are well formed, with records in ascending order that
fit a fresh table of the size `S` of the level. -/
def LevelGood (S : Nat) (l : Level) : Prop :=
  l.m_config.table_size = S ∧ ∀ tp ∈ l.m_tables, ∃ t, tp = some t ∧ t.Good S

/-- The records of the level `a` come from more recent flushes than the records with
the same key of the level `b`. -/
def LevelNewer (flushed : List MemTable) (a b : Level) : Prop :=
  ∀ r ∈ a.recs, ∀ r' ∈ b.recs, r.key = r'.key → MoreRecent flushed r r'

/-- The records of the table `b` come from more recent flushes than the records with
the same key of the table `a`. -/
def TableNewer (flushed : List MemTable) (a b : TablePtr) : Prop :=
  ∀ ta tb, a = some ta → b = some tb →
    ∀ r ∈ ta.recs, ∀ r' ∈ tb.recs, r.key = r'.key → MoreRecent flushed r' r

/-- The state of a tree in a sequential run that has flushed the memtables `flushed`:
the tree is running, its tables are well formed, every record comes from a flush, a
later table of Level 0 is more recent than an earlier one, and a lower-numbered level
is more recent than a higher-numbered one. -/
structure TreeInv (S : Nat) (flushed : List MemTable) (t : LSMTree) : Prop where
  running : t.m_terminate_merge = false
  good : ∀ l ∈ t.m_level0 :: t.m_levels, LevelGood S l
  origin : ∀ l ∈ t.m_level0 :: t.m_levels, ∀ r ∈ l.recs, ∃ n, ComesFrom flushed r n
  level0 : t.m_level0.m_tables.Pairwise (TableNewer flushed)
  levels : (t.m_level0 :: t.m_levels).Pairwise (LevelNewer flushed)

/-- The record `a -> z`. -/
def recA3 : KeyValue := ⟨⟨[97], by decide⟩, ⟨[122], by decide⟩⟩

/-- The memtable that holds the single entry `a -> z`. -/
def memA3 : MemTable := { m_table := [([97], [122])], m_size := 2 }

/-- A run on the tree of `durableConfig`: `a -> x` and `a -> y` are flushed, the merger
moves them to Level 1, and `a -> z` is flushed. -/
def recencyRun : List TreeEvent :=
  [TreeEvent.flush memA, TreeEvent.flush memA2, TreeEvent.pass, TreeEvent.flush memA3]

/-- The tree that `recencyRun` leaves: Level 0 holds `[a -> z]`, Level 1 holds
`[a -> y]`, Level 2 is empty. -/
def recencyTree : LSMTree :=
  { m_config := durableConfig
    m_level0 :=
      { m_config := LevelConfig.new ['/', 't', 'm', 'p'] ['d', 'b'] 0 32 1 false
        m_tables := [some (tableOf 32 [recA3])] }
    m_levels :=
      [{ m_config := LevelConfig.new ['/', 't', 'm', 'p'] ['d', 'b'] 1 32 1 false
         m_tables := [some (tableOf 32 [recA2])] },
       { m_config := LevelConfig.new ['/', 't', 'm', 'p'] ['d', 'b'] 2 32 1 false
         m_tables := [] }]
    m_terminate_merge := false }

/-! ## The close with the passes of the merger, and the store at the end of a call -/

/-- The number of records that a store holds: the entries of the memtable and the
records of the tables of every level. -/
def KVStore.recordCount (s : KVStore) : Nat :=
  s.m_memtable.m_table.length + s.m_tree.m_level0.recordCount
    + (s.m_tree.m_levels.map Level.recordCount).sum

/-- A level from Level 1 on whose configuration does not ask to overwrite and whose
tables are, in some order, the well-formed tables `sorted`, which are in key order. -/
def Level.HoldsSorted (S : Nat) (l : Level) (sorted : List Table) : Prop :=
  l.m_config.overwrite = false ∧ l.m_config.level ≠ 0 ∧ l.m_config.table_size = S ∧
    ∃ ts : List Table, l.m_tables = ts.map some ∧ ts.Perm sorted ∧
      (∀ x ∈ sorted, x.Good S) ∧ InKeyOrder sorted

/-- A running tree whose Level 0 holds the well-formed tables `ts0` and whose other
levels hold, each in some order, the tables `sorteds`, which are in key order. -/
def LSMTree.HoldsSorted (S : Nat) (t : LSMTree) (ts0 : List Table)
    (sorteds : List (List Table)) : Prop :=
  t.m_terminate_merge = false ∧ t.m_level0.m_config.table_size = S ∧
    t.m_level0.m_tables = ts0.map some ∧ (∀ x ∈ ts0, x.Good S) ∧
    List.Forall₂ (Level.HoldsSorted S) t.m_levels sorteds

/-- A store of `durableConfig` with every level in key order: the memtable holds
`a -> y` and the deletion marker `b -> ""`, Level 0 holds the table `[a -> x]`, Level 1
holds `[c -> z]` and Level 2 holds `[b -> y]`. -/
def staleStore : KVStore :=
  { m_config := durableConfig
    m_tree :=
      { m_config := durableConfig
        m_level0 :=
          { m_config := LevelConfig.new ['/', 't', 'm', 'p'] ['d', 'b'] 0 32 1 false
            m_tables := [some (tableOf 32 [recA])] }
        m_levels :=
          [{ m_config := LevelConfig.new ['/', 't', 'm', 'p'] ['d', 'b'] 1 32 1 false
             m_tables := [some (tableOf 32 [recC])] },
           { m_config := LevelConfig.new ['/', 't', 'm', 'p'] ['d', 'b'] 2 32 1 false
             m_tables := [some (tableOf 32 [recB])] }]
        m_terminate_merge := false }
    m_memtable := { m_table := [([97], [121]), ([98], [])], m_size := 3 }
    m_destroyed := false }

/-- The member `MemTable::add`, with the memtable at the end of the call: the call
writes the map and the counter, and then returns or stops at its assertion. -/
def MemTable.add_end (m : MemTable) (key value : Buffer) : MemTable × Except Err Unit :=
  let ret := mapUpsert key.bytes value.bytes m.m_table
  let m_size :=
    match ret.2 with
    | some old => (m.m_size + U32 - old.length % U32 + value.size) % U32
    | none => (m.m_size + key.size + value.size) % U32
  ({ m_table := ret.1, m_size := m_size }, assert (decide (m_size ≠ 0)))

/-- The member `KVStore::add`, with the store at the end of the call: the members of
the store when the call returns or when it stops at an assertion. The two assertions
come before every write. `LSMTree::dump_memtable` writes to the table list of Level 0
only after its last assertion, so when the flush stops the tree is still the one before
the call. -/
def KVStore.add_end (s : KVStore) (key value : Buffer) : KVStore × Except Err Unit :=
  match assert (!s.m_destroyed) with
  | .error e => (s, .error e)
  | .ok _ =>
    match assert (decide (key.size > 0) && decide (value.size > 0)) with
    | .error e => (s, .error e)
    | .ok _ =>
      match s.m_memtable.add_end key value with
      | (memtable, .error e) => ({ s with m_memtable := memtable }, .error e)
      | (memtable, .ok _) =>
        match memtable.size with
        | .error e => ({ s with m_memtable := memtable }, .error e)
        | .ok sz =>
          if sz > s.m_config.memtable_size then
            match s.m_tree.dump_memtable memtable with
            | .error e => ({ s with m_memtable := memtable }, .error e)
            | .ok tree => ({ s with m_tree := tree, m_memtable := memtable.clear }, .ok ())
          else ({ s with m_memtable := memtable }, .ok ())

/-- The member `KVStore::remove`, with the store at the end of the call. -/
def KVStore.remove_end (s : KVStore) (key : Buffer) : KVStore × Except Err Unit :=
  match assert (!s.m_destroyed) with
  | .error e => (s, .error e)
  | .ok _ =>
    match assert (decide (key.size > 0)) with
    | .error e => (s, .error e)
    | .ok _ =>
      match s.m_memtable.add_end key Buffer.empty with
      | (memtable, r) => ({ s with m_memtable := memtable }, r)

/-- The member `KVStore::destroy`, with the store at the end of the call. -/
def KVStore.destroy_end (s : KVStore) : KVStore × Except Err Unit :=
  match assert (!s.m_destroyed) with
  | .error e => (s, .error e)
  | .ok _ =>
    ({ s with
        m_memtable := s.m_memtable.clear, m_tree := s.m_tree.destroy, m_destroyed := true },
      .ok ())

/-- The state of a store between two calls, for a table size `S`: the store has not
been destroyed, its tree is running and has a level after Level 0, every table of every
level is well formed with records in ascending order that fit a fresh table, and the
memtable holds non-empty keys in map order with records that fit a fresh table and a
counter equal to the byte sum of its entries. The order of the tables within a level is
left open. -/
structure KVStore.Sound (s : KVStore) (S : Nat) : Prop where
  live : s.m_destroyed = false
  running : s.m_tree.m_terminate_merge = false
  upper : s.m_tree.m_levels ≠ []
  levels : ∀ l ∈ s.m_tree.m_level0 :: s.m_tree.m_levels, LevelGood S l
  mem_sorted : s.m_memtable.Sorted
  mem_valid : ∀ e ∈ s.m_memtable.m_table,
    e.1 ≠ [] ∧ e.1.length < 65535 ∧ e.2.length < 65535 ∧ fitsEntry S e
  mem_size : s.m_memtable.m_size = s.m_memtable.byteSum

/-! # Properties -/

/-! ## The comparator -/

theorem Buffer.compare_eq_cmpBytes (a b : Buffer) : a.compare b = cmpBytes a.bytes b.bytes := by
  simp [Buffer.compare, cmpBytes, Buffer.size]

theorem cmpBytes_nil_nil : cmpBytes [] [] = 0 := by
  simp [cmpBytes, Buffer.memcmp]

theorem cmpBytes_nil_cons (y : Byte) (bs : Bytes) : cmpBytes [] (y :: bs) < 0 := by
  simp only [cmpBytes, Buffer.memcmp, List.length_nil, List.length_cons, Nat.zero_min, if_true]
  push_cast
  omega

theorem cmpBytes_cons_nil (x : Byte) (as : Bytes) : 0 < cmpBytes (x :: as) [] := by
  simp only [cmpBytes, Buffer.memcmp, List.length_nil, List.length_cons, Nat.min_zero, if_true]
  push_cast
  omega

theorem cmpBytes_cons_cons (x y : Byte) (as bs : Bytes) :
    cmpBytes (x :: as) (y :: bs) = if x = y then cmpBytes as bs else (x.val : Int) - (y.val : Int) := by
  by_cases h : x = y
  · subst h
    simp only [cmpBytes, List.length_cons, Nat.add_min_add_right, Buffer.memcmp, if_true]
    simp
  · have hne : (x.val : Int) - (y.val : Int) ≠ 0 := by
      intro h0
      apply h
      apply Fin.ext
      omega
    simp only [cmpBytes, List.length_cons, Nat.add_min_add_right, Buffer.memcmp, if_neg h]
    simp [hne]

theorem lexLess_nil_cons (y : Byte) (bs : Bytes) : lexLess [] (y :: bs) :=
  ⟨0, by simp⟩

theorem not_lexLess_nil (a : Bytes) : ¬ lexLess a [] := by
  rintro ⟨i, _, _, _, ⟨_, h⟩ | ⟨_, h, _⟩⟩ <;> simp at h

theorem lexLess_cons_cons (x y : Byte) (as bs : Bytes) :
    lexLess (x :: as) (y :: bs) ↔ x.val < y.val ∨ (x = y ∧ lexLess as bs) := by
  constructor
  · rintro ⟨i, ha, hb, ht, h⟩
    cases i with
    | zero =>
      rcases h with h | h
      · simp at h
      · left; simpa using h.2.2
    | succ j =>
      simp only [List.take_succ_cons, List.cons.injEq] at ht
      right
      refine ⟨ht.1, j, by simpa using ha, by simpa using hb, ht.2, ?_⟩
      rcases h with h | h
      · left; simpa using h
      · right; simpa using h
  · rintro (h | ⟨hxy, i, ha, hb, ht, h⟩)
    · exact ⟨0, by simp, by simp, by simp, Or.inr (by simpa using h)⟩
    · refine ⟨i + 1, by simpa using ha, by simpa using hb, by simp [hxy, ht], ?_⟩
      rcases h with h | h
      · left; simpa using h
      · right; simpa using h

theorem cmpBytes_spec (a : Bytes) : ∀ b : Bytes,
    (cmpBytes a b < 0 ↔ lexLess a b) ∧ (cmpBytes a b = 0 ↔ a = b) ∧
      (0 < cmpBytes a b ↔ lexLess b a) := by
  induction a with
  | nil =>
    intro b
    cases b with
    | nil =>
      simp [cmpBytes_nil_nil, not_lexLess_nil]
    | cons y bs =>
      have h := cmpBytes_nil_cons y bs
      refine ⟨⟨fun _ => lexLess_nil_cons y bs, fun _ => h⟩, ⟨fun h0 => by omega, fun h0 => by simp at h0⟩,
        ⟨fun h0 => by omega, fun h0 => absurd h0 (not_lexLess_nil _)⟩⟩
  | cons x as ih =>
    intro b
    cases b with
    | nil =>
      have h := cmpBytes_cons_nil x as
      refine ⟨⟨fun h0 => by omega, fun h0 => absurd h0 (not_lexLess_nil _)⟩,
        ⟨fun h0 => by omega, fun h0 => by simp at h0⟩, ⟨fun _ => lexLess_nil_cons x as, fun _ => h⟩⟩
    | cons y bs =>
      rw [cmpBytes_cons_cons, lexLess_cons_cons, lexLess_cons_cons]
      obtain ⟨ih1, ih2, ih3⟩ := ih bs
      by_cases hxy : x = y
      · subst hxy
        simp [ih1, ih2, ih3]
      · have hv : x.val ≠ y.val := fun h => hxy (Fin.ext h)
        have hyx : ¬ y = x := fun h => hxy h.symm
        rw [if_neg hxy]
        refine ⟨⟨fun h => Or.inl (by omega), fun h => ?_⟩, ⟨fun h => by omega, fun h => ?_⟩,
          ⟨fun h => Or.inl (by omega), fun h => ?_⟩⟩
        · rcases h with h | ⟨h, _⟩
          · omega
          · exact absurd h hxy
        · exact absurd (List.cons.inj h).1 hxy
        · rcases h with h | ⟨h, _⟩
          · omega
          · exact absurd h hyx

/-- C9: `Buffer::compare(a, b)` is negative, zero or positive exactly when `a` is
less than, equal to or greater than `b` in the order that compares the bytes as
unsigned values up to the first difference and puts a proper initial segment first. -/
theorem Buffer.compare_sign (a b : Buffer) :
    (a.compare b < 0 ↔ lexLess a.bytes b.bytes) ∧
    (a.compare b = 0 ↔ a = b) ∧
    (0 < a.compare b ↔ lexLess b.bytes a.bytes) := by
  rw [Buffer.compare_eq_cmpBytes]
  obtain ⟨h1, h2, h3⟩ := cmpBytes_spec a.bytes b.bytes
  refine ⟨h1, ?_, h3⟩
  rw [h2]
  constructor
  · intro h
    cases a; cases b; simp_all
  · intro h; rw [h]

/-! ## Memory: loads, stores, slices -/

theorem Buffer.ext_bytes {a b : Buffer} (h : a.bytes = b.bytes) : a = b := by
  cases a; cases b; simp_all

theorem byteAt_append_right (l1 l2 : Bytes) (i : Nat) :
    byteAt (l1 ++ l2) (l1.length + i) = byteAt l2 i := by
  simp [byteAt, List.getD_eq_getElem?_getD, List.getElem?_append_right]

theorem byteAt_append_left (l1 l2 : Bytes) (i : Nat) (h : i < l1.length) :
    byteAt (l1 ++ l2) i = byteAt l1 i := by
  simp [byteAt, List.getD_eq_getElem?_getD, List.getElem?_append_left h]

theorem readU16_append_right (l1 l2 : Bytes) (i : Nat) :
    readU16 (l1 ++ l2) (l1.length + i) = readU16 l2 i := by
  simp only [readU16, Nat.add_assoc, byteAt_append_right]

theorem readU32_append_right (l1 l2 : Bytes) (i : Nat) :
    readU32 (l1 ++ l2) (l1.length + i) = readU32 l2 i := by
  simp only [readU32, Nat.add_assoc, byteAt_append_right]

theorem readU16_u16le (n : Nat) (rest : Bytes) (h : n < 65536) :
    readU16 (u16le n ++ rest) 0 = n := by
  simp [readU16, u16le, byteAt]
  omega

theorem readU32_u32le (n : Nat) (rest : Bytes) (h : n < U32) :
    readU32 (u32le n ++ rest) 0 = n := by
  simp [readU32, u32le, byteAt, U32] at *
  omega

theorem u16le_length (n : Nat) : (u16le n).length = 2 := rfl

theorem u32le_length (n : Nat) : (u32le n).length = 4 := rfl

theorem slice_append_right (l1 l2 : Bytes) (i n : Nat) :
    slice (l1 ++ l2) (l1.length + i) n = slice l2 i n := by
  simp [slice, List.drop_append]

theorem slice_zero_append (bs rest : Bytes) : slice (bs ++ rest) 0 bs.length = bs := by
  simp [slice, List.take_append_of_le_length]

theorem Buffer.deserialize_append_right (l1 l2 : Bytes) (i : Nat) :
    Buffer.deserialize (l1 ++ l2) (l1.length + i) = Buffer.deserialize l2 i := by
  apply Buffer.ext_bytes
  simp only [Buffer.deserialize, readU16_append_right, Nat.add_assoc, slice_append_right]

theorem Buffer.deserialize_encoded (b : Buffer) (rest : Bytes) :
    Buffer.deserialize (u16le b.size ++ (b.bytes ++ rest)) 0 = b := by
  apply Buffer.ext_bytes
  have h : b.size < 65536 := b.size_lt
  have e : slice (u16le b.size ++ (b.bytes ++ rest)) ((u16le b.size).length + 0) b.size
      = slice (b.bytes ++ rest) 0 b.size := slice_append_right _ _ _ _
  show slice (u16le b.size ++ (b.bytes ++ rest)) (0 + 2)
    (readU16 (u16le b.size ++ (b.bytes ++ rest)) 0) = b.bytes
  rw [readU16_u16le _ _ h]
  exact e.trans (slice_zero_append _ _)

theorem KeyValue.encode_length (kv : KeyValue) : kv.encode.length = kv.byteSize := by
  simp [KeyValue.encode, KeyValue.byteSize, Buffer.total_size, Buffer.size, u16le_length]
  omega

theorem KeyValue.decode_encoded (kv : KeyValue) (rest : Bytes) :
    KeyValue.decode (kv.encode ++ rest) 0 = kv := by
  have hk : Buffer.deserialize (kv.encode ++ rest) 0 = kv.key := by
    simp only [KeyValue.encode, List.append_assoc]
    exact Buffer.deserialize_encoded _ _
  have hv : Buffer.deserialize (kv.encode ++ rest) (0 + kv.key.total_size) = kv.value := by
    have e : kv.encode ++ rest
        = (u16le kv.key.size ++ kv.key.bytes) ++ (u16le kv.value.size ++ (kv.value.bytes ++ rest)) := by
      simp [KeyValue.encode, List.append_assoc]
    have hl : (u16le kv.key.size ++ kv.key.bytes).length + 0 = 0 + kv.key.total_size := by
      simp [Buffer.total_size, Buffer.size, u16le_length]; omega
    rw [e, ← hl, Buffer.deserialize_append_right]
    exact Buffer.deserialize_encoded _ _
  have e : KeyValue.decode (kv.encode ++ rest) 0
      = ⟨Buffer.deserialize (kv.encode ++ rest) 0,
         Buffer.deserialize (kv.encode ++ rest)
           (0 + (Buffer.deserialize (kv.encode ++ rest) 0).total_size)⟩ := rfl
  rw [e, hk, hv]

theorem KeyValue.decode_append_right (l1 l2 : Bytes) (i : Nat) :
    KeyValue.decode (l1 ++ l2) (l1.length + i) = KeyValue.decode l2 i := by
  simp only [KeyValue.decode, Buffer.deserialize_append_right, Nat.add_assoc]

theorem KeyValue.decode_at (pre : Bytes) (kv : KeyValue) (rest : Bytes) :
    KeyValue.decode (pre ++ (kv.encode ++ rest)) pre.length = kv := by
  have := KeyValue.decode_append_right pre (kv.encode ++ rest) 0
  simp only [Nat.add_zero] at this
  rw [this, KeyValue.decode_encoded]

/-! ## AppendableMMap -/

theorem assert_true_bind {α : Type} (c : Bool) (h : c = true) (f : Unit → Except Err α) :
    (assert c >>= f) = f () := by
  subst h; rfl

theorem assert_false_bind {α : Type} (c : Bool) (h : c = false) (f : Unit → Except Err α) :
    (assert c >>= f) = .error .assertion := by
  subst h; rfl

theorem writeAt_length (mem : Bytes) (pos : Nat) (bs : Bytes) (h : pos + bs.length ≤ mem.length) :
    (writeAt mem pos bs).length = mem.length := by
  simp [writeAt]
  omega

theorem writeAt_writeAt (mem : Bytes) (pos : Nat) (a b : Bytes) (h : pos + a.length ≤ mem.length) :
    writeAt (writeAt mem pos a) (pos + a.length) b = writeAt mem pos (a ++ b) := by
  have h1 : (mem.take pos).length = pos := by simp; omega
  have e1 : (mem.take pos ++ a ++ mem.drop (pos + a.length)).take (pos + a.length)
      = mem.take pos ++ a := by
    rw [List.take_append_of_le_length (by simp [h1])]
    rw [List.take_of_length_le (by simp [h1])]
  have e2 : (mem.take pos ++ a ++ mem.drop (pos + a.length)).drop (pos + a.length + b.length)
      = mem.drop (pos + (a ++ b).length) := by
    have : pos + a.length + b.length = (mem.take pos ++ a).length + b.length := by simp [h1]
    rw [this, List.drop_append]
    simp [List.drop_drop]
    congr 1
    omega
  show (mem.take pos ++ a ++ mem.drop (pos + a.length)).take (pos + a.length) ++ b
      ++ (mem.take pos ++ a ++ mem.drop (pos + a.length)).drop (pos + a.length + b.length)
    = mem.take pos ++ (a ++ b) ++ mem.drop (pos + (a ++ b).length)
  rw [e1, e2]
  simp only [List.append_assoc]

theorem AppendableMMap.appendFront_eq (m : AppendableMMap) (bs : Bytes) (hwf : m.WF) :
    m.appendFront bs =
      if bs.length ≤ m.free then .ok (m.pushFront bs) else .error .assertion := by
  obtain ⟨h1, h2, h3⟩ := hwf
  by_cases h : bs.length ≤ m.free
  · have hmod : (m.m_head_index + bs.length) % U32 = m.m_head_index + bs.length := by
      apply Nat.mod_eq_of_lt; omega
    simp only [AppendableMMap.appendFront, if_pos h]
    rw [assert_true_bind _ (by simpa using h)]
    simp only [hmod, AppendableMMap.pushFront]
    rfl
  · simp only [AppendableMMap.appendFront, if_neg h]
    rw [assert_false_bind _ (by simpa using h)]

theorem AppendableMMap.pushFront_free (m : AppendableMMap) (bs : Bytes) (hwf : m.WF)
    (h : bs.length ≤ m.free) : (m.pushFront bs).free = m.free - bs.length := by
  obtain ⟨h1, h2, h3⟩ := hwf
  simp only [AppendableMMap.free, AppendableMMap.pushFront, U32] at *
  omega

theorem AppendableMMap.pushFront_WF (m : AppendableMMap) (bs : Bytes) (hwf : m.WF)
    (h : bs.length ≤ m.free) : (m.pushFront bs).WF := by
  have hf := AppendableMMap.pushFront_free m bs hwf h
  obtain ⟨h1, h2, h3⟩ := hwf
  refine ⟨?_, h2, ?_⟩
  · show (writeAt m.m_buffer m.m_head_index bs).length = m.m_size
    rw [writeAt_length _ _ _ (by omega)]
    exact h1
  · rw [hf]
    show m.m_head_index + bs.length + (m.free - bs.length) ≤ m.m_size
    omega

theorem AppendableMMap.pushFront_pushFront (m : AppendableMMap) (a b : Bytes) (hwf : m.WF)
    (h : a.length ≤ m.free) : (m.pushFront a).pushFront b = m.pushFront (a ++ b) := by
  obtain ⟨h1, h2, h3⟩ := hwf
  simp only [AppendableMMap.pushFront]
  rw [writeAt_writeAt _ _ _ _ (by omega)]
  simp [Nat.add_assoc]

theorem Buffer.serialize_eq (b : Buffer) (m : AppendableMMap) (hwf : m.WF) :
    b.serialize m =
      if b.total_size ≤ m.free then .ok (m.pushFront (u16le b.size ++ b.bytes))
      else .error .assertion := by
  simp only [Buffer.serialize]
  rw [AppendableMMap.appendFront_eq m _ hwf]
  by_cases h2 : (u16le b.size).length ≤ m.free
  · rw [if_pos h2]
    have hwf1 := AppendableMMap.pushFront_WF m _ hwf h2
    have hf1 := AppendableMMap.pushFront_free m _ hwf h2
    show (m.pushFront (u16le b.size)).appendFront b.bytes = _
    rw [AppendableMMap.appendFront_eq _ _ hwf1, hf1]
    simp only [u16le_length] at *
    by_cases h : b.total_size ≤ m.free
    · have : b.bytes.length ≤ m.free - 2 := by
        simp only [Buffer.total_size, Buffer.size] at h; omega
      rw [if_pos this, if_pos h, AppendableMMap.pushFront_pushFront m _ _ hwf (by simpa using h2)]
    · have : ¬ b.bytes.length ≤ m.free - 2 := by
        simp only [Buffer.total_size, Buffer.size] at h; omega
      rw [if_neg this, if_neg h]
  · rw [if_neg h2]
    have : ¬ b.total_size ≤ m.free := by
      simp only [u16le_length] at h2
      simp only [Buffer.total_size]; omega
    rw [if_neg this]
    rfl

/-! ## Round trip of a record -/


theorem AppendableMMap.create_free (S : Nat) (h : S < U32) : (AppendableMMap.create S).free = S := by
  simp only [AppendableMMap.free, AppendableMMap.create, U32] at *
  omega

theorem AppendableMMap.create_WF (S : Nat) (h : S < U32) : (AppendableMMap.create S).WF := by
  refine ⟨by simp [AppendableMMap.create], h, ?_⟩
  rw [AppendableMMap.create_free S h]
  simp [AppendableMMap.create]

theorem Buffer.ofString_eq (x : Bytes) (h : x.length < 65535) :
    ∃ b, Buffer.ofString x = .ok b ∧ b.bytes = x := by
  have h' : x.length < UINT16_MAX := h
  exact ⟨⟨x, Nat.lt_trans h' (by decide)⟩, by simp [Buffer.ofString, h'], rfl⟩

theorem Buffer.ofString_ok {x : Bytes} {b : Buffer} (h : Buffer.ofString x = .ok b) :
    b.bytes = x ∧ x.length < 65535 := by
  unfold Buffer.ofString at h
  split at h
  · rename_i hlt
    cases h
    exact ⟨rfl, hlt⟩
  · cases h

/-- C8, as amended: for every key `k` and value `v` with `0 < |k|, |v| < 65535`,
serializing `k` and then `v` into a mapping with enough free space and decoding the
record at its start offset yields a key and a value equal to `k` and `v` in length and
in bytes. -/
theorem record_roundtrip (m : AppendableMMap) (k v : Bytes)
    (_hk0 : 0 < k.length) (hk : k.length < 65535) (_hv0 : 0 < v.length) (hv : v.length < 65535)
    (hwf : m.WF) (hfree : k.length + v.length + 4 ≤ m.free) :
    ∃ key value m1 m2,
      Buffer.ofString k = .ok key ∧ Buffer.ofString v = .ok value ∧
      key.serialize m = .ok m1 ∧ value.serialize m1 = .ok m2 ∧
      (KeyValue.decode m2.m_buffer m.m_head_index).key.size = k.length ∧
      (KeyValue.decode m2.m_buffer m.m_head_index).key.bytes = k ∧
      (KeyValue.decode m2.m_buffer m.m_head_index).value.size = v.length ∧
      (KeyValue.decode m2.m_buffer m.m_head_index).value.bytes = v := by
  obtain ⟨key, hkey, hkb⟩ := Buffer.ofString_eq k hk
  obtain ⟨value, hvalue, hvb⟩ := Buffer.ofString_eq v hv
  have hks : key.size = k.length := by simp [Buffer.size, hkb]
  have hvs : value.size = v.length := by simp [Buffer.size, hvb]
  have hf1 : key.total_size ≤ m.free := by simp only [Buffer.total_size, hks]; omega
  have hl1 : (u16le key.size ++ key.bytes).length = k.length + 2 := by
    simp [u16le_length, hkb]; omega
  have hl1' : (u16le key.size ++ key.bytes).length ≤ m.free := by omega
  have hwf1 := AppendableMMap.pushFront_WF m _ hwf hl1'
  have hfree1 := AppendableMMap.pushFront_free m _ hwf hl1'
  have hf2 : value.total_size ≤ (m.pushFront (u16le key.size ++ key.bytes)).free := by
    rw [hfree1, hl1]; simp only [Buffer.total_size, hvs]; omega
  have hdec : KeyValue.decode
      ((m.pushFront (u16le key.size ++ key.bytes)).pushFront
        (u16le value.size ++ value.bytes)).m_buffer m.m_head_index = ⟨key, value⟩ := by
    rw [AppendableMMap.pushFront_pushFront m _ _ hwf hl1']
    obtain ⟨h1, h2, h3⟩ := hwf
    have hlen : (m.m_buffer.take m.m_head_index).length = m.m_head_index := by
      simp; omega
    have := KeyValue.decode_at (m.m_buffer.take m.m_head_index) ⟨key, value⟩
      (m.m_buffer.drop (m.m_head_index
        + (u16le key.size ++ key.bytes ++ (u16le value.size ++ value.bytes)).length))
    rw [hlen] at this
    simpa [AppendableMMap.pushFront, writeAt, KeyValue.encode, List.append_assoc] using this
  refine ⟨key, value, m.pushFront (u16le key.size ++ key.bytes),
    (m.pushFront (u16le key.size ++ key.bytes)).pushFront (u16le value.size ++ value.bytes),
    hkey, hvalue, ?_, ?_, ?_⟩
  · rw [Buffer.serialize_eq key m hwf, if_pos hf1]
  · rw [Buffer.serialize_eq value _ hwf1, if_pos hf2]
  · rw [hdec]
    exact ⟨hks, hkb, hvs, hvb⟩

/-- Witness of C8 (amended): a one-byte key and a one-byte value in a fresh mapping of
16 bytes. -/
theorem record_roundtrip_witness :
    ∃ key value m1 m2,
      Buffer.ofString [1] = .ok key ∧ Buffer.ofString [2] = .ok value ∧
      key.serialize (AppendableMMap.create 16) = .ok m1 ∧ value.serialize m1 = .ok m2 ∧
      (KeyValue.decode m2.m_buffer (AppendableMMap.create 16).m_head_index).key.size
        = ([1] : Bytes).length ∧
      (KeyValue.decode m2.m_buffer (AppendableMMap.create 16).m_head_index).key.bytes = [1] ∧
      (KeyValue.decode m2.m_buffer (AppendableMMap.create 16).m_head_index).value.size
        = ([2] : Bytes).length ∧
      (KeyValue.decode m2.m_buffer (AppendableMMap.create 16).m_head_index).value.bytes = [2] :=
  record_roundtrip (AppendableMMap.create 16) [1] [2] (by decide) (by decide) (by decide)
    (by decide) (AppendableMMap.create_WF 16 (by decide))
    (by rw [AppendableMMap.create_free 16 (by decide)]; decide)

/-- Counterexample to C8 as stated: a key of 65535 bytes satisfies `0 < |k| < 65536`
and the mapping has room for the record, but no `Buffer` can be made of the key: the
constructor asserts `size < UINT16_MAX`, so the key is never serialized. -/
theorem record_roundtrip_fails_at_65535 :
    0 < (List.replicate 65535 (0 : Byte)).length ∧
    (List.replicate 65535 (0 : Byte)).length < 65536 ∧
    (AppendableMMap.create 70000).WF ∧
    (List.replicate 65535 (0 : Byte)).length + ([1] : Bytes).length + 4
      ≤ (AppendableMMap.create 70000).free ∧
    Buffer.ofString (List.replicate 65535 (0 : Byte)) = .error .assertion ∧
    ¬ ∃ key value m1 m2,
      Buffer.ofString (List.replicate 65535 (0 : Byte)) = .ok key ∧
      Buffer.ofString [1] = .ok value ∧
      key.serialize (AppendableMMap.create 70000) = .ok m1 ∧ value.serialize m1 = .ok m2 ∧
      (KeyValue.decode m2.m_buffer (AppendableMMap.create 70000).m_head_index).key.bytes
        = List.replicate 65535 (0 : Byte) := by
  have hfail : Buffer.ofString (List.replicate 65535 (0 : Byte)) = .error .assertion := by
    unfold Buffer.ofString
    rw [dif_neg]
    rw [List.length_replicate]
    decide
  refine ⟨?_, ?_, AppendableMMap.create_WF 70000 (by decide), ?_, hfail, ?_⟩
  · rw [List.length_replicate]; decide
  · rw [List.length_replicate]; decide
  · rw [AppendableMMap.create_free 70000 (by decide), List.length_replicate]; decide
  · rintro ⟨key, _, _, _, h, _⟩
    rw [hfail] at h
    cases h

/-! ## Encoded record sequences -/

theorem encodeAll_nil : encodeAll [] = [] := rfl

theorem encodeAll_cons (r : KeyValue) (rs : List KeyValue) :
    encodeAll (r :: rs) = r.encode ++ encodeAll rs := by
  simp [encodeAll]

theorem encodeAll_append (a b : List KeyValue) :
    encodeAll (a ++ b) = encodeAll a ++ encodeAll b := by
  simp [encodeAll]

theorem encLen_nil : encLen [] = 0 := rfl

theorem encLen_cons (r : KeyValue) (rs : List KeyValue) :
    encLen (r :: rs) = r.byteSize + encLen rs := by
  simp [encLen]

theorem encLen_append (a b : List KeyValue) : encLen (a ++ b) = encLen a + encLen b := by
  simp [encLen]

theorem encodeAll_length (rs : List KeyValue) : (encodeAll rs).length = encLen rs := by
  induction rs with
  | nil => rfl
  | cons r rs ih =>
    rw [encodeAll_cons, encLen_cons, List.length_append, KeyValue.encode_length, ih]

theorem KeyValue.byteSize_ge (r : KeyValue) : 4 ≤ r.byteSize := by
  simp only [KeyValue.byteSize, Buffer.total_size]; omega

theorem KeyValue.byteSize_le (r : KeyValue) : r.byteSize ≤ 131074 := by
  have h1 := r.key.size_lt
  have h2 := r.value.size_lt
  simp only [KeyValue.byteSize, Buffer.total_size, Buffer.size]; omega

theorem encLen_ge (rs : List KeyValue) : 4 * rs.length ≤ encLen rs := by
  induction rs with
  | nil => simp [encLen]
  | cons r rs ih =>
    have := r.byteSize_ge
    rw [encLen_cons, List.length_cons]; omega

theorem encLen_take_le (rs : List KeyValue) (i : Nat) : encLen (rs.take i) ≤ encLen rs := by
  conv => rhs; rw [← List.take_append_drop i rs]
  rw [encLen_append]; omega

theorem decode_encodeAll (pre : List KeyValue) (r : KeyValue) (suf : List KeyValue)
    (rest : Bytes) :
    KeyValue.decode (encodeAll (pre ++ r :: suf) ++ rest) (encLen pre) = r := by
  have e : encodeAll (pre ++ r :: suf) ++ rest
      = encodeAll pre ++ (r.encode ++ (encodeAll suf ++ rest)) := by
    simp [encodeAll_append, encodeAll_cons, List.append_assoc]
  rw [e, ← encodeAll_length pre]
  exact KeyValue.decode_at _ _ _

theorem offsetsFrom_length (s : Nat) (rs : List KeyValue) :
    (offsetsFrom s rs).length = rs.length := by
  induction rs generalizing s with
  | nil => rfl
  | cons r rs ih => simp [offsetsFrom, ih]

theorem offsetsFrom_append (s : Nat) (a b : List KeyValue) :
    offsetsFrom s (a ++ b) = offsetsFrom s a ++ offsetsFrom (s + encLen a) b := by
  induction a generalizing s with
  | nil => simp [offsetsFrom, encLen]
  | cons r a ih =>
    simp [offsetsFrom, ih, encLen_cons, Nat.add_assoc]

theorem offsetsFrom_getElem? (s : Nat) (rs : List KeyValue) (i : Nat) (h : i < rs.length) :
    (offsetsFrom s rs)[i]? = some (s + encLen (rs.take i)) := by
  induction rs generalizing s i with
  | nil => simp at h
  | cons r rs ih =>
    cases i with
    | zero => simp [offsetsFrom, encLen]
    | succ j =>
      have hj : j < rs.length := by simpa using h
      simp [offsetsFrom, ih _ j hj, encLen_cons, Nat.add_assoc]

theorem offsetsFrom_lt (s : Nat) (rs : List KeyValue) (o : Nat) (h : o ∈ offsetsFrom s rs) :
    o < s + encLen rs := by
  induction rs generalizing s with
  | nil => simp [offsetsFrom] at h
  | cons r rs ih =>
    simp only [offsetsFrom, List.mem_cons] at h
    have := r.byteSize_ge
    rw [encLen_cons]
    rcases h with h | h
    · omega
    · have := ih _ h; omega

theorem flatMap_u32le_length (offs : List Nat) : (offs.flatMap u32le).length = 4 * offs.length := by
  induction offs with
  | nil => rfl
  | cons o offs ih =>
    simp only [List.flatMap_cons, List.length_append, u32le_length, ih, List.length_cons]
    omega

theorem readU32_flatMap (offs : List Nat) (rest : Bytes) (i : Nat) (o : Nat)
    (h : offs[i]? = some o) (hlt : o < U32) :
    readU32 (offs.flatMap u32le ++ rest) (4 * i) = o := by
  induction offs generalizing i with
  | nil => simp at h
  | cons a offs ih =>
    cases i with
    | zero =>
      simp only [List.getElem?_cons_zero, Option.some.injEq] at h
      subst h
      simp only [List.flatMap_cons, List.append_assoc, Nat.mul_zero]
      exact readU32_u32le _ _ hlt
    | succ j =>
      simp only [List.getElem?_cons_succ] at h
      have e : 4 * (j + 1) = (u32le a).length + 4 * j := by rw [u32le_length]; omega
      simp only [List.flatMap_cons, List.append_assoc]
      rw [e, readU32_append_right]
      exact ih j h

/-! ## Reading a table file -/

theorem list_split_at {α : Type} (l : List α) (i : Nat) (r : α) (h : l[i]? = some r) :
    l = l.take i ++ r :: l.drop (i + 1) := by
  induction l generalizing i with
  | nil => simp at h
  | cons a l ih =>
    cases i with
    | zero => simp at h; simp [h]
    | succ j =>
      simp only [List.getElem?_cons_succ] at h
      simp only [List.take_succ_cons, List.drop_succ_cons, List.cons_append]
      rw [← ih j h]

theorem getElem?_lt_length {α : Type} (l : List α) (i : Nat) (r : α) (h : l[i]? = some r) :
    i < l.length := by
  by_contra hc
  rw [List.getElem?_eq_none (by omega)] at h
  cases h

theorem tableBytes_length (rs : List KeyValue) (pad : Bytes) :
    (tableBytes rs pad).length = encLen rs + pad.length + 4 * rs.length + 4 := by
  simp only [tableBytes, List.length_append, encodeAll_length, flatMap_u32le_length,
    offsetsFrom_length, u32le_length]
  omega

theorem AppendableMMap.HoldsTable.size_eq {m : AppendableMMap} {rs : List KeyValue}
    (h : m.HoldsTable rs) : ∃ pad, m.m_buffer = tableBytes rs pad ∧
      m.m_size = encLen rs + pad.length + 4 * rs.length + 4 := by
  obtain ⟨_, _, hl, pad, hb⟩ := h
  refine ⟨pad, hb, ?_⟩
  rw [← hl, hb, tableBytes_length]

theorem AppendableMMap.HoldsTable.count_lt {m : AppendableMMap} {rs : List KeyValue}
    (h : m.HoldsTable rs) : 0 < rs.length ∧ rs.length < U32 ∧ encLen rs < U32 ∧
      encLen rs + 4 * rs.length + 4 ≤ m.m_size := by
  obtain ⟨pad, _, hs⟩ := h.size_eq
  have h2 := h.2.1
  have h3 := encLen_ge rs
  have h4 : 0 < rs.length := List.length_pos.mpr h.1
  simp only [U32] at *
  omega

theorem AppendableMMap.HoldsTable.read_count {m : AppendableMMap} {rs : List KeyValue}
    (h : m.HoldsTable rs) : readU32 m.m_buffer (m.m_size - 4) = rs.length := by
  obtain ⟨pad, hb, hs⟩ := h.size_eq
  have hc := h.count_lt
  have e : m.m_buffer
      = (encodeAll rs ++ (pad ++ (offsetsFrom 0 rs).flatMap u32le)) ++ (u32le rs.length ++ []) := by
    rw [hb]; simp [tableBytes, List.append_assoc]
  have hl : (encodeAll rs ++ (pad ++ (offsetsFrom 0 rs).flatMap u32le)).length + 0
      = m.m_size - 4 := by
    simp only [List.length_append, encodeAll_length, flatMap_u32le_length, offsetsFrom_length]
    omega
  rw [e, ← hl, readU32_append_right]
  exact readU32_u32le _ _ hc.2.1

theorem AppendableMMap.HoldsTable.read_offset {m : AppendableMMap} {rs : List KeyValue}
    (h : m.HoldsTable rs) (i : Nat) (hi : i < rs.length) :
    readU32 m.m_buffer (m.m_size - 4 - 4 * rs.length + 4 * i) = encLen (rs.take i) := by
  obtain ⟨pad, hb, hs⟩ := h.size_eq
  have hc := h.count_lt
  have e : m.m_buffer
      = (encodeAll rs ++ pad) ++ ((offsetsFrom 0 rs).flatMap u32le ++ u32le rs.length) := by
    rw [hb]; simp [tableBytes, List.append_assoc]
  have hl : (encodeAll rs ++ pad).length = m.m_size - 4 - 4 * rs.length := by
    simp only [List.length_append, encodeAll_length]
    omega
  rw [e, ← hl, readU32_append_right]
  have ho := offsetsFrom_getElem? 0 rs i hi
  rw [Nat.zero_add] at ho
  apply readU32_flatMap _ _ _ _ ho
  have := encLen_take_le rs i
  omega

theorem AppendableMMap.HoldsTable.decode_record {m : AppendableMMap} {rs : List KeyValue}
    (h : m.HoldsTable rs) (i : Nat) (r : KeyValue) (hi : rs[i]? = some r) :
    KeyValue.decode m.m_buffer (encLen (rs.take i)) = r := by
  obtain ⟨pad, hb, _⟩ := h.size_eq
  have e := list_split_at rs i r hi
  rw [hb, tableBytes]
  conv => lhs; arg 1; arg 1; rw [e]
  exact decode_encodeAll _ _ _ _

theorem Table.entryOffset_eq {m : AppendableMMap} {rs : List KeyValue}
    (h : m.HoldsTable rs) (i : Nat) (hi : i < rs.length) :
    Table.entryOffset m (m.m_size - 4 - 4 * rs.length) rs.length i = .ok (encLen (rs.take i)) := by
  simp only [Table.entryOffset]
  rw [assert_true_bind _ (by simpa using hi), h.read_offset i hi]
  rfl

theorem Table.entry_eq {m : AppendableMMap} {rs : List KeyValue}
    (h : m.HoldsTable rs) (i : Nat) (r : KeyValue) (hi : rs[i]? = some r) :
    Table.entry m (m.m_size - 4 - 4 * rs.length) rs.length i = .ok r := by
  have hlt := getElem?_lt_length rs i r hi
  simp only [Table.entry, Table.entryOffset_eq h i hlt]
  show Except.ok (KeyValue.decode m.m_buffer (encLen (rs.take i))) = _
  rw [h.decode_record i r hi]

theorem getLast?_eq_getElem? {α : Type} (l : List α) : l.getLast? = l[l.length - 1]? := by
  rw [List.getLast?_eq_getElem?]

theorem encLen_take_succ (rs : List KeyValue) (i : Nat) (r : KeyValue) (hi : rs[i]? = some r) :
    encLen (rs.take (i + 1)) = encLen (rs.take i) + r.byteSize := by
  have e := list_split_at rs i r hi
  have hlt := getElem?_lt_length rs i r hi
  have : rs.take (i + 1) = rs.take i ++ [r] := by
    conv => lhs; rw [e]
    have hl : (rs.take i).length = i := by simp; omega
    rw [List.take_append_eq_append_take, hl]
    simp
  rw [this, encLen_append, encLen_cons, encLen_nil, Nat.add_zero]

theorem exists_getElem? {α : Type} (l : List α) (i : Nat) (h : i < l.length) :
    ∃ r, l[i]? = some r :=
  ⟨l[i], List.getElem?_eq_getElem h⟩

theorem Table.ofMMap_eq {m : AppendableMMap} {rs : List KeyValue} (h : m.HoldsTable rs) :
    Table.ofMMap m = .ok (Table.ofRecords m rs) := by
  have hc := h.count_lt
  have hcount := h.read_count
  have hn : (rs.length + U32 - 1) % U32 = rs.length - 1 := by
    simp only [U32] at *; omega
  obtain ⟨last, hlast⟩ := exists_getElem? rs (rs.length - 1) (by omega)
  obtain ⟨first, hfirst⟩ := exists_getElem? rs 0 (by omega)
  have hend : encLen (rs.take (rs.length - 1)) + last.key.total_size + 2 + last.value.size
      = encLen rs := by
    have := encLen_take_succ rs (rs.length - 1) last hlast
    have e : rs.length - 1 + 1 = rs.length := by omega
    rw [e, List.take_length] at this
    simp only [KeyValue.byteSize, Buffer.total_size] at this ⊢
    omega
  have hhead : rs.head? = some first := by
    rw [← hfirst]; cases rs <;> simp
  have hgl : rs.getLast? = some last := by
    rw [getLast?_eq_getElem?, hlast]
  simp only [Table.ofMMap, hcount, hn]
  rw [assert_true_bind _ (by simpa using (by omega : rs.length ≠ 0))]
  rw [Table.entryOffset_eq h _ (by omega)]
  simp only [Except.bind, bind, h.decode_record _ _ hlast, hend]
  rw [show assert (decide (encLen rs ≤ m.m_size - 4 - 4 * rs.length)) = .ok () from by
    simp only [assert]; rw [if_pos]; simp; omega]
  simp only [Table.entry_eq h _ _ hfirst, Table.entry_eq h _ _ hlast, pure, Except.pure,
    Table.ofRecords, hhead, hgl, Option.map_some', Option.getD_some]

theorem Table.ofRecords_holds {m : AppendableMMap} {rs : List KeyValue} (h : m.HoldsTable rs)
    (hk : ∀ r ∈ rs, r.key.size ≠ 0) : (Table.ofRecords m rs).Holds rs :=
  { ne := h.1
    keys := hk
    size_lt := h.2.1
    length := h.2.2.1
    bytes := h.2.2.2
    fields := rfl }

theorem Table.Holds.map {t : Table} {rs : List KeyValue} (h : t.Holds rs) :
    t.m_mmap.HoldsTable rs :=
  ⟨h.ne, h.size_lt, h.length, h.bytes⟩

theorem Table.Holds.num {t : Table} {rs : List KeyValue} (h : t.Holds rs) :
    t.m_num_entries = rs.length := by
  rw [h.fields]; rfl

theorem Table.Holds.end_eq {t : Table} {rs : List KeyValue} (h : t.Holds rs) :
    t.m_end = encLen rs := by
  rw [h.fields]; rfl

theorem Table.Holds.get_at {t : Table} {rs : List KeyValue} (h : t.Holds rs) (i : Nat)
    (r : KeyValue) (hi : rs[i]? = some r) : t.get_at i = .ok r := by
  have := Table.entry_eq h.map i r hi
  rw [h.fields]
  exact this

theorem Table.Holds.iter_deref {t : Table} {rs : List KeyValue} (h : t.Holds rs) (i : Nat)
    (r : KeyValue) (hi : rs[i]? = some r) : t.iter_deref (encLen (rs.take i)) = r :=
  h.map.decode_record i r hi

theorem Table.Holds.iter_next {t : Table} {rs : List KeyValue} (h : t.Holds rs) (i : Nat)
    (r : KeyValue) (hi : rs[i]? = some r) :
    t.iter_next (encLen (rs.take i)) = encLen (rs.take (i + 1)) := by
  simp only [Table.iter_next, h.iter_deref i r hi, encLen_take_succ rs i r hi, KeyValue.byteSize]

theorem Table.Holds.min_key_eq {t : Table} {rs : List KeyValue} (h : t.Holds rs) :
    rs.head? = some ⟨t.m_min_key, (rs.head?.map KeyValue.value).getD Buffer.empty⟩ := by
  have hne := h.ne
  rw [h.fields]
  cases rs with
  | nil => exact absurd rfl hne
  | cons r rs => simp [Table.ofRecords]

/-! ## TableBuilder -/

theorem AppendableMMap.appendBack_eq (m : AppendableMMap) (bs : Bytes) :
    m.appendBack bs =
      if bs.length ≤ m.free then .ok (m.pushBack bs) else .error .assertion := by
  by_cases h : bs.length ≤ m.free
  · simp only [AppendableMMap.appendBack, if_pos h]
    rw [assert_true_bind _ (by simpa using h)]
    rfl
  · simp only [AppendableMMap.appendBack, if_neg h]
    rw [assert_false_bind _ (by simpa using h)]

theorem builderMap_nil (S : Nat) : builderMap S [] = AppendableMMap.create S := by
  simp [builderMap, AppendableMMap.create, encodeAll, encLen]

theorem builderMap_free (S : Nat) (cur : List KeyValue) (hS : S < U32) (hle : encLen cur ≤ S) :
    (builderMap S cur).free = S - encLen cur := by
  simp only [AppendableMMap.free, builderMap, U32] at *
  omega

theorem builderMap_WF (S : Nat) (cur : List KeyValue) (hS : S < U32) (hle : encLen cur ≤ S) :
    (builderMap S cur).WF := by
  refine ⟨?_, hS, ?_⟩
  · simp [builderMap, encodeAll_length]; omega
  · rw [builderMap_free S cur hS hle]
    show encLen cur + (S - encLen cur) ≤ S
    omega

theorem builderMap_pushFront (S : Nat) (cur : List KeyValue) (r : KeyValue) :
    (builderMap S cur).pushFront r.encode = builderMap S (cur ++ [r]) := by
  have hl := encodeAll_length cur
  have e1 : (encodeAll cur ++ List.replicate (S - encLen cur) (0 : Byte)).take (encLen cur)
      = encodeAll cur := by
    rw [List.take_append_of_le_length (by omega), List.take_of_length_le (by omega)]
  have e2 : (encodeAll cur ++ List.replicate (S - encLen cur) (0 : Byte)).drop
      (encLen cur + r.byteSize) = List.replicate (S - (encLen cur + r.byteSize)) 0 := by
    have := @List.drop_append Byte (encodeAll cur)
      (List.replicate (S - encLen cur) (0 : Byte)) r.byteSize
    rw [hl] at this
    rw [this, List.drop_replicate, Nat.sub_sub]
  simp only [AppendableMMap.pushFront, builderMap, writeAt, e1, encodeAll_append,
    encodeAll_cons, encodeAll_nil, List.append_nil, List.append_assoc, KeyValue.encode_length,
    encLen_append, encLen_cons, encLen_nil, Nat.add_zero, e2]

theorem new_init_mmap (S : Nat) : (TableBuilder.new S).init_mmap = builderOf S [] := by
  simp [TableBuilder.new, TableBuilder.clear, TableBuilder.init_mmap, builderOf, builderMap_nil,
    offsetsFrom]

theorem builderOf_init_mmap (S : Nat) (cur : List KeyValue) :
    (builderOf S cur).init_mmap = builderOf S cur := rfl

theorem TableBuilder.Holds.init_eq {b : TableBuilder} {S : Nat} {cur : List KeyValue}
    (h : b.Holds S cur) : b.init_mmap = builderOf S cur := by
  rcases h.2.2 with ⟨hb, hc⟩ | hb
  · rw [hb, hc, new_init_mmap]
  · rw [hb, builderOf_init_mmap]

theorem offsetsFrom_snoc (cur : List KeyValue) (r : KeyValue) :
    offsetsFrom 0 (cur ++ [r]) = offsetsFrom 0 cur ++ [encLen cur] := by
  rw [offsetsFrom_append]; simp [offsetsFrom]

/-- The value of `add` on a builder that has accepted `cur`. -/
theorem TableBuilder.Holds.add_eq {b : TableBuilder} {S : Nat} {cur : List KeyValue}
    (h : b.Holds S cur) (hS : S < U32) (k v : Buffer) :
    b.add k v =
      if k.size = 0 then .error .assertion
      else if ((encLen cur + 4 * cur.length + 4) % U32 + k.total_size + v.total_size) % U32 + 4 > S
        then .ok (builderOf S cur, false)
      else if k.total_size + v.total_size ≤ S - encLen cur
        then .ok (builderOf S (cur ++ [⟨k, v⟩]), true)
      else .error .assertion := by
  have hinit := h.init_eq
  have hle := h.2.1
  have hwf := builderMap_WF S cur hS hle
  have hfree := builderMap_free S cur hS hle
  unfold TableBuilder.add
  by_cases hk : k.size = 0
  · rw [if_pos hk, assert_false_bind _ (by simpa using hk)]
  · rw [if_neg hk, assert_true_bind _ (by simpa using hk)]
    simp only [hinit]
    have hcs : (builderOf S cur).current_size
        = .ok ((encLen cur + 4 * cur.length + 4) % U32) := by
      simp [TableBuilder.current_size, builderOf, deref, builderMap, offsetsFrom_length,
        bind, Except.bind, pure, Except.pure]
    rw [hcs]
    simp only [bind, Except.bind]
    by_cases hfull :
        ((encLen cur + 4 * cur.length + 4) % U32 + k.total_size + v.total_size) % U32 + 4 > S
    · have hfull' : ((encLen cur + 4 * cur.length + 4) % U32 + k.total_size + v.total_size) % U32
          + 4 > (builderOf S cur).m_table_size := hfull
      rw [if_pos hfull, if_pos hfull']
      rfl
    · have hfull' : ¬ ((encLen cur + 4 * cur.length + 4) % U32 + k.total_size + v.total_size) % U32
          + 4 > (builderOf S cur).m_table_size := hfull
      rw [if_neg hfull, if_neg hfull']
      simp only [builderOf, deref]
      rw [Buffer.serialize_eq k _ hwf, hfree]
      by_cases hkf : k.total_size ≤ S - encLen cur
      · rw [if_pos hkf]
        have hl1 : (u16le k.size ++ k.bytes).length = k.total_size := by
          simp [u16le_length, Buffer.total_size, Buffer.size]; omega
        have hl1' : (u16le k.size ++ k.bytes).length ≤ (builderMap S cur).free := by
          rw [hl1, hfree]; exact hkf
        have hwf1 := AppendableMMap.pushFront_WF _ _ hwf hl1'
        have hfree1 := AppendableMMap.pushFront_free _ _ hwf hl1'
        simp only []
        rw [Buffer.serialize_eq v _ hwf1, hfree1, hfree, hl1]
        by_cases hvf : k.total_size + v.total_size ≤ S - encLen cur
        · have : v.total_size ≤ S - encLen cur - k.total_size := by omega
          rw [if_pos this, if_pos hvf]
          simp only [pure, Except.pure]
          rw [AppendableMMap.pushFront_pushFront _ _ _ hwf hl1']
          have henc : u16le k.size ++ k.bytes ++ (u16le v.size ++ v.bytes)
              = KeyValue.encode ⟨k, v⟩ := rfl
          rw [henc, builderMap_pushFront S cur ⟨k, v⟩]
          simp only [builderMap, offsetsFrom_snoc]
        · have : ¬ v.total_size ≤ S - encLen cur - k.total_size := by omega
          rw [if_neg this, if_neg hvf]
      · rw [if_neg hkf]
        have : ¬ k.total_size + v.total_size ≤ S - encLen cur := by omega
        rw [if_neg this]

theorem writeAt_mid (A B B' D : Bytes) (h : B'.length = B.length) :
    writeAt (A ++ (B ++ D)) A.length B' = A ++ (B' ++ D) := by
  have e1 : (A ++ (B ++ D)).take A.length = A := by
    rw [List.take_append_of_le_length (Nat.le_refl _), List.take_length]
  have e2 : (A ++ (B ++ D)).drop (A.length + B'.length) = D := by
    rw [List.drop_append, h, List.drop_left]
  simp only [writeAt, e1, e2, List.append_assoc]

theorem finalMap_buffer (S : Nat) (cur : List KeyValue)
    (hfit : encLen cur + 4 * cur.length + 4 ≤ S) :
    writeAt (writeAt (encodeAll cur ++ List.replicate (S - encLen cur) (0 : Byte)) (S - 4)
        (u32le cur.length)) (S - 4 - 4 * cur.length) ((offsetsFrom 0 cur).flatMap u32le)
      = tableBytes cur (List.replicate (S - encLen cur - 4 * cur.length - 4) 0) := by
  have hsplit : List.replicate (S - encLen cur) (0 : Byte)
      = List.replicate (S - encLen cur - 4 * cur.length - 4) 0
        ++ (List.replicate (4 * cur.length) 0 ++ List.replicate 4 0) := by
    rw [← List.replicate_add, ← List.replicate_add]
    congr 1; omega
  have hlE := encodeAll_length cur
  have hI := flatMap_u32le_length (offsetsFrom 0 cur)
  rw [offsetsFrom_length] at hI
  have hl1 : (encodeAll cur ++ (List.replicate (S - encLen cur - 4 * cur.length - 4) (0 : Byte)
      ++ List.replicate (4 * cur.length) 0)).length = S - 4 := by
    simp only [List.length_append, hlE, List.length_replicate]; omega
  have hl2 : (encodeAll cur ++ List.replicate (S - encLen cur - 4 * cur.length - 4) (0 : Byte)).length
      = S - 4 - 4 * cur.length := by
    simp only [List.length_append, hlE, List.length_replicate]; omega
  have step1 : writeAt (encodeAll cur ++ List.replicate (S - encLen cur) (0 : Byte)) (S - 4)
      (u32le cur.length)
      = (encodeAll cur ++ List.replicate (S - encLen cur - 4 * cur.length - 4) (0 : Byte))
        ++ (List.replicate (4 * cur.length) 0 ++ u32le cur.length) := by
    rw [hsplit, ← hl1]
    have := writeAt_mid (encodeAll cur ++ (List.replicate (S - encLen cur - 4 * cur.length - 4) (0 : Byte)
      ++ List.replicate (4 * cur.length) 0)) (List.replicate 4 0) (u32le cur.length) [] (by simp [u32le_length])
    simp only [List.append_assoc, List.append_nil] at this ⊢
    exact this
  rw [step1, ← hl2, writeAt_mid _ _ _ _ (by simp [hI])]
  simp only [tableBytes, List.append_assoc]

theorem finalMap_holdsTable (S : Nat) (cur : List KeyValue) (hS : S < U32) (hne : cur ≠ [])
    (hfit : encLen cur + 4 * cur.length + 4 ≤ S) : (finalMap S cur).HoldsTable cur := by
  refine ⟨hne, hS, ?_, _, rfl⟩
  show (tableBytes cur _).length = S
  rw [tableBytes_length, List.length_replicate]; omega

theorem TableBuilder.finalize_new (S : Nat) :
    (TableBuilder.new S).finalize = .error .nullDeref := rfl

theorem TableBuilder.finalize_builderOf_nil (S : Nat) :
    (builderOf S []).finalize = .ok (builderOf S [], none) := rfl

/-- The value of `finalize` on a builder that has accepted at least one record. -/
theorem TableBuilder.finalize_builderOf (S : Nat) (cur : List KeyValue) (hS : S < U32)
    (hle : encLen cur ≤ S) (hne : cur ≠ []) :
    (builderOf S cur).finalize =
      if 4 * cur.length + 4 ≤ S - encLen cur then
        .ok (TableBuilder.new S, some (Table.ofRecords (finalMap S cur) cur))
      else .error .assertion := by
  have hpos : 0 < cur.length := List.length_pos.mpr hne
  have hge := encLen_ge cur
  have hfree := builderMap_free S cur hS hle
  have hhead : ¬ (builderMap S cur).m_head_index = 0 := by
    show ¬ encLen cur = 0
    omega
  have hn : (offsetsFrom 0 cur).length % U32 = cur.length := by
    rw [offsetsFrom_length]; apply Nat.mod_eq_of_lt; simp only [U32] at *; omega
  have h4n : 4 * cur.length % U32 = 4 * cur.length := by
    apply Nat.mod_eq_of_lt; simp only [U32] at *; omega
  have hI := flatMap_u32le_length (offsetsFrom 0 cur)
  rw [offsetsFrom_length] at hI
  have htake : ((offsetsFrom 0 cur).flatMap u32le).take (4 * cur.length)
      = (offsetsFrom 0 cur).flatMap u32le := List.take_of_length_le (by omega)
  simp only [TableBuilder.finalize, builderOf, deref, bind, Except.bind, if_neg hhead, hn, h4n,
    htake, AppendableMMap.appendBack_eq, hfree, u32le_length]
  by_cases h4 : 4 ≤ S - encLen cur
  · rw [if_pos h4]
    simp only []
    have hfree1 : ((builderMap S cur).pushBack (u32le cur.length)).free = S - encLen cur - 4 := by
      simp only [AppendableMMap.free, AppendableMMap.pushBack, builderMap, u32le_length, U32] at *
      omega
    rw [hfree1, hI]
    by_cases hfit : 4 * cur.length + 4 ≤ S - encLen cur
    · have hfit' : 4 * cur.length ≤ S - encLen cur - 4 := by omega
      rw [if_pos hfit', if_pos hfit]
      simp only []
      have hmap : ((builderMap S cur).pushBack (u32le cur.length)).pushBack
          ((offsetsFrom 0 cur).flatMap u32le) = finalMap S cur := by
        have ht1 : (S + U32 - 1) % U32 + 1 - 4 = S - 4 := by simp only [U32] at *; omega
        have ht2 : ((S + U32 - 1) % U32 + U32 - 4) % U32 + 1 - 4 * cur.length
            = S - 4 - 4 * cur.length := by simp only [U32] at *; omega
        have ht3 : (((S + U32 - 1) % U32 + U32 - 4) % U32 + U32 - 4 * cur.length) % U32
            = S - 5 - 4 * cur.length := by simp only [U32] at *; omega
        simp only [AppendableMMap.pushBack, builderMap, u32le_length, hI, ht1, ht2, ht3,
          finalMap, finalMap_buffer S cur (by omega)]
      rw [hmap, Table.ofMMap_eq (finalMap_holdsTable S cur hS hne (by omega))]
      rfl
    · have hfit' : ¬ 4 * cur.length ≤ S - encLen cur - 4 := by omega
      rw [if_neg hfit', if_neg hfit]
  · rw [if_neg h4]
    have hfit : ¬ 4 * cur.length + 4 ≤ S - encLen cur := by omega
    rw [if_neg hfit]

theorem finalTable_holds (S : Nat) (cur : List KeyValue) (hS : S < U32) (hne : cur ≠ [])
    (hk : ∀ r ∈ cur, r.key.size ≠ 0) (hfit : encLen cur + 4 * cur.length + 4 ≤ S) :
    (Table.ofRecords (finalMap S cur) cur).Holds cur :=
  Table.ofRecords_holds (finalMap_holdsTable S cur hS hne hfit) hk

/-! ## Building a table -/

theorem TableBuilder.new_holds (S : Nat) : (TableBuilder.new S).Holds S [] :=
  ⟨by simp, by simp [encLen], Or.inl ⟨rfl, rfl⟩⟩

theorem TableBuilder.builderOf_holds (S : Nat) (cur : List KeyValue)
    (hk : ∀ r ∈ cur, r.key.size ≠ 0) (hle : encLen cur ≤ S) : (builderOf S cur).Holds S cur :=
  ⟨hk, hle, Or.inr rfl⟩

/-- What `add` returns on a builder that has accepted `cur`: a rejection leaves the
accepted records as they are, an acceptance appends the record. -/
theorem TableBuilder.Holds.add_ok {b b' : TableBuilder} {S : Nat} {cur : List KeyValue}
    (h : b.Holds S cur) (hS : S < U32) {k v : Buffer} {added : Bool}
    (hadd : b.add k v = .ok (b', added)) :
    k.size ≠ 0 ∧ b'.Holds S (if added then cur ++ [⟨k, v⟩] else cur) := by
  rw [h.add_eq hS k v] at hadd
  by_cases hk : k.size = 0
  · rw [if_pos hk] at hadd; cases hadd
  · rw [if_neg hk] at hadd
    refine ⟨hk, ?_⟩
    split at hadd
    · cases hadd
      exact TableBuilder.builderOf_holds S cur h.1 h.2.1
    · split at hadd
      · rename_i hfit
        cases hadd
        have hle := h.2.1
        refine TableBuilder.builderOf_holds S _ ?_ ?_
        · intro r hr
          rcases List.mem_append.mp hr with hr | hr
          · exact h.1 r hr
          · simp only [List.mem_singleton] at hr
            subst hr; exact hk
        · rw [encLen_append, encLen_cons, encLen_nil]
          simp only [KeyValue.byteSize]; omega
      · cases hadd

theorem TableBuilder.Holds.addMany_ok {S : Nat} (hS : S < U32) (rs : List KeyValue) :
    ∀ {b b' : TableBuilder} {cur acc : List KeyValue}, b.Holds S cur →
      TableBuilder.addMany b rs = .ok (b', acc) → b'.Holds S (cur ++ acc) := by
  induction rs with
  | nil =>
    intro b b' cur acc h hm
    simp only [TableBuilder.addMany, pure, Except.pure] at hm
    cases hm
    simpa using h
  | cons r rs ih =>
    intro b b' cur acc h hm
    simp only [TableBuilder.addMany, bind, Except.bind] at hm
    cases hadd : b.add r.key r.value with
    | error e => rw [hadd] at hm; cases hm
    | ok res =>
      obtain ⟨b1, added⟩ := res
      rw [hadd] at hm
      simp only [] at hm
      cases hrest : TableBuilder.addMany b1 rs with
      | error e => rw [hrest] at hm; cases hm
      | ok res2 =>
        obtain ⟨b2, acc2⟩ := res2
        rw [hrest] at hm
        simp only [pure, Except.pure, Except.ok.injEq, Prod.mk.injEq] at hm
        obtain ⟨hb, hacc⟩ := hm
        subst hb
        have h1 := (h.add_ok hS hadd).2
        have h2 := ih h1 hrest
        cases added with
        | true =>
          simp only [if_true] at h2 hacc
          rw [← hacc]
          simpa [List.append_assoc] using h2
        | false =>
          simp only [Bool.false_eq_true, if_false] at h2 hacc
          rw [← hacc]
          exact h2

/-- The table that `finalize` returns on a builder that has accepted `cur`. -/
theorem TableBuilder.Holds.finalize_ok {b b' : TableBuilder} {S : Nat} {cur : List KeyValue}
    (h : b.Holds S cur) (hS : S < U32) (hne : cur ≠ []) {tp : TablePtr}
    (hfin : b.finalize = .ok (b', tp)) :
    b' = TableBuilder.new S ∧ tp = some (Table.ofRecords (finalMap S cur) cur) ∧
      encLen cur + 4 * cur.length + 4 ≤ S ∧ (Table.ofRecords (finalMap S cur) cur).Holds cur := by
  have hb : b = builderOf S cur := by
    rcases h.2.2 with ⟨_, hc⟩ | hb
    · exact absurd hc hne
    · exact hb
  rw [hb, TableBuilder.finalize_builderOf S cur hS h.2.1 hne] at hfin
  split at hfin
  · rename_i hfit
    cases hfin
    have hle := h.2.1
    exact ⟨rfl, rfl, by omega, finalTable_holds S cur hS hne h.1 (by omega)⟩
  · cases hfin

theorem encLen_take_lt (rs : List KeyValue) (i : Nat) (h : i < rs.length) :
    encLen (rs.take i) < encLen rs := by
  obtain ⟨r, hr⟩ := exists_getElem? rs i h
  have h1 := encLen_take_succ rs i r hr
  have h2 := encLen_take_le rs (i + 1)
  have h3 := r.byteSize_ge
  omega

theorem Table.Holds.iterLoop_eq {t : Table} {rs : List KeyValue} (h : t.Holds rs) :
    ∀ (fuel i : Nat), i ≤ rs.length → rs.length - i < fuel →
      t.iterLoop fuel (encLen (rs.take i)) = .ok (rs.drop i) := by
  intro fuel
  induction fuel with
  | zero => intro i _ hf; omega
  | succ fuel ih =>
    intro i hi hf
    by_cases hlt : i < rs.length
    · obtain ⟨r, hr⟩ := exists_getElem? rs i hlt
      have hne : encLen (rs.take i) ≠ t.end_ := by
        have := encLen_take_lt rs i hlt
        rw [Table.end_, h.end_eq]; omega
      simp only [Table.iterLoop, if_pos hne, h.iter_next i r hr, h.iter_deref i r hr]
      rw [ih (i + 1) (by omega) (by omega)]
      simp only [bind, Except.bind, pure, Except.pure]
      rw [List.drop_eq_getElem_cons hlt]
      congr 2
      rw [List.getElem?_eq_getElem hlt] at hr
      exact (Option.some.inj hr).symm
    · have hi' : i = rs.length := by omega
      subst hi'
      have : ¬ encLen (rs.take rs.length) ≠ t.end_ := by
        rw [List.take_length, Table.end_, h.end_eq]; simp
      simp only [Table.iterLoop, if_neg this, List.drop_length]
      rfl

/-- Iterating a well-formed table from `begin()` to `end()` visits its records in
order. -/
theorem Table.Holds.records_eq {t : Table} {rs : List KeyValue} (h : t.Holds rs) :
    t.records = .ok rs := by
  have := h.iterLoop_eq (t.m_num_entries + 1) 0 (by omega) (by rw [h.num]; omega)
  simpa [Table.records, Table.begin_, encLen] using this

/-- When the 32-bit sum of the size test of `add` cannot wrap, the accepted records
leave room for the offset index and the entry count. -/
theorem TableBuilder.Holds.add_fits {b b' : TableBuilder} {S : Nat} {cur : List KeyValue}
    (h : b.Holds S cur) (hS : S + 131074 < U32) {k v : Buffer} {added : Bool}
    (hfit : cur = [] ∨ encLen cur + 4 * cur.length + 4 ≤ S)
    (hadd : b.add k v = .ok (b', added)) :
    (if added then cur ++ [⟨k, v⟩] else cur) = [] ∨
      encLen (if added then cur ++ [⟨k, v⟩] else cur)
        + 4 * (if added then cur ++ [⟨k, v⟩] else cur).length + 4 ≤ S := by
  have hS' : S < U32 := by omega
  rw [h.add_eq hS' k v] at hadd
  have hrec := KeyValue.byteSize_le ⟨k, v⟩
  simp only [KeyValue.byteSize] at hrec
  split at hadd
  · cases hadd
  · split at hadd
    · cases hadd; simpa using hfit
    · rename_i hfull
      split at hadd
      · cases hadd
        right
        simp only [if_true, encLen_append, encLen_cons, encLen_nil, List.length_append,
          List.length_cons, List.length_nil, KeyValue.byteSize]
        rcases hfit with hc | hc
        · subst hc
          simp only [encLen_nil, List.length_nil, U32] at *
          omega
        · simp only [U32] at *
          omega
      · cases hadd

theorem TableBuilder.Holds.addMany_fits {S : Nat} (hS : S + 131074 < U32) (rs : List KeyValue) :
    ∀ {b b' : TableBuilder} {cur acc : List KeyValue}, b.Holds S cur →
      (cur = [] ∨ encLen cur + 4 * cur.length + 4 ≤ S) →
      TableBuilder.addMany b rs = .ok (b', acc) →
      (cur ++ acc = [] ∨ encLen (cur ++ acc) + 4 * (cur ++ acc).length + 4 ≤ S) := by
  have hS' : S < U32 := by omega
  induction rs with
  | nil =>
    intro b b' cur acc h hfit hm
    simp only [TableBuilder.addMany, pure, Except.pure] at hm
    cases hm
    simpa using hfit
  | cons r rs ih =>
    intro b b' cur acc h hfit hm
    simp only [TableBuilder.addMany, bind, Except.bind] at hm
    cases hadd : b.add r.key r.value with
    | error e => rw [hadd] at hm; cases hm
    | ok res =>
      obtain ⟨b1, added⟩ := res
      rw [hadd] at hm
      simp only [] at hm
      cases hrest : TableBuilder.addMany b1 rs with
      | error e => rw [hrest] at hm; cases hm
      | ok res2 =>
        obtain ⟨b2, acc2⟩ := res2
        rw [hrest] at hm
        simp only [pure, Except.pure, Except.ok.injEq, Prod.mk.injEq] at hm
        obtain ⟨hb, hacc⟩ := hm
        subst hb
        have h1 := (h.add_ok hS' hadd).2
        have hf1 := h.add_fits hS hfit hadd
        have h2 := ih h1 hf1 hrest
        cases added with
        | true =>
          simp only [if_true] at h2 hacc
          rw [← hacc]
          simpa [List.append_assoc] using h2
        | false =>
          simp only [Bool.false_eq_true, if_false] at h2 hacc
          rw [← hacc]
          exact h2

/-- The bytes of a well-formed table: the records from offset 0, the entry count in the
last 4 bytes, the start offsets right before it. -/
theorem Table.Holds.layout {t : Table} {rs : List KeyValue} (h : t.Holds rs) :
    t.m_mmap.m_buffer.take (encodeAll rs).length = encodeAll rs ∧
    t.m_mmap.m_buffer.drop (t.m_mmap.m_size - 4) = u32le rs.length ∧
    (t.m_mmap.m_buffer.drop (t.m_mmap.m_size - 4 - 4 * rs.length)).take (4 * rs.length)
      = (offsetsFrom 0 rs).flatMap u32le := by
  obtain ⟨pad, hb, hs⟩ := h.map.size_eq
  have hI := flatMap_u32le_length (offsetsFrom 0 rs)
  rw [offsetsFrom_length] at hI
  refine ⟨?_, ?_, ?_⟩
  · rw [hb, tableBytes, List.take_left]
  · have e : tableBytes rs pad
        = (encodeAll rs ++ (pad ++ (offsetsFrom 0 rs).flatMap u32le)) ++ u32le rs.length := by
      simp only [tableBytes, List.append_assoc]
    have hl : (encodeAll rs ++ (pad ++ (offsetsFrom 0 rs).flatMap u32le)).length
        = t.m_mmap.m_size - 4 := by
      simp only [List.length_append, encodeAll_length, hI]; omega
    rw [hb, e, ← hl, List.drop_left]
  · have e : tableBytes rs pad
        = (encodeAll rs ++ pad) ++ ((offsetsFrom 0 rs).flatMap u32le ++ u32le rs.length) := by
      simp only [tableBytes, List.append_assoc]
    have hl : (encodeAll rs ++ pad).length = t.m_mmap.m_size - 4 - 4 * rs.length := by
      simp only [List.length_append, encodeAll_length]; omega
    rw [hb, e, ← hl, List.drop_left, ← hI, List.take_left]

/-! ## The order of keys -/

theorem cmpBytes_swap (a b : Bytes) : cmpBytes a b < 0 ↔ 0 < cmpBytes b a := by
  rw [(cmpBytes_spec a b).1, (cmpBytes_spec b a).2.2]

theorem cmpBytes_trans (a : Bytes) : ∀ b c : Bytes,
    cmpBytes a b < 0 → cmpBytes b c < 0 → cmpBytes a c < 0 := by
  induction a with
  | nil =>
    intro b c hab hbc
    cases c with
    | nil =>
      exact absurd ((cmpBytes_spec b []).1.mp hbc) (not_lexLess_nil b)
    | cons z cs => exact cmpBytes_nil_cons z cs
  | cons x as ih =>
    intro b c hab hbc
    cases b with
    | nil => exact absurd ((cmpBytes_spec (x :: as) []).1.mp hab) (not_lexLess_nil _)
    | cons y bs =>
      cases c with
      | nil => exact absurd ((cmpBytes_spec (y :: bs) []).1.mp hbc) (not_lexLess_nil _)
      | cons z cs =>
        rw [cmpBytes_cons_cons] at hab hbc ⊢
        by_cases hxy : x = y
        · subst hxy
          rw [if_pos rfl] at hab
          by_cases hxz : x = z
          · subst hxz
            rw [if_pos rfl] at hbc ⊢
            exact ih bs cs hab hbc
          · rw [if_neg hxz] at hbc ⊢
            exact hbc
        · rw [if_neg hxy] at hab
          by_cases hyz : y = z
          · subst hyz
            rw [if_neg hxy]
            exact hab
          · rw [if_neg hyz] at hbc
            have hxz : x ≠ z := by
              intro h; subst h; omega
            rw [if_neg hxz]
            omega

theorem Buffer.compare_trans {a b c : Buffer} (h1 : a.compare b < 0) (h2 : b.compare c < 0) :
    a.compare c < 0 := by
  rw [Buffer.compare_eq_cmpBytes] at *
  exact cmpBytes_trans _ _ _ h1 h2

theorem Buffer.compare_swap (a b : Buffer) : a.compare b < 0 ↔ 0 < b.compare a := by
  rw [Buffer.compare_eq_cmpBytes, Buffer.compare_eq_cmpBytes]
  exact cmpBytes_swap _ _

theorem Buffer.compare_eq_zero (a b : Buffer) : a.compare b = 0 ↔ a = b := by
  rw [Buffer.compare_eq_cmpBytes, (cmpBytes_spec _ _).2.1]
  constructor
  · exact Buffer.ext_bytes
  · intro h; rw [h]

theorem Buffer.compare_self (a : Buffer) : a.compare a = 0 :=
  (Buffer.compare_eq_zero a a).mpr rfl

theorem Buffer.compare_lt_ne {a b : Buffer} (h : a.compare b < 0) : a ≠ b := by
  intro hab
  rw [hab, Buffer.compare_self] at h
  omega

/-! ## Lookup in a sorted sequence -/

theorem lookup_none (rs : List KeyValue) (key : Buffer) (h : ∀ r ∈ rs, r.key ≠ key) :
    lookup rs key = none := by
  induction rs with
  | nil => rfl
  | cons r rs ih =>
    simp only [lookup]
    rw [if_neg (h r (List.mem_cons_self _ _))]
    exact ih (fun r' hr' => h r' (List.mem_cons_of_mem _ hr'))

theorem lookup_of_mem (rs : List KeyValue) (hs : Ascending rs) (r : KeyValue) (hr : r ∈ rs) :
    lookup rs r.key = some r.value := by
  induction rs with
  | nil => simp at hr
  | cons a rs ih =>
    rw [Ascending, List.pairwise_cons] at hs
    simp only [lookup]
    rcases List.mem_cons.mp hr with h | h
    · subst h; rw [if_pos rfl]
    · have hne : a.key ≠ r.key := Buffer.compare_lt_ne (hs.1 r h)
      rw [if_neg hne]
      exact ih hs.2 h

theorem lookup_some_mem (rs : List KeyValue) (key v : Buffer) (h : lookup rs key = some v) :
    ⟨key, v⟩ ∈ rs := by
  induction rs with
  | nil => simp [lookup] at h
  | cons a rs ih =>
    simp only [lookup] at h
    split at h
    · rename_i hk
      cases a with
      | mk ak av =>
        simp only [Option.some.injEq] at h
        simp only at hk
        subst hk; subst h
        exact List.mem_cons_self _ _
    · exact List.mem_cons_of_mem _ (ih h)

theorem Ascending.getElem_lt {rs : List KeyValue} (hs : Ascending rs) {i j : Nat}
    {a b : KeyValue} (hi : rs[i]? = some a) (hj : rs[j]? = some b) (hij : i < j) :
    a.key.compare b.key < 0 := by
  have hil := getElem?_lt_length rs i a hi
  have hjl := getElem?_lt_length rs j b hj
  have := List.pairwise_iff_getElem.mp hs i j hil hjl hij
  rw [List.getElem?_eq_getElem hil] at hi
  rw [List.getElem?_eq_getElem hjl] at hj
  rw [← Option.some.inj hi, ← Option.some.inj hj]
  exact this

theorem mem_of_getElem? {α : Type} (l : List α) (i : Nat) (r : α) (h : l[i]? = some r) :
    r ∈ l := by
  have hl := getElem?_lt_length l i r h
  rw [List.getElem?_eq_getElem hl] at h
  rw [← Option.some.inj h]
  exact List.getElem_mem hl

/-! ## Table::get -/

theorem Table.Holds.getLoop_eq {t : Table} {rs : List KeyValue} (h : t.Holds rs)
    (hs : Ascending rs) (key : Buffer) :
    ∀ (fuel : Nat) (min max : Int), 0 ≤ min → max < rs.length → min ≤ max + 1 →
      max - min + 1 < fuel →
      (∀ (i : Nat) (r : KeyValue), rs[i]? = some r → (i : Int) < min → r.key.compare key < 0) →
      (∀ (i : Nat) (r : KeyValue), rs[i]? = some r → max < (i : Int) → key.compare r.key < 0) →
      t.getLoop key fuel min max = .ok (lookup rs key) := by
  have hc := h.map.count_lt
  intro fuel
  induction fuel with
  | zero => intro min max _ _ _ hf; omega
  | succ fuel ih =>
    intro min max hmin hmax hle hf hlo hhi
    by_cases hmm : min ≤ max
    · have hhalf : ((min + max) / 2).toNat % U32 = ((min + max) / 2).toNat := by
        apply Nat.mod_eq_of_lt
        have := hc.2.1
        omega
      obtain ⟨item, hitem⟩ := exists_getElem? rs ((min + max) / 2).toNat (by omega)
      simp only [Table.getLoop, if_pos hmm, hhalf, h.get_at _ _ hitem, bind, Except.bind]
      by_cases hlt : key.lt item.key = true
      · rw [if_pos hlt]
        have hlt' : key.compare item.key < 0 := by simpa [Buffer.lt] using hlt
        apply ih min ((min + max) / 2 - 1) hmin (by omega) (by omega) (by omega) hlo
        intro i r hr hi
        by_cases hie : i = ((min + max) / 2).toNat
        · subst hie
          rw [hitem] at hr
          cases hr
          exact hlt'
        · exact Buffer.compare_trans hlt' (hs.getElem_lt hitem hr (by omega))
      · rw [if_neg hlt]
        have hlt' : ¬ key.compare item.key < 0 := by simpa [Buffer.lt] using hlt
        by_cases hgt : key.gt item.key = true
        · rw [if_pos hgt]
          have hgt' : item.key.compare key < 0 := by
            rw [Buffer.compare_swap]
            simpa [Buffer.gt] using hgt
          apply ih ((min + max) / 2 + 1) max (by omega) hmax (by omega) (by omega) _ hhi
          intro i r hr hi
          by_cases hie : i = ((min + max) / 2).toNat
          · subst hie
            rw [hitem] at hr
            cases hr
            exact hgt'
          · exact Buffer.compare_trans (hs.getElem_lt hr hitem (by omega)) hgt'
        · rw [if_neg hgt]
          have hgt' : ¬ 0 < key.compare item.key := by simpa [Buffer.gt] using hgt
          have heq : key = item.key := (Buffer.compare_eq_zero _ _).mp (by omega)
          rw [heq, lookup_of_mem rs hs item (mem_of_getElem? _ _ _ hitem)]
          rfl
    · simp only [Table.getLoop, if_neg hmm]
      rw [lookup_none]
      · rfl
      · intro r hr hk
        obtain ⟨i, hi, hri⟩ := List.getElem_of_mem hr
        have hri' : rs[i]? = some r := by rw [List.getElem?_eq_getElem hi, hri]
        subst hk
        by_cases hlt : (i : Int) < min
        · have := hlo i r hri' hlt
          rw [Buffer.compare_self] at this; omega
        · have := hhi i r hri' (by omega)
          rw [Buffer.compare_self] at this; omega

/-- `Table::get` on a well-formed table with strictly ascending records returns the
value stored with the key, and "not found" for a key that is not in the table. -/
theorem Table.Holds.get_eq {t : Table} {rs : List KeyValue} (h : t.Holds rs)
    (hs : Ascending rs) (key : Buffer) : t.get key = .ok (lookup rs key) := by
  have hc := h.map.count_lt
  have hn : (rs.length + U32 - 1) % U32 = rs.length - 1 := by
    simp only [U32] at *; omega
  simp only [Table.get, h.num, hn]
  apply h.getLoop_eq hs key _ _ _ (by omega) (by omega) (by omega) (by omega)
  · intro i r _ hi; omega
  · intro i r hr hi
    have := getElem?_lt_length rs i r hr
    omega

/-! ## The finalized table -/

/-- A table returned by `finalize` is the well-formed table of the accepted records. -/
theorem TableBuilder.Holds.finalize_some {b b' : TableBuilder} {S : Nat} {cur : List KeyValue}
    (h : b.Holds S cur) (hS : S < U32) {t : Table} (hfin : b.finalize = .ok (b', some t)) :
    cur ≠ [] ∧ t = Table.ofRecords (finalMap S cur) cur ∧ t.Holds cur := by
  have hne : cur ≠ [] := by
    intro hc
    subst hc
    rcases h.2.2 with ⟨hb, _⟩ | hb
    · rw [hb, TableBuilder.finalize_new] at hfin; cases hfin
    · rw [hb, TableBuilder.finalize_builderOf_nil] at hfin; cases hfin
  obtain ⟨_, htp, _, hh⟩ := h.finalize_ok hS hne hfin
  have ht := Option.some.inj htp
  exact ⟨hne, ht, ht ▸ hh⟩

/-- When the 32-bit sum of the size test of `add` cannot wrap, `finalize` returns a
table for every builder that has accepted a record. -/
theorem TableBuilder.finalize_succeeds (S : Nat) (rs acc : List KeyValue) (b : TableBuilder)
    (hS : S + 131074 < U32)
    (hadd : TableBuilder.addMany (TableBuilder.new S) rs = .ok (b, acc)) (hne : acc ≠ []) :
    ∃ b' t, b.finalize = .ok (b', some t) := by
  have hS' : S < U32 := by omega
  have hh := TableBuilder.Holds.addMany_ok hS' rs (TableBuilder.new_holds S) hadd
  have hf := TableBuilder.Holds.addMany_fits hS rs (TableBuilder.new_holds S) (Or.inl rfl) hadd
  simp only [List.nil_append] at hh hf
  have hfit : encLen acc + 4 * acc.length + 4 ≤ S := by
    rcases hf with h | h
    · exact absurd h hne
    · exact h
  have hb : b = builderOf S acc := by
    rcases hh.2.2 with ⟨_, hc⟩ | hb
    · exact absurd hc hne
    · exact hb
  refine ⟨TableBuilder.new S, Table.ofRecords (finalMap S acc) acc, ?_⟩
  rw [hb, TableBuilder.finalize_builderOf S acc hS' hh.2.1 hne, if_pos (by omega)]

/-- C10: after `finalize` on a builder that accepted the records `acc` (at least one)
in that order, the bytes of the table are: from offset 0 the concatenation of the
records, each encoded as 2-byte key length, key bytes, 2-byte value length, value bytes
(little-endian); the last 4 bytes of the file hold the number of records; the `4 * n`
bytes right before them hold, in record order, the start offset of each record. -/
theorem finalize_table_bytes (S : Nat) (rs acc : List KeyValue) (b b' : TableBuilder)
    (t : Table) (hS : S < U32)
    (hadd : TableBuilder.addMany (TableBuilder.new S) rs = .ok (b, acc)) (_hne : acc ≠ [])
    (hfin : b.finalize = .ok (b', some t)) :
    t.m_mmap.m_buffer.length = S ∧
    t.m_mmap.m_buffer.take (encodeAll acc).length = encodeAll acc ∧
    t.m_mmap.m_buffer.drop (S - 4) = u32le acc.length ∧
    (t.m_mmap.m_buffer.drop (S - 4 - 4 * acc.length)).take (4 * acc.length)
      = (offsetsFrom 0 acc).flatMap u32le := by
  have hh := TableBuilder.Holds.addMany_ok hS rs (TableBuilder.new_holds S) hadd
  simp only [List.nil_append] at hh
  obtain ⟨_, ht, hholds⟩ := hh.finalize_some hS hfin
  have hsz : t.m_mmap.m_size = S := by rw [ht]; rfl
  have hl := hholds.layout
  rw [hsz] at hl
  exact ⟨hsz ▸ hholds.length, hl⟩

/-- Witness of C10: the records `a -> x`, `b -> y` in a table of 32 bytes. -/
theorem finalize_table_bytes_witness :
    TableBuilder.addMany (TableBuilder.new 32) [recA, recB]
      = .ok (builderOf 32 [recA, recB], [recA, recB]) ∧
    (builderOf 32 [recA, recB]).finalize
      = .ok (TableBuilder.new 32, some (Table.ofRecords (finalMap 32 [recA, recB]) [recA, recB])) ∧
    (Table.ofRecords (finalMap 32 [recA, recB]) [recA, recB]).m_mmap.m_buffer.length = 32 ∧
    (Table.ofRecords (finalMap 32 [recA, recB]) [recA, recB]).m_mmap.m_buffer.take
      (encodeAll [recA, recB]).length = encodeAll [recA, recB] ∧
    (Table.ofRecords (finalMap 32 [recA, recB]) [recA, recB]).m_mmap.m_buffer.drop (32 - 4)
      = u32le [recA, recB].length ∧
    ((Table.ofRecords (finalMap 32 [recA, recB]) [recA, recB]).m_mmap.m_buffer.drop
      (32 - 4 - 4 * [recA, recB].length)).take (4 * [recA, recB].length)
      = (offsetsFrom 0 [recA, recB]).flatMap u32le :=
  ⟨by decide, by decide,
    finalize_table_bytes 32 [recA, recB] [recA, recB] (builderOf 32 [recA, recB])
      (TableBuilder.new 32) (Table.ofRecords (finalMap 32 [recA, recB]) [recA, recB])
      (by decide) (by decide) (by decide) (by decide)⟩

/-- C7: for every sequence of `n >= 1` records that `add` accepts on one builder, the
finalized table has `size() = n`, and iterating it from `begin()` to `end()` yields
exactly those records, in the order they were added. -/
theorem finalize_table_iterates (S : Nat) (rs acc : List KeyValue) (b b' : TableBuilder)
    (t : Table) (hS : S < U32)
    (hadd : TableBuilder.addMany (TableBuilder.new S) rs = .ok (b, acc)) (_hne : acc ≠ [])
    (hfin : b.finalize = .ok (b', some t)) :
    t.size = acc.length ∧ t.records = .ok acc := by
  have hh := TableBuilder.Holds.addMany_ok hS rs (TableBuilder.new_holds S) hadd
  simp only [List.nil_append] at hh
  obtain ⟨_, _, hholds⟩ := hh.finalize_some hS hfin
  exact ⟨hholds.num, hholds.records_eq⟩

/-- Witness of C7: the records `a -> x`, `b -> y` in a table of 32 bytes. -/
theorem finalize_table_iterates_witness :
    TableBuilder.addMany (TableBuilder.new 32) [recA, recB]
      = .ok (builderOf 32 [recA, recB], [recA, recB]) ∧
    (builderOf 32 [recA, recB]).finalize
      = .ok (TableBuilder.new 32, some (Table.ofRecords (finalMap 32 [recA, recB]) [recA, recB])) ∧
    (Table.ofRecords (finalMap 32 [recA, recB]) [recA, recB]).size = [recA, recB].length ∧
    (Table.ofRecords (finalMap 32 [recA, recB]) [recA, recB]).records = .ok [recA, recB] :=
  ⟨by decide, by decide,
    finalize_table_iterates 32 [recA, recB] [recA, recB] (builderOf 32 [recA, recB])
      (TableBuilder.new 32) (Table.ofRecords (finalMap 32 [recA, recB]) [recA, recB])
      (by decide) (by decide) (by decide) (by decide)⟩

/-- C6: for every table finalized from a strictly ascending sequence of records that
`add` accepted, `Table::get(k)` returns the value stored with `k` when `k` is one of
the added keys and "not found" for every other key. -/
theorem finalize_table_get (S : Nat) (rs acc : List KeyValue) (b b' : TableBuilder)
    (t : Table) (hS : S < U32)
    (hadd : TableBuilder.addMany (TableBuilder.new S) rs = .ok (b, acc)) (hasc : Ascending acc)
    (hfin : b.finalize = .ok (b', some t)) :
    (∀ r ∈ acc, t.get r.key = .ok (some r.value)) ∧
    (∀ k : Buffer, (∀ r ∈ acc, r.key ≠ k) → t.get k = .ok none) := by
  have hh := TableBuilder.Holds.addMany_ok hS rs (TableBuilder.new_holds S) hadd
  simp only [List.nil_append] at hh
  obtain ⟨_, _, hholds⟩ := hh.finalize_some hS hfin
  constructor
  · intro r hr
    rw [hholds.get_eq hasc, lookup_of_mem acc hasc r hr]
  · intro k hk
    rw [hholds.get_eq hasc, lookup_none acc k hk]

/-- Witness of C6: the records `a -> x`, `b -> y` in a table of 32 bytes. -/
theorem finalize_table_get_witness :
    TableBuilder.addMany (TableBuilder.new 32) [recA, recB]
      = .ok (builderOf 32 [recA, recB], [recA, recB]) ∧
    (builderOf 32 [recA, recB]).finalize
      = .ok (TableBuilder.new 32, some (Table.ofRecords (finalMap 32 [recA, recB]) [recA, recB])) ∧
    Ascending [recA, recB] ∧
    (∀ r ∈ [recA, recB],
      (Table.ofRecords (finalMap 32 [recA, recB]) [recA, recB]).get r.key = .ok (some r.value)) ∧
    (∀ k : Buffer, (∀ r ∈ [recA, recB], r.key ≠ k) →
      (Table.ofRecords (finalMap 32 [recA, recB]) [recA, recB]).get k = .ok none) :=
  ⟨by decide, by decide, by simp [Ascending, recA, recB]; decide,
    finalize_table_get 32 [recA, recB] [recA, recB] (builderOf 32 [recA, recB])
      (TableBuilder.new 32) (Table.ofRecords (finalMap 32 [recA, recB]) [recA, recB])
      (by decide) (by decide) (by simp [Ascending, recA, recB]; decide) (by decide)⟩

/-! ## The search for the smallest current key -/

theorem Buffer.compare_trichotomy (a b : Buffer) :
    a.compare b < 0 ∨ a = b ∨ b.compare a < 0 := by
  rcases Int.lt_trichotomy (a.compare b) 0 with h | h | h
  · exact Or.inl h
  · exact Or.inr (Or.inl ((Buffer.compare_eq_zero a b).mp h))
  · exact Or.inr (Or.inr ((Buffer.compare_swap b a).mpr h))

theorem Buffer.compare_irrefl (a : Buffer) : ¬ a.compare a < 0 := by
  rw [Buffer.compare_self]; omega

theorem Buffer.compare_asymm {a b : Buffer} (h : a.compare b < 0) : ¬ b.compare a < 0 := by
  intro h2
  exact Buffer.compare_irrefl a (Buffer.compare_trans h h2)

theorem Buffer.lt_of_not_lt_of_lt {a b c : Buffer} (h1 : ¬ b.compare a < 0)
    (h2 : b.compare c < 0) : a.compare c < 0 ∨ a = b := by
  rcases Buffer.compare_trichotomy a b with h | h | h
  · exact Or.inl (Buffer.compare_trans h h2)
  · exact Or.inr h
  · exact absurd h h1

theorem Buffer.lt_of_lt_of_not_lt {a b c : Buffer} (h1 : a.compare b < 0)
    (h2 : ¬ c.compare b < 0) : a.compare c < 0 := by
  rcases Buffer.compare_trichotomy b c with h | h | h
  · exact Buffer.compare_trans h1 h
  · rw [← h]; exact h1
  · exact absurd h h2

theorem Buffer.not_lt_of_not_lt_of_not_lt {a b c : Buffer} (h1 : ¬ b.compare a < 0)
    (h2 : ¬ c.compare b < 0) : ¬ c.compare a < 0 := by
  intro h
  rcases Buffer.compare_trichotomy a b with hab | hab | hab
  · exact h2 (Buffer.compare_trans h hab)
  · rw [hab] at h; exact h2 h
  · exact h1 hab

theorem minIndex_spec (rest : List Buffer) :
    ∀ (pre : List Buffer) (mi : Nat) (mk : Buffer), pre[mi]? = some mk →
      (∀ (j : Nat) (k : Buffer), pre[j]? = some k →
        ¬ k.compare mk < 0 ∧ (j < mi → mk.compare k < 0)) →
      IsFirstMin (pre ++ rest) (minIndex rest pre.length mi mk) := by
  induction rest with
  | nil =>
    intro pre mi mk hmi hinv
    simp only [minIndex, List.append_nil]
    refine ⟨getElem?_lt_length _ _ _ hmi, ?_⟩
    intro j k kr hj hr
    rw [hmi] at hr
    cases hr
    exact hinv j k hj
  | cons k rest ih =>
    intro pre mi mk hmi hinv
    have hmil := getElem?_lt_length _ _ _ hmi
    have happ : pre ++ k :: rest = (pre ++ [k]) ++ rest := by simp
    have hlen : (pre ++ [k]).length = pre.length + 1 := by simp
    simp only [minIndex]
    by_cases hlt : k.compare mk < 0
    · rw [if_pos hlt, happ, ← hlen]
      apply ih (pre ++ [k]) pre.length k
      · simp
      · intro j k' hj
        by_cases hjl : j < pre.length
        · rw [List.getElem?_append_left hjl] at hj
          have h1 := (hinv j k' hj).1
          refine ⟨?_, fun _ => Buffer.lt_of_lt_of_not_lt hlt h1⟩
          intro hk'
          exact h1 (Buffer.compare_trans hk' hlt)
        · have hjl' : j = pre.length := by
            have := getElem?_lt_length _ _ _ hj
            simp at this; omega
          subst hjl'
          simp at hj
          subst hj
          exact ⟨Buffer.compare_irrefl _, fun h => absurd h (Nat.lt_irrefl _)⟩
    · rw [if_neg hlt, happ, ← hlen]
      apply ih (pre ++ [k]) mi mk
      · rw [List.getElem?_append_left hmil]; exact hmi
      · intro j k' hj
        by_cases hjl : j < pre.length
        · rw [List.getElem?_append_left hjl] at hj
          exact hinv j k' hj
        · have hjl' : j = pre.length := by
            have := getElem?_lt_length _ _ _ hj
            simp at this; omega
          subst hjl'
          simp at hj
          subst hj
          exact ⟨hlt, fun h => by omega⟩

theorem minIndex_isFirstMin (k0 : Buffer) (ks : List Buffer) :
    IsFirstMin (k0 :: ks) (minIndex ks 1 0 k0) := by
  have := minIndex_spec ks [k0] 0 k0 (by simp) (by
    intro j k hj
    have hj0 : j = 0 := by
      have := getElem?_lt_length _ _ _ hj
      simp at this; omega
    subst hj0
    simp at hj
    subst hj
    exact ⟨Buffer.compare_irrefl _, fun h => absurd h (Nat.lt_irrefl _)⟩)
  simpa using this

/-! ## The merged stream -/

theorem advance_sub (its : List (List KeyValue)) :
    ∀ (r : Nat), (∀ rem ∈ its, rem ≠ []) →
      ∀ rem' ∈ advance its r, rem' ≠ [] ∧ ∃ rem ∈ its, rem'.Sublist rem := by
  induction its with
  | nil => intro r _ rem' h; simp [advance] at h
  | cons a its ih =>
    intro r hne rem' h
    cases r with
    | zero =>
      simp only [advance] at h
      split at h
      · exact ⟨hne rem' (List.mem_cons_of_mem _ h),
          rem', List.mem_cons_of_mem _ h, List.Sublist.refl _⟩
      · rename_i ht
        rcases List.mem_cons.mp h with h | h
        · subst h
          exact ⟨ht, a, List.mem_cons_self _ _, List.tail_sublist a⟩
        · exact ⟨hne rem' (List.mem_cons_of_mem _ h),
            rem', List.mem_cons_of_mem _ h, List.Sublist.refl _⟩
    | succ r =>
      simp only [advance] at h
      rcases List.mem_cons.mp h with h | h
      · subst h
        exact ⟨hne _ (List.mem_cons_self _ _), rem', List.mem_cons_self _ _, List.Sublist.refl _⟩
      · obtain ⟨h1, rem, hrem, hsub⟩ :=
          ih r (fun x hx => hne x (List.mem_cons_of_mem _ hx)) rem' h
        exact ⟨h1, rem, List.mem_cons_of_mem _ hrem, hsub⟩

theorem advance_total (its : List (List KeyValue)) :
    ∀ (r : Nat) (item : KeyValue) (rest : List KeyValue), its[r]? = some (item :: rest) →
      totalRecords (advance its r) + 1 = totalRecords its := by
  induction its with
  | nil => intro r item rest h; simp at h
  | cons a its ih =>
    intro r item rest h
    cases r with
    | zero =>
      simp only [List.getElem?_cons_zero, Option.some.injEq] at h
      subst h
      simp only [advance, List.tail_cons]
      split
      · rename_i ht
        subst ht
        simp [totalRecords]; omega
      · simp [totalRecords]; omega
    | succ r =>
      simp only [List.getElem?_cons_succ] at h
      have := ih r item rest h
      simp only [advance, totalRecords, List.map_cons, List.sum_cons] at this ⊢
      omega

theorem lookup_cons_ne (item : KeyValue) (rest : List KeyValue) (k : Buffer)
    (h : item.key ≠ k) : lookup (item :: rest) k = lookup rest k := by
  simp only [lookup, if_neg h]

theorem firstValue_advance (its : List (List KeyValue)) :
    ∀ (r : Nat) (item : KeyValue) (rest : List KeyValue) (k : Buffer),
      its[r]? = some (item :: rest) → item.key ≠ k →
      firstValue (advance its r) k = firstValue its k := by
  induction its with
  | nil => intro r item rest k h; simp at h
  | cons a its ih =>
    intro r item rest k h hk
    cases r with
    | zero =>
      simp only [List.getElem?_cons_zero, Option.some.injEq] at h
      subst h
      simp only [advance, List.tail_cons]
      split
      · rename_i ht
        subst ht
        simp only [firstValue, lookup, if_neg hk]
      · simp only [firstValue, lookup_cons_ne item rest k hk]
    | succ r =>
      simp only [List.getElem?_cons_succ] at h
      simp only [advance, firstValue, ih r item rest k h hk]

theorem firstValue_at (its : List (List KeyValue)) :
    ∀ (r : Nat) (item : KeyValue) (rest : List KeyValue),
      its[r]? = some (item :: rest) →
      (∀ (j : Nat) (rem : List KeyValue), j < r → its[j]? = some rem →
        lookup rem item.key = none) →
      firstValue its item.key = some item.value := by
  induction its with
  | nil => intro r item rest h; simp at h
  | cons a its ih =>
    intro r item rest h hnone
    cases r with
    | zero =>
      simp only [List.getElem?_cons_zero, Option.some.injEq] at h
      subst h
      simp [firstValue, lookup]
    | succ r =>
      simp only [List.getElem?_cons_succ] at h
      have h0 := hnone 0 a (by omega) (by simp)
      simp only [firstValue, h0]
      apply ih r item rest h
      intro j rem hj hrem
      exact hnone (j + 1) rem (by omega) (by simpa using hrem)

theorem firstValue_none (its : List (List KeyValue)) (k : Buffer)
    (h : ∀ rem ∈ its, ∀ x ∈ rem, x.key ≠ k) : firstValue its k = none := by
  induction its with
  | nil => rfl
  | cons a its ih =>
    simp only [firstValue, lookup_none a k (h a (List.mem_cons_self _ _))]
    exact ih (fun rem hrem => h rem (List.mem_cons_of_mem _ hrem))

theorem Ascending.head_le {item : KeyValue} {rest : List KeyValue}
    (h : Ascending (item :: rest)) (x : KeyValue) (hx : x ∈ item :: rest) :
    ¬ x.key.compare item.key < 0 := by
  rw [Ascending, List.pairwise_cons] at h
  rcases List.mem_cons.mp hx with hx | hx
  · subst hx; exact Buffer.compare_irrefl _
  · exact Buffer.compare_asymm (h.1 x hx)

/-- What the search finds: the first record of input `r` has a smallest key among all
remaining records, and a key smaller than every record of the inputs before `r`. -/
theorem firstMin_facts (its : List (List KeyValue)) (r : Nat)
    (hne : ∀ rem ∈ its, rem ≠ []) (hasc : ∀ rem ∈ its, Ascending rem)
    (hmin : IsFirstMin (its.map headKey) r) :
    ∃ item rest, its[r]? = some (item :: rest) ∧
      (∀ rem ∈ its, ∀ x ∈ rem, ¬ x.key.compare item.key < 0) ∧
      (∀ (j : Nat) (rem : List KeyValue), j < r → its[j]? = some rem →
        ∀ x ∈ rem, item.key.compare x.key < 0) := by
  obtain ⟨hr, hall⟩ := hmin
  rw [List.length_map] at hr
  obtain ⟨remr, hremr⟩ := exists_getElem? its r hr
  have hremr_ne := hne remr (mem_of_getElem? _ _ _ hremr)
  cases remr with
  | nil => exact absurd rfl hremr_ne
  | cons item rest =>
    have hkr : (its.map headKey)[r]? = some item.key := by
      rw [List.getElem?_map, hremr]; rfl
    refine ⟨item, rest, hremr, ?_, ?_⟩
    · intro rem hrem x hx
      obtain ⟨j, hj, hjrem⟩ := List.getElem_of_mem hrem
      have hjrem' : its[j]? = some rem := by rw [List.getElem?_eq_getElem hj, hjrem]
      have hrem_ne := hne rem hrem
      cases rem with
      | nil => exact absurd rfl hrem_ne
      | cons h t =>
        have hkj : (its.map headKey)[j]? = some h.key := by
          rw [List.getElem?_map, hjrem']; rfl
        have h1 := (hall j h.key item.key hkj hkr).1
        have h2 := (hasc _ hrem).head_le x hx
        exact Buffer.not_lt_of_not_lt_of_not_lt h1 h2
    · intro j rem hj hjrem x hx
      have hrem := mem_of_getElem? _ _ _ hjrem
      have hrem_ne := hne rem hrem
      cases rem with
      | nil => exact absurd rfl hrem_ne
      | cons h t =>
        have hkj : (its.map headKey)[j]? = some h.key := by
          rw [List.getElem?_map, hjrem]; rfl
        have h1 := (hall j h.key item.key hkj hkr).2 hj
        have h2 := (hasc _ hrem).head_le x hx
        exact Buffer.lt_of_lt_of_not_lt h1 h2

theorem firstValue_some_mem (its : List (List KeyValue)) (k v : Buffer)
    (h : firstValue its k = some v) : ∃ rem ∈ its, (⟨k, v⟩ : KeyValue) ∈ rem := by
  induction its with
  | nil => simp [firstValue] at h
  | cons a its ih =>
    simp only [firstValue] at h
    cases hl : lookup a k with
    | some w =>
      rw [hl] at h
      simp only [Option.some.injEq] at h
      subst h
      exact ⟨a, List.mem_cons_self _ _, lookup_some_mem a k w hl⟩
    | none =>
      rw [hl] at h
      obtain ⟨rem, hrem, hmem⟩ := ih h
      exact ⟨rem, List.mem_cons_of_mem _ hrem, hmem⟩

theorem firstValue_isSome_of_mem (its : List (List KeyValue)) (rem : List KeyValue)
    (hrem : rem ∈ its) (x : KeyValue) (hx : x ∈ rem) (hasc : ∀ rem ∈ its, Ascending rem) :
    ∃ v, firstValue its x.key = some v := by
  induction its with
  | nil => simp at hrem
  | cons a its ih =>
    simp only [firstValue]
    cases hl : lookup a x.key with
    | some w => exact ⟨w, rfl⟩
    | none =>
      rcases List.mem_cons.mp hrem with h | h
      · subst h
        rw [lookup_of_mem rem (hasc rem (List.mem_cons_self _ _)) x hx] at hl
        cases hl
      · exact ih h (fun r hr => hasc r (List.mem_cons_of_mem _ hr))

/-- The stream that the merge loop hands to the builder is strictly ascending, lies
above the last key handed over before, and holds for every key the value of the
lowest-index input that contains the key. -/
theorem mergeStream_spec : ∀ (fuel : Nat) (its : List (List KeyValue)) (last : Buffer),
    (∀ rem ∈ its, rem ≠ []) → (∀ rem ∈ its, Ascending rem) →
    (∀ rem ∈ its, ∀ x ∈ rem, ¬ x.key.compare last < 0) →
    totalRecords its < fuel →
    Ascending (mergeStream fuel its last) ∧
    (∀ x ∈ mergeStream fuel its last, last.compare x.key < 0) ∧
    ∀ k, lookup (mergeStream fuel its last) k = if k = last then none else firstValue its k := by
  intro fuel
  induction fuel with
  | zero => intro its last _ _ _ hf; omega
  | succ fuel ih =>
    intro its last hne hasc hge hf
    cases its with
    | nil =>
      simp only [mergeStream]
      refine ⟨List.Pairwise.nil, by simp, ?_⟩
      intro k
      simp [lookup, firstValue]
    | cons first others =>
      have hmin : IsFirstMin ((first :: others).map headKey)
          (minIndex (others.map headKey) 1 0 (headKey first)) := by
        rw [List.map_cons]; exact minIndex_isFirstMin _ _
      obtain ⟨item, rest, hr, hle, hbefore⟩ := firstMin_facts _ _ hne hasc hmin
      have hget : (first :: others).getD (minIndex (others.map headKey) 1 0 (headKey first)) []
          = item :: rest := by
        rw [List.getD_eq_getElem?_getD, hr]; rfl
      have hitem_mem : item ∈ item :: rest := List.mem_cons_self _ _
      have hrem_mem := mem_of_getElem? _ _ _ hr
      have hsub := advance_sub (first :: others)
        (minIndex (others.map headKey) 1 0 (headKey first)) hne
      have htot := advance_total _ _ item rest hr
      have hne' : ∀ rem ∈ advance (first :: others)
          (minIndex (others.map headKey) 1 0 (headKey first)), rem ≠ [] :=
        fun rem hrem => (hsub rem hrem).1
      have hasc' : ∀ rem ∈ advance (first :: others)
          (minIndex (others.map headKey) 1 0 (headKey first)), Ascending rem := by
        intro rem hrem
        obtain ⟨_, rem0, hrem0, hs⟩ := hsub rem hrem
        exact List.Pairwise.sublist hs (hasc rem0 hrem0)
      have hmem' : ∀ rem ∈ advance (first :: others)
          (minIndex (others.map headKey) 1 0 (headKey first)), ∀ x ∈ rem,
          ∃ rem0 ∈ first :: others, x ∈ rem0 := by
        intro rem hrem x hx
        obtain ⟨_, rem0, hrem0, hs⟩ := hsub rem hrem
        exact ⟨rem0, hrem0, hs.subset hx⟩
      have hlast_item : ¬ item.key.compare last < 0 := hge _ hrem_mem item hitem_mem
      simp only [mergeStream, hget]
      by_cases heq : item.key = last
      · rw [if_pos heq]
        have hge' : ∀ rem ∈ advance (first :: others)
            (minIndex (others.map headKey) 1 0 (headKey first)), ∀ x ∈ rem,
            ¬ x.key.compare last < 0 := by
          intro rem hrem x hx
          obtain ⟨rem0, hrem0, hx0⟩ := hmem' rem hrem x hx
          exact hge rem0 hrem0 x hx0
        obtain ⟨h1, h2, h3⟩ := ih _ last hne' hasc' hge' (by omega)
        refine ⟨h1, h2, ?_⟩
        intro k
        rw [h3 k]
        by_cases hk : k = last
        · rw [if_pos hk, if_pos hk]
        · rw [if_neg hk, if_neg hk]
          exact firstValue_advance _ _ item rest k hr (fun h => hk (h ▸ heq.symm ▸ rfl))
      · rw [if_neg heq]
        have hge' : ∀ rem ∈ advance (first :: others)
            (minIndex (others.map headKey) 1 0 (headKey first)), ∀ x ∈ rem,
            ¬ x.key.compare item.key < 0 := by
          intro rem hrem x hx
          obtain ⟨rem0, hrem0, hx0⟩ := hmem' rem hrem x hx
          exact hle rem0 hrem0 x hx0
        obtain ⟨h1, h2, h3⟩ := ih _ item.key hne' hasc' hge' (by omega)
        have hlt_last : last.compare item.key < 0 := by
          rcases Buffer.compare_trichotomy last item.key with h | h | h
          · exact h
          · exact absurd h.symm heq
          · exact absurd h hlast_item
        refine ⟨?_, ?_, ?_⟩
        · rw [Ascending, List.pairwise_cons]
          exact ⟨h2, h1⟩
        · intro x hx
          rcases List.mem_cons.mp hx with hx | hx
          · subst hx; exact hlt_last
          · exact Buffer.compare_trans hlt_last (h2 x hx)
        · intro k
          by_cases hk : item.key = k
          · subst hk
            simp only [lookup, if_true]
            have hkl : ¬ item.key = last := heq
            rw [if_neg hkl]
            symm
            apply firstValue_at _ _ item rest hr
            intro j rem hj hjrem
            apply lookup_none
            intro x hx hxk
            have := hbefore j rem hj hjrem x hx
            rw [hxk] at this
            exact Buffer.compare_irrefl _ this
          · rw [lookup_cons_ne item _ k hk, h3 k]
            have hk' : ¬ k = item.key := fun h => hk h.symm
            rw [if_neg hk']
            by_cases hkl : k = last
            · rw [if_pos hkl]
              apply firstValue_none
              intro rem hrem x hx hxk
              have := hge' rem hrem x hx
              rw [hxk, hkl] at this
              exact this hlt_last
            · rw [if_neg hkl]
              exact firstValue_advance _ _ item rest k hr hk

/-! ## Iterators over well-formed tables -/

theorem IterRep.deref {it : Table × Nat} {r : KeyValue} {rest : List KeyValue}
    (h : IterRep it (r :: rest)) :
    it.1.iter_deref it.2 = r ∧
    (it.1.iter_next it.2 = it.1.end_ ↔ rest = []) ∧
    (rest ≠ [] → IterRep (it.1, it.1.iter_next it.2) rest) := by
  obtain ⟨_, pre, hh, hoff⟩ := h
  have hidx : (pre ++ r :: rest)[pre.length]? = some r := by
    rw [List.getElem?_append_right (Nat.le_refl _)]; simp
  have htake : (pre ++ r :: rest).take pre.length = pre := by
    rw [List.take_append_of_le_length (Nat.le_refl _), List.take_length]
  have htake1 : (pre ++ r :: rest).take (pre.length + 1) = pre ++ [r] := by
    rw [List.take_append_eq_append_take, List.take_of_length_le (by omega)]
    simp
  have hd := hh.iter_deref pre.length r hidx
  have hn := hh.iter_next pre.length r hidx
  rw [htake] at hd hn
  rw [htake1] at hn
  rw [hoff]
  refine ⟨hd, ?_, ?_⟩
  · rw [hn, Table.end_, hh.end_eq, encLen_append, encLen_append, encLen_cons, encLen_cons,
      encLen_nil]
    constructor
    · intro he
      have := encLen_ge rest
      cases rest with
      | nil => rfl
      | cons a rest =>
        have := a.byteSize_ge
        rw [encLen_cons] at he
        omega
    · intro he; subst he; simp [encLen_nil]
  · intro hrest
    refine ⟨hrest, pre ++ [r], ?_, hn⟩
    simpa [List.append_assoc] using hh

theorem IterRep.key_eq {it : Table × Nat} {rem : List KeyValue} (h : IterRep it rem) :
    (it.1.iter_deref it.2).key = headKey rem := by
  cases rem with
  | nil => exact absurd rfl h.1
  | cons r rest => rw [h.deref.1]; rfl

theorem findMin_fst (others : List (Table × Nat)) :
    ∀ (oits : List (List KeyValue)) (i mi : Nat) (mit : Table × Nat) (mk : Buffer),
      List.Forall₂ IterRep others oits → (mit.1.iter_deref mit.2).key = mk →
      (TableBuilder.findMin others i mi mit).1 = minIndex (oits.map headKey) i mi mk := by
  induction others with
  | nil =>
    intro oits i mi mit mk hrep hk
    cases hrep
    simp [TableBuilder.findMin, minIndex]
  | cons it others ih =>
    intro oits i mi mit mk hrep hk
    cases hrep with
    | cons hit hrest =>
      rename_i rem oits'
      have hkit := hit.key_eq
      simp only [TableBuilder.findMin, List.map_cons, minIndex, hkit, hk]
      split
      · exact ih oits' (i + 1) i it (headKey rem) hrest hkit
      · exact ih oits' (i + 1) mi mit mk hrest hk

theorem findMin_snd (others : List (Table × Nat)) :
    ∀ (pre : List (Table × Nat)) (mi : Nat) (mit : Table × Nat),
      (pre ++ others)[mi]? = some mit →
      (pre ++ others)[(TableBuilder.findMin others pre.length mi mit).1]?
        = some (TableBuilder.findMin others pre.length mi mit).2 := by
  induction others with
  | nil =>
    intro pre mi mit h
    simpa [TableBuilder.findMin] using h
  | cons it others ih =>
    intro pre mi mit h
    have happ : pre ++ it :: others = (pre ++ [it]) ++ others := by simp
    have hlen : (pre ++ [it]).length = pre.length + 1 := by simp
    simp only [TableBuilder.findMin]
    split
    · rw [happ, ← hlen]
      apply ih (pre ++ [it]) pre.length it
      rw [List.getElem?_append_left (by simp)]
      simp
    · rw [happ, ← hlen]
      apply ih (pre ++ [it]) mi mit
      rw [← happ]; exact h

theorem iters_advance {iterators : List (Table × Nat)} {its : List (List KeyValue)}
    (hrep : List.Forall₂ IterRep iterators its) :
    ∀ (r : Nat) (mit : Table × Nat) (item : KeyValue) (rest : List KeyValue),
      iterators[r]? = some mit → its[r]? = some (item :: rest) →
      List.Forall₂ IterRep
        (if mit.1.iter_next mit.2 = mit.1.end_ then
          (iterators.set r (mit.1, mit.1.iter_next mit.2)).eraseIdx r
        else iterators.set r (mit.1, mit.1.iter_next mit.2))
        (advance its r) := by
  induction hrep with
  | nil => intro r mit item rest h; simp at h
  | cons hit hrest ih =>
    rename_i it rem iterators' its'
    intro r mit item rest hmit hrem
    cases r with
    | zero =>
      simp only [List.getElem?_cons_zero, Option.some.injEq] at hmit hrem
      subst hmit; subst hrem
      obtain ⟨_, hend, hnext⟩ := hit.deref
      simp only [List.set_cons_zero, List.eraseIdx_cons_zero, advance, List.tail_cons]
      by_cases hr : rest = []
      · rw [if_pos (hend.mpr hr), if_pos hr]
        exact hrest
      · rw [if_neg (fun h => hr (hend.mp h)), if_neg hr]
        exact List.Forall₂.cons (hnext hr) hrest
    | succ r =>
      simp only [List.getElem?_cons_succ] at hmit hrem
      have := ih r mit item rest hmit hrem
      simp only [List.set_cons_succ, List.eraseIdx_cons_succ, advance]
      split
      · rename_i hc
        rw [if_pos hc] at this
        exact List.Forall₂.cons hit this
      · rename_i hc
        rw [if_neg hc] at this
        exact List.Forall₂.cons hit this

theorem Buffer.ne_eq_true_iff (a b : Buffer) : a.ne b = true ↔ a ≠ b := by
  simp only [Buffer.ne, decide_eq_true_eq, ne_eq, Buffer.compare_eq_zero]

/-- One run of the loop body on iterators that stand for the inputs `its`: the record
of the input with the first smallest key is handed to the builder unless its key is
the last key handed over, and that input moves on. -/
theorem mergeStep_eq (st : TableBuilder.MergeState) (first : Table × Nat)
    (others : List (Table × Nat)) (its : List (List KeyValue))
    (hrep : List.Forall₂ IterRep (first :: others) its) :
    ∃ (ifirst : List KeyValue) (iothers : List (List KeyValue)) (item : KeyValue)
      (rest : List KeyValue) (iterators' : List (Table × Nat)),
      its = ifirst :: iothers ∧
      (ifirst :: iothers)[minIndex (iothers.map headKey) 1 0 (headKey ifirst)]?
        = some (item :: rest) ∧
      List.Forall₂ IterRep iterators'
        (advance its (minIndex (iothers.map headKey) 1 0 (headKey ifirst))) ∧
      TableBuilder.mergeStep st first others =
        if item.key = st.last_added_key then
          .ok { st with iterators := iterators' }
        else
          (TableBuilder.addOrRoll st.builder st.result item).bind (fun br =>
            .ok { builder := br.1, result := br.2, last_added_key := item.key,
                  iterators := iterators' }) := by
  cases hrep with
  | cons hfirst hothers =>
    rename_i ifirst iothers
    have hidx := findMin_fst others iothers 1 0 first (headKey ifirst) hothers hfirst.key_eq
    have hsnd := findMin_snd others [first] 0 first (by simp)
    simp only [List.length_singleton, List.singleton_append] at hsnd
    have hmin : IsFirstMin ((ifirst :: iothers).map headKey)
        (minIndex (iothers.map headKey) 1 0 (headKey ifirst)) := by
      rw [List.map_cons]; exact minIndex_isFirstMin _ _
    have hlen : (first :: others).length = (ifirst :: iothers).length :=
      (List.Forall₂.cons hfirst hothers).length_eq
    obtain ⟨rem, hrem⟩ := exists_getElem? (ifirst :: iothers)
      (minIndex (iothers.map headKey) 1 0 (headKey ifirst)) (by
        have := hmin.1; rw [List.length_map] at this; exact this)
    rw [hidx] at hsnd
    have hmitrep : IterRep (TableBuilder.findMin others 1 0 first).2 rem := by
      have hall := List.Forall₂.cons hfirst hothers
      rw [List.forall₂_iff_get] at hall
      have hl1 := getElem?_lt_length _ _ _ hsnd
      have hl2 := getElem?_lt_length _ _ _ hrem
      have := hall.2 _ hl1 hl2
      rw [List.getElem?_eq_getElem hl1] at hsnd
      rw [List.getElem?_eq_getElem hl2] at hrem
      simp only [List.get_eq_getElem] at this
      rw [Option.some.inj hsnd, Option.some.inj hrem] at this
      exact this
    cases rem with
    | nil => exact absurd rfl hmitrep.1
    | cons item rest =>
      have hadv := iters_advance (List.Forall₂.cons hfirst hothers) _ _ item rest hsnd hrem
      obtain ⟨hd, _, _⟩ := hmitrep.deref
      refine ⟨ifirst, iothers, item, rest, _, rfl, hrem, hadv, ?_⟩
      simp only [TableBuilder.mergeStep]
      rw [hidx, hd]
      by_cases heq : item.key = st.last_added_key
      · have hne : item.key.ne st.last_added_key = false := by
          rw [← Bool.not_eq_true, Buffer.ne_eq_true_iff]; simpa using heq
        rw [if_pos heq, hne]
        rfl
      · have hne : item.key.ne st.last_added_key = true := by
          rw [Buffer.ne_eq_true_iff]; exact heq
        rw [if_neg heq, hne]
        cases TableBuilder.addOrRoll st.builder st.result item with
        | error e => rfl
        | ok br => rfl

/-- The merge loop hands the merged stream of its inputs to the builder, record by
record; the loop budget is enough when it exceeds the number of remaining records. -/
theorem mergeLoop_eq : ∀ (fuel : Nat) (st : TableBuilder.MergeState)
    (its : List (List KeyValue)), List.Forall₂ IterRep st.iterators its →
    totalRecords its < fuel →
    (TableBuilder.mergeLoop fuel st).map TableBuilder.MergeState.output
      = emitAll st.builder st.result (mergeStream fuel its st.last_added_key) := by
  intro fuel
  induction fuel with
  | zero => intro st its _ hf; omega
  | succ fuel ih =>
    intro st its hrep hf
    cases hits : st.iterators with
    | nil =>
      rw [hits] at hrep
      cases hrep
      simp only [TableBuilder.mergeLoop, hits, mergeStream, emitAll]
      rfl
    | cons first others =>
      rw [hits] at hrep
      obtain ⟨ifirst, iothers, item, rest, iterators', hits', hrem, hadv, hstep⟩ :=
        mergeStep_eq st first others its hrep
      subst hits'
      have htot := advance_total _ _ item rest hrem
      have hget : (ifirst :: iothers).getD (minIndex (iothers.map headKey) 1 0 (headKey ifirst)) []
          = item :: rest := by
        rw [List.getD_eq_getElem?_getD, hrem]; rfl
      simp only [TableBuilder.mergeLoop, hits, mergeStream, hget, hstep]
      by_cases heq : item.key = st.last_added_key
      · rw [if_pos heq, if_pos heq]
        exact ih { st with iterators := iterators' } _ hadv (by omega)
      · rw [if_neg heq, if_neg heq]
        simp only [emitAll]
        cases hroll : TableBuilder.addOrRoll st.builder st.result item with
        | error e => rfl
        | ok br =>
          exact ih { builder := br.1, result := br.2, last_added_key := item.key,
                     iterators := iterators' } _ hadv (by omega)

/-! ## The builder side of the merge -/

/-- The value of the block `addOrRoll` on a builder that has accepted `cur`, for a
record that fits a fresh table. -/
theorem addOrRoll_eq {b : TableBuilder} {S : Nat} {cur : List KeyValue} (h : b.Holds S cur)
    (hS : S < U32) (res : table_list) (r : KeyValue) (hfit : fits S r) (hk : r.key.size ≠ 0) :
    TableBuilder.addOrRoll b res r =
      if ((encLen cur + 4 * cur.length + 4) % U32 + r.key.total_size + r.value.total_size) % U32
          + 4 > S then
        if 4 * cur.length + 4 ≤ S - encLen cur then
          .ok (builderOf S [r], res ++ [some (tableOf S cur)])
        else .error .assertion
      else if r.key.total_size + r.value.total_size ≤ S - encLen cur then
        .ok (builderOf S (cur ++ [r]), res)
      else .error .assertion := by
  have hrec := r.byteSize_le
  have hfit' : r.byteSize + 8 ≤ S := hfit
  simp only [KeyValue.byteSize] at hrec hfit'
  simp only [TableBuilder.addOrRoll, h.add_eq hS, if_neg hk]
  by_cases hfull : ((encLen cur + 4 * cur.length + 4) % U32 + r.key.total_size
      + r.value.total_size) % U32 + 4 > S
  · rw [if_pos hfull, if_pos hfull]
    have hne : cur ≠ [] := by
      intro hc
      subst hc
      simp only [encLen_nil, List.length_nil, U32] at hfull hS
      omega
    simp only [bind, Except.bind, Bool.not_false, if_true]
    rw [TableBuilder.finalize_builderOf S cur hS h.2.1 hne]
    by_cases hroom : 4 * cur.length + 4 ≤ S - encLen cur
    · rw [if_pos hroom, if_pos hroom]
      simp only []
      rw [(TableBuilder.new_holds S).add_eq hS, if_neg hk]
      have h1 : ¬ ((encLen [] + 4 * ([] : List KeyValue).length + 4) % U32 + r.key.total_size
          + r.value.total_size) % U32 + 4 > S := by
        simp only [encLen_nil, List.length_nil, U32] at hS ⊢
        omega
      have h2 : r.key.total_size + r.value.total_size ≤ S - encLen [] := by
        simp only [encLen_nil]; omega
      rw [if_neg h1, if_pos h2]
      rfl
    · rw [if_neg hroom, if_neg hroom]
  · rw [if_neg hfull, if_neg hfull]
    by_cases hroom : r.key.total_size + r.value.total_size ≤ S - encLen cur
    · rw [if_pos hroom, if_pos hroom]
      rfl
    · rw [if_neg hroom, if_neg hroom]
      rfl

theorem tableOf_holds (S : Nat) (c : List KeyValue) (hS : S < U32) (hne : c ≠ [])
    (hk : ∀ r ∈ c, r.key.size ≠ 0) (hfit : encLen c + 4 * c.length + 4 ≤ S) :
    (tableOf S c).Holds c :=
  finalTable_holds S c hS hne hk hfit

theorem emitAll_ok {S : Nat} (hS : S < U32) (out : List KeyValue) :
    ∀ (b : TableBuilder) (res : table_list) (chunks : List (List KeyValue))
      (cur : List KeyValue) (b' : TableBuilder) (res' : table_list),
      ChunkRep b res S chunks cur → (∀ r ∈ out, fits S r ∧ r.key.size ≠ 0) →
      emitAll b res out = .ok (b', res') →
      ∃ chunks' cur', ChunkRep b' res' S chunks' cur' ∧
        chunks'.flatten ++ cur' = chunks.flatten ++ cur ++ out ∧
        ((cur ≠ [] ∨ out ≠ []) → cur' ≠ []) := by
  induction out with
  | nil =>
    intro b res chunks cur b' res' hrep _ hemit
    simp only [emitAll, pure, Except.pure, Except.ok.injEq, Prod.mk.injEq] at hemit
    obtain ⟨hb, hr⟩ := hemit
    subst hb; subst hr
    exact ⟨chunks, cur, hrep, by simp, fun h => h.elim id (fun h => absurd rfl h)⟩
  | cons r out ih =>
    intro b res chunks cur b' res' hrep hall hemit
    obtain ⟨hres, hchunks, hholds⟩ := hrep
    have hr := hall r (List.mem_cons_self _ _)
    have hrest : ∀ x ∈ out, fits S x ∧ x.key.size ≠ 0 :=
      fun x hx => hall x (List.mem_cons_of_mem _ hx)
    have hfit : r.byteSize + 8 ≤ S := hr.1
    have hrec := r.byteSize_le
    simp only [KeyValue.byteSize] at hfit hrec
    simp only [emitAll, addOrRoll_eq hholds hS res r hr.1 hr.2, bind, Except.bind] at hemit
    by_cases hfull : ((encLen cur + 4 * cur.length + 4) % U32 + r.key.total_size
        + r.value.total_size) % U32 + 4 > S
    · rw [if_pos hfull] at hemit
      have hne : cur ≠ [] := by
        intro hc
        subst hc
        simp only [encLen_nil, List.length_nil, U32] at hfull hS
        omega
      by_cases hroom : 4 * cur.length + 4 ≤ S - encLen cur
      · rw [if_pos hroom] at hemit
        simp only [] at hemit
        have hle := hholds.2.1
        have hc : (tableOf S cur).Holds cur :=
          tableOf_holds S cur hS hne hholds.1 (by omega)
        have hrep1 : ChunkRep (builderOf S [r]) (res ++ [some (tableOf S cur)]) S
            (chunks ++ [cur]) [r] := by
          refine ⟨by simp [hres], ?_, ?_⟩
          · intro c hcm
            rcases List.mem_append.mp hcm with hcm | hcm
            · exact hchunks c hcm
            · simp only [List.mem_singleton] at hcm
              subst hcm; exact hc
          · apply TableBuilder.builderOf_holds
            · intro x hx
              simp only [List.mem_singleton] at hx
              subst hx; exact hr.2
            · rw [encLen_cons, encLen_nil]
              simp only [KeyValue.byteSize]; omega
        obtain ⟨chunks', cur', h1, h2, h3⟩ := ih _ _ _ _ _ _ hrep1 hrest hemit
        refine ⟨chunks', cur', h1, ?_, fun _ => h3 (Or.inl (by simp))⟩
        rw [h2]; simp [List.append_assoc]
      · rw [if_neg hroom] at hemit
        cases hemit
    · rw [if_neg hfull] at hemit
      by_cases hroom : r.key.total_size + r.value.total_size ≤ S - encLen cur
      · rw [if_pos hroom] at hemit
        simp only [] at hemit
        have hle := hholds.2.1
        have hrep1 : ChunkRep (builderOf S (cur ++ [r])) res S chunks (cur ++ [r]) := by
          refine ⟨hres, hchunks, ?_⟩
          apply TableBuilder.builderOf_holds
          · intro x hx
            rcases List.mem_append.mp hx with hx | hx
            · exact hholds.1 x hx
            · simp only [List.mem_singleton] at hx
              subst hx; exact hr.2
          · rw [encLen_append, encLen_cons, encLen_nil]
            simp only [KeyValue.byteSize]; omega
        obtain ⟨chunks', cur', h1, h2, h3⟩ := ih _ _ _ _ _ _ hrep1 hrest hemit
        refine ⟨chunks', cur', h1, ?_, fun _ => h3 (Or.inl (by simp))⟩
        rw [h2]; simp [List.append_assoc]
      · rw [if_neg hroom] at hemit
        cases hemit

theorem emitAll_total {S : Nat} (hS : S + 131074 < U32) (out : List KeyValue) :
    ∀ (b : TableBuilder) (res : table_list) (cur : List KeyValue),
      b.Holds S cur → (cur = [] ∨ encLen cur + 4 * cur.length + 4 ≤ S) →
      (∀ r ∈ out, fits S r ∧ r.key.size ≠ 0) →
      ∃ b' res' cur', emitAll b res out = .ok (b', res') ∧ b'.Holds S cur' ∧
        (cur' = [] ∨ encLen cur' + 4 * cur'.length + 4 ≤ S) ∧
        ((cur ≠ [] ∨ out ≠ []) → cur' ≠ []) := by
  have hS' : S < U32 := by omega
  induction out with
  | nil =>
    intro b res cur hh hinv _
    exact ⟨b, res, cur, rfl, hh, hinv, fun h => h.elim id (fun h => absurd rfl h)⟩
  | cons r out ih =>
    intro b res cur hholds hinv hall
    have hr := hall r (List.mem_cons_self _ _)
    have hrest : ∀ x ∈ out, fits S x ∧ x.key.size ≠ 0 :=
      fun x hx => hall x (List.mem_cons_of_mem _ hx)
    have hfit : r.byteSize + 8 ≤ S := hr.1
    have hrec := r.byteSize_le
    have hle := hholds.2.1
    simp only [KeyValue.byteSize] at hfit hrec
    simp only [emitAll, addOrRoll_eq hholds hS' res r hr.1 hr.2, bind, Except.bind]
    by_cases hfull : ((encLen cur + 4 * cur.length + 4) % U32 + r.key.total_size
        + r.value.total_size) % U32 + 4 > S
    · have hne : cur ≠ [] := by
        intro hc
        subst hc
        simp only [encLen_nil, List.length_nil, U32] at hfull hS
        omega
      have hroom : 4 * cur.length + 4 ≤ S - encLen cur := by
        rcases hinv with h | h
        · exact absurd h hne
        · omega
      rw [if_pos hfull, if_pos hroom]
      simp only []
      have hstep : ∃ b' res' cur', emitAll (builderOf S [r]) (res ++ [some (tableOf S cur)]) out
          = .ok (b', res') ∧ b'.Holds S cur' ∧
          (cur' = [] ∨ encLen cur' + 4 * cur'.length + 4 ≤ S) ∧
          (([r] ≠ [] ∨ out ≠ []) → cur' ≠ []) := by
        apply ih _ _ [r]
        · apply TableBuilder.builderOf_holds
          · intro x hx
            simp only [List.mem_singleton] at hx
            subst hx; exact hr.2
          · rw [encLen_cons, encLen_nil]
            simp only [KeyValue.byteSize]; omega
        · right
          simp only [encLen_cons, encLen_nil, KeyValue.byteSize, List.length_singleton]
          omega
        · exact hrest
      obtain ⟨b', res', cur', h1, h2, h3, h4⟩ := hstep
      exact ⟨b', res', cur', h1, h2, h3, fun _ => h4 (Or.inl (by simp))⟩
    · have hroom : r.key.total_size + r.value.total_size ≤ S - encLen cur ∧
          encLen cur + (r.key.total_size + r.value.total_size) + 4 * (cur.length + 1) + 4 ≤ S := by
        rcases hinv with h | h
        · subst h
          simp only [encLen_nil, List.length_nil, U32] at hfull hS ⊢
          omega
        · simp only [U32] at hfull hS
          omega
      rw [if_neg hfull, if_pos hroom.1]
      simp only []
      have hstep : ∃ b' res' cur', emitAll (builderOf S (cur ++ [r])) res out
          = .ok (b', res') ∧ b'.Holds S cur' ∧
          (cur' = [] ∨ encLen cur' + 4 * cur'.length + 4 ≤ S) ∧
          ((cur ++ [r] ≠ [] ∨ out ≠ []) → cur' ≠ []) := by
        apply ih _ _ (cur ++ [r])
        · apply TableBuilder.builderOf_holds
          · intro x hx
            rcases List.mem_append.mp hx with hx | hx
            · exact hholds.1 x hx
            · simp only [List.mem_singleton] at hx
              subst hx; exact hr.2
          · rw [encLen_append, encLen_cons, encLen_nil]
            simp only [KeyValue.byteSize]; omega
        · right
          simp only [encLen_append, encLen_cons, encLen_nil, KeyValue.byteSize,
            List.length_append, List.length_singleton]
          omega
        · exact hrest
      obtain ⟨b', res', cur', h1, h2, h3, h4⟩ := hstep
      exact ⟨b', res', cur', h1, h2, h3, fun _ => h4 (Or.inl (by simp))⟩

/-! ## merge_tables -/

theorem openIterators_eq {tables : table_list} {inputs : List (List KeyValue)}
    (h : TablesHold tables inputs) :
    ∃ iterators, TableBuilder.openIterators tables = .ok iterators ∧
      List.Forall₂ IterRep iterators inputs ∧
      (iterators.map (fun it => it.1.m_num_entries)).sum = totalRecords inputs := by
  induction h with
  | nil => exact ⟨[], rfl, List.Forall₂.nil, rfl⟩
  | cons hhead _ ih =>
    rename_i tp rs tables' inputs'
    obtain ⟨t, htp, hholds⟩ := hhead
    obtain ⟨iterators, hopen, hrep, hsum⟩ := ih
    subst htp
    refine ⟨(t, t.begin_) :: iterators, ?_, ?_, ?_⟩
    · simp only [TableBuilder.openIterators, deref, hopen, bind, Except.bind, pure, Except.pure]
    · refine List.Forall₂.cons ⟨hholds.ne, [], ?_, rfl⟩ hrep
      simpa using hholds
    · simp only [List.map_cons, List.sum_cons, hsum, hholds.num, totalRecords]

theorem Except.map_bind_eq {α β γ : Type} (x : Except Err α) (f : α → β)
    (g : β → Except Err γ) : (x >>= fun a => g (f a)) = (x.map f >>= g) := by
  cases x <;> rfl

/-- `merge_tables` on well-formed inputs: the merged stream of the inputs goes through
the builder, and the final `finalize` closes the last table. -/
theorem merge_tables_eq {tables : table_list} {inputs : List (List KeyValue)}
    (h : TablesHold tables inputs) (config : LevelConfig) :
    TableBuilder.merge_tables tables config =
      (emitAll (TableBuilder.new config.table_size) []
        (mergeStream (totalRecords inputs + 1) inputs Buffer.empty)) >>= fun out =>
      out.1.finalize >>= fun fin =>
      match fin.2 with
      | some t => pure (out.2 ++ [some t])
      | none => pure out.2 := by
  obtain ⟨iterators, hopen, hrep, hsum⟩ := openIterators_eq h
  have hloop := mergeLoop_eq (totalRecords inputs + 1)
    { builder := TableBuilder.new config.table_size, result := [],
      last_added_key := Buffer.empty, iterators := iterators } inputs hrep (by omega)
  simp only [] at hloop
  rw [← hloop]
  simp only [TableBuilder.merge_tables, hopen, hsum, bind, Except.bind]
  cases TableBuilder.mergeLoop (totalRecords inputs + 1)
    { builder := TableBuilder.new config.table_size, result := [],
      last_added_key := Buffer.empty, iterators := iterators } with
  | error e => rfl
  | ok st =>
    simp only [Except.map, TableBuilder.MergeState.output]

theorem Buffer.not_lt_empty (a : Buffer) : ¬ a.compare Buffer.empty < 0 := by
  rw [Buffer.compare_eq_cmpBytes, (cmpBytes_spec _ _).1]
  exact not_lexLess_nil _

theorem Buffer.size_ne_zero_ne_empty {a : Buffer} (h : a.size ≠ 0) : a ≠ Buffer.empty := by
  intro he
  rw [he] at h
  exact h rfl

theorem TablesHold.facts {tables : table_list} {inputs : List (List KeyValue)}
    (h : TablesHold tables inputs) :
    (∀ rs ∈ inputs, rs ≠ []) ∧ (∀ rs ∈ inputs, ∀ r ∈ rs, r.key.size ≠ 0) := by
  induction h with
  | nil => simp
  | cons hhead _ ih =>
    obtain ⟨t, _, hholds⟩ := hhead
    constructor
    · intro rs hrs
      rcases List.mem_cons.mp hrs with hrs | hrs
      · subst hrs; exact hholds.ne
      · exact ih.1 rs hrs
    · intro rs hrs
      rcases List.mem_cons.mp hrs with hrs | hrs
      · subst hrs; exact hholds.keys
      · exact ih.2 rs hrs

/-- The stream that `merge_tables` hands to its builder: strictly ascending, with the
value of the lowest-index input for every key, and made of records of the inputs. -/
theorem mergeStream_inputs (inputs : List (List KeyValue))
    (hne : ∀ rs ∈ inputs, rs ≠ []) (hkeys : ∀ rs ∈ inputs, ∀ r ∈ rs, r.key.size ≠ 0)
    (hasc : ∀ rs ∈ inputs, Ascending rs) :
    Ascending (mergeStream (totalRecords inputs + 1) inputs Buffer.empty) ∧
    (∀ k, lookup (mergeStream (totalRecords inputs + 1) inputs Buffer.empty) k
      = firstValue inputs k) ∧
    (∀ x ∈ mergeStream (totalRecords inputs + 1) inputs Buffer.empty, ∃ rs ∈ inputs, x ∈ rs) := by
  obtain ⟨h1, _, h3⟩ := mergeStream_spec (totalRecords inputs + 1) inputs Buffer.empty hne hasc
    (fun rs _ x _ => Buffer.not_lt_empty x.key) (by omega)
  have hlook : ∀ k, lookup (mergeStream (totalRecords inputs + 1) inputs Buffer.empty) k
      = firstValue inputs k := by
    intro k
    rw [h3 k]
    by_cases hk : k = Buffer.empty
    · rw [if_pos hk, hk]
      symm
      apply firstValue_none
      intro rs hrs x hx
      exact Buffer.size_ne_zero_ne_empty (hkeys rs hrs x hx)
    · rw [if_neg hk]
  refine ⟨h1, hlook, ?_⟩
  intro x hx
  have := lookup_of_mem _ h1 x hx
  rw [hlook] at this
  exact firstValue_some_mem inputs x.key x.value this

/-- What `merge_tables` returns on well-formed, strictly ascending inputs whose records
fit a fresh output table: well-formed tables whose records, concatenated, are the
merged stream. -/
theorem merge_tables_result {tables : table_list} {inputs : List (List KeyValue)}
    (hT : TablesHold tables inputs) (hasc : ∀ rs ∈ inputs, Ascending rs)
    (config : LevelConfig) (hS : config.table_size < U32)
    (hfit : ∀ rs ∈ inputs, ∀ r ∈ rs, fits config.table_size r) {result : table_list}
    (hres : TableBuilder.merge_tables tables config = .ok result) :
    ∃ chunks : List (List KeyValue),
      result = chunks.map (fun c => some (tableOf config.table_size c)) ∧
      (∀ c ∈ chunks, (tableOf config.table_size c).Holds c) ∧
      chunks.flatten = mergeStream (totalRecords inputs + 1) inputs Buffer.empty := by
  obtain ⟨hne, hkeys⟩ := hT.facts
  obtain ⟨hsasc, hslook, hsmem⟩ := mergeStream_inputs inputs hne hkeys hasc
  have hall : ∀ r ∈ mergeStream (totalRecords inputs + 1) inputs Buffer.empty,
      fits config.table_size r ∧ r.key.size ≠ 0 := by
    intro r hr
    obtain ⟨rs, hrs, hrrs⟩ := hsmem r hr
    exact ⟨hfit rs hrs r hrrs, hkeys rs hrs r hrrs⟩
  rw [merge_tables_eq hT config] at hres
  cases hemit : emitAll (TableBuilder.new config.table_size) []
      (mergeStream (totalRecords inputs + 1) inputs Buffer.empty) with
  | error e => rw [hemit] at hres; cases hres
  | ok out =>
    obtain ⟨b', res'⟩ := out
    rw [hemit] at hres
    obtain ⟨chunks', cur', ⟨hr', hc', hb'⟩, hflat, hcur⟩ :=
      emitAll_ok hS _ _ _ [] [] _ _
        ⟨rfl, by simp, TableBuilder.new_holds _⟩ hall hemit
    simp only [List.flatten_nil, List.nil_append] at hflat
    simp only [bind, Except.bind] at hres
    by_cases hcn : cur' = []
    · exfalso
      have hout : mergeStream (totalRecords inputs + 1) inputs Buffer.empty = [] := by
        by_contra hc
        exact hcur (Or.inr hc) hcn
      rw [hout] at hemit
      simp only [emitAll, pure, Except.pure, Except.ok.injEq, Prod.mk.injEq] at hemit
      rw [← hemit.1, TableBuilder.finalize_new] at hres
      cases hres
    · have hbe : b' = builderOf config.table_size cur' := by
        rcases hb'.2.2 with ⟨_, hc⟩ | hbe
        · exact absurd hc hcn
        · exact hbe
      rw [hbe, TableBuilder.finalize_builderOf _ cur' hS hb'.2.1 hcn] at hres
      by_cases hroom : 4 * cur'.length + 4 ≤ config.table_size - encLen cur'
      · rw [if_pos hroom] at hres
        simp only [pure, Except.pure, Except.ok.injEq] at hres
        have hle := hb'.2.1
        refine ⟨chunks' ++ [cur'], ?_, ?_, ?_⟩
        · rw [← hres, hr']
          simp [tableOf]
        · intro c hc
          rcases List.mem_append.mp hc with hc | hc
          · exact hc' c hc
          · simp only [List.mem_singleton] at hc
            subst hc
            exact tableOf_holds _ _ hS hcn hb'.1 (by omega)
        · rw [← hflat]; simp
      · rw [if_neg hroom] at hres
        cases hres

theorem concatRecords_eq (S : Nat) (chunks : List (List KeyValue))
    (h : ∀ c ∈ chunks, (tableOf S c).Holds c) :
    concatRecords (chunks.map (fun c => some (tableOf S c))) = .ok chunks.flatten := by
  induction chunks with
  | nil => rfl
  | cons c chunks ih =>
    have hc := (h c (List.mem_cons_self _ _)).records_eq
    have hrest := ih (fun c' hc' => h c' (List.mem_cons_of_mem _ hc'))
    simp only [List.map_cons, concatRecords, deref, hc, hrest, bind, Except.bind, pure,
      Except.pure, List.flatten_cons]

/-- When the 32-bit sum of the size test of `add` cannot wrap, `merge_tables` returns
within its loop budget on every non-empty list of well-formed, strictly ascending
inputs whose records fit a fresh output table. -/
theorem merge_tables_succeeds {tables : table_list} {inputs : List (List KeyValue)}
    (hT : TablesHold tables inputs) (hasc : ∀ rs ∈ inputs, Ascending rs)
    (config : LevelConfig) (hS : config.table_size + 131074 < U32)
    (hfit : ∀ rs ∈ inputs, ∀ r ∈ rs, fits config.table_size r) (hin : inputs ≠ []) :
    ∃ result, TableBuilder.merge_tables tables config = .ok result := by
  have hS' : config.table_size < U32 := by omega
  obtain ⟨hne, hkeys⟩ := hT.facts
  obtain ⟨hsasc, hslook, hsmem⟩ := mergeStream_inputs inputs hne hkeys hasc
  have hall : ∀ r ∈ mergeStream (totalRecords inputs + 1) inputs Buffer.empty,
      fits config.table_size r ∧ r.key.size ≠ 0 := by
    intro r hr
    obtain ⟨rs, hrs, hrrs⟩ := hsmem r hr
    exact ⟨hfit rs hrs r hrrs, hkeys rs hrs r hrrs⟩
  have hout : mergeStream (totalRecords inputs + 1) inputs Buffer.empty ≠ [] := by
    cases inputs with
    | nil => exact absurd rfl hin
    | cons rs rest =>
      have hrs := hne rs (List.mem_cons_self _ _)
      cases rs with
      | nil => exact absurd rfl hrs
      | cons r rs' =>
        obtain ⟨v, hv⟩ := firstValue_isSome_of_mem _ _ (List.mem_cons_self _ _) r
          (List.mem_cons_self _ _) hasc
        rw [← hslook] at hv
        intro hc
        rw [hc] at hv
        simp [lookup] at hv
  obtain ⟨b', res', cur', hemit, hholds, hinv, hcur⟩ :=
    emitAll_total hS _ (TableBuilder.new config.table_size) [] [] (TableBuilder.new_holds _)
      (Or.inl rfl) hall
  have hcn : cur' ≠ [] := hcur (Or.inr hout)
  have hbe : b' = builderOf config.table_size cur' := by
    rcases hholds.2.2 with ⟨_, hc⟩ | hbe
    · exact absurd hc hcn
    · exact hbe
  have hroom : 4 * cur'.length + 4 ≤ config.table_size - encLen cur' := by
    rcases hinv with h | h
    · exact absurd h hcn
    · omega
  refine ⟨res' ++ [some (tableOf config.table_size cur')], ?_⟩
  rw [merge_tables_eq hT config, hemit]
  simp only [bind, Except.bind]
  rw [hbe, TableBuilder.finalize_builderOf _ cur' hS' hholds.2.1 hcn, if_pos hroom]
  rfl

theorem firstValue_of_index (inputs : List (List KeyValue)) :
    ∀ (i : Nat) (rs : List KeyValue) (r : KeyValue), inputs[i]? = some rs → Ascending rs →
      r ∈ rs →
      (∀ (j : Nat) (rs' : List KeyValue), j < i → inputs[j]? = some rs' →
        ∀ r' ∈ rs', r'.key ≠ r.key) →
      firstValue inputs r.key = some r.value := by
  induction inputs with
  | nil => intro i rs r h; simp at h
  | cons a inputs ih =>
    intro i rs r hi hasc hr hbefore
    cases i with
    | zero =>
      simp only [List.getElem?_cons_zero, Option.some.injEq] at hi
      subst hi
      simp only [firstValue, lookup_of_mem a hasc r hr]
    | succ i =>
      simp only [List.getElem?_cons_succ] at hi
      have h0 : lookup a r.key = none :=
        lookup_none a r.key (hbefore 0 a (by omega) (by simp))
      simp only [firstValue, h0]
      apply ih i rs r hi hasc hr
      intro j rs' hj hrs'
      exact hbefore (j + 1) rs' (by omega) (by simpa using hrs')

theorem filter_key_of_lookup (out : List KeyValue) (hasc : Ascending out) (k v : Buffer)
    (h : lookup out k = some v) :
    out.filter (fun x => decide (x.key = k)) = [⟨k, v⟩] := by
  induction out with
  | nil => simp [lookup] at h
  | cons a out ih =>
    rw [Ascending, List.pairwise_cons] at hasc
    simp only [lookup] at h
    by_cases hk : a.key = k
    · rw [if_pos hk] at h
      have hrest : out.filter (fun x => decide (x.key = k)) = [] := by
        rw [List.filter_eq_nil_iff]
        intro x hx
        have := Buffer.compare_lt_ne (hasc.1 x hx)
        simp only [decide_eq_true_eq]
        intro hxk
        exact this (hk.trans hxk.symm)
      rw [List.filter_cons_of_pos (by simpa using hk), hrest]
      cases a with
      | mk ak av =>
        simp only [Option.some.injEq] at h
        simp only at hk
        rw [hk, h]
    · rw [if_neg hk] at h
      rw [List.filter_cons_of_neg (by simpa using hk)]
      exact ih hasc.2 h

/-! ## Merge shadowing and merge order -/

theorem sample_tables_hold :
    TablesHold [some (tableOf 32 [recA, recC]), some (tableOf 32 [recA2, recB])]
      [[recA, recC], [recA2, recB]] := by
  refine List.Forall₂.cons ⟨_, rfl, ?_⟩ (List.Forall₂.cons ⟨_, rfl, ?_⟩ List.Forall₂.nil)
  · exact tableOf_holds 32 _ (by decide) (by simp) (by decide) (by decide)
  · exact tableOf_holds 32 _ (by decide) (by simp) (by decide) (by decide)

theorem sample_inputs_ascending : ∀ rs ∈ [[recA, recC], [recA2, recB]], Ascending rs := by
  intro rs hrs
  simp only [List.mem_cons, List.mem_singleton, List.not_mem_nil, or_false] at hrs
  rcases hrs with h | h <;> subst h <;> simp [Ascending, recA, recA2, recB, recC] <;> decide

theorem sample_inputs_fit :
    ∀ rs ∈ [[recA, recC], [recA2, recB]], ∀ r ∈ rs, fits sampleConfig.table_size r := by
  unfold fits
  decide

/-- C4: for every list of well-formed input tables, each strictly ascending by key, and
an output `table_size` that fits every record: whenever a record `r` sits in input `i`
and no input of lower index holds the key of `r`, the concatenated output of
`merge_tables` holds exactly one record with that key, namely `r` itself. The first
part states that `merge_tables` does return (within the loop budget of the model) when
the 32-bit sum of the size test of `add` cannot wrap. -/
theorem merge_tables_shadowing (tables : table_list) (inputs : List (List KeyValue))
    (config : LevelConfig) (hT : TablesHold tables inputs)
    (hasc : ∀ rs ∈ inputs, Ascending rs) (hS : config.table_size < U32)
    (hfit : ∀ rs ∈ inputs, ∀ r ∈ rs, fits config.table_size r) :
    (inputs ≠ [] → config.table_size + 131074 < U32 →
      ∃ result, TableBuilder.merge_tables tables config = .ok result) ∧
    ∀ result, TableBuilder.merge_tables tables config = .ok result →
      ∃ out, concatRecords result = .ok out ∧
        ∀ (i : Nat) (rs : List KeyValue) (r : KeyValue), inputs[i]? = some rs → r ∈ rs →
          (∀ (j : Nat) (rs' : List KeyValue), j < i → inputs[j]? = some rs' →
            ∀ r' ∈ rs', r'.key ≠ r.key) →
          out.filter (fun x => decide (x.key = r.key)) = [r] := by
  refine ⟨fun hin hS2 => merge_tables_succeeds hT hasc config hS2 hfit hin, ?_⟩
  intro result hres
  obtain ⟨chunks, hr, hc, hflat⟩ := merge_tables_result hT hasc config hS hfit hres
  obtain ⟨hne, hkeys⟩ := hT.facts
  obtain ⟨hsasc, hslook, _⟩ := mergeStream_inputs inputs hne hkeys hasc
  refine ⟨chunks.flatten, ?_, ?_⟩
  · rw [hr]; exact concatRecords_eq _ chunks hc
  · intro i rs r hi hrm hbefore
    have hfv := firstValue_of_index inputs i rs r hi
      (hasc rs (mem_of_getElem? _ _ _ hi)) hrm hbefore
    rw [← hslook, ← hflat] at hfv
    rw [hflat] at hfv ⊢
    exact filter_key_of_lookup _ hsasc r.key r.value hfv

/-- Witness of C4: the tables `[a -> x, c -> z]` and `[a -> y, b -> y]` merged into
tables of 32 bytes. -/
theorem merge_tables_shadowing_witness :
    TablesHold [some (tableOf 32 [recA, recC]), some (tableOf 32 [recA2, recB])]
      [[recA, recC], [recA2, recB]] ∧
    ((([[recA, recC], [recA2, recB]] : List (List KeyValue)) ≠ [] →
      sampleConfig.table_size + 131074 < U32 →
      ∃ result, TableBuilder.merge_tables
        [some (tableOf 32 [recA, recC]), some (tableOf 32 [recA2, recB])] sampleConfig
          = .ok result) ∧
    ∀ result, TableBuilder.merge_tables
        [some (tableOf 32 [recA, recC]), some (tableOf 32 [recA2, recB])] sampleConfig
          = .ok result →
      ∃ out, concatRecords result = .ok out ∧
        ∀ (i : Nat) (rs : List KeyValue) (r : KeyValue),
          ([[recA, recC], [recA2, recB]] : List (List KeyValue))[i]? = some rs → r ∈ rs →
          (∀ (j : Nat) (rs' : List KeyValue), j < i →
            ([[recA, recC], [recA2, recB]] : List (List KeyValue))[j]? = some rs' →
            ∀ r' ∈ rs', r'.key ≠ r.key) →
          out.filter (fun x => decide (x.key = r.key)) = [r]) :=
  ⟨sample_tables_hold,
    merge_tables_shadowing _ _ sampleConfig sample_tables_hold sample_inputs_ascending
      (by decide) sample_inputs_fit⟩

theorem Table.Holds.min_max {t : Table} {c : List KeyValue} (h : t.Holds c) :
    ∃ first last, first ∈ c ∧ last ∈ c ∧ c.head? = some first ∧ c.getLast? = some last ∧
      t.min_key = first.key ∧ t.max_key = last.key := by
  have hne := h.ne
  obtain ⟨first, hfirst⟩ : ∃ f, c.head? = some f := by
    cases c with
    | nil => exact absurd rfl hne
    | cons a c => exact ⟨a, rfl⟩
  obtain ⟨last, hlast⟩ : ∃ l, c.getLast? = some l := by
    cases hgl : c.getLast? with
    | none => rw [List.getLast?_eq_none_iff] at hgl; exact absurd hgl hne
    | some l => exact ⟨l, rfl⟩
  refine ⟨first, last, List.mem_of_mem_head? hfirst, List.mem_of_mem_getLast? hlast, hfirst,
    hlast, ?_, ?_⟩
  · rw [Table.min_key, h.fields]
    simp [Table.ofRecords, hfirst]
  · rw [Table.max_key, h.fields]
    simp [Table.ofRecords, hlast]

theorem Ascending.keys_nodup {out : List KeyValue} (h : Ascending out) :
    (out.map KeyValue.key).Nodup := by
  rw [List.Nodup, List.pairwise_map]
  exact List.Pairwise.imp (fun hab => Buffer.compare_lt_ne hab) h

theorem chunks_chain (S : Nat) (chunks : List (List KeyValue))
    (hc : ∀ c ∈ chunks, (tableOf S c).Holds c) (hasc : Ascending chunks.flatten) :
    List.Chain' (fun t t' : Table => t.max_key.compare t'.min_key < 0)
      (chunks.map (tableOf S)) := by
  induction chunks with
  | nil => exact List.chain'_nil
  | cons c chunks ih =>
    have hrest : Ascending chunks.flatten := by
      rw [List.flatten_cons, Ascending, List.pairwise_append] at hasc
      exact hasc.2.1
    have ih' := ih (fun c' hc' => hc c' (List.mem_cons_of_mem _ hc')) hrest
    cases chunks with
    | nil => exact List.chain'_singleton _
    | cons c' chunks' =>
      rw [List.map_cons, List.map_cons, List.chain'_cons]
      refine ⟨?_, ih'⟩
      obtain ⟨_, last, _, hlast, _, _, _, hmax⟩ := (hc c (List.mem_cons_self _ _)).min_max
      obtain ⟨first, _, hfirst, _, _, _, hmin, _⟩ :=
        (hc c' (List.mem_cons_of_mem _ (List.mem_cons_self _ _))).min_max
      rw [hmax, hmin]
      rw [List.flatten_cons, Ascending, List.pairwise_append] at hasc
      apply hasc.2.2 last hlast first
      rw [List.flatten_cons]
      exact List.mem_append_left _ hfirst

theorem sizes_sum (S : Nat) (chunks : List (List KeyValue)) :
    ((chunks.map (tableOf S)).map Table.size).sum = chunks.flatten.length := by
  induction chunks with
  | nil => rfl
  | cons c chunks ih =>
    simp only [List.map_cons, List.sum_cons, ih, List.flatten_cons, List.length_append]
    rfl

/-- C5: for every list of well-formed, strictly ascending input tables and an output
`table_size` that fits every record, the tables returned by `merge_tables` are not
null, and iterating them in result order yields records whose keys are strictly
ascending and are exactly the keys of the inputs; the total record count is the number
of distinct keys of the inputs, and `max_key` of each output table is less than
`min_key` of the next one. The first part states that `merge_tables` does return
(within the loop budget of the model) when the 32-bit sum of the size test of `add`
cannot wrap. -/
theorem merge_tables_order (tables : table_list) (inputs : List (List KeyValue))
    (config : LevelConfig) (hT : TablesHold tables inputs)
    (hasc : ∀ rs ∈ inputs, Ascending rs) (hS : config.table_size < U32)
    (hfit : ∀ rs ∈ inputs, ∀ r ∈ rs, fits config.table_size r) :
    (inputs ≠ [] → config.table_size + 131074 < U32 →
      ∃ result, TableBuilder.merge_tables tables config = .ok result) ∧
    ∀ result, TableBuilder.merge_tables tables config = .ok result →
      ∃ (ts : List Table) (out : List KeyValue),
        result = ts.map some ∧ concatRecords result = .ok out ∧ Ascending out ∧
        (∀ k : Buffer, k ∈ out.map KeyValue.key ↔ ∃ rs ∈ inputs, ∃ r ∈ rs, r.key = k) ∧
        (ts.map Table.size).sum = ((inputs.flatten.map KeyValue.key).dedup).length ∧
        List.Chain' (fun t t' : Table => t.max_key.compare t'.min_key < 0) ts := by
  refine ⟨fun hin hS2 => merge_tables_succeeds hT hasc config hS2 hfit hin, ?_⟩
  intro result hres
  obtain ⟨chunks, hr, hc, hflat⟩ := merge_tables_result hT hasc config hS hfit hres
  obtain ⟨hne, hkeys⟩ := hT.facts
  obtain ⟨hsasc, hslook, hsmem⟩ := mergeStream_inputs inputs hne hkeys hasc
  rw [← hflat] at hsasc hslook hsmem
  have hmem : ∀ k : Buffer, k ∈ chunks.flatten.map KeyValue.key ↔
      ∃ rs ∈ inputs, ∃ r ∈ rs, r.key = k := by
    intro k
    constructor
    · intro hk
      obtain ⟨x, hx, hxk⟩ := List.mem_map.mp hk
      obtain ⟨rs, hrs, hxrs⟩ := hsmem x hx
      exact ⟨rs, hrs, x, hxrs, hxk⟩
    · rintro ⟨rs, hrs, r, hr', hrk⟩
      obtain ⟨v, hv⟩ := firstValue_isSome_of_mem inputs rs hrs r hr' hasc
      rw [← hslook, hrk] at hv
      exact List.mem_map.mpr ⟨_, lookup_some_mem _ k v hv, rfl⟩
  refine ⟨chunks.map (tableOf config.table_size), chunks.flatten, ?_, ?_, hsasc, hmem, ?_, ?_⟩
  · rw [hr, List.map_map]; rfl
  · rw [hr]; exact concatRecords_eq _ chunks hc
  · rw [sizes_sum, ← List.length_map chunks.flatten KeyValue.key]
    apply List.Perm.length_eq
    rw [List.perm_ext_iff_of_nodup hsasc.keys_nodup (List.nodup_dedup _)]
    intro k
    rw [hmem k, List.mem_dedup, List.mem_map]
    constructor
    · rintro ⟨rs, hrs, r, hr', hrk⟩
      exact ⟨r, List.mem_flatten.mpr ⟨rs, hrs, hr'⟩, hrk⟩
    · rintro ⟨r, hr', hrk⟩
      obtain ⟨rs, hrs, hrrs⟩ := List.mem_flatten.mp hr'
      exact ⟨rs, hrs, r, hrrs, hrk⟩
  · exact chunks_chain _ chunks hc hsasc

/-- Witness of C5: the tables `[a -> x, c -> z]` and `[a -> y, b -> y]` merged into
tables of 32 bytes. -/
theorem merge_tables_order_witness :
    TablesHold [some (tableOf 32 [recA, recC]), some (tableOf 32 [recA2, recB])]
      [[recA, recC], [recA2, recB]] ∧
    ((([[recA, recC], [recA2, recB]] : List (List KeyValue)) ≠ [] →
      sampleConfig.table_size + 131074 < U32 →
      ∃ result, TableBuilder.merge_tables
        [some (tableOf 32 [recA, recC]), some (tableOf 32 [recA2, recB])] sampleConfig
          = .ok result) ∧
    ∀ result, TableBuilder.merge_tables
        [some (tableOf 32 [recA, recC]), some (tableOf 32 [recA2, recB])] sampleConfig
          = .ok result →
      ∃ (ts : List Table) (out : List KeyValue),
        result = ts.map some ∧ concatRecords result = .ok out ∧ Ascending out ∧
        (∀ k : Buffer, k ∈ out.map KeyValue.key ↔
          ∃ rs ∈ ([[recA, recC], [recA2, recB]] : List (List KeyValue)), ∃ r ∈ rs, r.key = k) ∧
        (ts.map Table.size).sum
          = (((([[recA, recC], [recA2, recB]] : List (List KeyValue)).flatten).map
              KeyValue.key).dedup).length ∧
        List.Chain' (fun t t' : Table => t.max_key.compare t'.min_key < 0) ts) :=
  ⟨sample_tables_hold,
    merge_tables_order _ _ sampleConfig sample_tables_hold sample_inputs_ascending
      (by decide) sample_inputs_fit⟩

/-! ## The position of merged tables in a level -/

/-- C3 (the code departs from the claim): a Level N that starts empty receives the
table `[c -> z]` by a first `merge_with` and the table `[a -> x]` by a second one.
No table of the level overlaps `[a, a]`, so `last` stays `m_tables.end()` and the
merged table is inserted at the end: the level holds `[c..c], [a..a]`, and
`max_key` of the first table is not less than `min_key` of the second. -/
theorem merge_with_level0_unsorted :
    (do
      let (l1, _) ← LevelN.merge_with_level0 (Level.new sampleConfig) lowerC
      let (l1, _) ← LevelN.merge_with_level0 l1 lowerA
      pure l1.keyRanges) = .ok [some (keyC, keyC), some (keyA, keyA)] ∧
    ¬ keyC.compare keyA < 0 := by
  decide

/-- C2 (the code departs from the claim): the upper level holds the single table
`[c -> z]` (sorted, disjoint), the lower level is a Level 0 with the single table
`[a -> x]`, whose record fits a fresh table of the upper level. Before the merge
`lower.get(a)` is the hit `x`; after `upper.merge_with(lower)` the merged table sits
behind `[c -> z]` and the binary search of `upper.get(a)` returns "not found". The
same holds when the lower level is a Level N. -/
theorem merge_with_loses_key :
    Level0.get lowerA keyA = .ok (some valX) ∧
    (do
      let (upper, _) ← LevelN.merge_with_level0 upperC lowerA
      LevelN.get upper keyA) = .ok none ∧
    LevelN.get lowerA keyA = .ok (some valX) ∧
    (do
      let (upper, _) ← LevelN.merge_with_levelN upperC lowerA
      LevelN.get upper keyA) = .ok none := by
  decide

/-- C1 (the code departs from the claim): a store with two levels, table size 32,
threshold 1 and memtable size 1. After `add(c, x)`, `add(d, x)`, a merger pass,
`add(a, x)`, `add(b, x)` and a second merger pass, Level 1 holds the tables
`[c..d], [a..b]` in that order and `get(a)` returns "not found", although the most
recent write to `a` was `add(a, x)`. -/
theorem store_get_misses_added_key :
    (do
      let config ← Config.new ['d', 'b'] ['/', 't', 'm', 'p'] 2 32 1 1 1 false
      let s ← KVStore.new config
      let s ← s.add keyC valX
      let s ← s.add keyD valX
      let s ← s.merger_pass
      let s ← s.add keyA valX
      let s ← s.add keyB valX
      let s ← s.merger_pass
      let found ← s.get keyA
      pure (found, s.m_tree.m_levels.map Level.keyRanges)) =
      .ok (none, [[some (keyC, keyD), some (keyA, keyB)]]) := by
  decide

/-! ## The size test of add -/

theorem bigRec_byteSize (i : Nat) : (bigRec i).byteSize = 65532 := by
  simp only [KeyValue.byteSize, Buffer.total_size, Buffer.size, bigRec, bigKey, bigValue,
    List.length_replicate, List.length_cons, List.length_nil]

theorem bigRec_key_size (i : Nat) : (bigRec i).key.size = 2 := rfl

theorem encLen_uniform (c : Nat) (rs : List KeyValue) (h : ∀ r ∈ rs, r.byteSize = c) :
    encLen rs = rs.length * c := by
  induction rs with
  | nil => simp [encLen]
  | cons r rs ih =>
    have h1 := h r (List.mem_cons_self _ _)
    have h2 := ih (fun x hx => h x (List.mem_cons_of_mem _ hx))
    simp only [encLen, List.map_cons, List.sum_cons, List.length_cons] at h2 ⊢
    rw [h2, h1]
    ring

theorem bigRecs_length (n : Nat) : (bigRecs n).length = n := by
  simp [bigRecs]

theorem bigRecs_mem (n : Nat) (r : KeyValue) (h : r ∈ bigRecs n) : ∃ i, r = bigRec i := by
  simp only [bigRecs, List.mem_map] at h
  obtain ⟨i, _, hi⟩ := h
  exact ⟨i, hi.symm⟩

theorem encLen_bigRecs (n : Nat) : encLen (bigRecs n) = n * 65532 := by
  rw [encLen_uniform 65532 (bigRecs n), bigRecs_length]
  intro r hr
  obtain ⟨i, rfl⟩ := bigRecs_mem n r hr
  exact bigRec_byteSize i

theorem bigRecs_succ (n : Nat) : bigRecs (n + 1) = bigRecs n ++ [bigRec n] := by
  simp [bigRecs, List.range_succ]

/-- A builder of 4294967295 bytes accepts the first `n` of the records `bigRecs`, as
long as `n` is at most 65535. -/
theorem addMany_bigRecs : ∀ (n : Nat), n ≤ 65535 → ∀ (m : Nat), m ≤ n →
    ∀ b : TableBuilder, b.Holds 4294967295 (bigRecs (n - m)) →
    ∃ b', TableBuilder.addMany b ((List.range' (n - m) m).map bigRec) =
        .ok (b', (List.range' (n - m) m).map bigRec) ∧
      b'.Holds 4294967295 (bigRecs n) ∧ (m ≠ 0 → b' = builderOf 4294967295 (bigRecs n)) := by
  intro n hn m
  induction m with
  | zero =>
    intro _ b hb
    refine ⟨b, rfl, by simpa using hb, fun h => absurd rfl h⟩
  | succ m ih =>
    intro hm b hb
    have hS : (4294967295 : Nat) < U32 := by decide
    have hadd := TableBuilder.Holds.add_eq hb hS (bigKey (n - (m + 1))) bigValue
    have hsz : (bigKey (n - (m + 1))).total_size + bigValue.total_size = 65532 :=
      bigRec_byteSize (n - (m + 1))
    have hks : (bigKey (n - (m + 1))).size = 2 := rfl
    rw [if_neg (by rw [hks]; decide), encLen_bigRecs, bigRecs_length] at hadd
    rw [if_neg (by unfold U32; omega), if_pos (by omega)] at hadd
    have hsucc : bigRecs (n - (m + 1)) ++ [⟨bigKey (n - (m + 1)), bigValue⟩]
        = bigRecs (n - m) := by
      have : n - m = (n - (m + 1)) + 1 := by omega
      rw [this, bigRecs_succ]
      rfl
    rw [hsucc] at hadd
    have hb1 : (builderOf 4294967295 (bigRecs (n - m))).Holds 4294967295 (bigRecs (n - m)) := by
      refine TableBuilder.builderOf_holds _ _ ?_ ?_
      · intro r hr
        obtain ⟨i, rfl⟩ := bigRecs_mem _ r hr
        rw [bigRec_key_size]; decide
      · rw [encLen_bigRecs]; omega
    obtain ⟨b', h1, h2, h3⟩ := ih (by omega) _ hb1
    refine ⟨b', ?_, h2, fun _ => ?_⟩
    · have hr : List.range' (n - (m + 1)) (m + 1)
          = (n - (m + 1)) :: List.range' (n - m) m := by
        have : n - m = (n - (m + 1)) + 1 := by omega
        rw [this]
        rfl
      rw [hr, List.map_cons]
      show (do
        let (b1, added) ← b.add (bigRec (n - (m + 1))).key (bigRec (n - (m + 1))).value
        let (b2, acc) ← TableBuilder.addMany b1 ((List.range' (n - m) m).map bigRec)
        pure (b2, if added then bigRec (n - (m + 1)) :: acc else acc)) = _
      show (do
        let (b1, added) ← b.add (bigKey (n - (m + 1))) bigValue
        let (b2, acc) ← TableBuilder.addMany b1 ((List.range' (n - m) m).map bigRec)
        pure (b2, if added then bigRec (n - (m + 1)) :: acc else acc)) = _
      rw [hadd]
      show (do
        let (b2, acc) ← TableBuilder.addMany (builderOf 4294967295 (bigRecs (n - m)))
          ((List.range' (n - m) m).map bigRec)
        pure (b2, if true then bigRec (n - (m + 1)) :: acc else acc)) = _
      rw [h1]
      rfl
    · by_cases hm0 : m = 0
      · subst hm0
        simp only [List.range'_zero, List.map_nil, TableBuilder.addMany] at h1
        cases h1
        rfl
      · exact h3 hm0

theorem bigRec_sizes (i : Nat) : (bigKey i).total_size + bigValue.total_size = 65532 :=
  bigRec_byteSize i

theorem bigValue_size : bigValue.size = 65526 := by
  unfold Buffer.size bigValue
  exact List.length_replicate _ _

theorem builderMap_head (S : Nat) (cur : List KeyValue) :
    (builderMap S cur).m_head_index = encLen cur := rfl

theorem builderOf_index (S : Nat) (cur : List KeyValue) :
    (builderOf S cur).m_index = offsetsFrom 0 cur := rfl

theorem bigRecs_holds (n : Nat) (hn : n * 65532 ≤ 4294967295) :
    (builderOf 4294967295 (bigRecs n)).Holds 4294967295 (bigRecs n) := by
  refine TableBuilder.builderOf_holds _ _ ?_ ?_
  · intro r hr
    obtain ⟨i, rfl⟩ := bigRecs_mem _ r hr
    rw [bigRec_key_size]; decide
  · rw [encLen_bigRecs]; exact hn

theorem addMany_bigRecs_all (n : Nat) (hn : n ≤ 65535) (h0 : n ≠ 0) :
    TableBuilder.addMany (TableBuilder.new 4294967295) (bigRecs n)
      = .ok (builderOf 4294967295 (bigRecs n), bigRecs n) := by
  obtain ⟨b', h1, _, h3⟩ := addMany_bigRecs n hn n (Nat.le_refl _)
    (TableBuilder.new 4294967295) (by
      rw [Nat.sub_self]
      exact TableBuilder.new_holds _)
  rw [Nat.sub_self, ← List.range_eq_range'] at h1
  rw [h3 h0] at h1
  exact h1

theorem add_bigRec_wraps (n : Nat) (hn : n = 65535) :
    (builderOf 4294967295 (bigRecs n)).add (bigKey n) bigValue
      = .ok (builderOf 4294967295 (bigRecs (n + 1)), true) := by
  have hS : (4294967295 : Nat) < U32 := by decide
  have hadd := TableBuilder.Holds.add_eq (bigRecs_holds n (by omega)) hS (bigKey n) bigValue
  have hsz := bigRec_sizes n
  have hks : (bigKey n).size = 2 := rfl
  rw [if_neg (by rw [hks]; decide), encLen_bigRecs, bigRecs_length] at hadd
  rw [if_neg (by unfold U32; omega), if_pos (by omega)] at hadd
  rw [hadd, bigRecs_succ n]
  rfl

theorem finalize_bigRecs_fails (n : Nat) (hn : n = 65536) :
    (builderOf 4294967295 (bigRecs n)).finalize = .error .assertion := by
  have hS : (4294967295 : Nat) < U32 := by decide
  have hne : bigRecs n ≠ [] := by
    intro h
    have := bigRecs_length n
    rw [h] at this
    simp at this
    omega
  rw [TableBuilder.finalize_builderOf _ _ hS (by rw [encLen_bigRecs]; omega) hne,
    if_neg (by rw [encLen_bigRecs, bigRecs_length]; omega)]

/-- C11 (the code departs from the claim): a builder of table size 4294967295 accepts
the 65535 records `bigRecs 65535` of 65532 bytes each; it then has head index
`h = 4294639620` and `n = 65535` offsets. For the next record, with a key of 2 bytes and
a value of 65526 bytes, the bound of the claim is exceeded,
`h + (2 + 2) + (2 + 65526) + 4 * (n + 1) + 4 = 4294967300 > 4294967295`, so `add`
should return false. The 32-bit sum `current_size() + key.total_size() +
value.total_size()` is `4294967296`, which wraps to 0, and `add` accepts the record and
returns true. The offset index of the 65536 records no longer fits behind them, and
`finalize` stops at the assertion of `appendBack`. -/
theorem add_accepts_past_table_size :
    TableBuilder.addMany (TableBuilder.new 4294967295) (bigRecs 65535)
      = .ok (builderOf 4294967295 (bigRecs 65535), bigRecs 65535) ∧
    (builderMap 4294967295 (bigRecs 65535)).m_head_index = 4294639620 ∧
    (builderOf 4294967295 (bigRecs 65535)).m_index.length = 65535 ∧
    (bigKey 65535).size = 2 ∧ bigValue.size = 65526 ∧
    4294639620 + (2 + 2) + (2 + 65526) + 4 * (65535 + 1) + 4 > 4294967295 ∧
    (builderOf 4294967295 (bigRecs 65535)).add (bigKey 65535) bigValue
      = .ok (builderOf 4294967295 (bigRecs 65536), true) ∧
    (builderOf 4294967295 (bigRecs 65536)).finalize = .error .assertion := by
  refine ⟨addMany_bigRecs_all 65535 (Nat.le_refl _) (by decide), ?_, ?_, rfl, bigValue_size,
    by decide, add_bigRec_wraps 65535 rfl, finalize_bigRecs_fails 65536 rfl⟩
  · rw [builderMap_head, encLen_bigRecs]
  · rw [builderOf_index, offsetsFrom_length, bigRecs_length]

/-! ## The first record of a table -/

theorem TableBuilder.Holds.add_first {b : TableBuilder} {S : Nat} (hb : b.Holds S [])
    (hS : S < U32) (k v : Buffer) (hk : k.size ≠ 0) (hfit : fits S ⟨k, v⟩) :
    b.add k v = .ok (builderOf S [⟨k, v⟩], true) := by
  have hadd := TableBuilder.Holds.add_eq hb hS k v
  have hle := KeyValue.byteSize_le ⟨k, v⟩
  have hfit' : k.total_size + v.total_size + 8 ≤ S := hfit
  have hle' : k.total_size + v.total_size ≤ 131074 := hle
  rw [if_neg hk] at hadd
  simp only [encLen, List.map_nil, List.sum_nil, List.length_nil] at hadd
  rw [if_neg (by unfold U32 at *; omega), if_pos (by omega)] at hadd
  rw [hadd]
  rfl

theorem TableBuilder.Holds.after_rejected {b0 b1 b2 : TableBuilder} {S : Nat}
    {cur : List KeyValue} (h0 : b0.Holds S cur) (hS : S < U32) {k v : Buffer} {t : TablePtr}
    (hadd : b0.add k v = .ok (b1, false)) (hfin : b1.finalize = .ok (b2, t)) :
    b2.Holds S [] := by
  have h1 := (TableBuilder.Holds.add_ok h0 hS hadd).2
  simp only [Bool.false_eq_true, if_false] at h1
  have hb1 : b1 = builderOf S cur := by
    have := TableBuilder.Holds.add_eq h0 hS k v
    rw [hadd] at this
    split at this
    · cases this
    · split at this
      · cases this; rfl
      · split at this <;> cases this
  by_cases hc : cur = []
  · subst hc
    rw [hb1, TableBuilder.finalize_builderOf_nil] at hfin
    cases hfin
    exact TableBuilder.builderOf_holds S [] (by simp) (by simp [encLen])
  · obtain ⟨hb2, _⟩ := TableBuilder.Holds.finalize_ok h1 hS hc hfin
    rw [hb2]
    exact TableBuilder.new_holds S

/-- C12 (as amended): for every record `(k, v)` with a non-empty key and every table
size `S < 2^32` with room for the record, its offset and the entry count
(`4 + |k| + |v| + 8 ≤ S`), `add` on a builder that holds no records (a new one, or one
whose mapping exists but is empty) returns true and the builder then holds exactly that
record; and whenever an `add` of the record was rejected and the builder was finalized,
as `merge_tables` and `Level0::dump_memtable` do, the second `add` returns true. -/
theorem add_fresh_accepts (S : Nat) (k v : Buffer) (hS : S < U32) (hk : k.size ≠ 0)
    (hfit : fits S ⟨k, v⟩) :
    (∀ b : TableBuilder, b.Holds S [] → b.add k v = .ok (builderOf S [⟨k, v⟩], true)) ∧
    (∀ (b0 b1 b2 : TableBuilder) (cur : List KeyValue) (t : TablePtr), b0.Holds S cur →
      b0.add k v = .ok (b1, false) → b1.finalize = .ok (b2, t) →
      b2.add k v = .ok (builderOf S [⟨k, v⟩], true)) :=
  ⟨fun _ hb => TableBuilder.Holds.add_first hb hS k v hk hfit,
   fun _ _ _ _ _ h0 hadd hfin =>
    TableBuilder.Holds.add_first (TableBuilder.Holds.after_rejected h0 hS hadd hfin) hS k v hk hfit⟩

/-- Witness of C12: the record `a -> x` (6 bytes) and a table size of 14 bytes. -/
theorem add_fresh_accepts_witness :
    14 < U32 ∧ keyA.size ≠ 0 ∧ fits 14 ⟨keyA, valX⟩ ∧
    (∀ b : TableBuilder, b.Holds 14 [] → b.add keyA valX = .ok (builderOf 14 [⟨keyA, valX⟩], true)) ∧
    (∀ (b0 b1 b2 : TableBuilder) (cur : List KeyValue) (t : TablePtr), b0.Holds 14 cur →
      b0.add keyA valX = .ok (b1, false) → b1.finalize = .ok (b2, t) →
      b2.add keyA valX = .ok (builderOf 14 [⟨keyA, valX⟩], true)) :=
  ⟨by decide, by decide, by unfold fits; decide,
    add_fresh_accepts 14 keyA valX (by decide) (by decide) (by unfold fits; decide)⟩

/-- C12 (counterexample to the claim as stated): the record `a -> x` has the encoded
size 6. With a table size of 6, and still with 13, `add` on a new builder returns
false: the test also counts the 4-byte offset of the record and the 4-byte entry count.
`merge_tables` then drops the record (its second `add` is rejected as well and the
result is a null table), and `Level0::dump_memtable` stops at `assert(res)`. An empty
key stops `add` at its first assertion. -/
theorem add_rejects_record_sized_table :
    recA.byteSize = 6 ∧
    (TableBuilder.new 6).add recA.key recA.value = .ok (builderOf 6 [], false) ∧
    (TableBuilder.new 13).add recA.key recA.value = .ok (builderOf 13 [], false) ∧
    TableBuilder.merge_tables [some (tableOf 32 [recA])] tightConfig = .ok [none] ∧
    Level0.dump_memtable (Level.new tightConfig) memA = .error .assertion ∧
    (TableBuilder.new 32).add Buffer.empty valX = .error .assertion := by
  decide

/-! ## finalize on a builder without a mapping -/

/-- C13 (the code departs from the claim): `finalize` on a builder on which `add` was
never called reads `m_mmap->head_index()` through the null `m_mmap`; so does a second
`finalize` right after one that returned a table (`clear()` has reset `m_mmap`).
Inside the repository `merge_tables` on an empty list and `Level0::dump_memtable` on an
empty memtable reach this call. -/
theorem finalize_without_add_fails (S : Nat) :
    (TableBuilder.new S).finalize = .error .nullDeref ∧
    (do
      let (b, _) ← (TableBuilder.new 32).add keyA valX
      let (b, _) ← b.finalize
      b.finalize) = .error .nullDeref ∧
    TableBuilder.merge_tables [] sampleConfig = .error .nullDeref ∧
    Level0.dump_memtable (Level.new sampleConfig0) MemTable.new = .error .nullDeref := by
  refine ⟨rfl, ?_, ?_, ?_⟩ <;> decide

/-! ## LSMTree::get -/

theorem FirstHitAt.zero (r : Except Err (Option Buffer))
    (rs : List (Except Err (Option Buffer))) (v w : Buffer) (i : Nat)
    (hr : r = .ok (some w)) : FirstHitAt (r :: rs) i v ↔ v = w ∧ i = 0 := by
  subst hr
  constructor
  · rintro ⟨h1, h2⟩
    cases i with
    | zero =>
      simp only [List.getElem?_cons_zero, Option.some.injEq, Except.ok.injEq] at h1
      exact ⟨h1.symm, rfl⟩
    | succ i =>
      have := h2 0 (Nat.succ_pos _)
      simp at this
  · rintro ⟨rfl, rfl⟩
    exact ⟨by simp, fun j hj => absurd hj (Nat.not_lt_zero _)⟩

theorem FirstHitAt.succ (rs : List (Except Err (Option Buffer))) (v : Buffer) :
    (∃ i, FirstHitAt (.ok none :: rs) i v) ↔ ∃ i, FirstHitAt rs i v := by
  constructor
  · rintro ⟨i, h1, h2⟩
    cases i with
    | zero => simp at h1
    | succ i =>
      refine ⟨i, by simpa using h1, fun j hj => ?_⟩
      have := h2 (j + 1) (by omega)
      simpa using this
  · rintro ⟨i, h1, h2⟩
    refine ⟨i + 1, by simpa using h1, fun j hj => ?_⟩
    cases j with
    | zero => simp
    | succ j =>
      have := h2 j (by omega)
      simpa using this

theorem LSMTree.getLoop_some (key v : Buffer) (levels : List Level) :
    LSMTree.getLoop key levels = .ok (some v) ↔
      ∃ i, FirstHitAt (levels.map (fun l => LevelN.get l key)) i v := by
  induction levels with
  | nil =>
    simp only [LSMTree.getLoop, List.map_nil]
    constructor
    · intro h; cases h
    · rintro ⟨i, h1, _⟩; simp at h1
  | cons l rest ih =>
    rw [List.map_cons]
    cases hl : LevelN.get l key with
    | error e =>
      have : LSMTree.getLoop key (l :: rest) = .error e := by
        simp only [LSMTree.getLoop, hl]; rfl
      rw [this]
      constructor
      · intro h; cases h
      · rintro ⟨i, h1, h2⟩
        cases i with
        | zero => simp at h1
        | succ i => have := h2 0 (Nat.succ_pos _); simp at this
    | ok r =>
      cases r with
      | none =>
        have : LSMTree.getLoop key (l :: rest) = LSMTree.getLoop key rest := by
          simp only [LSMTree.getLoop, hl]; rfl
        rw [this, ih, FirstHitAt.succ]
      | some w =>
        have : LSMTree.getLoop key (l :: rest) = .ok (some w) := by
          simp only [LSMTree.getLoop, hl]; rfl
        rw [this]
        constructor
        · intro h
          cases h
          exact ⟨0, (FirstHitAt.zero _ _ _ _ _ rfl).2 ⟨rfl, rfl⟩⟩
        · rintro ⟨i, h⟩
          rw [((FirstHitAt.zero _ _ _ _ _ rfl).1 h).1]

theorem LSMTree.getLoop_none (key : Buffer) (levels : List Level) :
    LSMTree.getLoop key levels = .ok none ↔
      ∀ r ∈ levels.map (fun l => LevelN.get l key), r = .ok none := by
  induction levels with
  | nil => simp [LSMTree.getLoop]; rfl
  | cons l rest ih =>
    rw [List.map_cons]
    cases hl : LevelN.get l key with
    | error e =>
      have : LSMTree.getLoop key (l :: rest) = .error e := by
        simp only [LSMTree.getLoop, hl]; rfl
      rw [this]
      constructor
      · intro h; cases h
      · intro h
        have := h _ (List.mem_cons_self _ _)
        cases this
    | ok r =>
      cases r with
      | none =>
        have : LSMTree.getLoop key (l :: rest) = LSMTree.getLoop key rest := by
          simp only [LSMTree.getLoop, hl]; rfl
        rw [this, ih]
        simp
      | some w =>
        have : LSMTree.getLoop key (l :: rest) = .ok (some w) := by
          simp only [LSMTree.getLoop, hl]; rfl
        rw [this]
        constructor
        · intro h; cases h
        · intro h
          have := h _ (List.mem_cons_self _ _)
          cases this

theorem LSMTree.get_live (t : LSMTree) (key : Buffer) (h : t.m_terminate_merge = false) :
    t.get key = (Level0.get t.m_level0 key >>= fun value =>
      match value with
      | some v => pure (some v)
      | none => LSMTree.getLoop key t.m_levels) := by
  simp only [LSMTree.get, h, Bool.not_false, assert]
  rfl

theorem LSMTree.get_terminated (t : LSMTree) (key : Buffer) (h : t.m_terminate_merge = true) :
    t.get key = .error .assertion := by
  simp only [LSMTree.get, h, Bool.not_true, assert]
  rfl

/-- C17: `LSMTree::get(k)` returns a value `v` exactly when the tree has not been shut
down (the assertion at the head of `get`) and some level, in the order Level 0,
Level 1, ..., Level L-1, returns the hit `v` while every level before it returns
"not found"; `v` may have length zero. It returns "not found" exactly when the tree
has not been shut down and every level returns "not found". -/
theorem lsmtree_get_first_hit (t : LSMTree) (key : Buffer) :
    (∀ v : Buffer, t.get key = .ok (some v) ↔
      (t.m_terminate_merge = false ∧ ∃ i, FirstHitAt (t.levelResults key) i v)) ∧
    (t.get key = .ok none ↔
      (t.m_terminate_merge = false ∧ ∀ r ∈ t.levelResults key, r = .ok none)) := by
  cases hterm : t.m_terminate_merge with
  | true =>
    rw [LSMTree.get_terminated t key hterm]
    refine ⟨fun v => Iff.intro (fun h => by cases h) (fun h => by cases h.1),
      Iff.intro (fun h => by cases h) (fun h => by cases h.1)⟩
  | false =>
    rw [LSMTree.get_live t key hterm]
    unfold LSMTree.levelResults
    cases h0 : Level0.get t.m_level0 key with
    | error e =>
      refine ⟨fun v => Iff.intro (fun h => by cases h) ?_, Iff.intro (fun h => by cases h) ?_⟩
      · rintro ⟨_, i, h1, h2⟩
        cases i with
        | zero => simp at h1
        | succ i => have := h2 0 (Nat.succ_pos _); simp at this
      · rintro ⟨_, h⟩
        have := h _ (List.mem_cons_self _ _)
        cases this
    | ok r =>
      cases r with
      | some w =>
        refine ⟨fun v => Iff.intro ?_ ?_, Iff.intro (fun h => by cases h) ?_⟩
        · intro h
          cases h
          exact ⟨rfl, 0, (FirstHitAt.zero _ _ _ _ _ rfl).2 ⟨rfl, rfl⟩⟩
        · rintro ⟨_, i, h⟩
          rw [((FirstHitAt.zero _ _ _ _ _ rfl).1 h).1]
          rfl
        · rintro ⟨_, h⟩
          have := h _ (List.mem_cons_self _ _)
          cases this
      | none =>
        refine ⟨fun v => ?_, ?_⟩
        · show LSMTree.getLoop key t.m_levels = .ok (some v) ↔ _
          rw [LSMTree.getLoop_some, FirstHitAt.succ]
          simp
        · show LSMTree.getLoop key t.m_levels = .ok none ↔ _
          rw [LSMTree.getLoop_none]
          simp

/-- Witness of C17: in `sampleTree` Level 0 misses the key `a`, Level 1 holds the
tombstone `a -> ""` and Level 2 holds `a -> x`; `get(a)` returns the zero-length value
of Level 1. -/
theorem lsmtree_get_first_hit_witness :
    FirstHitAt (sampleTree.levelResults keyA) 1 Buffer.empty ∧
    sampleTree.get keyA = .ok (some Buffer.empty) :=
  ⟨by unfold FirstHitAt; decide,
   ((lsmtree_get_first_hit sampleTree keyA).1 Buffer.empty).2
     ⟨rfl, 1, by unfold FirstHitAt; decide⟩⟩

/-! ## Tombstones in a merge -/

theorem tombstone_tables_hold :
    TablesHold [some (tableOf 32 [recDelA, recC]), some (tableOf 32 [recA2, recB])]
      [[recDelA, recC], [recA2, recB]] := by
  refine List.Forall₂.cons ⟨_, rfl, ?_⟩ (List.Forall₂.cons ⟨_, rfl, ?_⟩ List.Forall₂.nil)
  · exact tableOf_holds 32 _ (by decide) (by simp) (by decide) (by decide)
  · exact tableOf_holds 32 _ (by decide) (by simp) (by decide) (by decide)

theorem tombstone_inputs_ascending :
    ∀ rs ∈ [[recDelA, recC], [recA2, recB]], Ascending rs := by
  intro rs hrs
  simp only [List.mem_cons, List.mem_singleton, List.not_mem_nil, or_false] at hrs
  rcases hrs with h | h <;> subst h <;> simp [Ascending, recDelA, recA2, recB, recC] <;> decide

theorem tombstone_inputs_fit :
    ∀ rs ∈ [[recDelA, recC], [recA2, recB]], ∀ r ∈ rs, fits sampleConfig.table_size r := by
  unfold fits
  decide

/-- C19: for every list of well-formed input tables, each strictly ascending by key,
and an output `table_size` that fits every record, a record `r` of input `i` with a
zero-length value fares like any other record. When no input of lower index holds its
key, the concatenated output of `merge_tables` holds exactly one record with that key,
namely `r` with its zero-length value (the records of that key in later inputs are
dropped). When `r` is missing from the output, some input of lower index holds its key;
and when input `j < i` is the first input that holds the key, the output holds the
record of input `j` for it and no other. The first part states that `merge_tables` does
return when the 32-bit sum of the size test of `add` cannot wrap. -/
theorem merge_tables_tombstone (tables : table_list) (inputs : List (List KeyValue))
    (config : LevelConfig) (hT : TablesHold tables inputs)
    (hasc : ∀ rs ∈ inputs, Ascending rs) (hS : config.table_size < U32)
    (hfit : ∀ rs ∈ inputs, ∀ r ∈ rs, fits config.table_size r) :
    (inputs ≠ [] → config.table_size + 131074 < U32 →
      ∃ result, TableBuilder.merge_tables tables config = .ok result) ∧
    ∀ result, TableBuilder.merge_tables tables config = .ok result →
      ∃ out, concatRecords result = .ok out ∧
        ∀ (i : Nat) (rs : List KeyValue) (r : KeyValue), inputs[i]? = some rs → r ∈ rs →
          r.value.size = 0 →
          ((∀ (j : Nat) (rs' : List KeyValue), j < i → inputs[j]? = some rs' →
              ∀ r' ∈ rs', r'.key ≠ r.key) →
            out.filter (fun x => decide (x.key = r.key)) = [r]) ∧
          (r ∉ out → ∃ (j : Nat) (rs' : List KeyValue), j < i ∧ inputs[j]? = some rs' ∧
            ∃ r' ∈ rs', r'.key = r.key) ∧
          (∀ (j : Nat) (rs' : List KeyValue) (r' : KeyValue), j < i →
            inputs[j]? = some rs' → r' ∈ rs' → r'.key = r.key →
            (∀ (j' : Nat) (rs'' : List KeyValue), j' < j → inputs[j']? = some rs'' →
              ∀ r'' ∈ rs'', r''.key ≠ r.key) →
            out.filter (fun x => decide (x.key = r.key)) = [r']) := by
  refine ⟨fun hin hS2 => merge_tables_succeeds hT hasc config hS2 hfit hin, ?_⟩
  intro result hres
  obtain ⟨chunks, hr, hc, hflat⟩ := merge_tables_result hT hasc config hS hfit hres
  obtain ⟨hne, hkeys⟩ := hT.facts
  obtain ⟨hsasc, hslook, _⟩ := mergeStream_inputs inputs hne hkeys hasc
  have hkey : ∀ (i : Nat) (rs : List KeyValue) (r : KeyValue), inputs[i]? = some rs → r ∈ rs →
      (∀ (j : Nat) (rs' : List KeyValue), j < i → inputs[j]? = some rs' →
        ∀ r' ∈ rs', r'.key ≠ r.key) →
      chunks.flatten.filter (fun x => decide (x.key = r.key)) = [r] := by
    intro i rs r hi hrm hbefore
    have hfv := firstValue_of_index inputs i rs r hi
      (hasc rs (mem_of_getElem? _ _ _ hi)) hrm hbefore
    rw [← hslook, ← hflat] at hfv
    rw [hflat] at hfv ⊢
    exact filter_key_of_lookup _ hsasc r.key r.value hfv
  refine ⟨chunks.flatten, ?_, ?_⟩
  · rw [hr]; exact concatRecords_eq _ chunks hc
  · intro i rs r hi hrm _
    refine ⟨hkey i rs r hi hrm, ?_, ?_⟩
    · intro hnot
      by_contra hno
      have hbefore : ∀ (j : Nat) (rs' : List KeyValue), j < i → inputs[j]? = some rs' →
          ∀ r' ∈ rs', r'.key ≠ r.key := by
        intro j rs' hj hj' r' hr' heq
        exact hno ⟨j, rs', hj, hj', r', hr', heq⟩
      have hf := hkey i rs r hi hrm hbefore
      have : r ∈ chunks.flatten.filter (fun x => decide (x.key = r.key)) := by
        rw [hf]; exact List.mem_singleton_self r
      exact hnot (List.mem_of_mem_filter this)
    · intro j rs' r' _ hj' hr' heq hbefore
      have := hkey j rs' r' hj' hr' (by rw [heq]; exact hbefore)
      rw [heq] at this
      exact this

/-- Witness of C19: the tables `[a -> "", c -> z]` and `[a -> y, b -> y]` merged into
tables of 32 bytes; the output is `a -> "", b -> y, c -> z`. -/
theorem merge_tables_tombstone_witness :
    (TableBuilder.merge_tables
        [some (tableOf 32 [recDelA, recC]), some (tableOf 32 [recA2, recB])] sampleConfig
      >>= concatRecords) = .ok [recDelA, recB, recC] ∧
    TablesHold [some (tableOf 32 [recDelA, recC]), some (tableOf 32 [recA2, recB])]
      [[recDelA, recC], [recA2, recB]] ∧
    ((([[recDelA, recC], [recA2, recB]] : List (List KeyValue)) ≠ [] →
      sampleConfig.table_size + 131074 < U32 →
      ∃ result, TableBuilder.merge_tables
        [some (tableOf 32 [recDelA, recC]), some (tableOf 32 [recA2, recB])] sampleConfig
          = .ok result) ∧
    ∀ result, TableBuilder.merge_tables
        [some (tableOf 32 [recDelA, recC]), some (tableOf 32 [recA2, recB])] sampleConfig
          = .ok result →
      ∃ out, concatRecords result = .ok out ∧
        ∀ (i : Nat) (rs : List KeyValue) (r : KeyValue),
          ([[recDelA, recC], [recA2, recB]] : List (List KeyValue))[i]? = some rs → r ∈ rs →
          r.value.size = 0 →
          ((∀ (j : Nat) (rs' : List KeyValue), j < i →
              ([[recDelA, recC], [recA2, recB]] : List (List KeyValue))[j]? = some rs' →
              ∀ r' ∈ rs', r'.key ≠ r.key) →
            out.filter (fun x => decide (x.key = r.key)) = [r]) ∧
          (r ∉ out → ∃ (j : Nat) (rs' : List KeyValue), j < i ∧
            ([[recDelA, recC], [recA2, recB]] : List (List KeyValue))[j]? = some rs' ∧
            ∃ r' ∈ rs', r'.key = r.key) ∧
          (∀ (j : Nat) (rs' : List KeyValue) (r' : KeyValue), j < i →
            ([[recDelA, recC], [recA2, recB]] : List (List KeyValue))[j]? = some rs' →
            r' ∈ rs' → r'.key = r.key →
            (∀ (j' : Nat) (rs'' : List KeyValue), j' < j →
              ([[recDelA, recC], [recA2, recB]] : List (List KeyValue))[j']? = some rs'' →
              ∀ r'' ∈ rs'', r''.key ≠ r.key) →
            out.filter (fun x => decide (x.key = r.key)) = [r'])) :=
  ⟨by decide, tombstone_tables_hold,
    merge_tables_tombstone _ _ sampleConfig tombstone_tables_hold tombstone_inputs_ascending
      (by decide) tombstone_inputs_fit⟩

/-! ## Level0::dump_memtable -/

theorem strLt_iff_cmpBytes (a : Bytes) : ∀ b : Bytes, strLt a b = true ↔ cmpBytes a b < 0 := by
  induction a with
  | nil =>
    intro b
    cases b with
    | nil => simp [strLt, cmpBytes_nil_nil]
    | cons y bs => simp [strLt, cmpBytes_nil_cons]
  | cons x as ih =>
    intro b
    cases b with
    | nil =>
      have := cmpBytes_cons_nil x as
      simp only [strLt, Bool.false_eq_true, false_iff]
      omega
    | cons y bs =>
      rw [cmpBytes_cons_cons]
      simp only [strLt]
      by_cases hxy : x = y
      · subst hxy
        simp [ih bs]
      · have hne : x.val ≠ y.val := fun h => hxy (Fin.ext h)
        rw [if_neg hxy]
        by_cases hlt : x.val < y.val
        · simp only [hlt, if_true, true_iff]
          omega
        · have hgt : y.val < x.val := by omega
          simp only [hlt, if_false, hgt, if_true, Bool.false_eq_true, false_iff]
          omega

theorem strLt_iff_compare (a b : Buffer) : strLt a.bytes b.bytes = true ↔ a.compare b < 0 := by
  rw [Buffer.compare_eq_cmpBytes, strLt_iff_cmpBytes]

theorem addOrRoll_holds {b b1 : TableBuilder} {S : Nat} {cur : List KeyValue}
    (h : b.Holds S cur) (hS : S < U32) (res res1 : table_list) (r : KeyValue)
    (hfit : fits S r) (hk : r.key.size ≠ 0)
    (hstep : TableBuilder.addOrRoll b res r = .ok (b1, res1)) : ∃ cur1, b1.Holds S cur1 := by
  obtain ⟨chunks', cur', ⟨_, _, hb⟩, _, _⟩ :=
    emitAll_ok hS [r] b [] [] cur b1 (res1.drop res.length)
      ⟨rfl, by simp, h⟩ (by
        intro x hx
        simp only [List.mem_singleton] at hx
        subst hx
        exact ⟨hfit, hk⟩) (by
        have hfit' : r.byteSize + 8 ≤ S := hfit
        have hrec := r.byteSize_le
        simp only [KeyValue.byteSize] at hfit' hrec
        rw [addOrRoll_eq h hS res r hfit hk] at hstep
        simp only [emitAll, addOrRoll_eq h hS [] r hfit hk, bind, Except.bind]
        split at hstep
        · rename_i hfull
          rw [if_pos hfull]
          split at hstep
          · rename_i hroom
            rw [if_pos hroom]
            cases hstep
            simp [pure, Except.pure]
          · cases hstep
        · rename_i hfull
          rw [if_neg hfull]
          split at hstep
          · rename_i hroom
            rw [if_pos hroom]
            cases hstep
            simp [pure, Except.pure]
          · cases hstep)
  exact ⟨cur', hb⟩

/-- One run of the loop body of `dump_memtable` is the block `addOrRoll`: the second
`add`, on an empty builder, accepts a record that fits a fresh table, so `assert(res)`
holds. -/
theorem dumpLoop_cons {b : TableBuilder} {S : Nat} {cur : List KeyValue} (h : b.Holds S cur)
    (hS : S < U32) (tables : table_list) (item : Bytes × Bytes) (rest : List (Bytes × Bytes))
    (k v : Buffer) (hk1 : Buffer.ofString item.1 = .ok k) (hv1 : Buffer.ofString item.2 = .ok v)
    (hfit : fits S ⟨k, v⟩) (hk : k.size ≠ 0) :
    Level0.dumpLoop b tables (item :: rest) =
      TableBuilder.addOrRoll b tables ⟨k, v⟩ >>= fun out => Level0.dumpLoop out.1 out.2 rest := by
  simp only [Level0.dumpLoop, TableBuilder.addOrRoll, hk1, hv1, bind, Except.bind]
  cases hadd : b.add k v with
  | error e => rfl
  | ok r =>
    obtain ⟨b1, added⟩ := r
    cases added with
    | true => rfl
    | false =>
      simp only [Bool.not_false, if_true]
      cases hfin : b1.finalize with
      | error e => rfl
      | ok r2 =>
        obtain ⟨b2, t⟩ := r2
        have h2 := TableBuilder.Holds.after_rejected h hS hadd hfin
        simp only [TableBuilder.Holds.add_first h2 hS k v hk hfit, assert]
        rfl

theorem dumpLoop_ok {S : Nat} (hS : S < U32) (items : List (Bytes × Bytes)) :
    ∀ (b : TableBuilder) (res : table_list) (cur : List KeyValue) (b' : TableBuilder)
      (res' : table_list), b.Holds S cur → (∀ e ∈ items, fitsEntry S e) →
      Level0.dumpLoop b res items = .ok (b', res') →
      ∃ rs : List KeyValue, rs.map KeyValue.pair = items ∧
        (∀ r ∈ rs, fits S r ∧ r.key.size ≠ 0) ∧ emitAll b res rs = .ok (b', res') := by
  induction items with
  | nil =>
    intro b res cur b' res' _ _ hd
    exact ⟨[], rfl, by simp, hd⟩
  | cons item rest ih =>
    intro b res cur b' res' hb hfit hd
    cases hk1 : Buffer.ofString item.1 with
    | error e =>
      simp only [Level0.dumpLoop, hk1, bind, Except.bind] at hd
      cases hd
    | ok k =>
      cases hv1 : Buffer.ofString item.2 with
      | error e =>
        simp only [Level0.dumpLoop, hk1, hv1, bind, Except.bind] at hd
        cases hd
      | ok v =>
        have hkb := (Buffer.ofString_ok hk1).1
        have hvb := (Buffer.ofString_ok hv1).1
        have hf : fits S ⟨k, v⟩ := by
          have := hfit item (List.mem_cons_self _ _)
          unfold fitsEntry at this
          unfold fits KeyValue.byteSize Buffer.total_size Buffer.size
          rw [hkb, hvb]
          exact this
        by_cases hk : k.size = 0
        · simp only [Level0.dumpLoop, hk1, hv1, bind, Except.bind, hb.add_eq hS, if_pos hk] at hd
          cases hd
        · rw [dumpLoop_cons hb hS res item rest k v hk1 hv1 hf hk] at hd
          cases hstep : TableBuilder.addOrRoll b res ⟨k, v⟩ with
          | error e =>
            rw [hstep] at hd
            cases hd
          | ok out =>
            obtain ⟨b1, res1⟩ := out
            rw [hstep] at hd
            obtain ⟨cur1, hb1⟩ := addOrRoll_holds hb hS res res1 ⟨k, v⟩ hf hk hstep
            obtain ⟨rs, hrs, hall, hemit⟩ := ih b1 res1 cur1 b' res' hb1
              (fun e he => hfit e (List.mem_cons_of_mem _ he)) hd
            refine ⟨⟨k, v⟩ :: rs, ?_, ?_, ?_⟩
            · simp only [List.map_cons, hrs, KeyValue.pair, hkb, hvb]
            · intro r hr
              rcases List.mem_cons.mp hr with h | h
              · subst h; exact ⟨hf, hk⟩
              · exact hall r h
            · simp only [emitAll, hstep, bind, Except.bind]
              exact hemit

theorem dumpLoop_eq_emitAll {S : Nat} (hS : S < U32) (rs : List KeyValue) :
    ∀ (b : TableBuilder) (res : table_list) (cur : List KeyValue), b.Holds S cur →
      (∀ r ∈ rs, fits S r ∧ r.key.size ≠ 0 ∧ r.key.size < 65535 ∧ r.value.size < 65535) →
      Level0.dumpLoop b res (rs.map KeyValue.pair) = emitAll b res rs := by
  induction rs with
  | nil => intro b res cur _ _; rfl
  | cons r rs ih =>
    intro b res cur hb hall
    obtain ⟨hf, hk, hks, hvs⟩ := hall r (List.mem_cons_self _ _)
    have hk1 : Buffer.ofString (KeyValue.pair r).1 = .ok r.key := by
      obtain ⟨b0, h1, h2⟩ := Buffer.ofString_eq r.key.bytes hks
      rw [show (KeyValue.pair r).1 = r.key.bytes from rfl, h1, Buffer.ext_bytes h2]
    have hv1 : Buffer.ofString (KeyValue.pair r).2 = .ok r.value := by
      obtain ⟨b0, h1, h2⟩ := Buffer.ofString_eq r.value.bytes hvs
      rw [show (KeyValue.pair r).2 = r.value.bytes from rfl, h1, Buffer.ext_bytes h2]
    rw [List.map_cons, dumpLoop_cons hb hS res _ _ r.key r.value hk1 hv1 hf hk]
    simp only [emitAll]
    cases hstep : TableBuilder.addOrRoll b res r with
    | error e => rfl
    | ok out =>
      obtain ⟨b1, res1⟩ := out
      obtain ⟨cur1, hb1⟩ := addOrRoll_holds hb hS res res1 r hf hk hstep
      simp only [bind, Except.bind]
      exact ih b1 res1 cur1 hb1 (fun x hx => hall x (List.mem_cons_of_mem _ hx))

theorem exists_records (items : List (Bytes × Bytes))
    (h : ∀ e ∈ items, e.1.length < 65535 ∧ e.2.length < 65535) :
    ∃ rs : List KeyValue, rs.map KeyValue.pair = items := by
  induction items with
  | nil => exact ⟨[], rfl⟩
  | cons e rest ih =>
    obtain ⟨rs, hrs⟩ := ih (fun x hx => h x (List.mem_cons_of_mem _ hx))
    obtain ⟨h1, h2⟩ := h e (List.mem_cons_self _ _)
    refine ⟨⟨⟨e.1, by omega⟩, ⟨e.2, by omega⟩⟩ :: rs, ?_⟩
    simp [KeyValue.pair, hrs]

/-- The tables that a fresh builder makes of a stream of records when the stream is
handed over with `addOrRoll` and the builder is finalized at the end. -/
theorem emitAll_finalize {S : Nat} (hS : S < U32) (rs : List KeyValue)
    (hall : ∀ r ∈ rs, fits S r ∧ r.key.size ≠ 0) {b' b'' : TableBuilder} {res' : table_list}
    {last : TablePtr} (hemit : emitAll (TableBuilder.new S) [] rs = .ok (b', res'))
    (hfin : b'.finalize = .ok (b'', last)) :
    ∃ chunks : List (List KeyValue),
      res' ++ last.toList.map some = chunks.map (fun c => some (tableOf S c)) ∧
      (∀ c ∈ chunks, (tableOf S c).Holds c) ∧ chunks.flatten = rs := by
  obtain ⟨chunks', cur', ⟨hr', hc', hb'⟩, hflat, hcur⟩ :=
    emitAll_ok hS _ _ _ [] [] _ _ ⟨rfl, by simp, TableBuilder.new_holds _⟩ hall hemit
  simp only [List.flatten_nil, List.nil_append] at hflat
  by_cases hcn : cur' = []
  · exfalso
    have hout : rs = [] := by
      by_contra hc
      exact hcur (Or.inr hc) hcn
    rw [hout] at hemit
    simp only [emitAll, pure, Except.pure, Except.ok.injEq, Prod.mk.injEq] at hemit
    rw [← hemit.1, TableBuilder.finalize_new] at hfin
    cases hfin
  · have hbe : b' = builderOf S cur' := by
      rcases hb'.2.2 with ⟨_, hc⟩ | hbe
      · exact absurd hc hcn
      · exact hbe
    rw [hbe, TableBuilder.finalize_builderOf _ cur' hS hb'.2.1 hcn] at hfin
    by_cases hroom : 4 * cur'.length + 4 ≤ S - encLen cur'
    · rw [if_pos hroom] at hfin
      simp only [Except.ok.injEq, Prod.mk.injEq] at hfin
      have hle := hb'.2.1
      refine ⟨chunks' ++ [cur'], ?_, ?_, ?_⟩
      · rw [← hfin.2, hr']
        simp [tableOf]
      · intro c hc
        rcases List.mem_append.mp hc with hc | hc
        · exact hc' c hc
        · simp only [List.mem_singleton] at hc
          subst hc
          exact tableOf_holds _ _ hS hcn hb'.1 (by omega)
      · rw [← hflat]; simp
    · rw [if_neg hroom] at hfin
      cases hfin

theorem Level0.dump_memtable_eq (l : Level) (mt : MemTable) :
    Level0.dump_memtable l mt =
      Level0.dumpLoop (TableBuilder.new l.m_config.table_size) [] mt.m_table >>= fun out =>
      out.1.finalize >>= fun fin =>
      pure { l with m_tables := l.m_tables ++ (out.2 ++ fin.2.toList.map some) } := by
  simp only [Level0.dump_memtable]
  cases h1 : Level0.dumpLoop (TableBuilder.new l.m_config.table_size) [] mt.m_table with
  | error e => rfl
  | ok out =>
    obtain ⟨b, tables⟩ := out
    simp only [bind, Except.bind]
    cases h2 : b.finalize with
    | error e => rfl
    | ok fin =>
      obtain ⟨b2, last⟩ := fin
      cases last
      · simp [pure, Except.pure]
      · rfl

theorem Ascending.of_sorted (rs : List KeyValue)
    (h : (rs.map KeyValue.pair).Pairwise (fun a b => strLt a.1 b.1 = true)) : Ascending rs := by
  rw [List.pairwise_map] at h
  exact h.imp (fun {a b} hab => (strLt_iff_compare a.key b.key).1 hab)

/-- What `dump_memtable` returns: the level with the tables of consecutive pieces of
the memtable appended. -/
theorem Level0.dump_memtable_result {l l' : Level} {mt : MemTable}
    (hS : l.m_config.table_size < U32)
    (hfit : ∀ e ∈ mt.m_table, fitsEntry l.m_config.table_size e)
    (hdump : Level0.dump_memtable l mt = .ok l') :
    ∃ chunks : List (List KeyValue),
      l'.m_tables = l.m_tables ++ chunks.map (fun c => some (tableOf l.m_config.table_size c)) ∧
      l'.m_config = l.m_config ∧
      (∀ c ∈ chunks, (tableOf l.m_config.table_size c).Holds c) ∧
      chunks.flatten.map KeyValue.pair = mt.m_table ∧
      (∀ r ∈ chunks.flatten, fits l.m_config.table_size r ∧ r.key.size ≠ 0) := by
  rw [Level0.dump_memtable_eq] at hdump
  cases h1 : Level0.dumpLoop (TableBuilder.new l.m_config.table_size) [] mt.m_table with
  | error e => rw [h1] at hdump; cases hdump
  | ok out =>
    obtain ⟨b, tables⟩ := out
    rw [h1] at hdump
    simp only [bind, Except.bind] at hdump
    cases h2 : b.finalize with
    | error e => rw [h2] at hdump; cases hdump
    | ok fin =>
      obtain ⟨b2, last⟩ := fin
      rw [h2] at hdump
      simp only [pure, Except.pure, Except.ok.injEq] at hdump
      obtain ⟨rs, hrs, hall, hemit⟩ :=
        dumpLoop_ok hS mt.m_table _ _ [] _ _ (TableBuilder.new_holds _) hfit h1
      obtain ⟨chunks, hc1, hc2, hc3⟩ := emitAll_finalize hS rs hall hemit h2
      refine ⟨chunks, ?_, ?_, hc2, ?_, ?_⟩
      · rw [← hdump, ← hc1]
      · rw [← hdump]
      · rw [hc3, hrs]
      · rw [hc3]; exact hall

theorem Level0.dump_memtable_succeeds (l : Level) (mt : MemTable)
    (hS : l.m_config.table_size + 131074 < U32) (hne : mt.m_table ≠ [])
    (hvalid : ∀ e ∈ mt.m_table, e.1 ≠ [] ∧ e.1.length < 65535 ∧ e.2.length < 65535)
    (hfit : ∀ e ∈ mt.m_table, fitsEntry l.m_config.table_size e) :
    ∃ l', Level0.dump_memtable l mt = .ok l' := by
  have hS' : l.m_config.table_size < U32 := by omega
  obtain ⟨rs, hrs⟩ := exists_records mt.m_table (fun e he => (hvalid e he).2)
  have hall : ∀ r ∈ rs, fits l.m_config.table_size r ∧ r.key.size ≠ 0 ∧
      r.key.size < 65535 ∧ r.value.size < 65535 := by
    intro r hr
    have hm : KeyValue.pair r ∈ mt.m_table := by
      rw [← hrs]; exact List.mem_map_of_mem _ hr
    obtain ⟨h1, h2, h3⟩ := hvalid _ hm
    have h4 := hfit _ hm
    refine ⟨h4, ?_, h2, h3⟩
    intro h0
    apply h1
    exact List.length_eq_zero.mp h0
  rw [Level0.dump_memtable_eq, ← hrs,
    dumpLoop_eq_emitAll hS' rs _ [] [] (TableBuilder.new_holds _) hall]
  have hrne : rs ≠ [] := by
    intro h
    rw [h] at hrs
    exact hne hrs.symm
  obtain ⟨b', res', cur', h1, h2, h3, h4⟩ :=
    emitAll_total hS rs (TableBuilder.new _) [] [] (TableBuilder.new_holds _) (Or.inl rfl)
      (fun r hr => ⟨(hall r hr).1, (hall r hr).2.1⟩)
  have hcn : cur' ≠ [] := h4 (Or.inr hrne)
  have hbe : b' = builderOf l.m_config.table_size cur' := by
    rcases h2.2.2 with ⟨_, hc⟩ | hbe
    · exact absurd hc hcn
    · exact hbe
  have hroom : 4 * cur'.length + 4 ≤ l.m_config.table_size - encLen cur' := by
    rcases h3 with h | h
    · exact absurd h hcn
    · omega
  rw [h1]
  simp only [bind, Except.bind]
  rw [hbe, TableBuilder.finalize_builderOf _ cur' hS' h2.2.1 hcn, if_pos hroom]
  exact ⟨_, rfl⟩

/-- C14: for every memtable (its entries in strictly ascending key order, as in a
`std::map`) whose records each fit a fresh table of the level's `table_size`, the
tables that `Level0::dump_memtable` appends to the level are not null, iterating them in
order yields exactly the memtable's (key, value) pairs, in strictly ascending key
order, and `max_key` of each appended table is less than `min_key` of the next one. The
first part states that `dump_memtable` does return for a non-empty memtable with
non-empty keys when the 32-bit sum of the size test of `add` cannot wrap. -/
theorem dump_memtable_order (l : Level) (mt : MemTable) (hsorted : mt.Sorted)
    (hS : l.m_config.table_size < U32)
    (hfit : ∀ e ∈ mt.m_table, fitsEntry l.m_config.table_size e) :
    (mt.m_table ≠ [] →
      (∀ e ∈ mt.m_table, e.1 ≠ [] ∧ e.1.length < 65535 ∧ e.2.length < 65535) →
      l.m_config.table_size + 131074 < U32 → ∃ l', Level0.dump_memtable l mt = .ok l') ∧
    ∀ l', Level0.dump_memtable l mt = .ok l' →
      ∃ (ts : List Table) (out : List KeyValue),
        l'.m_tables = l.m_tables ++ ts.map some ∧
        concatRecords (ts.map some) = .ok out ∧
        out.map KeyValue.pair = mt.m_table ∧ Ascending out ∧
        List.Chain' (fun t t' : Table => t.max_key.compare t'.min_key < 0) ts := by
  refine ⟨fun hne hvalid hS2 => Level0.dump_memtable_succeeds l mt hS2 hne hvalid hfit, ?_⟩
  intro l' hdump
  obtain ⟨chunks, h1, _, h3, h4, _⟩ := Level0.dump_memtable_result hS hfit hdump
  have hasc : Ascending chunks.flatten := by
    apply Ascending.of_sorted
    rw [h4]
    exact hsorted
  refine ⟨chunks.map (tableOf l.m_config.table_size), chunks.flatten, ?_, ?_, h4, hasc, ?_⟩
  · rw [h1, List.map_map]; rfl
  · rw [List.map_map]
    exact concatRecords_eq _ chunks h3
  · exact chunks_chain _ chunks h3 hasc

/-- Witness of C14: the memtable `a -> x, b -> y, c -> z` dumped into an empty Level 0
with tables of 32 bytes gives the two tables `[a -> x, b -> y]` and `[c -> z]`. -/
theorem dump_memtable_order_witness :
    Level0.dump_memtable (Level.new sampleConfig0) memABC
      = .ok { m_config := sampleConfig0,
              m_tables := [some (tableOf 32 [recA, recB]), some (tableOf 32 [recC])] } ∧
    memABC.Sorted ∧
    ((memABC.m_table ≠ [] →
      (∀ e ∈ memABC.m_table, e.1 ≠ [] ∧ e.1.length < 65535 ∧ e.2.length < 65535) →
      (Level.new sampleConfig0).m_config.table_size + 131074 < U32 →
      ∃ l', Level0.dump_memtable (Level.new sampleConfig0) memABC = .ok l') ∧
    ∀ l', Level0.dump_memtable (Level.new sampleConfig0) memABC = .ok l' →
      ∃ (ts : List Table) (out : List KeyValue),
        l'.m_tables = (Level.new sampleConfig0).m_tables ++ ts.map some ∧
        concatRecords (ts.map some) = .ok out ∧
        out.map KeyValue.pair = memABC.m_table ∧ Ascending out ∧
        List.Chain' (fun t t' : Table => t.max_key.compare t'.min_key < 0) ts) :=
  ⟨by decide, by unfold MemTable.Sorted; decide,
    dump_memtable_order (Level.new sampleConfig0) memABC (by unfold MemTable.Sorted; decide)
      (by decide) (by unfold fitsEntry; decide)⟩

/-! ## Level0::get -/

theorem lookup_append (a b : List KeyValue) (k : Buffer) :
    lookup (a ++ b) k = match lookup a k with
      | some v => some v
      | none => lookup b k := by
  induction a with
  | nil => rfl
  | cons r a ih =>
    simp only [List.cons_append, lookup]
    by_cases h : r.key = k
    · simp [h]
    · simp only [if_neg h]; exact ih

theorem firstValue_eq_lookup (cs : List (List KeyValue)) (k : Buffer) :
    firstValue cs k = lookup cs.flatten k := by
  induction cs with
  | nil => rfl
  | cons c cs ih =>
    simp only [firstValue, List.flatten_cons, lookup_append, ih]

theorem firstValue_append (a b : List (List KeyValue)) (k : Buffer) :
    firstValue (a ++ b) k = match firstValue a k with
      | some v => some v
      | none => firstValue b k := by
  simp only [firstValue_eq_lookup, List.flatten_append, lookup_append]

theorem lookup_eq_some_iff (l : List KeyValue) (hnd : (l.map KeyValue.key).Nodup)
    (k v : Buffer) : lookup l k = some v ↔ (⟨k, v⟩ : KeyValue) ∈ l := by
  induction l with
  | nil => simp [lookup]
  | cons r l ih =>
    simp only [List.map_cons, List.nodup_cons] at hnd
    simp only [lookup, List.mem_cons]
    by_cases h : r.key = k
    · rw [if_pos h]
      constructor
      · intro hv
        left
        cases r
        simp only [Option.some.injEq] at hv
        simp only at h
        rw [h, hv]
      · rintro (hr | hm)
        · rw [← hr]
        · exfalso
          apply hnd.1
          rw [h]
          exact List.mem_map.mpr ⟨_, hm, rfl⟩
    · rw [if_neg h, ih hnd.2]
      constructor
      · exact Or.inr
      · rintro (hr | hm)
        · exfalso; apply h; rw [← hr]
        · exact hm

theorem lookup_perm {l1 l2 : List KeyValue} (hp : l1.Perm l2)
    (hnd : (l1.map KeyValue.key).Nodup) (k : Buffer) : lookup l1 k = lookup l2 k := by
  have hnd2 : (l2.map KeyValue.key).Nodup := (hp.map KeyValue.key).nodup_iff.mp hnd
  cases h1 : lookup l1 k with
  | some v =>
    have := (lookup_eq_some_iff l1 hnd k v).1 h1
    exact ((lookup_eq_some_iff l2 hnd2 k v).2 (hp.mem_iff.mp this)).symm
  | none =>
    cases h2 : lookup l2 k with
    | none => rfl
    | some v =>
      have := (lookup_eq_some_iff l2 hnd2 k v).1 h2
      have := (lookup_eq_some_iff l1 hnd k v).2 (hp.mem_iff.mpr this)
      rw [h1] at this
      cases this

theorem firstValue_reverse (cs : List (List KeyValue)) (hasc : Ascending cs.flatten)
    (k : Buffer) : firstValue cs.reverse k = lookup cs.flatten k := by
  rw [firstValue_eq_lookup]
  exact (lookup_perm (List.Perm.flatten (List.reverse_perm cs)).symm hasc.keys_nodup k).symm

theorem strLt_eq_iff (a b : Buffer) :
    (!strLt a.bytes b.bytes && !strLt b.bytes a.bytes) = true ↔ a = b := by
  have h1 := strLt_iff_compare a b
  have h2 := strLt_iff_compare b a
  simp only [Bool.and_eq_true, Bool.not_eq_true', ← Bool.not_eq_true, h1, h2]
  constructor
  · rintro ⟨h3, h4⟩
    rcases Buffer.compare_trichotomy a b with h | h | h
    · exact absurd h h3
    · exact h
    · exact absurd h h4
  · rintro rfl
    exact ⟨Buffer.compare_irrefl a, Buffer.compare_irrefl a⟩

theorem mapFind_eq_lookup (rs : List KeyValue) (key : Buffer) :
    mapFind (rs.map KeyValue.pair) key.bytes = (lookup rs key).map Buffer.bytes := by
  induction rs with
  | nil => rfl
  | cons r rs ih =>
    simp only [List.map_cons, mapFind, lookup, KeyValue.pair]
    by_cases h : r.key = key
    · rw [if_pos ((strLt_eq_iff r.key key).2 h), if_pos h]
      rfl
    · rw [if_neg (fun hc => h ((strLt_eq_iff r.key key).1 hc)), if_neg h]
      exact ih

theorem Level0.getLoop_firstValue (S : Nat) (key : Buffer) (cs : List (List KeyValue))
    (h : ∀ c ∈ cs, (tableOf S c).Holds c ∧ Ascending c) :
    Level0.getLoop key (cs.map (fun c => some (tableOf S c))) = .ok (firstValue cs key) := by
  induction cs with
  | nil => rfl
  | cons c cs ih =>
    obtain ⟨hc, ha⟩ := h c (List.mem_cons_self _ _)
    simp only [List.map_cons, Level0.getLoop, deref, bind, Except.bind, hc.get_eq ha key,
      firstValue]
    cases lookup c key with
    | some v => rfl
    | none => exact ih (fun x hx => h x (List.mem_cons_of_mem _ hx))

theorem Ascending.of_mem_flatten {cs : List (List KeyValue)} (h : Ascending cs.flatten)
    {c : List KeyValue} (hc : c ∈ cs) : Ascending c :=
  List.Pairwise.sublist (List.sublist_flatten_of_mem hc) h

/-- The tables of a Level 0 after a sequence of dumps, and what the scan of
`Level0::get` finds in them. -/
theorem Level0.dumpAll_get {S : Nat} (hS : S < U32) (mts : List MemTable) :
    ∀ (l l' : Level) (chunks0 : List (List KeyValue)), l.m_config.table_size = S →
      l.m_tables = chunks0.map (fun c => some (tableOf S c)) →
      (∀ c ∈ chunks0, (tableOf S c).Holds c ∧ Ascending c) →
      (∀ mt ∈ mts, mt.Sorted) → (∀ mt ∈ mts, ∀ e ∈ mt.m_table, fitsEntry S e) →
      Level0.dumpAll l mts = .ok l' →
      ∃ chunks' : List (List KeyValue),
        l'.m_tables = chunks'.map (fun c => some (tableOf S c)) ∧
        (∀ c ∈ chunks', (tableOf S c).Holds c ∧ Ascending c) ∧
        ∀ key : Buffer, (firstValue chunks'.reverse key).map Buffer.bytes =
          match latestValue mts key.bytes with
          | some v => some v
          | none => (firstValue chunks0.reverse key).map Buffer.bytes := by
  induction mts with
  | nil =>
    intro l l' chunks0 _ ht hc _ _ hd
    simp only [Level0.dumpAll, pure, Except.pure, Except.ok.injEq] at hd
    subst hd
    exact ⟨chunks0, ht, hc, fun key => rfl⟩
  | cons mt rest ih =>
    intro l l' chunks0 hcfg ht hc hsorted hfit hd
    simp only [Level0.dumpAll, bind, Except.bind] at hd
    cases h1 : Level0.dump_memtable l mt with
    | error e => rw [h1] at hd; cases hd
    | ok l1 =>
      rw [h1] at hd
      simp only [] at hd
      have hfit1 : ∀ e ∈ mt.m_table, fitsEntry l.m_config.table_size e := by
        rw [hcfg]; exact hfit mt (List.mem_cons_self _ _)
      obtain ⟨chunks1, h2, h3, h4, h5, _⟩ :=
        Level0.dump_memtable_result (by rw [hcfg]; exact hS) hfit1 h1
      rw [hcfg] at h2 h4
      have hasc1 : Ascending chunks1.flatten := by
        apply Ascending.of_sorted
        rw [h5]
        exact hsorted mt (List.mem_cons_self _ _)
      have hc1 : ∀ c ∈ chunks0 ++ chunks1, (tableOf S c).Holds c ∧ Ascending c := by
        intro c hcm
        rcases List.mem_append.mp hcm with hcm | hcm
        · exact hc c hcm
        · exact ⟨h4 c hcm, hasc1.of_mem_flatten hcm⟩
      obtain ⟨chunks', h6, h7, h8⟩ := ih l1 l' (chunks0 ++ chunks1) (by rw [h3, hcfg])
        (by rw [h2, ht, List.map_append]) hc1
        (fun m hm => hsorted m (List.mem_cons_of_mem _ hm))
        (fun m hm => hfit m (List.mem_cons_of_mem _ hm)) hd
      refine ⟨chunks', h6, h7, fun key => ?_⟩
      rw [h8 key]
      simp only [latestValue]
      cases latestValue rest key.bytes with
      | some v => rfl
      | none =>
        simp only [List.reverse_append, firstValue_append, firstValue_reverse chunks1 hasc1,
          ← h5, mapFind_eq_lookup]
        cases lookup chunks1.flatten key with
        | some v => rfl
        | none => rfl

theorem Level0.dumpAll_succeeds {S : Nat} (hS : S + 131074 < U32) (mts : List MemTable) :
    ∀ (l : Level), l.m_config.table_size = S →
      (∀ mt ∈ mts, mt.m_table ≠ [] ∧
        ∀ e ∈ mt.m_table, e.1 ≠ [] ∧ e.1.length < 65535 ∧ e.2.length < 65535) →
      (∀ mt ∈ mts, ∀ e ∈ mt.m_table, fitsEntry S e) →
      ∃ l', Level0.dumpAll l mts = .ok l' := by
  induction mts with
  | nil => intro l _ _ _; exact ⟨l, rfl⟩
  | cons mt rest ih =>
    intro l hcfg hvalid hfit
    have hfit1 : ∀ e ∈ mt.m_table, fitsEntry l.m_config.table_size e := by
      rw [hcfg]; exact hfit mt (List.mem_cons_self _ _)
    obtain ⟨hne, hv⟩ := hvalid mt (List.mem_cons_self _ _)
    obtain ⟨l1, h1⟩ := Level0.dump_memtable_succeeds l mt (by rw [hcfg]; exact hS) hne hv hfit1
    obtain ⟨_, _, h3, _⟩ := Level0.dump_memtable_result (by rw [hcfg]; omega) hfit1 h1
    obtain ⟨l', h2⟩ := ih l1 (by rw [h3, hcfg])
      (fun m hm => hvalid m (List.mem_cons_of_mem _ hm))
      (fun m hm => hfit m (List.mem_cons_of_mem _ hm))
    refine ⟨l', ?_⟩
    simp only [Level0.dumpAll, bind, Except.bind, h1]
    exact h2

/-- C15: for every sequence of memtables (each with its entries in strictly ascending
key order and records that fit a fresh table) dumped to a Level 0 that starts empty, and
every key `k`: `Level0::get(k)` returns the value that `k` has in the most recently
dumped memtable that holds `k`, a zero-length value included, and "not found" when no
dumped memtable holds `k`. The first part states that the dumps do return for non-empty
memtables with non-empty keys when the 32-bit sum of the size test of `add` cannot
wrap. -/
theorem level0_get_latest (config : LevelConfig) (mts : List MemTable)
    (hsorted : ∀ mt ∈ mts, mt.Sorted) (hS : config.table_size < U32)
    (hfit : ∀ mt ∈ mts, ∀ e ∈ mt.m_table, fitsEntry config.table_size e) :
    ((∀ mt ∈ mts, mt.m_table ≠ [] ∧
        ∀ e ∈ mt.m_table, e.1 ≠ [] ∧ e.1.length < 65535 ∧ e.2.length < 65535) →
      config.table_size + 131074 < U32 →
      ∃ l, Level0.dumpAll (Level.new config) mts = .ok l) ∧
    ∀ l, Level0.dumpAll (Level.new config) mts = .ok l →
      ∀ key : Buffer, ∃ r, Level0.get l key = .ok r ∧
        r.map Buffer.bytes = latestValue mts key.bytes := by
  refine ⟨fun hvalid hS2 =>
    Level0.dumpAll_succeeds hS2 mts (Level.new config) rfl hvalid hfit, ?_⟩
  intro l hd key
  obtain ⟨chunks', h1, h2, h3⟩ := Level0.dumpAll_get hS mts (Level.new config) l [] rfl rfl
    (by simp) hsorted hfit hd
  refine ⟨firstValue chunks'.reverse key, ?_, ?_⟩
  · unfold Level0.get
    rw [h1, ← List.map_reverse]
    exact Level0.getLoop_firstValue _ key _ (fun c hc => h2 c (List.mem_reverse.mp hc))
  · rw [h3 key]
    cases latestValue mts key.bytes <;> rfl

/-- Witness of C15: the memtables `a -> x, b -> y, c -> z`, then `a -> y`, then
`b -> ""` dumped into a Level 0 with tables of 32 bytes; `get(a)` returns `y`, `get(b)`
the zero-length value, `get(c)` returns `z` and `get(d)` "not found". -/
theorem level0_get_latest_witness :
    (do
      let l ← Level0.dumpAll (Level.new sampleConfig0) [memABC, memA2, memDelB]
      let a ← Level0.get l keyA
      let b ← Level0.get l keyB
      let c ← Level0.get l keyC
      let d ← Level0.get l keyD
      pure [a, b, c, d])
      = .ok [some ⟨[121], by decide⟩, some Buffer.empty, some ⟨[122], by decide⟩, none] ∧
    (∀ mt ∈ [memABC, memA2, memDelB], mt.Sorted) ∧
    (((∀ mt ∈ [memABC, memA2, memDelB], mt.m_table ≠ [] ∧
        ∀ e ∈ mt.m_table, e.1 ≠ [] ∧ e.1.length < 65535 ∧ e.2.length < 65535) →
      sampleConfig0.table_size + 131074 < U32 →
      ∃ l, Level0.dumpAll (Level.new sampleConfig0) [memABC, memA2, memDelB] = .ok l) ∧
    ∀ l, Level0.dumpAll (Level.new sampleConfig0) [memABC, memA2, memDelB] = .ok l →
      ∀ key : Buffer, ∃ r, Level0.get l key = .ok r ∧
        r.map Buffer.bytes = latestValue [memABC, memA2, memDelB] key.bytes) :=
  ⟨by decide, by unfold MemTable.Sorted; decide,
    level0_get_latest sampleConfig0 [memABC, memA2, memDelB]
      (by unfold MemTable.Sorted; decide) (by decide) (by unfold fitsEntry; decide)⟩

/-! ## LevelN::get -/

theorem pairwise_getElem? {α : Type} {R : α → α → Prop} {l : List α} (h : l.Pairwise R)
    {i j : Nat} {a b : α} (hi : l[i]? = some a) (hj : l[j]? = some b) (hij : i < j) : R a b := by
  have hil := getElem?_lt_length l i a hi
  have hjl := getElem?_lt_length l j b hj
  have := List.pairwise_iff_getElem.mp h i j hil hjl hij
  rw [List.getElem?_eq_getElem hil] at hi
  rw [List.getElem?_eq_getElem hjl] at hj
  rw [← Option.some.inj hi, ← Option.some.inj hj]
  exact this

/-- In a list of tables sorted by `min_key` with pairwise disjoint key ranges, every
table lies entirely before the tables behind it. -/
theorem tables_chain {ts : List Table}
    (hwf : ∀ t ∈ ts, ¬ t.max_key.compare t.min_key < 0)
    (hsorted : ts.Pairwise (fun t t' => t.min_key.compare t'.min_key < 0))
    (hdisj : ts.Pairwise (fun t t' =>
      t.max_key.compare t'.min_key < 0 ∨ t'.max_key.compare t.min_key < 0)) :
    ts.Pairwise (fun t t' => t.max_key.compare t'.min_key < 0) := by
  induction ts with
  | nil => exact List.Pairwise.nil
  | cons t ts ih =>
    rw [List.pairwise_cons] at hsorted hdisj ⊢
    refine ⟨fun t' ht' => ?_, ih (fun x hx => hwf x (List.mem_cons_of_mem _ hx))
      hsorted.2 hdisj.2⟩
    rcases hdisj.1 t' ht' with h | h
    · exact h
    · exfalso
      have h1 := hsorted.1 t' ht'
      have h2 := Buffer.compare_trans h h1
      exact hwf t' (List.mem_cons_of_mem _ ht') h2

theorem LevelN.tableAt_map (ts : List Table) (i : Nat) (t : Table) (h : ts[i]? = some t) :
    LevelN.tableAt (ts.map some) i = .ok t := by
  simp [LevelN.tableAt, List.get?_eq_getElem?, List.getElem?_map, h, deref]

/-- The binary search of `LevelN::get` over tables in key order: it ends at the table
whose key range holds the key, or with "not found" when there is none. -/
theorem LevelN.getLoop_spec {ts : List Table} (key : Buffer)
    (hwf : ∀ t ∈ ts, ¬ t.max_key.compare t.min_key < 0)
    (hsorted : ts.Pairwise (fun t t' => t.min_key.compare t'.min_key < 0))
    (hchain : ts.Pairwise (fun t t' => t.max_key.compare t'.min_key < 0)) :
    ∀ (fuel : Nat) (min max : Int), 0 ≤ min → max < ts.length → min ≤ max + 1 →
      max - min + 1 < fuel →
      (∀ (i : Nat) (t : Table), ts[i]? = some t → (i : Int) < min → t.max_key.compare key < 0) →
      (∀ (i : Nat) (t : Table), ts[i]? = some t → max < (i : Int) → key.compare t.min_key < 0) →
      (∀ t ∈ ts, t.InRange key → LevelN.getLoop (ts.map some) key fuel min max = t.get key) ∧
      ((∀ t ∈ ts, ¬ t.InRange key) →
        LevelN.getLoop (ts.map some) key fuel min max = .ok none) := by
  intro fuel
  induction fuel with
  | zero => intro min max _ _ _ hf; omega
  | succ fuel ih =>
    intro min max hmin hmax hle hf hlo hhi
    by_cases hmm : min ≤ max
    · obtain ⟨table, htable⟩ := exists_getElem? ts ((min + max) / 2).toNat (by omega)
      have htm := mem_of_getElem? _ _ _ htable
      simp only [LevelN.getLoop, if_pos hmm, LevelN.tableAt_map ts _ table htable, bind,
        Except.bind]
      by_cases hlt : key.lt table.min_key = true
      · rw [if_pos hlt]
        have hlt' : key.compare table.min_key < 0 := by simpa [Buffer.lt] using hlt
        apply ih min ((min + max) / 2 - 1) hmin (by omega) (by omega) (by omega) hlo
        intro i t ht hi
        by_cases hie : i = ((min + max) / 2).toNat
        · subst hie
          rw [htable] at ht
          cases ht
          exact hlt'
        · exact Buffer.compare_trans hlt' (pairwise_getElem? hsorted htable ht (by omega))
      · rw [if_neg hlt]
        have hlt' : ¬ key.compare table.min_key < 0 := by simpa [Buffer.lt] using hlt
        by_cases hgt : key.gt table.max_key = true
        · rw [if_pos hgt]
          have hgt' : table.max_key.compare key < 0 := by
            rw [Buffer.compare_swap]
            simpa [Buffer.gt] using hgt
          apply ih ((min + max) / 2 + 1) max (by omega) hmax (by omega) (by omega) _ hhi
          intro i t ht hi
          by_cases hie : i = ((min + max) / 2).toNat
          · subst hie
            rw [htable] at ht
            cases ht
            exact hgt'
          · have h1 := pairwise_getElem? hchain ht htable (by omega)
            have h2 := Buffer.lt_of_lt_of_not_lt h1 (hwf table htm)
            exact Buffer.compare_trans h2 hgt'
        · rw [if_neg hgt]
          have hgt' : ¬ table.max_key.compare key < 0 := by
            rw [Buffer.compare_swap]
            simpa [Buffer.gt] using hgt
          refine ⟨fun t ht hin => ?_, fun hnone => absurd ⟨hlt', hgt'⟩ (hnone table htm)⟩
          obtain ⟨i, hi, hti⟩ := List.getElem_of_mem ht
          have hti' : ts[i]? = some t := by rw [List.getElem?_eq_getElem hi, hti]
          rcases Nat.lt_trichotomy i ((min + max) / 2).toNat with h | h | h
          · exfalso
            have h1 := pairwise_getElem? hchain hti' htable h
            exact hlt' (Buffer.lt_of_not_lt_of_lt hin.2 h1 |>.elim id (fun he => by
              rw [he]; exact h1))
          · subst h
            rw [htable] at hti'
            cases hti'
            rfl
          · exfalso
            have h1 := pairwise_getElem? hchain htable hti' h
            exact hin.1 (Buffer.lt_of_not_lt_of_lt hgt' h1 |>.elim id (fun he => by
              rw [he]; exact h1))
    · simp only [LevelN.getLoop, if_neg hmm]
      refine ⟨fun t ht hin => ?_, fun _ => rfl⟩
      exfalso
      obtain ⟨i, hi, hti⟩ := List.getElem_of_mem ht
      have hti' : ts[i]? = some t := by rw [List.getElem?_eq_getElem hi, hti]
      by_cases hlt : (i : Int) < min
      · exact hin.2 (hlo i t hti' hlt)
      · exact hin.1 (hhi i t hti' (by omega))

theorem LevelN.toInt32_pred (n : Nat) (h : n ≤ 1073741824) :
    LevelN.toInt32 (n + U32 - 1) = (n : Int) - 1 := by
  unfold LevelN.toInt32 U32
  by_cases h0 : n = 0
  · subst h0; decide
  · have h1 : (n + 4294967296 - 1) % 4294967296 = n - 1 := by omega
    rw [h1, if_pos (by omega)]
    omega

/-- C16: for every Level N whose tables are sorted by `min_key` and have pairwise
disjoint key ranges (each with `min_key <= max_key`), and every key `k`:
`LevelN::get(k)` returns `Table::get(k)` of the table whose range holds `k`, there is at
most one such table, and it returns "not found" when no range holds `k`; so every
record of a well-formed table of the level is found. The number of tables is within
the range in which the `int32_t` arithmetic of the search is exact. -/
theorem levelN_get_sorted (l : Level) (ts : List Table) (key : Buffer)
    (hts : l.m_tables = ts.map some) (hlen : ts.length ≤ 1073741824)
    (hwf : ∀ t ∈ ts, ¬ t.max_key.compare t.min_key < 0)
    (hsorted : ts.Pairwise (fun t t' => t.min_key.compare t'.min_key < 0))
    (hdisj : ts.Pairwise (fun t t' =>
      t.max_key.compare t'.min_key < 0 ∨ t'.max_key.compare t.min_key < 0)) :
    (∀ t ∈ ts, t.InRange key → LevelN.get l key = t.get key) ∧
    (∀ t ∈ ts, ∀ t' ∈ ts, t.InRange key → t'.InRange key → t = t') ∧
    ((∀ t ∈ ts, ¬ t.InRange key) → LevelN.get l key = .ok none) ∧
    (∀ t ∈ ts, ∀ rs : List KeyValue, t.Holds rs → Ascending rs →
      ∀ r ∈ rs, r.key = key → LevelN.get l key = .ok (some r.value)) := by
  have hchain := tables_chain hwf hsorted hdisj
  have hspec := LevelN.getLoop_spec key hwf hsorted hchain (ts.length + 1) 0
    ((ts.length : Int) - 1) (le_refl _) (by omega) (by omega) (by omega)
    (fun i t _ hi => by omega) (fun i t ht hi => by
      have := getElem?_lt_length ts i t ht
      omega)
  have hget : LevelN.get l key =
      LevelN.getLoop (ts.map some) key (ts.length + 1) 0 ((ts.length : Int) - 1) := by
    unfold LevelN.get
    rw [hts, List.length_map, LevelN.toInt32_pred _ hlen]
  rw [hget]
  refine ⟨hspec.1, ?_, hspec.2, ?_⟩
  · intro t ht t' ht' hin hin'
    have h1 := hspec.1 t ht hin
    obtain ⟨i, hi, hti⟩ := List.getElem_of_mem ht
    obtain ⟨j, hj, htj⟩ := List.getElem_of_mem ht'
    have hti' : ts[i]? = some t := by rw [List.getElem?_eq_getElem hi, hti]
    have htj' : ts[j]? = some t' := by rw [List.getElem?_eq_getElem hj, htj]
    rcases Nat.lt_trichotomy i j with h | h | h
    · exfalso
      have h2 := pairwise_getElem? hchain hti' htj' h
      exact hin'.1 (Buffer.lt_of_not_lt_of_lt hin.2 h2 |>.elim id (fun he => by
        rw [he]; exact h2))
    · subst h
      rw [hti'] at htj'
      exact Option.some.inj htj'
    · exfalso
      have h2 := pairwise_getElem? hchain htj' hti' h
      exact hin.1 (Buffer.lt_of_not_lt_of_lt hin'.2 h2 |>.elim id (fun he => by
        rw [he]; exact h2))
  · intro t ht rs hrs hasc r hr hk
    obtain ⟨first, last, _, _, hfirst, hlast, hmin, hmax⟩ := hrs.min_max
    have hin : t.InRange key := by
      subst hk
      refine ⟨?_, ?_⟩
      · rw [hmin]
        have hf0 : rs[0]? = some first := by
          rw [← hfirst]; cases rs <;> simp
        obtain ⟨i, hi, hri⟩ := List.getElem_of_mem hr
        have hri' : rs[i]? = some r := by rw [List.getElem?_eq_getElem hi, hri]
        by_cases hi0 : i = 0
        · subst hi0
          rw [hf0] at hri'
          cases hri'
          exact Buffer.compare_irrefl _
        · exact Buffer.compare_asymm (hasc.getElem_lt hf0 hri' (by omega))
      · rw [hmax]
        have hne : rs ≠ [] := hrs.ne
        have hl : rs[rs.length - 1]? = some last := by
          rw [← hlast, List.getLast?_eq_getElem?]
        obtain ⟨i, hi, hri⟩ := List.getElem_of_mem hr
        have hri' : rs[i]? = some r := by rw [List.getElem?_eq_getElem hi, hri]
        by_cases hil : i = rs.length - 1
        · subst hil
          rw [hl] at hri'
          cases hri'
          exact Buffer.compare_irrefl _
        · exact Buffer.compare_asymm (hasc.getElem_lt hri' hl (by omega))
    rw [hspec.1 t ht hin, hrs.get_eq hasc key, ← hk, lookup_of_mem rs hasc r hr]

/-- Witness of C16: a level with the tables `[a -> x, b -> y]` and `[c -> z]`. -/
theorem levelN_get_sorted_witness :
    (LevelN.get sortedLevel keyB = .ok (some ⟨[121], by decide⟩) ∧
     LevelN.get sortedLevel keyC = .ok (some ⟨[122], by decide⟩) ∧
     LevelN.get sortedLevel keyD = .ok none) ∧
    (∀ t ∈ [tableOf 32 [recA, recB], tableOf 32 [recC]],
      t.InRange keyB → LevelN.get sortedLevel keyB = t.get keyB) ∧
    (∀ t ∈ [tableOf 32 [recA, recB], tableOf 32 [recC]],
      ∀ t' ∈ [tableOf 32 [recA, recB], tableOf 32 [recC]],
      t.InRange keyB → t'.InRange keyB → t = t') ∧
    ((∀ t ∈ [tableOf 32 [recA, recB], tableOf 32 [recC]], ¬ t.InRange keyB) →
      LevelN.get sortedLevel keyB = .ok none) ∧
    (∀ t ∈ [tableOf 32 [recA, recB], tableOf 32 [recC]], ∀ rs : List KeyValue,
      t.Holds rs → Ascending rs →
      ∀ r ∈ rs, r.key = keyB → LevelN.get sortedLevel keyB = .ok (some r.value)) :=
  ⟨by decide,
    levelN_get_sorted sortedLevel [tableOf 32 [recA, recB], tableOf 32 [recC]] keyB rfl
      (by decide) (by decide) (by decide) (by decide)⟩

/-! ## The byte counter of the memtable -/

theorem wideValue_size : wideValue.size = 65534 := by
  unfold Buffer.size wideValue
  exact List.length_replicate _ _

theorem bigKey_size (i : Nat) : (bigKey i).size = 2 := rfl

theorem strLt_bigKey (i n : Nat) (h : i < n) (hn : n < 65536) :
    strLt (bigKey i).bytes (bigKey n).bytes = true := by
  simp only [bigKey, strLt]
  split_ifs with h1 h2 h3 h4 <;> first | rfl | (exfalso; simp only [] at *; omega)

theorem strLt_asymm (a b : Bytes) (h : strLt a b = true) : strLt b a = false := by
  rw [strLt_iff_cmpBytes] at h
  rw [← Bool.not_eq_true, strLt_iff_cmpBytes, cmpBytes_swap]
  omega

theorem mapUpsert_last (key value : Bytes) (l : List (Bytes × Bytes))
    (h : ∀ e ∈ l, strLt e.1 key = true) :
    mapUpsert key value l = (l ++ [(key, value)], none) := by
  induction l with
  | nil => rfl
  | cons e l ih =>
    obtain ⟨k, v⟩ := e
    have h1 : strLt k key = true := h (k, v) (List.mem_cons_self _ _)
    have h2 := strLt_asymm _ _ h1
    simp only [mapUpsert, h1, h2, Bool.false_eq_true, if_false, if_true,
      ih (fun x hx => h x (List.mem_cons_of_mem _ hx)), List.cons_append]

theorem wideMem_upsert (n : Nat) (hn : n < 65536) :
    mapUpsert (bigKey n).bytes wideValue.bytes (wideMem n).m_table
      = ((wideMem (n + 1)).m_table, none) := by
  rw [mapUpsert_last]
  · simp only [wideMem, List.range_succ, List.map_append, List.map_cons, List.map_nil]
    rfl
  · intro e he
    simp only [wideMem, List.mem_map, List.mem_range] at he
    obtain ⟨i, hi, rfl⟩ := he
    exact strLt_bigKey i n hi hn

theorem MemTable.add_wide (n : Nat) (hn : n + 1 < 65536) :
    (wideMem n).add (bigKey n) wideValue = .ok (wideMem (n + 1)) := by
  simp only [MemTable.add, wideMem_upsert n (by omega), bigKey_size, wideValue_size]
  have h1 : ((wideMem n).m_size + 2 + 65534) % U32 = (n + 1) * 65536 := by
    simp only [wideMem, U32]
    omega
  rw [h1]
  have h2 : decide ((n + 1) * 65536 ≠ 0) = true := by
    simp
  simp only [h2, assert, if_true, bind, Except.bind, pure, Except.pure]
  rfl

theorem MemTable.add_wide_wraps (n : Nat) (hn : n = 65535) :
    (wideMem n).add (bigKey n) wideValue = .error .assertion := by
  simp only [MemTable.add, wideMem_upsert n (by omega), bigKey_size, wideValue_size]
  have h1 : ((wideMem n).m_size + 2 + 65534) % U32 = 0 := by
    simp only [wideMem, U32]
    omega
  rw [h1]
  rfl

theorem MemTable.addAll_wide : ∀ (m n : Nat), n + m < 65536 →
    MemTable.addAll (wideMem n) ((List.range' n m).map wideRec) = .ok (wideMem (n + m)) := by
  intro m
  induction m with
  | zero => intro n _; rfl
  | succ m ih =>
    intro n h
    have hr : List.range' n (m + 1) = n :: List.range' (n + 1) m := rfl
    rw [hr, List.map_cons]
    show (do
      let m1 ← (wideMem n).add (bigKey n) wideValue
      MemTable.addAll m1 ((List.range' (n + 1) m).map wideRec)) = _
    rw [MemTable.add_wide n (by omega)]
    have := ih (n + 1) (by omega)
    rw [show n + 1 + m = n + (m + 1) by omega] at this
    exact this

theorem wideRec_pair_length (n : Nat) :
    (wideRec n).pair.1.length + (wideRec n).pair.2.length = 65536 := by
  simp only [wideRec, KeyValue.pair, bigKey, wideValue, List.length_replicate, List.length_cons,
    List.length_nil]

theorem byteSum_snoc (l : List (Bytes × Bytes)) (e : Bytes × Bytes) (m1 m2 : Nat) :
    MemTable.byteSum { m_table := l ++ [e], m_size := m1 }
      = MemTable.byteSum { m_table := l, m_size := m2 } + (e.1.length + e.2.length) := by
  simp only [MemTable.byteSum, List.map_append, List.map_cons, List.map_nil, List.sum_append,
    List.sum_cons, List.sum_nil, Nat.add_zero]

theorem wideMem_byteSum (n : Nat) : (wideMem n).byteSum = n * 65536 := by
  induction n with
  | zero => simp [wideMem, MemTable.byteSum]
  | succ n ih =>
    have h : wideMem (n + 1) =
        { m_table := (wideMem n).m_table ++ [(wideRec n).pair], m_size := (n + 1) * 65536 } := by
      simp only [wideMem, List.range_succ, List.map_append, List.map_cons, List.map_nil]
    rw [h, byteSum_snoc _ _ _ (n * 65536), wideRec_pair_length]
    have h2 : ({ m_table := (wideMem n).m_table, m_size := n * 65536 } : MemTable) = wideMem n :=
      rfl
    rw [h2, ih]
    omega

theorem mapFind_none (key : Bytes) (l : List (Bytes × Bytes))
    (h : ∀ e ∈ l, strLt e.1 key = true) : mapFind l key = none := by
  induction l with
  | nil => rfl
  | cons e l ih =>
    obtain ⟨k, v⟩ := e
    have h1 : strLt k key = true := h (k, v) (List.mem_cons_self _ _)
    simp only [mapFind, h1, Bool.not_true, Bool.false_and, Bool.false_eq_true, if_false]
    exact ih (fun x hx => h x (List.mem_cons_of_mem _ hx))

theorem mapFind_wideMem (n : Nat) (hn : n < 65536) :
    mapFind (wideMem n).m_table (bigKey n).bytes = none := by
  apply mapFind_none
  intro e he
  simp only [wideMem, List.mem_map, List.mem_range] at he
  obtain ⟨i, hi, rfl⟩ := he
  exact strLt_bigKey i n hi hn

theorem wideMem_zero : wideMem 0 = MemTable.new := rfl

/-- C20 (the code departs from the claim): 65535 records with distinct 2-byte keys
and values of 65534 bytes are added to an empty memtable; the counter is then the sum
of the entry sizes, `65535 * 65536 = 4294901760`. The next `add` of a new key with a
value of 65534 bytes should bring the counter to `4294967296`; `m_size` is a
`uint32_t`, the sum wraps to 0, and `add` stops at `assert(m_size != 0)`. -/
theorem memtable_size_wraps :
    MemTable.addAll MemTable.new ((List.range 65535).map wideRec) = .ok (wideMem 65535) ∧
    (wideMem 65535).m_size = 4294901760 ∧ (wideMem 65535).byteSum = 4294901760 ∧
    (bigKey 65535).size = 2 ∧ wideValue.size = 65534 ∧
    mapFind (wideMem 65535).m_table (bigKey 65535).bytes = none ∧
    4294901760 + (2 + 65534) = U32 ∧
    (wideMem 65535).add (bigKey 65535) wideValue = .error .assertion := by
  refine ⟨?_, rfl, wideMem_byteSum 65535, rfl, wideValue_size, ?_, by decide,
    MemTable.add_wide_wraps 65535 rfl⟩
  · have := MemTable.addAll_wide 65535 0 (by decide)
    rw [wideMem_zero, ← List.range_eq_range'] at this
    exact this
  · exact mapFind_wideMem 65535 (by decide)

/-! ## Tables and their files -/

theorem Table.Holds.recs_eq {t : Table} {rs : List KeyValue} (h : t.Holds rs) : t.recs = rs := by
  unfold Table.recs
  rw [h.records_eq]

theorem Table.Holds.good_holds {t : Table} {rs : List KeyValue} (h : t.Holds rs) :
    t.Holds t.recs := by
  rw [h.recs_eq]; exact h

theorem Table.ofRecords_min_key (m m' : AppendableMMap) (rs : List KeyValue) :
    (Table.ofRecords m rs).min_key = (Table.ofRecords m' rs).min_key := rfl

theorem Table.ofRecords_max_key (m m' : AppendableMMap) (rs : List KeyValue) :
    (Table.ofRecords m rs).max_key = (Table.ofRecords m' rs).max_key := rfl

/-- Loading the file of a well-formed table gives a well-formed table with the same
records and the same first and last key. -/
theorem Table.Holds.load {t : Table} {rs : List KeyValue} (h : t.Holds rs) :
    Table.load_table t.m_mmap.m_buffer = .ok t.reload ∧ t.reload.Holds rs ∧
      t.reload.min_key = t.min_key ∧ t.reload.max_key = t.max_key := by
  have hlen := h.length
  have hlt := h.size_lt
  have hmod : t.m_mmap.m_buffer.length % U32 = t.m_mmap.m_size := by
    rw [hlen]; exact Nat.mod_eq_of_lt hlt
  have hload : (AppendableMMap.load t.m_mmap.m_buffer).HoldsTable rs := by
    refine ⟨h.ne, ?_, ?_, ?_⟩
    · show t.m_mmap.m_buffer.length % U32 < U32
      rw [hmod]; exact hlt
    · show (t.m_mmap.m_buffer.take (t.m_mmap.m_buffer.length % U32)).length
        = t.m_mmap.m_buffer.length % U32
      rw [hmod, ← hlen, List.take_length]
    · obtain ⟨pad, hpad⟩ := h.bytes
      refine ⟨pad, ?_⟩
      show t.m_mmap.m_buffer.take (t.m_mmap.m_buffer.length % U32) = _
      rw [hmod, ← hlen, List.take_length, hpad]
  have h1 : Table.load_table t.m_mmap.m_buffer
      = .ok (Table.ofRecords (AppendableMMap.load t.m_mmap.m_buffer) rs) :=
    Table.ofMMap_eq hload
  have h2 : t.reload = Table.ofRecords (AppendableMMap.load t.m_mmap.m_buffer) rs := by
    unfold Table.reload loadedTable
    rw [h1]
  rw [h2]
  refine ⟨h1, Table.ofRecords_holds hload h.keys, ?_, ?_⟩
  · rw [h.fields]; rfl
  · rw [h.fields]; rfl

theorem Table.Good.reload {S : Nat} {t : Table} (h : t.Good S) :
    t.reload.Good S ∧ t.reload.recs = t.recs ∧ t.reload.min_key = t.min_key ∧
      t.reload.max_key = t.max_key := by
  obtain ⟨h1, h2, h3, h4⟩ := h.1.load
  have hr : t.reload.recs = t.recs := h2.recs_eq
  refine ⟨⟨by rw [hr]; exact h2, by rw [hr]; exact h.2.1, by rw [hr]; exact h.2.2⟩, hr, h3, h4⟩

/-- `Level0::get` on well-formed tables: the first hit of the scan from the back. -/
theorem Level0.get_eq_firstValue {S : Nat} (l : Level) (ts : List Table) (key : Buffer)
    (hts : l.m_tables = ts.map some) (hg : ∀ t ∈ ts, t.Good S) :
    Level0.get l key = .ok (firstValue (ts.map Table.recs).reverse key) := by
  unfold Level0.get
  rw [hts, ← List.map_reverse, ← List.map_reverse]
  have : ∀ us : List Table, (∀ t ∈ us, t.Good S) →
      Level0.getLoop key (us.map some) = .ok (firstValue (us.map Table.recs) key) := by
    intro us
    induction us with
    | nil => intro _; rfl
    | cons u us ih =>
      intro hu
      have hgu := hu u (List.mem_cons_self _ _)
      simp only [List.map_cons, Level0.getLoop, deref, bind, Except.bind,
        hgu.1.get_eq hgu.2.1 key, firstValue]
      cases lookup u.recs key with
      | some v => rfl
      | none => exact ih (fun x hx => hu x (List.mem_cons_of_mem _ hx))
  exact this ts.reverse (fun t ht => hg t (List.mem_reverse.mp ht))

/-! ## The overlap search of merge_with -/

/-- The test of `merge_with` for "the key range of the table meets `[min, max]`". -/
theorem overlaps_iff (tmin tmax mn mx : Buffer) (h1 : ¬ tmax.compare tmin < 0)
    (h2 : ¬ mx.compare mn < 0) :
    (Buffer.min tmax mx).ge (Buffer.max tmin mn) = true ↔
      (¬ tmax.compare mn < 0 ∧ ¬ mx.compare tmin < 0) := by
  have hge : ∀ a b : Buffer, a.ge b = true ↔ ¬ a.compare b < 0 := by
    intro a b
    simp only [Buffer.ge, decide_eq_true_eq]
    omega
  have hlt : ∀ a b : Buffer, a.lt b = true ↔ a.compare b < 0 := by
    intro a b
    simp [Buffer.lt]
  have hgt : ∀ a b : Buffer, a.gt b = true ↔ b.compare a < 0 := by
    intro a b
    rw [Buffer.compare_swap]
    simp [Buffer.gt]
  rw [hge]
  unfold Buffer.min Buffer.max
  by_cases ha : tmax.lt mx = true
  · rw [if_pos ha]
    have ha' := (hlt _ _).1 ha
    by_cases hb : tmin.gt mn = true
    · rw [if_pos hb]
      have hb' := (hgt _ _).1 hb
      constructor
      · intro _
        refine ⟨fun hc => h1 (Buffer.compare_trans hc hb'), fun hc => ?_⟩
        exact h1 (Buffer.compare_trans ha' hc)
      · intro _; exact h1
    · rw [if_neg hb]
      have hb' : ¬ mn.compare tmin < 0 := fun hc => hb ((hgt _ _).2 hc)
      constructor
      · intro hc
        refine ⟨hc, fun hd => ?_⟩
        exact h1 (Buffer.compare_trans ha' hd)
      · intro hc; exact hc.1
  · rw [if_neg ha]
    have ha' : ¬ tmax.compare mx < 0 := fun hc => ha ((hlt _ _).2 hc)
    by_cases hb : tmin.gt mn = true
    · rw [if_pos hb]
      have hb' := (hgt _ _).1 hb
      constructor
      · intro hc
        refine ⟨fun hd => ?_, hc⟩
        exact h1 (Buffer.compare_trans hd hb')
      · intro hc; exact hc.2
    · rw [if_neg hb]
      have hb' : ¬ mn.compare tmin < 0 := fun hc => hb ((hgt _ _).2 hc)
      constructor
      · intro _
        refine ⟨fun hd => ?_, fun hd => ?_⟩
        · rcases Buffer.lt_of_not_lt_of_lt ha' hd with h | h
          · exact h2 h
          · rw [h] at h2; exact h2 hd
        · exact h2 (Buffer.lt_of_lt_of_not_lt hd hb')
      · intro _; exact h2

theorem LevelN.rangeLoop_spec (us : List Table) : ∀ (mn mx : Buffer),
    ∃ mn' mx', LevelN.rangeLoop (us.map some) mn mx = .ok (mn', mx') ∧
      ¬ mn.compare mn' < 0 ∧ ¬ mx'.compare mx < 0 ∧
      (∀ t ∈ us, ¬ t.min_key.compare mn' < 0 ∧ ¬ mx'.compare t.max_key < 0) := by
  induction us with
  | nil =>
    intro mn mx
    exact ⟨mn, mx, rfl, Buffer.compare_irrefl _, Buffer.compare_irrefl _, by simp⟩
  | cons u us ih =>
    intro mn mx
    obtain ⟨mn', mx', h1, h2, h3, h4⟩ := ih (if u.min_key.lt mn then u.min_key else mn)
      (if u.max_key.gt mx then u.max_key else mx)
    have hmn : ¬ mn.compare (if u.min_key.lt mn then u.min_key else mn) < 0 ∧
        ¬ u.min_key.compare (if u.min_key.lt mn then u.min_key else mn) < 0 := by
      by_cases h : u.min_key.lt mn = true
      · rw [if_pos h]
        have h' : u.min_key.compare mn < 0 := by simpa [Buffer.lt] using h
        exact ⟨Buffer.compare_asymm h', Buffer.compare_irrefl _⟩
      · rw [if_neg h]
        have h' : ¬ u.min_key.compare mn < 0 := by simpa [Buffer.lt] using h
        exact ⟨Buffer.compare_irrefl _, h'⟩
    have hmx : ¬ (if u.max_key.gt mx then u.max_key else mx).compare mx < 0 ∧
        ¬ (if u.max_key.gt mx then u.max_key else mx).compare u.max_key < 0 := by
      by_cases h : u.max_key.gt mx = true
      · rw [if_pos h]
        have h' : mx.compare u.max_key < 0 := by
          rw [Buffer.compare_swap]; simpa [Buffer.gt] using h
        exact ⟨Buffer.compare_asymm h', Buffer.compare_irrefl _⟩
      · rw [if_neg h]
        have h' : ¬ mx.compare u.max_key < 0 := by
          rw [Buffer.compare_swap]; simpa [Buffer.gt] using h
        exact ⟨Buffer.compare_irrefl _, h'⟩
    refine ⟨mn', mx', ?_, ?_, ?_, ?_⟩
    · simp only [List.map_cons, LevelN.rangeLoop, deref, bind, Except.bind]
      exact h1
    · exact Buffer.not_lt_of_not_lt_of_not_lt h2 hmn.1
    · exact Buffer.not_lt_of_not_lt_of_not_lt hmx.1 h3
    · intro t ht
      rcases List.mem_cons.mp ht with h | h
      · subst h
        exact ⟨Buffer.not_lt_of_not_lt_of_not_lt h2 hmn.2,
          Buffer.not_lt_of_not_lt_of_not_lt hmx.2 h3⟩
      · exact h4 t h

/-- A list of tables in key order splits into the tables below `[mn, mx]`, the tables
that meet `[mn, mx]` and the tables above `[mn, mx]`. -/
theorem split_by_range (mn mx : Buffer) : ∀ (ts : List Table),
    (∀ t ∈ ts, ¬ t.max_key.compare t.min_key < 0) →
    ts.Pairwise (fun t t' => t.max_key.compare t'.min_key < 0) →
    ts.Pairwise (fun t t' => t.min_key.compare t'.min_key < 0) →
    ∃ A O B : List Table, ts = A ++ (O ++ B) ∧
      (∀ t ∈ A, t.max_key.compare mn < 0) ∧
      (∀ t ∈ O, ¬ t.max_key.compare mn < 0 ∧ ¬ mx.compare t.min_key < 0) ∧
      (∀ t ∈ B, ¬ t.max_key.compare mn < 0 ∧ mx.compare t.min_key < 0) := by
  intro ts
  induction ts with
  | nil => intro _ _ _; exact ⟨[], [], [], rfl, by simp, by simp, by simp⟩
  | cons t ts ih =>
    intro hwf hchain hsorted
    rw [List.pairwise_cons] at hchain hsorted
    obtain ⟨A, O, B, hts, hA, hO, hB⟩ := ih (fun x hx => hwf x (List.mem_cons_of_mem _ hx))
      hchain.2 hsorted.2
    have hwt := hwf t (List.mem_cons_self _ _)
    by_cases hbelow : t.max_key.compare mn < 0
    · refine ⟨t :: A, O, B, by rw [hts]; rfl, ?_, hO, hB⟩
      intro x hx
      rcases List.mem_cons.mp hx with h | h
      · subst h; exact hbelow
      · exact hA x h
    · have hAnil : A = [] := by
        cases A with
        | nil => rfl
        | cons a A' =>
          exfalso
          have ha : a ∈ ts := by rw [hts]; simp
          have h1 := hchain.1 a ha
          have h2 := hA a (List.mem_cons_self _ _)
          have h3 := Buffer.lt_of_lt_of_not_lt h1 (hwf a (List.mem_cons_of_mem _ ha))
          exact hbelow (Buffer.compare_trans h3 h2)
      subst hAnil
      simp only [List.nil_append] at hts
      by_cases habove : mx.compare t.min_key < 0
      · refine ⟨[], [], t :: ts, rfl, by simp, by simp, ?_⟩
        intro x hx
        rcases List.mem_cons.mp hx with h | h
        · subst h; exact ⟨hbelow, habove⟩
        · have hx' : x ∈ O ++ B := by rw [← hts]; exact h
          refine ⟨?_, Buffer.compare_trans habove (hsorted.1 x h)⟩
          rcases List.mem_append.mp hx' with h' | h'
          · exact (hO x h').1
          · exact (hB x h').1
      · refine ⟨[], t :: O, B, by rw [hts]; rfl, by simp, ?_, hB⟩
        intro x hx
        rcases List.mem_cons.mp hx with h | h
        · subst h; exact ⟨hbelow, habove⟩
        · exact hO x h

theorem LevelN.overlapLoop_skip (mn mx : Buffer) (endIdx : Nat) (ts : List Table)
    (rest : table_list)
    (h : ∀ t ∈ ts, (Buffer.min t.max_key mx).ge (Buffer.max t.min_key mn) = false) :
    ∀ (i first last : Nat) (acc : table_list),
      LevelN.overlapLoop mn mx endIdx (ts.map some ++ rest) i first last acc
        = LevelN.overlapLoop mn mx endIdx rest (i + ts.length) first last acc := by
  induction ts with
  | nil => intro i first last acc; rfl
  | cons t ts ih =>
    intro i first last acc
    have ht := h t (List.mem_cons_self _ _)
    simp only [List.map_cons, List.cons_append, LevelN.overlapLoop, deref, bind, Except.bind, ht,
      Bool.false_eq_true, if_false, List.append_eq]
    rw [ih (fun x hx => h x (List.mem_cons_of_mem _ hx))]
    simp only [List.length_cons]
    congr 1
    omega

theorem LevelN.overlapLoop_take (mn mx : Buffer) (endIdx : Nat) (ts : List Table)
    (rest : table_list)
    (h : ∀ t ∈ ts, (Buffer.min t.max_key mx).ge (Buffer.max t.min_key mn) = true) :
    ∀ (i first last : Nat) (acc : table_list), ts ≠ [] → i + ts.length ≤ endIdx →
      LevelN.overlapLoop mn mx endIdx (ts.map some ++ rest) i first last acc
        = LevelN.overlapLoop mn mx endIdx rest (i + ts.length)
            (if first = endIdx then i else first) (i + ts.length - 1) (acc ++ ts.map some) := by
  induction ts with
  | nil => intro i first last acc hne; exact absurd rfl hne
  | cons t ts ih =>
    intro i first last acc _ hlen
    have ht := h t (List.mem_cons_self _ _)
    simp only [List.length_cons] at hlen
    simp only [List.map_cons, List.cons_append, LevelN.overlapLoop, deref, bind, Except.bind, ht,
      if_true, List.append_eq]
    by_cases hts : ts = []
    · subst hts
      simp only [List.map_nil, List.nil_append, List.length_cons, List.length_nil]
      rfl
    · rw [ih (fun x hx => h x (List.mem_cons_of_mem _ hx)) (i + 1) _ _ _ hts (by omega)]
      have h1 : (if (if first = endIdx then i else first) = endIdx then i + 1
          else if first = endIdx then i else first) = (if first = endIdx then i else first) := by
        by_cases hf : first = endIdx
        · rw [if_pos hf, if_neg (by omega)]
        · rw [if_neg hf, if_neg hf]
      rw [h1]
      simp only [List.length_cons, List.append_assoc, List.singleton_append]
      congr 1 <;> omega

theorem LevelN.overlapLoop_sorted (mn mx : Buffer) (A O B : List Table)
    (hmm : ¬ mx.compare mn < 0)
    (hwf : ∀ t ∈ A ++ (O ++ B), ¬ t.max_key.compare t.min_key < 0)
    (hA : ∀ t ∈ A, t.max_key.compare mn < 0)
    (hO : ∀ t ∈ O, ¬ t.max_key.compare mn < 0 ∧ ¬ mx.compare t.min_key < 0)
    (hB : ∀ t ∈ B, ¬ t.max_key.compare mn < 0 ∧ mx.compare t.min_key < 0) :
    LevelN.overlapLoop mn mx (A ++ (O ++ B)).length ((A ++ (O ++ B)).map some) 0
        (A ++ (O ++ B)).length (A ++ (O ++ B)).length []
      = .ok (if O = [] then ((A ++ (O ++ B)).length, (A ++ (O ++ B)).length, [])
          else (A.length, A.length + O.length - 1, O.map some)) := by
  have hAf : ∀ t ∈ A, (Buffer.min t.max_key mx).ge (Buffer.max t.min_key mn) = false := by
    intro t ht
    rw [← Bool.not_eq_true, overlaps_iff _ _ _ _ (hwf t (by simp [ht])) hmm]
    exact fun h => h.1 (hA t ht)
  have hOt : ∀ t ∈ O, (Buffer.min t.max_key mx).ge (Buffer.max t.min_key mn) = true := by
    intro t ht
    rw [overlaps_iff _ _ _ _ (hwf t (by simp [ht])) hmm]
    exact hO t ht
  have hBf : ∀ t ∈ B, (Buffer.min t.max_key mx).ge (Buffer.max t.min_key mn) = false := by
    intro t ht
    rw [← Bool.not_eq_true, overlaps_iff _ _ _ _ (hwf t (by simp [ht])) hmm]
    exact fun h => h.2 (hB t ht).2
  rw [List.map_append, LevelN.overlapLoop_skip mn mx _ A _ hAf, List.map_append]
  by_cases hOe : O = []
  · subst hOe
    rw [if_pos rfl]
    simp only [List.map_nil, List.nil_append]
    have := LevelN.overlapLoop_skip mn mx (A ++ B).length B [] hBf (0 + A.length)
      (A ++ B).length (A ++ B).length []
    rw [List.append_nil] at this
    rw [this]
    rfl
  · rw [if_neg hOe]
    rw [LevelN.overlapLoop_take mn mx _ O _ hOt _ _ _ _ hOe (by simp)]
    have := LevelN.overlapLoop_skip mn mx (A ++ (O ++ B)).length B [] hBf
      (0 + A.length + O.length)
      (if (A ++ (O ++ B)).length = (A ++ (O ++ B)).length then 0 + A.length
        else (A ++ (O ++ B)).length)
      (0 + A.length + O.length - 1) ([] ++ O.map some)
    rw [List.append_nil] at this
    rw [this]
    simp only [LevelN.overlapLoop, if_true, Nat.zero_add, List.nil_append]
    rfl

theorem LevelN.replaceTables_overlap (a o b merged : table_list) (ho : o ≠ []) :
    LevelN.replaceTables (a ++ (o ++ b)) a.length (a.length + o.length - 1) merged
      = a ++ (merged ++ b) := by
  have hol : 0 < o.length := List.length_pos.mpr ho
  unfold LevelN.replaceTables
  simp only []
  rw [if_pos (by simp only [List.length_append]; omega)]
  have h1 : (a ++ (o ++ b)).take a.length = a := by
    rw [List.take_left']
    rfl
  have h2 : (a ++ (o ++ b)).drop (a.length + o.length - 1 + 1) = b := by
    rw [show a.length + o.length - 1 + 1 = (a ++ o).length by
      simp only [List.length_append]; omega, ← List.append_assoc, List.drop_left']
    rfl
  rw [h1, h2]
  have h3 : (a ++ b).take a.length = a := by
    rw [List.take_left']; rfl
  have h4 : (a ++ b).drop a.length = b := by
    rw [List.drop_left']; rfl
  rw [h3, h4, List.append_assoc]

theorem LevelN.replaceTables_none (ts merged : table_list) :
    LevelN.replaceTables ts ts.length ts.length merged = ts ++ merged := by
  unfold LevelN.replaceTables
  simp

/-! ## merge_with on a level in key order -/

theorem firstValue_append_or (a b : List (List KeyValue)) (k : Buffer) :
    firstValue (a ++ b) k = (firstValue a k).or (firstValue b k) := by
  rw [firstValue_append]
  cases firstValue a k <;> rfl

theorem tablesHold_of_good {S : Nat} (us : List Table) (h : ∀ t ∈ us, t.Good S) :
    TablesHold (us.map some) (us.map Table.recs) := by
  induction us with
  | nil => exact List.Forall₂.nil
  | cons u us ih =>
    exact List.Forall₂.cons ⟨u, rfl, (h u (List.mem_cons_self _ _)).1⟩
      (ih (fun x hx => h x (List.mem_cons_of_mem _ hx)))

theorem chunk_tables_recs (S : Nat) (chunks : List (List KeyValue))
    (h : ∀ c ∈ chunks, (tableOf S c).Holds c) :
    (chunks.map (tableOf S)).map Table.recs = chunks := by
  induction chunks with
  | nil => rfl
  | cons c cs ih =>
    simp only [List.map_cons, (h c (List.mem_cons_self _ _)).recs_eq,
      ih (fun x hx => h x (List.mem_cons_of_mem _ hx))]

theorem KeyValue.pair_injective : ∀ (a b : List KeyValue),
    a.map KeyValue.pair = b.map KeyValue.pair → a = b := by
  intro a
  induction a with
  | nil =>
    intro b h
    cases b with
    | nil => rfl
    | cons y b => simp at h
  | cons x a ih =>
    intro b h
    cases b with
    | nil => simp at h
    | cons y b =>
      simp only [List.map_cons, List.cons.injEq, KeyValue.pair, Prod.mk.injEq] at h
      obtain ⟨⟨h1, h2⟩, h3⟩ := h
      have hxy : x = y := by
        cases x; cases y
        simp only [KeyValue.mk.injEq]
        exact ⟨Buffer.ext_bytes h1, Buffer.ext_bytes h2⟩
      rw [hxy, ih b h3]

theorem MemTable.get_lookup_records (mt : MemTable) (rs : List KeyValue) (key : Buffer)
    (hrs : rs.map KeyValue.pair = mt.m_table) (hv : ∀ r ∈ rs, r.value.size < 65535) :
    mt.get key = .ok (lookup rs key) := by
  unfold MemTable.get
  rw [← hrs, mapFind_eq_lookup]
  cases hl : lookup rs key with
  | none => rfl
  | some v =>
    have hm := lookup_some_mem _ key v hl
    have hvs := hv _ hm
    obtain ⟨b, hb1, hb2⟩ := Buffer.ofString_eq v.bytes hvs
    simp only [Option.map_some', hb1, bind, Except.bind, pure, Except.pure]
    rw [Buffer.ext_bytes hb2]

theorem MemTable.size_ok (mt : MemTable)
    (h : (mt.m_size ≠ 0 ∧ mt.m_table ≠ []) ∨ (mt.m_size = 0 ∧ mt.m_table = [])) :
    mt.size = .ok mt.m_size := by
  unfold MemTable.size
  have : decide ((mt.m_size ≠ 0 ∧ mt.m_table.length ≠ 0) ∨
      (mt.m_size = 0 ∧ mt.m_table.length = 0)) = true := by
    rw [decide_eq_true_eq]
    rcases h with ⟨h1, h2⟩ | ⟨h1, h2⟩
    · exact Or.inl ⟨h1, fun hc => h2 (List.length_eq_zero.mp hc)⟩
    · exact Or.inr ⟨h1, by rw [h2]; rfl⟩
  rw [this]
  rfl

/-- `LSMTree::dump_memtable` on a tree that is running: Level 0 receives the tables of
the memtable, which shadow the tables that Level 0 held. -/
theorem LSMTree.dump_memtable_spec {S : Nat} (hS : S + 131074 < U32) (t : LSMTree)
    (mt : MemTable) (ts0 : List Table) (rs : List KeyValue)
    (hrun : t.m_terminate_merge = false) (hcfg : t.m_level0.m_config.table_size = S)
    (hts0 : t.m_level0.m_tables = ts0.map some) (hg0 : ∀ x ∈ ts0, x.Good S)
    (hrs : rs.map KeyValue.pair = mt.m_table) (hsorted : mt.Sorted)
    (hvalid : ∀ e ∈ mt.m_table,
      e.1 ≠ [] ∧ e.1.length < 65535 ∧ e.2.length < 65535 ∧ fitsEntry S e)
    (hsize : (mt.m_size ≠ 0 ∧ mt.m_table ≠ []) ∨ (mt.m_size = 0 ∧ mt.m_table = [])) :
    ∃ (l0' : Level) (ts0' : List Table),
      t.dump_memtable mt = .ok { t with m_level0 := l0' } ∧
      l0'.m_config = t.m_level0.m_config ∧ l0'.m_tables = ts0'.map some ∧
      (∀ x ∈ ts0', x.Good S) ∧
      (∀ key, firstValue (ts0'.map Table.recs).reverse key =
        (lookup rs key).or (firstValue (ts0.map Table.recs).reverse key)) ∧
      (ts0'.map Table.recs).flatten.length = rs.length + (ts0.map Table.recs).flatten.length := by
  have hS' : S < U32 := by omega
  have ha : assert (!t.m_terminate_merge) = .ok () := by rw [hrun]; rfl
  unfold LSMTree.dump_memtable
  simp only [ha, MemTable.size_ok mt hsize, bind, Except.bind]
  rcases hsize with ⟨h1, h2⟩ | ⟨h1, h2⟩
  · rw [if_neg h1]
    have hfit1 : ∀ e ∈ mt.m_table, fitsEntry t.m_level0.m_config.table_size e := by
      rw [hcfg]; exact fun e he => (hvalid e he).2.2.2
    obtain ⟨l0', hd⟩ := Level0.dump_memtable_succeeds t.m_level0 mt (by rw [hcfg]; exact hS) h2
      (fun e he => ⟨(hvalid e he).1, (hvalid e he).2.1, (hvalid e he).2.2.1⟩) hfit1
    obtain ⟨chunks, hc1, hc2, hc3, hc4, hc5⟩ :=
      Level0.dump_memtable_result (by rw [hcfg]; exact hS') hfit1 hd
    rw [hcfg] at hc1 hc3 hc5
    have hflat : chunks.flatten = rs := KeyValue.pair_injective _ _ (by rw [hc4, hrs])
    have hasc : Ascending chunks.flatten := by
      apply Ascending.of_sorted
      rw [hc4]; exact hsorted
    have hrecs := chunk_tables_recs S chunks hc3
    refine ⟨l0', ts0 ++ chunks.map (tableOf S), ?_, hc2, ?_, ?_, ?_, ?_⟩
    · rw [hd]; rfl
    · rw [hc1, hts0, List.map_append, List.map_map]; rfl
    · intro x hx
      rcases List.mem_append.mp hx with h | h
      · exact hg0 x h
      · obtain ⟨c, hc, rfl⟩ := List.mem_map.mp h
        have hh := hc3 c hc
        refine ⟨hh.good_holds, ?_, ?_⟩
        · rw [hh.recs_eq]; exact hasc.of_mem_flatten hc
        · rw [hh.recs_eq]
          intro r hr
          exact (hc5 r (List.mem_flatten.mpr ⟨c, hc, hr⟩)).1
    · intro key
      rw [List.map_append, hrecs, List.reverse_append, firstValue_append_or,
        firstValue_reverse chunks hasc, hflat]
    · rw [List.map_append, hrecs, List.flatten_append, List.length_append, hflat]
      omega
  · rw [if_pos h1]
    have hrs0 : rs = [] := by
      rw [h2] at hrs
      exact List.map_eq_nil_iff.mp hrs
    refine ⟨t.m_level0, ts0, rfl, rfl, hts0, hg0, ?_, ?_⟩
    · intro key
      rw [hrs0]
      rfl
    · rw [hrs0]; simp

theorem Level.recordCount_eq (l : Level) (ts : List Table) (h : l.m_tables = ts.map some) :
    l.recordCount = (ts.map Table.recs).flatten.length := by
  unfold Level.recordCount
  rw [h, List.length_flatten, List.map_map]
  congr 2
  induction ts with
  | nil => rfl
  | cons t ts ih => simp [List.filterMap_cons, ih]

theorem forall₂_of_forall_exists {α β : Type} (P : α → β → Prop) :
    ∀ (l : List α), (∀ a ∈ l, ∃ b, P a b) → ∃ bs, List.Forall₂ P l bs := by
  intro l
  induction l with
  | nil => exact fun _ => ⟨[], List.Forall₂.nil⟩
  | cons a l ih =>
    intro h
    obtain ⟨b, hb⟩ := h a (List.mem_cons_self _ _)
    obtain ⟨bs, hbs⟩ := ih (fun x hx => h x (List.mem_cons_of_mem _ hx))
    exact ⟨b :: bs, List.Forall₂.cons hb hbs⟩

/-- The value of `KVStore::get` from the answers of the memtable, of Level 0 and of the
levels after it: the first hit, unless it is a deletion marker. -/
theorem KVStore.get_of_parts (s : KVStore) (key : Buffer) (a b c : Option Buffer)
    (hlive : s.m_destroyed = false) (hrun : s.m_tree.m_terminate_merge = false)
    (ha : s.m_memtable.get key = .ok a) (hb : Level0.get s.m_tree.m_level0 key = .ok b)
    (hc : LSMTree.getLoop key s.m_tree.m_levels = .ok c) :
    s.get key = .ok ((a.or (b.or c)).bind
      (fun v => if v.eq Buffer.empty then none else some v)) := by
  unfold KVStore.get
  rw [hlive, ha, LSMTree.get_live _ _ hrun, hb, hc]
  cases a with
  | some v =>
    simp only [Bool.not_false, assert, bind, Except.bind, pure, Except.pure, Option.or_some,
      Option.some_bind, if_true]
    by_cases hv : v.eq Buffer.empty <;> simp [hv]
  | none =>
    cases b with
    | some v =>
      simp only [Bool.not_false, assert, bind, Except.bind, pure, Except.pure, Option.or_some,
        Option.none_or, Option.some_bind, if_true]
      by_cases hv : v.eq Buffer.empty <;> simp [hv]
    | none =>
      cases c with
      | some v =>
        simp only [Bool.not_false, assert, bind, Except.bind, pure, Except.pure,
          Option.or_some, Option.none_or, Option.some_bind, if_true]
        by_cases hv : v.eq Buffer.empty <;> simp [hv]
      | none => rfl

theorem tableOf_single_good (r : KeyValue) (h : (tableOf 32 [r]).Holds [r]) (hf : fits 32 r) :
    (tableOf 32 [r]).Good 32 ∧ (tableOf 32 [r]).recs = [r] := by
  have hr := h.recs_eq
  refine ⟨⟨by rw [hr]; exact h, by rw [hr]; exact List.pairwise_singleton _ _, ?_⟩, hr⟩
  rw [hr]
  intro x hx
  rw [List.mem_singleton] at hx
  rw [hx]
  exact hf

theorem durable_tables_good :
    ((tableOf 32 [recC]).Good 32 ∧ (tableOf 32 [recC]).recs = [recC]) ∧
    ((tableOf 32 [recDelA]).Good 32 ∧ (tableOf 32 [recDelA]).recs = [recDelA]) ∧
    ((tableOf 32 [recA]).Good 32 ∧ (tableOf 32 [recA]).recs = [recA]) :=
  ⟨tableOf_single_good _ (tableOf_holds 32 _ (by decide) (by simp) (by decide) (by decide))
      (by unfold fits; decide),
   tableOf_single_good _ (tableOf_holds 32 _ (by decide) (by simp) (by decide) (by decide))
      (by unfold fits; decide),
   tableOf_single_good _ (tableOf_holds 32 _ (by decide) (by simp) (by decide) (by decide))
      (by unfold fits; decide)⟩

theorem inKeyOrder_single (t : Table) (r : KeyValue) (h : t.recs = [r]) : InKeyOrder [t] := by
  unfold InKeyOrder Ascending
  simp only [List.map_cons, List.map_nil, List.flatten_cons, List.flatten_nil, h,
    List.append_nil]
  exact List.pairwise_singleton _ _

theorem durableStore_ordered : durableStore.Ordered 32 where
  live := rfl
  running := rfl
  config := rfl
  levels := rfl
  upper := by simp [durableStore]
  level0 := ⟨rfl, rfl, rfl⟩
  levelN := by
    intro l hl
    simp only [durableStore, List.mem_cons, List.mem_singleton, List.not_mem_nil,
      or_false] at hl
    rcases hl with rfl | rfl <;> exact ⟨by decide, rfl, rfl⟩
  mem_sorted := by
    unfold MemTable.Sorted
    simp [durableStore]
  mem_valid := by
    intro e he
    simp only [durableStore, List.mem_singleton] at he
    subst he
    unfold fitsEntry
    decide
  mem_size := Or.inl ⟨by decide, by simp [durableStore]⟩
  tables0 := ⟨[tableOf 32 [recC]], rfl, by
    intro t ht
    rw [List.mem_singleton] at ht
    rw [ht]
    exact durable_tables_good.1.1⟩
  tablesN := by
    intro l hl
    simp only [durableStore, List.mem_cons, List.mem_singleton, List.not_mem_nil,
      or_false] at hl
    rcases hl with rfl | rfl
    · refine ⟨[tableOf 32 [recDelA]], rfl, ?_, inKeyOrder_single _ _ durable_tables_good.2.1.2⟩
      intro t ht
      rw [List.mem_singleton] at ht
      rw [ht]
      exact durable_tables_good.2.1.1
    · refine ⟨[tableOf 32 [recA]], rfl, ?_, inKeyOrder_single _ _ durable_tables_good.2.2.2⟩
      intro t ht
      rw [List.mem_singleton] at ht
      rw [ht]
      exact durable_tables_good.2.2.1
  few := by
    intro l hl
    simp only [durableStore, List.mem_cons, List.mem_singleton, List.not_mem_nil,
      or_false] at hl
    have h0 : durableStore.m_tree.m_level0.recordCount = 1 := by
      rw [Level.recordCount_eq _ [tableOf 32 [recC]] rfl]
      simp [durable_tables_good.1.2]
    rw [h0]
    rcases hl with rfl | rfl
    · rw [Level.recordCount_eq _ [tableOf 32 [recDelA]] rfl]
      simp [durable_tables_good.2.1.2, durableStore]
    · rw [Level.recordCount_eq _ [tableOf 32 [recA]] rfl]
      simp [durable_tables_good.2.2.2, durableStore]

/-! ## The hash -/

theorem Buffer.hashLoop_unsigned (bs : Bytes) (h : Nat) :
    Buffer.hashLoop false bs h = bs.foldl (fun h c => (h * 33 + c.val) % U64) h := by
  induction bs generalizing h with
  | nil => rfl
  | cons c rest ih =>
    simp only [Buffer.hashLoop, List.foldl_cons, ih]
    congr 1
    simp only [Buffer.charValue, Bool.false_and, Bool.false_eq_true, if_false, U64]
    omega

/-- With a signed `char` the loop of `hash` agrees with the specification on the bytes
below 128. -/
theorem Buffer.hashLoop_signed_ascii (bs : Bytes) (h : Nat) (hb : ∀ c ∈ bs, c.val < 128) :
    Buffer.hashLoop true bs h = bs.foldl (fun h c => (h * 33 + c.val) % U64) h := by
  induction bs generalizing h with
  | nil => rfl
  | cons c rest ih =>
    have hc := hb c (List.mem_cons_self _ _)
    simp only [Buffer.hashLoop, List.foldl_cons, ih _ (fun x hx => hb x (List.mem_cons_of_mem _ hx))]
    congr 1
    have : ¬ 128 ≤ c.val := by omega
    simp only [Buffer.charValue, Bool.true_and, decide_eq_true_eq, this, if_false, U64]
    omega

/-- With a signed `char` one byte from 128 on changes the hash of the specification by
`-256` modulo 2^64. -/
theorem Buffer.hash_signed_single (c : Byte) (hc : 128 ≤ c.val) :
    Buffer.hashLoop true [c] 5381 = 177573 + c.val - 256 ∧ djb2 [c] = 177573 + c.val := by
  have h2 := c.isLt
  simp only [Buffer.hashLoop, djb2, List.foldl_cons, List.foldl_nil, Buffer.charValue,
    Bool.true_and, decide_eq_true_eq, hc, if_true, U64]
  omega

/-- C21 (the code departs from the claim): `Buffer::hash` reads each byte as a plain
`char`. Where `char` is unsigned the hash is the value of the specification for every
byte string. Where `char` is signed the one-byte string `0x80` hashes to
`5381 * 33 - 128 = 177445`, while the specification, and the code where `char` is
unsigned, give `5381 * 33 + 128 = 177701`: the result depends on the platform. -/
theorem hash_depends_on_char_sign :
    (∀ b : Buffer, Buffer.hash false b = djb2 b.bytes) ∧
    Buffer.hash true key80 = 177445 ∧ Buffer.hash false key80 = 177701 ∧
    djb2 key80.bytes = 177701 :=
  ⟨fun b => Buffer.hashLoop_unsigned b.bytes 5381, by decide, by decide, by decide⟩

/-! ## The dispatch of the parallel store -/

theorem ParallelKVStore.newLoop_length (config : Config) :
    ∀ (n i : Nat) (ps : List KVStorePartition),
      ParallelKVStore.newLoop config n i = .ok ps → ps.length = n := by
  intro n
  induction n with
  | zero =>
    intro i ps h
    cases h
    rfl
  | succ n ih =>
    intro i ps h
    simp only [ParallelKVStore.newLoop, bind, Except.bind] at h
    cases h1 : KVStorePartition.new config i with
    | error e => rw [h1] at h; cases h
    | ok p =>
      rw [h1] at h
      cases h2 : ParallelKVStore.newLoop config n (i + 1) with
      | error e => rw [h2] at h; cases h
      | ok qs =>
        rw [h2] at h
        cases h
        simp [ih _ _ h2]

/-- The constructor makes as many shards as `parallelism` says, at least one. -/
theorem ParallelKVStore.new_shards (config : Config) (s : ParallelKVStore)
    (h : ParallelKVStore.new config = .ok s) :
    0 < s.m_config.parallelism ∧ s.m_stores.length = s.m_config.parallelism := by
  unfold ParallelKVStore.new at h
  by_cases hp : config.parallelism > 0
  · rw [assert_true_bind _ (by simpa using hp)] at h
    cases h1 : ParallelKVStore.newLoop config config.parallelism 0 with
    | error e => simp only [h1, bind, Except.bind] at h; cases h
    | ok ps =>
      simp only [h1, bind, Except.bind, pure, Except.pure] at h
      cases h
      exact ⟨hp, ParallelKVStore.newLoop_length config _ _ _ h1⟩
  · rw [assert_false_bind _ (by simpa using hp)] at h
    cases h

theorem ParallelKVStore.get_partition_eq (signedChar : Bool) (s : ParallelKVStore)
    (key : Buffer) (hP : 0 < s.m_config.parallelism)
    (hlen : s.m_stores.length = s.m_config.parallelism) :
    key.hash signedChar % s.m_config.parallelism < s.m_config.parallelism ∧
    ∃ part, s.m_stores[key.hash signedChar % s.m_config.parallelism]? = some part ∧
      s.get_partition signedChar key
        = .ok (key.hash signedChar % s.m_config.parallelism, part) := by
  have hlt := Nat.mod_lt (key.hash signedChar) hP
  obtain ⟨part, hpart⟩ := exists_getElem? s.m_stores
    (key.hash signedChar % s.m_config.parallelism) (by rw [hlen]; exact hlt)
  refine ⟨hlt, part, hpart, ?_⟩
  simp only [ParallelKVStore.get_partition, List.get?_eq_getElem?, hpart]
  rfl

/-- C22: on a parallel store with `P >= 1` shards, `add`, `get` and `remove` for a key
all go to the shard with index `hash(key) mod P`: the index is less than `P`, each call
pushes its task on the queue of that shard and leaves every other shard as it was, and
every parallel store with `P` shards picks this index for every key with the same
bytes (`hash` being `Buffer::hash` on the platform at hand). -/
theorem dispatch_by_hash (signedChar : Bool) (s : ParallelKVStore) (key value : Buffer)
    (hP : 1 ≤ s.m_config.parallelism) (hlen : s.m_stores.length = s.m_config.parallelism) :
    key.hash signedChar % s.m_config.parallelism < s.m_config.parallelism ∧
    (∃ part, s.m_stores[key.hash signedChar % s.m_config.parallelism]? = some part ∧
      s.add signedChar key value = .ok { s with
        m_stores := s.m_stores.set (key.hash signedChar % s.m_config.parallelism)
          (part.push (Task.add key value)) } ∧
      s.get signedChar key = .ok ({ s with
        m_stores := s.m_stores.set (key.hash signedChar % s.m_config.parallelism)
          ({ part with m_promises := part.m_promises ++ [none] }.push
            (Task.get key part.m_promises.length)) },
        key.hash signedChar % s.m_config.parallelism, part.m_promises.length) ∧
      s.remove signedChar key = .ok { s with
        m_stores := s.m_stores.set (key.hash signedChar % s.m_config.parallelism)
          (part.push (Task.remove key)) }) ∧
    (∀ (s2 : ParallelKVStore) (key2 : Buffer), key2.bytes = key.bytes →
      s2.m_config.parallelism = s.m_config.parallelism →
      s2.m_stores.length = s2.m_config.parallelism →
      ∃ part2, s2.get_partition signedChar key2
        = .ok (key.hash signedChar % s.m_config.parallelism, part2)) := by
  obtain ⟨hlt, part, hpart, hgp⟩ := ParallelKVStore.get_partition_eq signedChar s key hP hlen
  refine ⟨hlt, ⟨part, hpart, ?_, ?_, ?_⟩, ?_⟩
  · simp only [ParallelKVStore.add, hgp, bind, Except.bind, pure, Except.pure,
      KVStorePartition.add]
  · simp only [ParallelKVStore.get, hgp, bind, Except.bind, pure, Except.pure,
      KVStorePartition.get]
  · simp only [ParallelKVStore.remove, hgp, bind, Except.bind, pure, Except.pure,
      KVStorePartition.remove]
  · intro s2 key2 hk hp2 hl2
    obtain ⟨_, part2, _, hgp2⟩ :=
      ParallelKVStore.get_partition_eq signedChar s2 key2 (hp2 ▸ hP) hl2
    refine ⟨part2, ?_⟩
    rw [hgp2, hp2]
    have : key2 = key := Buffer.ext_bytes hk
    rw [this]

/-- Witness of C22: in the parallel store of `Config("db", "/tmp", 2, 32, 1, 100, 2,
false)` the key `b` (hash 177671 where `char` is signed) goes to shard 1. -/
theorem dispatch_by_hash_witness :
    (Config.new ['d', 'b'] ['/', 't', 'm', 'p'] 2 32 1 100 2 false >>= ParallelKVStore.new)
      = .ok twoShards ∧
    1 ≤ twoShards.m_config.parallelism ∧
    twoShards.m_stores.length = twoShards.m_config.parallelism ∧
    keyB.hash true = 177671 ∧ twoShards.m_config.parallelism = 2 ∧
    keyB.hash true % twoShards.m_config.parallelism < twoShards.m_config.parallelism ∧
    ∃ part, twoShards.m_stores[keyB.hash true % twoShards.m_config.parallelism]? = some part ∧
      twoShards.add true keyB valX = .ok { twoShards with
        m_stores := twoShards.m_stores.set (keyB.hash true % twoShards.m_config.parallelism)
          (part.push (Task.add keyB valX)) } :=
  ⟨by decide, by decide, by decide, by decide, by decide,
   (dispatch_by_hash true twoShards keyB valX (by decide) (by decide)).1,
   (dispatch_by_hash true twoShards keyB valX (by decide) (by decide)).2.1.imp
     (fun _ h => ⟨h.1, h.2.1⟩)⟩

/-! ## The configuration -/

theorem Config.levelsLoop_getElem? (name : List Char) (ts th : Nat) (ow : Bool) :
    ∀ (dirs : List (List Char)) (i t j : Nat),
      (Config.levelsLoop name ts th ow dirs i t)[j]? =
        (dirs[j]?).map (fun d => LevelConfig.new d name (i + j) ts (t * th ^ j % U32) ow) := by
  intro dirs
  induction dirs with
  | nil => intro i t j; simp [Config.levelsLoop]
  | cons d ds ih =>
    intro i t j
    cases j with
    | zero => simp [Config.levelsLoop]
    | succ j =>
      simp only [Config.levelsLoop, List.getElem?_cons_succ, ih]
      have h1 : i + 1 + j = i + (j + 1) := by omega
      have h2 : t * th % U32 * th ^ j % U32 = t * th ^ (j + 1) % U32 := by
        rw [Nat.mod_mul_mod, pow_succ, Nat.mul_assoc, Nat.mul_comm th (th ^ j)]
      rw [h1, h2]

theorem Config.levelsLoop_length (name : List Char) (ts th : Nat) (ow : Bool) :
    ∀ (dirs : List (List Char)) (i t : Nat),
      (Config.levelsLoop name ts th ow dirs i t).length = dirs.length := by
  intro dirs
  induction dirs with
  | nil => intro i t; rfl
  | cons d ds ih => intro i t; simp [Config.levelsLoop, ih]

theorem Config.levelsLoop_paths (name : List Char) (ts th : Nat) (ow : Bool) :
    ∀ (dirs : List (List Char)) (i t : Nat),
      (Config.levelsLoop name ts th ow dirs i t).map LevelConfig.path = dirs := by
  intro dirs
  induction dirs with
  | nil => intro i t; rfl
  | cons d ds ih => intro i t; simp [Config.levelsLoop, ih, LevelConfig.new]

/-- The value of the `Config` constructor: its three assertions, and the levels that
the loop builds over the directories. -/
theorem Config.new_eq (name path : List Char) (L ts th mem par : Nat) (ow : Bool) :
    Config.new name path L ts th mem par ow =
      if name ≠ [] ∧ path ≠ [] ∧
          ((split path ',').length = 1 ∨ (split path ',').length = L) then
        .ok
          { levels := Config.levelsLoop name ts th ow
              ((if (split path ',').length = 1 then
                  List.replicate L ((split path ',').headD [])
                else split path ',').take L) 0 th
            name := name
            path := path
            memtable_size := mem
            parallelism := par }
      else .error .assertion := by
  unfold Config.new
  by_cases h1 : name ≠ []
  · rw [assert_true_bind _ (by simpa using h1)]
    by_cases h2 : path ≠ []
    · rw [assert_true_bind _ (by simpa using h2)]
      by_cases h3 : (split path ',').length = 1 ∨ (split path ',').length = L
      · have hc : name ≠ [] ∧ path ≠ [] ∧
            ((split path ',').length = 1 ∨ (split path ',').length = L) := ⟨h1, h2, h3⟩
        rw [assert_true_bind _ (by simpa using h3), if_pos hc]
        rfl
      · have hc : ¬ (name ≠ [] ∧ path ≠ [] ∧
            ((split path ',').length = 1 ∨ (split path ',').length = L)) := fun h => h3 h.2.2
        rw [assert_false_bind _ (by simpa using h3), if_neg hc]
    · have hc : ¬ (name ≠ [] ∧ path ≠ [] ∧
          ((split path ',').length = 1 ∨ (split path ',').length = L)) := fun h => h2 h.2.1
      rw [assert_false_bind _ (by simpa using h2), if_neg hc]
  · have hc : ¬ (name ≠ [] ∧ path ≠ [] ∧
        ((split path ',').length = 1 ∨ (split path ',').length = L)) := fun h => h1 h.1
    rw [assert_false_bind _ (by simpa using h1), if_neg hc]

theorem Config.new_ok {name path : List Char} {L ts th mem par : Nat} {ow : Bool}
    {config : Config} (h : Config.new name path L ts th mem par ow = .ok config) :
    name ≠ [] ∧ path ≠ [] ∧ ((split path ',').length = 1 ∨ (split path ',').length = L) ∧
    config =
      { levels := Config.levelsLoop name ts th ow
          ((if (split path ',').length = 1 then
              List.replicate L ((split path ',').headD [])
            else split path ',').take L) 0 th
        name := name
        path := path
        memtable_size := mem
        parallelism := par } := by
  rw [Config.new_eq] at h
  by_cases hc : name ≠ [] ∧ path ≠ [] ∧
      ((split path ',').length = 1 ∨ (split path ',').length = L)
  · rw [if_pos hc] at h
    cases h
    exact ⟨hc.1, hc.2.1, hc.2.2, rfl⟩
  · rw [if_neg hc] at h
    cases h

/-- The directories of the levels: one directory serves every level, `L` directories
serve one level each. -/
theorem Config.levelDirs (path : List Char) (L : Nat)
    (h : (split path ',').length = 1 ∨ (split path ',').length = L) :
    (if (split path ',').length = 1 then List.replicate L ((split path ',').headD [])
      else split path ',').take L
      = if (split path ',').length = 1 then List.replicate L ((split path ',').headD [])
        else split path ',' := by
  by_cases h1 : (split path ',').length = 1
  · simp only [if_pos h1]
    exact List.take_of_length_le (by simp)
  · simp only [if_neg h1]
    rcases h with h | h
    · exact absurd h h1
    · exact List.take_of_length_le (by omega)

theorem Config.new_levels_length {name path : List Char} {L ts th mem par : Nat} {ow : Bool}
    {config : Config} (h : Config.new name path L ts th mem par ow = .ok config) :
    config.levels.length = L := by
  obtain ⟨_, _, h3, rfl⟩ := Config.new_ok h
  simp only [Config.levelsLoop_length, Config.levelDirs path L h3]
  by_cases h1 : (split path ',').length = 1
  · rw [if_pos h1, List.length_replicate]
  · rcases h3 with h3 | h3
    · exact absurd h3 h1
    · rw [if_neg h1, h3]

/-- C23: in the configuration that the `Config` constructor builds from the base
threshold `t`, level `i < L` has the threshold `t * t^i = t^(i+1)` as a 32-bit value,
and `needs_merging()` on a level with that configuration is true exactly when the
level holds more tables than that. -/
theorem level_thresholds (name path : List Char) (L ts t mem par : Nat) (ow : Bool)
    (config : Config) (h : Config.new name path L ts t mem par ow = .ok config) :
    ∀ i, i < L → ∃ lc, config.levels[i]? = some lc ∧ lc.level = i ∧
      lc.threshold = t * t ^ i % U32 ∧ t * t ^ i = t ^ (i + 1) ∧
      ∀ l : Level, l.m_config = lc →
        (l.needs_merging = true ↔ l.m_tables.length > t * t ^ i % U32) := by
  intro i hi
  have hlen := Config.new_levels_length h
  obtain ⟨_, _, h3, rfl⟩ := Config.new_ok h
  simp only [Config.levelsLoop_length] at hlen
  simp only [Config.levelsLoop_getElem?]
  obtain ⟨d, hd⟩ := exists_getElem? _ i (hlen ▸ hi)
  refine ⟨_, by rw [hd]; rfl, by simp [LevelConfig.new], rfl, by rw [pow_succ, Nat.mul_comm], ?_⟩
  intro l hl
  simp [Level.needs_merging, hl, LevelConfig.new]

/-- Witness of C23: `Config("db", "/l0,/l1,/l2", 3, 32, 2, 100, 1, false)` gives level 2
the threshold `2 * 2^2 = 8`. -/
theorem level_thresholds_witness :
    Config.new ['d', 'b'] ['/', 'l', '0', ',', '/', 'l', '1', ',', '/', 'l', '2'] 3 32 2 100 1
      false = .ok geometricConfig ∧
    ∃ lc, geometricConfig.levels[2]? = some lc ∧ lc.level = 2 ∧ lc.threshold = 8 ∧
      ∀ l : Level, l.m_config = lc → (l.needs_merging = true ↔ l.m_tables.length > 8) :=
  ⟨by decide,
   (level_thresholds ['d', 'b'] ['/', 'l', '0', ',', '/', 'l', '1', ',', '/', 'l', '2'] 3 32 2
      100 1 false geometricConfig (by decide) 2 (by decide)).imp
     (fun _ h => ⟨h.1, h.2.1, h.2.2.1, h.2.2.2.2⟩)⟩

/-! ## Opening a store -/

theorem KVStore.new_value (config : Config) :
    KVStore.new config =
      if 1 < config.levels.length then
        .ok { m_config := config
              m_tree :=
                { m_config := config
                  m_level0 := Level.new (config.levels.headD (LevelConfig.new [] [] 0 0 0 false))
                  m_levels := config.levels.tail.map Level.new
                  m_terminate_merge := false }
              m_memtable := MemTable.new
              m_destroyed := false }
      else .error .assertion := by
  unfold KVStore.new LSMTree.new
  by_cases h : 1 < config.levels.length
  · rw [if_pos h, assert_true_bind _ (by simpa using h)]
    cases hl : config.levels with
    | nil => rw [hl] at h; simp at h
    | cons c cs => rfl
  · rw [if_neg h, assert_false_bind _ (by simpa using h)]
    rfl

theorem KVStore.load_config (config : Config) (dirs : List (List Bytes)) :
    (config.levels.length ≤ 1 → KVStore.load config dirs = .error .assertion) ∧
    ∀ s, KVStore.load config dirs = .ok s → s.m_config = config := by
  constructor
  · intro h
    unfold KVStore.load LSMTree.load
    rw [assert_false_bind _ (by simp; omega)]
    rfl
  · intro s hs
    unfold KVStore.load at hs
    cases h1 : LSMTree.load config dirs with
    | error e => simp only [h1, bind, Except.bind] at hs; cases hs
    | ok t =>
      simp only [h1, bind, Except.bind, pure, Except.pure] at hs
      cases hs
      rfl

theorem split_nil (c : Char) : split [] c = [] := rfl

/-- C24: a store is opened by the `Config` constructor followed by the `KVStore`
constructor (over empty level directories, or over directories that hold the files
`dirs`). When this succeeds, `num_levels >= 2`, the path splits on `,` into exactly one
or exactly `num_levels` directories, and the levels use that one directory, or the
`i`-th directory for level `i`. When `num_levels < 2` or the path splits into another
number of directories it fails an assertion. With a non-empty name, `num_levels >= 2`
and one or `num_levels` directories it succeeds over empty directories. -/
theorem open_store_requirements (name path : List Char) (L ts th mem par : Nat) (ow : Bool) :
    (∀ (dirs : List (List Bytes)) (s : KVStore),
      ((Config.new name path L ts th mem par ow >>= KVStore.new) = .ok s ∨
        (Config.new name path L ts th mem par ow >>= fun c => KVStore.load c dirs) = .ok s) →
      2 ≤ L ∧ ((split path ',').length = 1 ∨ (split path ',').length = L) ∧
      s.m_config.levels.map LevelConfig.path =
        if (split path ',').length = 1 then List.replicate L ((split path ',').headD [])
        else split path ',') ∧
    (¬ (2 ≤ L ∧ ((split path ',').length = 1 ∨ (split path ',').length = L)) →
      (Config.new name path L ts th mem par ow >>= KVStore.new) = .error .assertion ∧
      ∀ dirs : List (List Bytes),
        (Config.new name path L ts th mem par ow >>= fun c => KVStore.load c dirs)
          = .error .assertion) ∧
    (name ≠ [] → 2 ≤ L → ((split path ',').length = 1 ∨ (split path ',').length = L) →
      ∃ s, (Config.new name path L ts th mem par ow >>= KVStore.new) = .ok s) := by
  refine ⟨?_, ?_, ?_⟩
  · intro dirs s hs
    cases hc : Config.new name path L ts th mem par ow with
    | error e =>
      rw [hc] at hs
      rcases hs with hs | hs <;> cases hs
    | ok config =>
      rw [hc] at hs
      have hlen := Config.new_levels_length hc
      obtain ⟨_, _, h3, hcfg⟩ := Config.new_ok hc
      have hs' : 1 < config.levels.length ∧ s.m_config = config := by
        rcases hs with hs | hs
        · have hs1 : KVStore.new config = .ok s := hs
          rw [KVStore.new_value] at hs1
          by_cases h1 : 1 < config.levels.length
          · rw [if_pos h1] at hs1
            cases hs1
            exact ⟨h1, rfl⟩
          · rw [if_neg h1] at hs1
            cases hs1
        · have hs1 : KVStore.load config dirs = .ok s := hs
          have hl := KVStore.load_config config dirs
          refine ⟨?_, hl.2 s hs1⟩
          by_contra hn
          rw [hl.1 (by omega)] at hs1
          cases hs1
      refine ⟨by omega, h3, ?_⟩
      rw [hs'.2, hcfg]
      simp only [Config.levelsLoop_paths, Config.levelDirs path L h3]
  · intro hn
    have key : ∀ config, Config.new name path L ts th mem par ow = .ok config →
        config.levels.length ≤ 1 := by
      intro config hc
      have hlen := Config.new_levels_length hc
      obtain ⟨_, _, h3, _⟩ := Config.new_ok hc
      by_contra h
      exact hn ⟨by omega, h3⟩
    have herr : ∀ e, Config.new name path L ts th mem par ow = .error e → e = .assertion := by
      intro e he
      rw [Config.new_eq] at he
      split at he
      · cases he
      · cases he
        rfl
    cases hc : Config.new name path L ts th mem par ow with
    | error e =>
      rw [herr e hc]
      exact ⟨rfl, fun _ => rfl⟩
    | ok config =>
      have hle := key config hc
      refine ⟨?_, fun dirs => ?_⟩
      · show KVStore.new config = _
        rw [KVStore.new_value, if_neg (by omega)]
      · exact (KVStore.load_config config dirs).1 hle
  · intro hname hL hsplit
    have hpath : path ≠ [] := by
      intro hp
      rw [hp, split_nil] at hsplit
      simp only [List.length_nil] at hsplit
      omega
    have hc := Config.new_eq name path L ts th mem par ow
    rw [if_pos ⟨hname, hpath, hsplit⟩] at hc
    have hlen := Config.new_levels_length hc
    rw [hc]
    show ∃ s, KVStore.new _ = .ok s
    rw [KVStore.new_value, if_pos (by rw [hlen]; omega)]
    exact ⟨_, rfl⟩

/-- Witness of C24: `Config("db", "/l0,/l1,/l2", 3, ...)` opens a store, and with the
path `/l0,/l1` (two directories for three levels) the constructor fails an assertion. -/
theorem open_store_requirements_witness :
    (∃ s, (Config.new ['d', 'b'] ['/', 'l', '0', ',', '/', 'l', '1', ',', '/', 'l', '2'] 3 32 2
      100 1 false >>= KVStore.new) = .ok s) ∧
    split ['/', 'l', '0', ',', '/', 'l', '1'] ',' = [['/', 'l', '0'], ['/', 'l', '1']] ∧
    (Config.new ['d', 'b'] ['/', 'l', '0', ',', '/', 'l', '1'] 3 32 2 100 1 false
      >>= KVStore.new) = .error .assertion :=
  ⟨(open_store_requirements ['d', 'b'] ['/', 'l', '0', ',', '/', 'l', '1', ',', '/', 'l', '2']
      3 32 2 100 1 false).2.2 (by decide) (by decide) (by decide),
   by decide,
   ((open_store_requirements ['d', 'b'] ['/', 'l', '0', ',', '/', 'l', '1'] 3 32 2 100 1
      false).2.1 (by decide)).1⟩

/-! ## Paths -/

theorem ends_with_slash_snoc (x : List Char) (c : Char) :
    ends_with_slash (x ++ [c]) = decide (c = '/') := by
  simp [ends_with_slash]

theorem ends_with_slash_append (x y : List Char) (hy : y ≠ []) :
    ends_with_slash (x ++ y) = ends_with_slash y := by
  obtain ⟨z, c, rfl⟩ : ∃ z c, y = z ++ [c] :=
    ⟨y.dropLast, y.getLast hy, (List.dropLast_append_getLast hy).symm⟩
  rw [← List.append_assoc, ends_with_slash_snoc, ends_with_slash_snoc]

theorem ends_with_slash_eq (x : List Char) (h : ends_with_slash x = true) :
    x = x.dropLast ++ ['/'] := by
  by_cases hx : x = []
  · subst hx
    simp [ends_with_slash] at h
  · have e := (List.dropLast_append_getLast hx).symm
    rw [e, ends_with_slash_snoc] at h
    have : x.getLast hx = '/' := by simpa using h
    rw [this] at e
    exact e

/-- The helper `path_append` puts exactly one `/` between `p1` without its trailing
`/` and `p2`. -/
theorem path_append_eq (p1 p2 : List Char) :
    path_append p1 p2 = dropSlash p1 ++ ['/'] ++ p2 := by
  unfold path_append dropSlash
  by_cases h : ends_with_slash p1 = true
  · rw [if_pos h, if_pos h, ← ends_with_slash_eq p1 h]
  · rw [if_neg h, if_neg h]

theorem dropSlash_append (x y : List Char) (hy : y ≠ []) :
    dropSlash (x ++ y) = x ++ dropSlash y := by
  unfold dropSlash
  rw [ends_with_slash_append x y hy]
  by_cases h : ends_with_slash y = true
  · rw [if_pos h, if_pos h, List.dropLast_append_of_ne_nil _ hy]
  · rw [if_neg h, if_neg h]

theorem toDigitsCore_suffix (fuel : Nat) :
    ∀ (n : Nat) (ds : List Char), ∃ pre, Nat.toDigitsCore 10 fuel n ds = pre ++ ds := by
  induction fuel with
  | zero => intro n ds; exact ⟨[], rfl⟩
  | succ fuel ih =>
    intro n ds
    simp only [Nat.toDigitsCore]
    by_cases h : n / 10 = 0
    · rw [if_pos h]
      exact ⟨[Nat.digitChar (n % 10)], rfl⟩
    · rw [if_neg h]
      obtain ⟨pre, hpre⟩ := ih (n / 10) (Nat.digitChar (n % 10) :: ds)
      exact ⟨pre ++ [Nat.digitChar (n % 10)], by rw [hpre]; simp⟩

theorem digitChar_ne_slash (k : Nat) (hk : k < 10) : Nat.digitChar k ≠ '/' := by
  interval_cases k <;> decide

/-- The decimal form of a number ends in a digit. -/
theorem to_string_last (n : Nat) : ∃ pre c, to_string n = pre ++ [c] ∧ c ≠ '/' := by
  unfold to_string Nat.toDigits
  simp only [Nat.toDigitsCore]
  by_cases h : n / 10 = 0
  · rw [if_pos h]
    exact ⟨[], _, rfl, digitChar_ne_slash _ (Nat.mod_lt _ (by decide))⟩
  · rw [if_neg h]
    obtain ⟨pre, hpre⟩ := toDigitsCore_suffix n (n / 10) [Nat.digitChar (n % 10)]
    exact ⟨pre, _, hpre, digitChar_ne_slash _ (Nat.mod_lt _ (by decide))⟩

theorem dropSlash_shard_name (name : List Char) (s : Nat) :
    name ++ ['_'] ++ to_string s ≠ [] ∧
    dropSlash (name ++ ['_'] ++ to_string s) = name ++ ['_'] ++ to_string s := by
  obtain ⟨pre, c, hpre, hc⟩ := to_string_last s
  constructor
  · simp
  · unfold dropSlash
    rw [hpre, ← List.append_assoc, ends_with_slash_snoc]
    simp [hc]

theorem LevelConfig.path_level_eq (p d : List Char) (i ts th : Nat) (ow : Bool) (hd : d ≠ []) :
    (LevelConfig.new p d i ts th ow).path_level
      = dropSlash p ++ ['/'] ++ dropSlash d ++ ['/'] ++ to_string i := by
  show path_append (path_append p d) (to_string i) = _
  rw [path_append_eq, path_append_eq, dropSlash_append _ _ hd]

theorem Config.create_partition_levels (name new_name : List Char) (ts th : Nat) (ow : Bool) :
    ∀ (dirs : List (List Char)) (i t : Nat),
      (Config.levelsLoop name ts th ow dirs i t).map (fun level =>
          { level with
            path_db := path_append level.path new_name
            path_level := path_append (path_append level.path new_name)
              (to_string level.level) })
        = Config.levelsLoop new_name ts th ow dirs i t := by
  intro dirs
  induction dirs with
  | nil => intro i t; rfl
  | cons d ds ih =>
    intro i t
    simp only [Config.levelsLoop, List.map_cons, ih]
    rfl

theorem Config.levelsLoop_enum (name : List Char) (ts th : Nat) (ow : Bool) :
    ∀ (dirs : List (List Char)) (i t : Nat),
      ∀ x ∈ (Config.levelsLoop name ts th ow dirs i t).enumFrom i, x.2.level = x.1 := by
  intro dirs
  induction dirs with
  | nil => intro i t x hx; simp [Config.levelsLoop] at hx
  | cons d ds ih =>
    intro i t x hx
    simp only [Config.levelsLoop, List.enumFrom_cons, List.mem_cons] at hx
    rcases hx with rfl | hx
    · rfl
    · exact ih (i + 1) _ x hx

theorem Config.create_partition_eq (name path : List Char) (L ts th mem par : Nat) (ow : Bool)
    (s : Nat) (config : Config) (h : Config.new name path L ts th mem par ow = .ok config) :
    Config.new (name ++ ['_'] ++ to_string s) path L ts th mem par ow
      = .ok (Config.create_partition config s) := by
  obtain ⟨_, h2, h3, rfl⟩ := Config.new_ok h
  rw [Config.new_eq, if_pos ⟨(dropSlash_shard_name name s).1, h2, h3⟩]
  congr 1
  simp only [Config.create_partition]
  congr 1
  rw [← Config.create_partition_levels name (name ++ ['_'] ++ to_string s)]
  have hen := Config.levelsLoop_enum name ts th ow
    ((if (split path ',').length = 1 then List.replicate L ((split path ',').headD [])
      else split path ',').take L) 0 th
  generalize Config.levelsLoop name ts th ow _ 0 th = ls at hen ⊢
  have h1 : ls.map (fun level =>
      ({ level with
        path_db := path_append level.path (name ++ ['_'] ++ to_string s)
        path_level := path_append (path_append level.path (name ++ ['_'] ++ to_string s))
          (to_string level.level) } : LevelConfig))
      = (ls.enum.map Prod.snd).map (fun level =>
      ({ level with
        path_db := path_append level.path (name ++ ['_'] ++ to_string s)
        path_level := path_append (path_append level.path (name ++ ['_'] ++ to_string s))
          (to_string level.level) } : LevelConfig)) := by
    rw [List.enum_map_snd]
  rw [h1, List.map_map]
  apply List.map_congr_left
  intro x hx
  have := hen x hx
  obtain ⟨i, level⟩ := x
  simp only at this
  simp only [Function.comp, this]

/-- C29 (amended): for a database name `d` (not empty) the level directory that
`LevelConfig` computes from the path `p` and the level index `i` is `p'/d'/i`, where
`p'` is `p` without its last character if that is a `/` and `d'` likewise: one `/` is
put after `p'` and after `d'`, so the components are separated by exactly one `/` when
`p` ends in at most one `/`, and a path that ends in more keeps all but one of them. For
a configuration built by the `Config` constructor, the configuration of shard `s` is the
one that the constructor builds for the database name `d_s` from the same arguments:
its name is `d_s`, level `i` has the directory `p'/d_s/i`, and the directories, level
indices, table sizes, thresholds, overwrite flags, memtable size and parallelism are
those of the original configuration. -/
theorem level_directory_layout (name path : List Char) (L ts th mem par : Nat) (ow : Bool)
    (s : Nat) (config : Config) (h : Config.new name path L ts th mem par ow = .ok config) :
    (∀ (p d : List Char) (i ts th : Nat) (ow : Bool), d ≠ [] →
      (LevelConfig.new p d i ts th ow).path_level
        = dropSlash p ++ ['/'] ++ dropSlash d ++ ['/'] ++ to_string i) ∧
    Config.new (name ++ ['_'] ++ to_string s) path L ts th mem par ow
      = .ok (Config.create_partition config s) ∧
    (Config.create_partition config s).name = name ++ ['_'] ++ to_string s ∧
    (Config.create_partition config s).path = config.path ∧
    (Config.create_partition config s).memtable_size = config.memtable_size ∧
    (Config.create_partition config s).parallelism = config.parallelism ∧
    (Config.create_partition config s).levels.map
        (fun l => (l.path, l.level, l.table_size, l.threshold, l.overwrite))
      = config.levels.map (fun l => (l.path, l.level, l.table_size, l.threshold, l.overwrite)) ∧
    ∀ i lc, (Config.create_partition config s).levels[i]? = some lc →
      lc.level = i ∧
      lc.path_level
        = dropSlash lc.path ++ ['/'] ++ (name ++ ['_'] ++ to_string s) ++ ['/'] ++ to_string i := by
  have hs := Config.create_partition_eq name path L ts th mem par ow s config h
  obtain ⟨hname, _, _, hcfg⟩ := Config.new_ok h
  refine ⟨fun p d i ts th ow hd => LevelConfig.path_level_eq p d i ts th ow hd, hs, ?_, ?_, ?_,
    ?_, ?_, ?_⟩
  · rw [hcfg]; rfl
  · rfl
  · rfl
  · rfl
  · simp only [Config.create_partition, List.map_map]
    have : config.levels.map
        (fun l => (l.path, l.level, l.table_size, l.threshold, l.overwrite))
        = (config.levels.enum.map Prod.snd).map
          (fun l => (l.path, l.level, l.table_size, l.threshold, l.overwrite)) := by
      rw [List.enum_map_snd]
    rw [this, List.map_map]
    apply List.map_congr_left
    intro x _
    rfl
  · intro i lc hlc
    obtain ⟨_, _, _, hcfg2⟩ := Config.new_ok hs
    rw [hcfg2] at hlc
    simp only [Config.levelsLoop_getElem?] at hlc
    cases hd : ((if (split path ',').length = 1 then
        List.replicate L ((split path ',').headD []) else split path ',').take L)[i]? with
    | none => rw [hd] at hlc; cases hlc
    | some d =>
      rw [hd] at hlc
      simp only [Option.map_some', Option.some.injEq] at hlc
      subst hlc
      refine ⟨by simp [LevelConfig.new], ?_⟩
      rw [Nat.zero_add, LevelConfig.path_level_eq _ _ _ _ _ _ (dropSlash_shard_name name s).1,
        (dropSlash_shard_name name s).2]
      rfl

/-- Witness of C29 (amended): for `Config("db", "/tmp", 3, 32, 1, 100, 1, false)` level 2
of shard 7 has the directory `/tmp/db_7/2`, and the path `/tmp/` gives the same
directory. -/
theorem level_directory_layout_witness :
    Config.new ['d', 'b'] ['/', 't', 'm', 'p'] 3 32 1 100 1 false = .ok durableConfig ∧
    (LevelConfig.new ['/', 't', 'm', 'p'] ['d', 'b'] 2 32 1 false).path_level
      = ['/', 't', 'm', 'p', '/', 'd', 'b', '/', '2'] ∧
    (LevelConfig.new ['/', 't', 'm', 'p', '/'] ['d', 'b'] 2 32 1 false).path_level
      = ['/', 't', 'm', 'p', '/', 'd', 'b', '/', '2'] ∧
    ((Config.create_partition durableConfig 7).levels.map LevelConfig.path_level)[2]?
      = some ['/', 't', 'm', 'p', '/', 'd', 'b', '_', '7', '/', '2'] ∧
    Config.new (['d', 'b'] ++ ['_'] ++ to_string 7) ['/', 't', 'm', 'p'] 3 32 1 100 1 false
      = .ok (Config.create_partition durableConfig 7) :=
  ⟨by decide, by decide, by decide, by decide,
   (level_directory_layout ['d', 'b'] ['/', 't', 'm', 'p'] 3 32 1 100 1 false 7 durableConfig
      (by decide)).2.1⟩

/-- C29 (the claim fails by design): `path_append` looks at the last character of its
first argument only. For the level path `/tmp//`, the database name `db` and the level
index 0 the level directory is `/tmp//db/0`, with two `/` between `tmp` and `db`; the
configuration that the constructor builds for `Config("db", "/tmp//", 2, 32, 1, 100, 1,
false)` holds this directory for Level 0, and shard 7 of it holds `/tmp//db_7/0`. -/
theorem level_directory_double_slash :
    (LevelConfig.new ['/', 't', 'm', 'p', '/', '/'] ['d', 'b'] 0 32 1 false).path_level
      = ['/', 't', 'm', 'p', '/', '/', 'd', 'b', '/', '0'] ∧
    (Config.new ['d', 'b'] ['/', 't', 'm', 'p', '/', '/'] 2 32 1 100 1 false).map
        (fun config => (config.levels.map LevelConfig.path_level,
          (Config.create_partition config 7).levels.map LevelConfig.path_level))
      = .ok ([['/', 't', 'm', 'p', '/', '/', 'd', 'b', '/', '0'],
              ['/', 't', 'm', 'p', '/', '/', 'd', 'b', '/', '1']],
             [['/', 't', 'm', 'p', '/', '/', 'd', 'b', '_', '7', '/', '0'],
              ['/', 't', 'm', 'p', '/', '/', 'd', 'b', '_', '7', '/', '1']]) := by
  decide

/-! ## The frame of appendFront and appendBack -/

/-- The bytes of a mapping after `memcpy(mem + pos, bs, |bs|)`. -/
theorem writeAt_getElem? (mem : Bytes) (pos : Nat) (bs : Bytes)
    (h : pos + bs.length ≤ mem.length) (i : Nat) :
    (writeAt mem pos bs)[i]? =
      if i < pos then mem[i]? else if i < pos + bs.length then bs[i - pos]? else mem[i]? := by
  have hl : (mem.take pos).length = pos := by simp; omega
  unfold writeAt
  by_cases h1 : i < pos
  · rw [if_pos h1, List.append_assoc, List.getElem?_append_left (by omega),
      List.getElem?_take_of_lt h1]
  · rw [if_neg h1]
    by_cases h2 : i < pos + bs.length
    · rw [if_pos h2, List.getElem?_append_left (by simp; omega),
        List.getElem?_append_right (by omega), hl]
    · rw [if_neg h2, List.getElem?_append_right (by simp; omega), List.getElem?_drop]
      congr 1
      simp
      omega

/-- C27: on a mapping in a state that the constructors and the two append members
produce, with `head_index = h`, `tail_index = t` (32-bit values) and a byte string `b`
with `|b| <= free()`, where `free() = t - h + 1` in 32-bit arithmetic:
`appendFront(b)` returns, writes `b` at the offsets `[h, h + |b|)`, sets `head_index`
to `h + |b|` and leaves `tail_index`, the size and every other byte as they were;
`appendBack(b)` returns, writes `b` at the offsets `[t - |b| + 1, t]`, sets
`tail_index` to `t - |b|` (the 32-bit value of `-1` when `|b| = t + 1`) and leaves
`head_index`, the size and every other byte as they were. -/
theorem append_frame (m : AppendableMMap) (b : Bytes) (hwf : m.WF)
    (ht : m.m_tail_index < U32) (hb : b.length ≤ m.free) :
    m.free + m.m_head_index = (m.m_tail_index + 1) % U32 ∧
    (∃ m1, m.appendFront b = .ok m1 ∧
      m1.m_head_index = m.m_head_index + b.length ∧
      m1.m_tail_index = m.m_tail_index ∧ m1.m_size = m.m_size ∧
      m1.m_buffer.length = m.m_buffer.length ∧
      (∀ i, i < b.length → m1.m_buffer[m.m_head_index + i]? = b[i]?) ∧
      (∀ i, i < m.m_head_index ∨ m.m_head_index + b.length ≤ i →
        m1.m_buffer[i]? = m.m_buffer[i]?)) ∧
    (∃ m2, m.appendBack b = .ok m2 ∧
      m2.m_head_index = m.m_head_index ∧
      (b.length ≤ m.m_tail_index → m2.m_tail_index = m.m_tail_index - b.length) ∧
      (b.length = m.m_tail_index + 1 → m2.m_tail_index = U32 - 1) ∧
      (m2.m_tail_index + 1) % U32 + b.length = (m.m_tail_index + 1) % U32 ∧
      m2.m_size = m.m_size ∧ m2.m_buffer.length = m.m_buffer.length ∧
      (∀ i, i < b.length → m2.m_buffer[m.m_tail_index + 1 - b.length + i]? = b[i]?) ∧
      (∀ i, i + b.length ≤ m.m_tail_index ∨ m.m_tail_index < i →
        m2.m_buffer[i]? = m.m_buffer[i]?)) := by
  have hwf' := hwf
  obtain ⟨h1, h2, h3⟩ := hwf'
  have hfdef : m.free = (m.m_tail_index + 4294967296 - m.m_head_index + 1) % 4294967296 := rfl
  have ht' : m.m_tail_index < 4294967296 := ht
  have h2' : m.m_size < 4294967296 := h2
  have hfree : m.free + m.m_head_index = (m.m_tail_index + 1) % U32 := by
    show m.free + m.m_head_index = (m.m_tail_index + 1) % 4294967296
    omega
  refine ⟨hfree, ?_, ?_⟩
  · refine ⟨m.pushFront b, ?_, rfl, rfl, rfl, ?_, ?_, ?_⟩
    · rw [AppendableMMap.appendFront_eq m b hwf, if_pos hb]
    · exact writeAt_length _ _ _ (by omega)
    · intro i hi
      show (writeAt m.m_buffer m.m_head_index b)[m.m_head_index + i]? = _
      rw [writeAt_getElem? _ _ _ (by omega), if_neg (by omega), if_pos (by omega)]
      congr 1
      omega
    · intro i hi
      show (writeAt m.m_buffer m.m_head_index b)[i]? = _
      rw [writeAt_getElem? _ _ _ (by omega)]
      rcases hi with hi | hi
      · rw [if_pos hi]
      · rw [if_neg (by omega), if_neg (by omega)]
  · have hcase : (m.m_tail_index + 1 - b.length + b.length ≤ m.m_buffer.length ∧
        b.length ≤ m.m_tail_index + 1) ∨ b = [] := by
      by_cases hw : m.m_tail_index + 1 < 4294967296
      · exact Or.inl ⟨by omega, by omega⟩
      · exact Or.inr (List.length_eq_zero.mp (by omega))
    have hbuf : (writeAt m.m_buffer (m.m_tail_index + 1 - b.length) b).length
          = m.m_buffer.length ∧
        ∀ i, (writeAt m.m_buffer (m.m_tail_index + 1 - b.length) b)[i]? =
          if i < m.m_tail_index + 1 - b.length then m.m_buffer[i]?
          else if i < m.m_tail_index + 1 - b.length + b.length then
            b[i - (m.m_tail_index + 1 - b.length)]?
          else m.m_buffer[i]? := by
      rcases hcase with ⟨hpos, _⟩ | hnil
      · exact ⟨writeAt_length _ _ _ hpos, writeAt_getElem? _ _ _ hpos⟩
      · subst hnil
        have hw : writeAt m.m_buffer (m.m_tail_index + 1 - ([] : Bytes).length) []
            = m.m_buffer := by
          simp [writeAt]
        rw [hw]
        refine ⟨rfl, fun i => ?_⟩
        by_cases hc : i < m.m_tail_index + 1 - ([] : Bytes).length
        · rw [if_pos hc]
        · rw [if_neg hc, if_neg (by simp only [List.length_nil] at hc ⊢; omega)]
    have hlen0 : b = [] → b.length = 0 := fun hnil => by rw [hnil]; rfl
    refine ⟨m.pushBack b, ?_, rfl, ?_, ?_, ?_, rfl, hbuf.1, ?_, ?_⟩
    · rw [AppendableMMap.appendBack_eq m b, if_pos hb]
    · intro hle
      show (m.m_tail_index + 4294967296 - b.length) % 4294967296 = _
      omega
    · intro heq
      show (m.m_tail_index + 4294967296 - b.length) % 4294967296 = 4294967296 - 1
      omega
    · show ((m.m_tail_index + 4294967296 - b.length) % 4294967296 + 1) % 4294967296 + b.length
        = (m.m_tail_index + 1) % 4294967296
      rcases hcase with ⟨_, hle⟩ | hnil
      · omega
      · have := hlen0 hnil
        omega
    · intro i hi
      show (writeAt m.m_buffer (m.m_tail_index + 1 - b.length) b)[_]? = _
      have hle : b.length ≤ m.m_tail_index + 1 := by
        rcases hcase with ⟨_, hle⟩ | hnil
        · exact hle
        · have := hlen0 hnil
          omega
      rw [hbuf.2, if_neg (by omega), if_pos (by omega)]
      congr 1
      omega
    · intro i hi
      show (writeAt m.m_buffer (m.m_tail_index + 1 - b.length) b)[i]? = _
      rw [hbuf.2]
      by_cases hc : i < m.m_tail_index + 1 - b.length
      · rw [if_pos hc]
      · rw [if_neg hc]
        by_cases hc2 : i < m.m_tail_index + 1 - b.length + b.length
        · have : b.length = 0 := by
            rcases hcase with ⟨_, hle⟩ | hnil
            · omega
            · exact hlen0 hnil
          omega
        · rw [if_neg hc2]

/-- Witness of C27: a fresh mapping of 8 bytes takes two bytes at the front and two
at the back; the head moves from 0 to 2, the tail from 7 to 5. -/
theorem append_frame_witness :
    (AppendableMMap.create 8).WF ∧ (AppendableMMap.create 8).m_tail_index = 7 ∧
    (AppendableMMap.create 8).free = 8 ∧
    (∃ m1, (AppendableMMap.create 8).appendFront [1, 2] = .ok m1 ∧ m1.m_head_index = 2 ∧
      m1.m_tail_index = 7) ∧
    (∃ m2, (AppendableMMap.create 8).appendBack [1, 2] = .ok m2 ∧ m2.m_head_index = 0 ∧
      m2.m_tail_index = 5) ∧
    (AppendableMMap.create 8).appendBack [1, 2]
      = .ok { m_buffer := [0, 0, 0, 0, 0, 0, 1, 2], m_head_index := 0, m_tail_index := 5,
              m_size := 8 } :=
  ⟨AppendableMMap.create_WF 8 (by decide), by decide, by decide,
   (append_frame (AppendableMMap.create 8) [1, 2] (AppendableMMap.create_WF 8 (by decide))
      (by decide) (by decide)).2.1.imp (fun _ h => ⟨h.1, h.2.1, h.2.2.1⟩),
   (append_frame (AppendableMMap.create 8) [1, 2] (AppendableMMap.create_WF 8 (by decide))
      (by decide) (by decide)).2.2.imp
      (fun _ h => ⟨h.1, h.2.1, h.2.2.1 (by decide)⟩),
   by decide⟩

/-! ## The key range of a table -/

/-- C28: the constructor `Table(mmap)` over a mapping that holds a finalized table with
the records `rs` (at least one) returns a table whose `min_key()` is the key of
record 0 and whose `max_key()` is the key of the last record; when the records ascend
strictly, every key `k` of the table satisfies `min_key() <= k` and `k <= max_key()`. -/
theorem table_key_range (m : AppendableMMap) (rs : List KeyValue) (h : m.HoldsTable rs) :
    ∃ t first last, Table.ofMMap m = .ok t ∧ t.size = rs.length ∧ 1 ≤ rs.length ∧
      rs[0]? = some first ∧ rs[rs.length - 1]? = some last ∧
      t.min_key = first.key ∧ t.max_key = last.key ∧
      (Ascending rs → ∀ r ∈ rs, t.min_key.le r.key = true ∧ r.key.le t.max_key = true) := by
  have hne := h.1
  have hpos : 0 < rs.length := List.length_pos.mpr hne
  obtain ⟨first, hfirst⟩ := exists_getElem? rs 0 hpos
  obtain ⟨last, hlast⟩ := exists_getElem? rs (rs.length - 1) (by omega)
  have hhead : rs.head? = some first := by
    rw [← hfirst]; cases rs <;> simp
  have hgl : rs.getLast? = some last := by
    rw [getLast?_eq_getElem?, hlast]
  refine ⟨Table.ofRecords m rs, first, last, Table.ofMMap_eq h, rfl, hpos, hfirst, hlast, ?_, ?_,
    ?_⟩
  · simp [Table.min_key, Table.ofRecords, hhead]
  · simp [Table.max_key, Table.ofRecords, hgl]
  · intro hasc r hr
    obtain ⟨i, hi, hri⟩ := List.getElem_of_mem hr
    have hri' : rs[i]? = some r := by rw [List.getElem?_eq_getElem hi, hri]
    have hmin : (Table.ofRecords m rs).min_key = first.key := by
      simp [Table.min_key, Table.ofRecords, hhead]
    have hmax : (Table.ofRecords m rs).max_key = last.key := by
      simp [Table.max_key, Table.ofRecords, hgl]
    rw [hmin, hmax]
    simp only [Buffer.le, decide_eq_true_eq]
    constructor
    · by_cases hi0 : i = 0
      · subst hi0
        rw [hfirst] at hri'
        cases hri'
        rw [Buffer.compare_self]
      · have := hasc.getElem_lt hfirst hri' (by omega)
        omega
    · by_cases hil : i = rs.length - 1
      · subst hil
        rw [hlast] at hri'
        cases hri'
        rw [Buffer.compare_self]
      · have := hasc.getElem_lt hri' hlast (by omega)
        omega

/-- Witness of C28: the table that a builder of table size 32 makes of `a -> x`,
`b -> y` has the key range `[a, b]`. -/
theorem table_key_range_witness :
    (finalMap 32 [recA, recB]).HoldsTable [recA, recB] ∧
    ∃ t first last, Table.ofMMap (finalMap 32 [recA, recB]) = .ok t ∧
      [recA, recB][0]? = some first ∧ [recA, recB][1]? = some last ∧
      t.min_key = keyA ∧ t.max_key = keyB :=
  ⟨finalMap_holdsTable 32 _ (by decide) (by simp) (by decide),
   by
    obtain ⟨t, first, last, h1, _, _, h4, h5, h6, h7, _⟩ :=
      table_key_range (finalMap 32 [recA, recB]) [recA, recB]
        (finalMap_holdsTable 32 _ (by decide) (by simp) (by decide))
    have e1 : first = recA := by
      simp only [List.getElem?_cons_zero, Option.some.injEq] at h4
      exact h4.symm
    have e2 : last = recB := by
      simp only [List.length_cons, List.length_nil] at h5
      simp at h5
      exact h5.symm
    subst e1 e2
    exact ⟨t, recA, recB, h1, rfl, rfl, h6, h7⟩⟩

/-! ## The merger pass -/

theorem Except.bind_eq_ok {α β : Type} {x : Except Err α} {f : α → Except Err β} {b : β}
    (h : (x >>= f) = .ok b) : ∃ a, x = .ok a ∧ f a = .ok b := by
  cases x with
  | error e => cases h
  | ok a => exact ⟨a, rfl, h⟩

theorem LevelN.merge_with_levelN_frame {self other a b : Level}
    (h : LevelN.merge_with_levelN self other = .ok (a, b)) :
    a.m_config = self.m_config ∧ b.m_config = other.m_config ∧ b.m_tables = [] := by
  unfold LevelN.merge_with_levelN at h
  obtain ⟨_, _, h⟩ := Except.bind_eq_ok h
  obtain ⟨_, _, h⟩ := Except.bind_eq_ok h
  obtain ⟨⟨_, _, _⟩, _, h⟩ := Except.bind_eq_ok h
  obtain ⟨_, _, h⟩ := Except.bind_eq_ok h
  cases h
  exact ⟨rfl, rfl, rfl⟩

theorem LevelN.merge_with_level0_frame {self other a b : Level}
    (h : LevelN.merge_with_level0 self other = .ok (a, b)) :
    a.m_config = self.m_config ∧ b.m_config = other.m_config ∧ b.m_tables = [] := by
  unfold LevelN.merge_with_level0 at h
  obtain ⟨_, _, h⟩ := Except.bind_eq_ok h
  obtain ⟨⟨_, _⟩, _, h⟩ := Except.bind_eq_ok h
  obtain ⟨⟨_, _, _⟩, _, h⟩ := Except.bind_eq_ok h
  obtain ⟨_, _, h⟩ := Except.bind_eq_ok h
  cases h
  exact ⟨rfl, rfl, by simp⟩

/-- The loop of `background_merger` over the levels: the configurations stay, and every
level but the last one ends with at most `threshold` tables, because a level that
holds more is merged into the next one and cleared. -/
theorem LSMTree.cascade_spec : ∀ (rest : List Level) (prev : Level) (ls : List Level),
    LSMTree.cascade prev rest = .ok ls →
    ls.map Level.m_config = (prev :: rest).map Level.m_config ∧
    ∀ i l, i + 1 < ls.length → ls[i]? = some l → l.m_tables.length ≤ l.m_config.threshold := by
  intro rest
  induction rest with
  | nil =>
    intro prev ls h
    cases h
    refine ⟨rfl, fun i l hi _ => ?_⟩
    simp at hi
  | cons curr rest ih =>
    intro prev ls h
    unfold LSMTree.cascade at h
    by_cases hn : prev.needs_merging = true
    · simp only [hn, Bool.not_true, Bool.false_eq_true, if_false] at h
      obtain ⟨⟨curr1, prev1⟩, hm, h⟩ := Except.bind_eq_ok h
      obtain ⟨tail, htail, h⟩ := Except.bind_eq_ok h
      cases h
      obtain ⟨hc1, hc2, hc3⟩ := LevelN.merge_with_levelN_frame hm
      obtain ⟨ih1, ih2⟩ := ih curr1 tail htail
      refine ⟨?_, ?_⟩
      · simp only [List.map_cons, ih1, hc1, hc2]
      · intro i l hi hl
        cases i with
        | zero =>
          simp only [List.getElem?_cons_zero, Option.some.injEq] at hl
          subst hl
          rw [hc3]
          exact Nat.zero_le _
        | succ i =>
          simp only [List.getElem?_cons_succ] at hl
          exact ih2 i l (by simpa using hi) hl
    · simp only [hn, Bool.not_false, if_true] at h
      obtain ⟨tail, htail, h⟩ := Except.bind_eq_ok h
      cases h
      obtain ⟨ih1, ih2⟩ := ih curr tail htail
      refine ⟨?_, ?_⟩
      · simp only [List.map_cons, ih1]
      · intro i l hi hl
        cases i with
        | zero =>
          simp only [List.getElem?_cons_zero, Option.some.injEq] at hl
          subst hl
          simpa [Level.needs_merging] using hn
        | succ i =>
          simp only [List.getElem?_cons_succ] at hl
          exact ih2 i l (by simpa using hi) hl

/-- A pass of `background_merger` that finds Level 0 over its threshold: Level 0 ends
empty, the configurations stay, and every level but the last one ends with at most
`threshold` tables. -/
theorem LSMTree.merger_pass_spec (t t1 : LSMTree) (hrun : t.m_terminate_merge = false)
    (hneed : t.m_level0.needs_merging = true) (h : t.merger_pass = .ok t1) :
    t1.m_level0.m_tables = [] ∧ t1.m_level0.m_config = t.m_level0.m_config ∧
    t1.m_levels.map Level.m_config = t.m_levels.map Level.m_config ∧
    ∀ i l, i + 1 < t1.m_levels.length → t1.m_levels[i]? = some l →
      l.m_tables.length ≤ l.m_config.threshold := by
  unfold LSMTree.merger_pass at h
  simp only [hrun, hneed, Bool.false_eq_true, if_false, Bool.not_true] at h
  cases hl : t.m_levels with
  | nil => rw [hl] at h; cases h
  | cons level1 rest =>
    rw [hl] at h
    obtain ⟨⟨a, b⟩, hm, h⟩ := Except.bind_eq_ok h
    obtain ⟨ls, hls, h⟩ := Except.bind_eq_ok h
    cases h
    obtain ⟨hc1, hc2, hc3⟩ := LevelN.merge_with_level0_frame hm
    obtain ⟨h1, h2⟩ := LSMTree.cascade_spec rest a ls hls
    exact ⟨hc3, hc2, by simp only [h1, List.map_cons, hc1], h2⟩

/-- C26 (amended): for a tree whose levels have the configurations that the `Config`
constructor builds from `L` levels and the base threshold `t`, after a pass of the
background merger that found Level 0 over its threshold and ran to completion, Level 0
is empty and every Level `N` with `1 <= N <= L - 2` (every level but the last one)
holds at most its threshold `t * t^N mod 2^32 <= t * t^N` tables. -/
theorem merger_pass_bounds (name path : List Char) (L ts t mem par : Nat) (ow : Bool)
    (config : Config) (tree tree1 : LSMTree)
    (hc : Config.new name path L ts t mem par ow = .ok config)
    (hcfg : tree.m_level0.m_config :: tree.m_levels.map Level.m_config = config.levels)
    (hrun : tree.m_terminate_merge = false) (hneed : tree.m_level0.needs_merging = true)
    (hpass : tree.merger_pass = .ok tree1) :
    tree1.m_level0.m_tables = [] ∧
    ∀ N, 1 ≤ N → N + 1 < L →
      ∃ l, tree1.m_levels[N - 1]? = some l ∧ l.m_config.level = N ∧
        l.m_tables.length ≤ t * t ^ N % U32 ∧ t * t ^ N % U32 ≤ t * t ^ N := by
  obtain ⟨h0, _, h1, h2⟩ := LSMTree.merger_pass_spec tree tree1 hrun hneed hpass
  refine ⟨h0, ?_⟩
  intro N hN1 hNL
  have hlen := Config.new_levels_length hc
  have hlen1 : tree1.m_levels.length + 1 = L := by
    rw [← hlen, ← hcfg, List.length_cons, List.length_map, ← List.length_map tree1.m_levels,
      h1, List.length_map]
  obtain ⟨l, hl⟩ := exists_getElem? tree1.m_levels (N - 1) (by omega)
  have hb := h2 (N - 1) l (by omega) hl
  have hlc : config.levels[N]? = some l.m_config := by
    rw [← hcfg]
    have e : N = (N - 1) + 1 := by omega
    rw [e, List.getElem?_cons_succ, ← h1, List.getElem?_map]
    simp only [Nat.add_sub_cancel, hl, Option.map_some']
  obtain ⟨_, _, _, hcv⟩ := Config.new_ok hc
  rw [hcv] at hlc
  simp only [Config.levelsLoop_getElem?] at hlc
  cases hd : ((if (split path ',').length = 1 then
      List.replicate L ((split path ',').headD []) else split path ',').take L)[N]? with
  | none => rw [hd] at hlc; cases hlc
  | some d =>
    rw [hd] at hlc
    simp only [Option.map_some', Option.some.injEq] at hlc
    have hth : l.m_config.threshold = t * t ^ N % U32 := by
      rw [← hlc]; rfl
    have hlv : l.m_config.level = N := by
      rw [← hlc]; simp [LevelConfig.new]
    exact ⟨l, hl, hlv, by rw [← hth]; exact hb, Nat.mod_le _ _⟩

/-- Witness of C26 (amended): in the tree of `fillStore` (three levels, base threshold
1) Level 0 holds two tables. The pass merges them into Level 1, which then holds two
tables, more than its threshold 1, and is merged into Level 2: Level 1 ends with no
table, Level 2 (the last level) with two. -/
theorem merger_pass_bounds_witness :
    Config.new ['d', 'b'] ['/', 't', 'm', 'p'] 3 32 1 1 1 false = .ok fillStore.m_config ∧
    fillStore.m_tree.m_level0.m_config :: fillStore.m_tree.m_levels.map Level.m_config
      = fillStore.m_config.levels ∧
    fillStore.m_tree.m_level0.m_tables.length = 2 ∧
    fillStore.m_tree.merger_pass = .ok fillTree ∧
    fillTree.m_levels.map Level.size = [0, 2] ∧
    fillTree.m_level0.m_tables = [] ∧
    ∃ l, fillTree.m_levels[0]? = some l ∧ l.m_config.level = 1 ∧ l.m_tables.length ≤ 1 :=
  ⟨by decide, by decide, by decide, by decide, by decide,
   (merger_pass_bounds ['d', 'b'] ['/', 't', 'm', 'p'] 3 32 1 1 1 false fillStore.m_config
      fillStore.m_tree fillTree (by decide) (by decide) (by decide) (by decide) (by decide)).1,
   ((merger_pass_bounds ['d', 'b'] ['/', 't', 'm', 'p'] 3 32 1 1 1 false fillStore.m_config
      fillStore.m_tree fillTree (by decide) (by decide) (by decide) (by decide) (by decide)).2
      1 (by decide) (by decide)).imp (fun _ h => ⟨h.1, h.2.1, h.2.2.1⟩)⟩

/-- C26 (the claim fails by design): the last level has no level to merge into, so no
pass bounds its tables. In the store of `Config("db", "/tmp", 2, 32, 1, 1, 1, false)`
(two levels, base threshold 1), after `add(a, x)`, `add(b, x)`, a merger pass,
`add(c, x)`, `add(d, x)` and a second merger pass, Level 0 holds no table and Level 1
holds two tables (`[a, b]` and `[c, d]`), while its threshold is `t * t^1 = 1`. -/
theorem last_level_exceeds_threshold :
    (do
      let config ← Config.new ['d', 'b'] ['/', 't', 'm', 'p'] 2 32 1 1 1 false
      let s ← KVStore.new config
      let s ← s.add keyA valX
      let s ← s.add keyB valX
      let s ← s.merger_pass
      let s ← s.add keyC valX
      let s ← s.add keyD valX
      let s ← s.merger_pass
      pure (s.m_tree.m_level0.size :: s.m_tree.m_levels.map Level.size,
        s.m_tree.m_levels.map (fun (l : Level) => l.m_config.threshold))) =
      .ok ([0, 2], [1]) := by
  decide

/-! ## The calls of KVStore -/

theorem strLt_antisymm_eq (a b : Bytes) (h1 : strLt a b = false) (h2 : strLt b a = false) :
    a = b := by
  have e1 : ¬ cmpBytes a b < 0 := by
    rw [← strLt_iff_cmpBytes, h1]; simp
  have e2 : ¬ cmpBytes b a < 0 := by
    rw [← strLt_iff_cmpBytes, h2]; simp
  have e3 : ¬ 0 < cmpBytes a b := by
    rw [← cmpBytes_swap]; exact e2
  exact (cmpBytes_spec a b).2.1.mp (by omega)

theorem strLt_trans (a b c : Bytes) (h1 : strLt a b = true) (h2 : strLt b c = true) :
    strLt a c = true := by
  rw [strLt_iff_cmpBytes] at *
  exact cmpBytes_trans a b c h1 h2

/-- The effect of `insert` followed by the assignment of `MemTable::add` on the map:
the entries stay in key order, every entry is an old one or the new one, and the bytes
of the entries change by the size of the new entry, or by the difference of the values
when the key was present. -/
theorem mapUpsert_spec (key value : Bytes) :
    ∀ l : List (Bytes × Bytes), l.Pairwise (fun a b => strLt a.1 b.1 = true) →
      (mapUpsert key value l).1.Pairwise (fun a b => strLt a.1 b.1 = true) ∧
      (mapUpsert key value l).1 ≠ [] ∧
      (∀ e ∈ (mapUpsert key value l).1, e ∈ l ∨ e = (key, value)) ∧
      (((mapUpsert key value l).2 = none ∧
          ((mapUpsert key value l).1.map (fun e => e.1.length + e.2.length)).sum
            = (l.map (fun e => e.1.length + e.2.length)).sum + key.length + value.length) ∨
        ∃ old, (mapUpsert key value l).2 = some old ∧
          ((mapUpsert key value l).1.map (fun e => e.1.length + e.2.length)).sum + old.length
            = (l.map (fun e => e.1.length + e.2.length)).sum + value.length ∧
          key.length + old.length ≤ (l.map (fun e => e.1.length + e.2.length)).sum) := by
  intro l
  induction l with
  | nil =>
    intro _
    refine ⟨List.pairwise_singleton _ _, by simp [mapUpsert], ?_, Or.inl ⟨rfl, ?_⟩⟩
    · intro e he
      simp only [mapUpsert, List.mem_singleton] at he
      exact Or.inr he
    · simp [mapUpsert]
  | cons e l ih =>
    intro hs
    obtain ⟨k, v⟩ := e
    have hs' := List.pairwise_cons.mp hs
    obtain ⟨ih1, ih2, ih3, ih4⟩ := ih hs'.2
    by_cases h1 : strLt key k = true
    · have e1 : mapUpsert key value ((k, v) :: l) = ((key, value) :: (k, v) :: l, none) := by
        simp only [mapUpsert, h1, if_true]
      rw [e1]
      refine ⟨?_, by simp, ?_, Or.inl ⟨rfl, ?_⟩⟩
      · refine List.pairwise_cons.mpr ⟨?_, hs⟩
        intro x hx
        rcases List.mem_cons.mp hx with rfl | hx
        · exact h1
        · exact strLt_trans _ _ _ h1 (hs'.1 x hx)
      · intro x hx
        rcases List.mem_cons.mp hx with rfl | hx
        · exact Or.inr rfl
        · exact Or.inl hx
      · simp only [List.map_cons, List.sum_cons]
        omega
    · have h1' : strLt key k = false := by simpa using h1
      by_cases h2 : strLt k key = true
      · have e1 : mapUpsert key value ((k, v) :: l)
            = ((k, v) :: (mapUpsert key value l).1, (mapUpsert key value l).2) := by
          simp only [mapUpsert, h1', h2, if_true, Bool.false_eq_true, if_false]
        rw [e1]
        refine ⟨?_, by simp, ?_, ?_⟩
        · refine List.pairwise_cons.mpr ⟨?_, ih1⟩
          intro x hx
          rcases ih3 x hx with hx | rfl
          · exact hs'.1 x hx
          · exact h2
        · intro x hx
          rcases List.mem_cons.mp hx with rfl | hx
          · exact Or.inl (List.mem_cons_self _ _)
          · rcases ih3 x hx with hx | rfl
            · exact Or.inl (List.mem_cons_of_mem _ hx)
            · exact Or.inr rfl
        · rcases ih4 with ⟨hn, hsum⟩ | ⟨old, ho, hsum, hle⟩
          · refine Or.inl ⟨hn, ?_⟩
            simp only [List.map_cons, List.sum_cons, hsum]
            omega
          · refine Or.inr ⟨old, ho, ?_, ?_⟩
            · simp only [List.map_cons, List.sum_cons]
              omega
            · simp only [List.map_cons, List.sum_cons]
              omega
      · have h2' : strLt k key = false := by simpa using h2
        have hk : key = k := strLt_antisymm_eq key k h1' h2'
        have e1 : mapUpsert key value ((k, v) :: l) = ((k, value) :: l, some v) := by
          simp only [mapUpsert, h1', h2', Bool.false_eq_true, if_false]
        rw [e1]
        refine ⟨?_, by simp, ?_, Or.inr ⟨v, rfl, ?_, ?_⟩⟩
        · exact List.pairwise_cons.mpr ⟨hs'.1, hs'.2⟩
        · intro x hx
          rcases List.mem_cons.mp hx with rfl | hx
          · exact Or.inr (by rw [hk])
          · exact Or.inl (List.mem_cons_of_mem _ hx)
        · simp only [List.map_cons, List.sum_cons]
          omega
        · simp only [List.map_cons, List.sum_cons, hk]
          omega

/-- `MemTable::add` on a memtable whose counter is the byte sum of its entries, when the
sum with the new entry stays below 2^32: the call returns, and the new memtable is in
key order, not empty, with an exact counter that is not zero. -/
theorem MemTable.add_exact (mt : MemTable) (key value : Buffer) (hsorted : mt.Sorted)
    (hexact : mt.m_size = mt.byteSum) (hk : 0 < key.size)
    (hsum : mt.byteSum + key.size + value.size < U32) :
    ∃ mt1, mt.add key value = .ok mt1 ∧ mt1.Sorted ∧ mt1.m_size = mt1.byteSum ∧
      mt1.m_size ≠ 0 ∧ mt1.m_table ≠ [] ∧
      mt1.byteSum ≤ mt.byteSum + key.size + value.size ∧
      ∀ e ∈ mt1.m_table, e ∈ mt.m_table ∨ e = (key.bytes, value.bytes) := by
  obtain ⟨h1, h2, h3, h4⟩ := mapUpsert_spec key.bytes value.bytes mt.m_table hsorted
  have hU : U32 = 4294967296 := rfl
  simp only [MemTable.byteSum, Buffer.size] at hexact hsum hk
  unfold MemTable.add
  rcases h4 with ⟨hn, hs⟩ | ⟨old, ho, hs, hle⟩
  · have hsz : (mt.m_size + key.size + value.size) % U32
        = ((mapUpsert key.bytes value.bytes mt.m_table).1.map
            (fun e => e.1.length + e.2.length)).sum := by
      rw [hs, hexact]
      simp only [Buffer.size]
      exact Nat.mod_eq_of_lt (by omega)
    simp only [hn]
    rw [hsz, assert_true_bind _ (by simp only [decide_eq_true_eq]; omega)]
    refine ⟨_, rfl, h1, rfl, by dsimp only; omega, h2, ?_, h3⟩
    simp only [MemTable.byteSum, Buffer.size]
    omega
  · have hsz : (mt.m_size + U32 - old.length % U32 + value.size) % U32
        = ((mapUpsert key.bytes value.bytes mt.m_table).1.map
            (fun e => e.1.length + e.2.length)).sum := by
      rw [hexact]
      simp only [Buffer.size]
      show (_ + 4294967296 - old.length % 4294967296 + _) % 4294967296 = _
      omega
    simp only [ho]
    rw [hsz, assert_true_bind _ (by simp only [decide_eq_true_eq]; omega)]
    refine ⟨_, rfl, h1, rfl, by dsimp only; omega, h2, ?_, h3⟩
    simp only [MemTable.byteSum, Buffer.size]
    omega

theorem KVStore.rejects_destroyed (s : KVStore) (key value : Buffer)
    (h : s.m_destroyed = true) :
    s.get key = .error .assertion ∧ s.add key value = .error .assertion ∧
    s.remove key = .error .assertion ∧ s.destroy = .error .assertion := by
  simp only [KVStore.get, KVStore.add, KVStore.remove, KVStore.destroy, h, Bool.not_true]
  exact ⟨rfl, rfl, rfl, rfl⟩

theorem KVStore.rejects_empty_key (s : KVStore) (key value : Buffer) (h : key.size = 0) :
    s.add key value = .error .assertion ∧ s.remove key = .error .assertion := by
  simp only [KVStore.add, KVStore.remove, h]
  cases s.m_destroyed <;> exact ⟨rfl, rfl⟩

theorem KVStore.rejects_empty_value (s : KVStore) (key value : Buffer) (h : value.size = 0) :
    s.add key value = .error .assertion := by
  simp only [KVStore.add, h]
  cases s.m_destroyed
  · by_cases hk : key.size > 0
    · simp [hk, assert, bind, Except.bind]
    · simp [hk, assert, bind, Except.bind]
  · rfl

/-- C25 (the claim fails by design): a call outside the rejected ones can still fail an
assertion. In the store of `Config("db", "/tmp", 2, 6, 1, 1, 1, false)`, which has not
been destroyed, `add(a, x)` has a non-empty key and value; the memtable reaches its
size, and the flush stops at `assert(res)` of `dump_memtable`, because the 6-byte record
does not fit a fresh table of 6 bytes with its offset and the entry count. -/
theorem add_fails_when_record_exceeds_table :
    (do
      let config ← Config.new ['d', 'b'] ['/', 't', 'm', 'p'] 2 6 1 1 1 false
      let s ← KVStore.new config
      pure (s.m_destroyed, keyA.size, valX.size, s.add keyA valX)) =
      .ok (false, 1, 1, .error .assertion) := by
  decide

/-! ## The queue of a shard -/

theorem KVStorePartition.runTask_queue (p p1 : KVStorePartition) (task : Task)
    (h : p.runTask task = .ok p1) : p1.m_queue = p.m_queue ∧ p1.m_running = p.m_running := by
  cases task with
  | add key value =>
    obtain ⟨_, _, h⟩ := Except.bind_eq_ok h
    cases h
    exact ⟨rfl, rfl⟩
  | get key promise =>
    obtain ⟨_, _, h⟩ := Except.bind_eq_ok h
    cases h
    exact ⟨rfl, rfl⟩
  | remove key =>
    obtain ⟨_, _, h⟩ := Except.bind_eq_ok h
    cases h
    exact ⟨rfl, rfl⟩
  | destroy =>
    obtain ⟨_, _, h⟩ := Except.bind_eq_ok h
    cases h
    exact ⟨rfl, rfl⟩
  | terminate =>
    cases h
    exact ⟨rfl, rfl⟩

/-- One iteration of the worker: it takes nothing, or it takes the task at the front of
the queue; it stops exactly when that task is a `TerminateTask`. -/
theorem KVStorePartition.work_spec (p p1 : KVStorePartition) (task : Option Task)
    (h : p.work = .ok (p1, task)) :
    (task = none ∧ p1 = p) ∨
    (∃ x, task = some x ∧ p.m_running = true ∧ p.m_queue = x :: p1.m_queue ∧
      (p1.m_running = false ↔ x = Task.terminate)) := by
  unfold KVStorePartition.work at h
  by_cases hr : p.m_running = true
  · simp only [hr, Bool.not_true, Bool.false_eq_true, if_false] at h
    cases hq : p.m_queue with
    | nil =>
      rw [hq] at h
      cases h
      exact Or.inl ⟨rfl, rfl⟩
    | cons x rest =>
      rw [hq] at h
      by_cases hx : x = Task.terminate
      · simp only [hx, if_true] at h
        cases h
        exact Or.inr ⟨x, by rw [hx], hr, rfl, by simp [hx]⟩
      · simp only [hx, if_false] at h
        obtain ⟨p2, hp2, h⟩ := Except.bind_eq_ok h
        cases h
        obtain ⟨e1, e2⟩ := KVStorePartition.runTask_queue _ _ _ hp2
        refine Or.inr ⟨x, rfl, hr, by rw [e1], ?_⟩
        rw [e2]
        simp [hr, hx]
  · have hr' : p.m_running = false := by simpa using hr
    simp only [hr', Bool.not_false, if_true] at h
    cases h
    exact Or.inl ⟨rfl, rfl⟩


theorem ShardRun.Fifo.push_fifo {r : ShardRun} (h : r.Fifo) (task : Task) (p : KVStorePartition)
    (hq : p.m_queue = r.part.m_queue ++ [task]) (hr : p.m_running = r.part.m_running) :
    ShardRun.Fifo { r with part := p, pushed := r.pushed ++ [task] } := by
  obtain ⟨h1, h2⟩ := h
  refine ⟨?_, ?_⟩
  · show r.pushed ++ [task] = r.popped ++ p.m_queue
    rw [hq, h1, List.append_assoc]
  · show (p.m_running = true ∧ _) ∨ (p.m_running = false ∧ _)
    rw [hr]
    exact h2

/-- Every event keeps the queue first in, first out. -/
theorem ShardRun.Fifo.step_fifo {r r1 : ShardRun} (h : r.Fifo) (e : ShardEvent)
    (hstep : r.step e = .ok r1) : r1.Fifo := by
  cases e with
  | add key value => cases hstep; exact h.push_fifo _ _ rfl rfl
  | get key => cases hstep; exact h.push_fifo _ _ rfl rfl
  | remove key => cases hstep; exact h.push_fifo _ _ rfl rfl
  | destroy => cases hstep; exact h.push_fifo _ _ rfl rfl
  | close => cases hstep; exact h.push_fifo _ _ rfl rfl
  | merge =>
    obtain ⟨p, hp, hstep⟩ := Except.bind_eq_ok hstep
    cases hstep
    obtain ⟨_, _, hp⟩ := Except.bind_eq_ok hp
    cases hp
    exact h
  | work =>
    obtain ⟨⟨p, task⟩, hp, hstep⟩ := Except.bind_eq_ok hstep
    cases hstep
    obtain ⟨h1, h2⟩ := h
    rcases KVStorePartition.work_spec _ _ _ hp with ⟨rfl, rfl⟩ | ⟨x, rfl, hrun, hq, hstop⟩
    · refine ⟨?_, ?_⟩
      · show r.pushed = (r.popped ++ []) ++ r.part.m_queue
        rw [List.append_nil]; exact h1
      · show (_ ∧ Task.terminate ∉ r.popped ++ []) ∨ (_ ∧ ∃ before, r.popped ++ [] = _ ∧ _)
        rw [List.append_nil]; exact h2
    · have hnot : Task.terminate ∉ r.popped := by
        rcases h2 with ⟨_, hn⟩ | ⟨hf, _⟩
        · exact hn
        · rw [hrun] at hf; cases hf
      refine ⟨?_, ?_⟩
      · show r.pushed = (r.popped ++ [x]) ++ p.m_queue
        rw [h1, hq, List.append_assoc]
        rfl
      · show (p.m_running = true ∧ Task.terminate ∉ r.popped ++ [x]) ∨
          (p.m_running = false ∧ ∃ before, r.popped ++ [x] = before ++ [Task.terminate] ∧
            Task.terminate ∉ before)
        by_cases hx : x = Task.terminate
        · exact Or.inr ⟨hstop.mpr hx, r.popped, by rw [hx], hnot⟩
        · refine Or.inl ⟨?_, ?_⟩
          · cases hpr : p.m_running with
            | true => rfl
            | false => exact absurd (hstop.mp hpr) hx
          · intro hmem
            rcases List.mem_append.mp hmem with hm | hm
            · exact hnot hm
            · rw [List.mem_singleton] at hm
              exact hx hm.symm

/-- In every run of a shard, whatever the order in which the client threads, the
worker and the merger take their turns, the worker pops the tasks in the order in which
they were pushed: the popped tasks are a prefix of the pushed ones. Once the worker has
stopped, it has popped every task pushed before the first `TerminateTask`, and that
`TerminateTask`. -/
theorem ShardRun.run_fifo (p : KVStorePartition) (hq : p.m_queue = []) (hr : p.m_running = true) :
    ∀ (es : List ShardEvent) (r : ShardRun), (ShardRun.start p).run es = .ok r →
      r.pushed = r.popped ++ r.part.m_queue ∧
      (r.part.m_running = false →
        ∃ before, r.popped = before ++ [Task.terminate] ∧ Task.terminate ∉ before ∧
          r.pushed = before ++ [Task.terminate] ++ r.part.m_queue) := by
  have hstart : (ShardRun.start p).Fifo := by
    refine ⟨?_, Or.inl ⟨hr, by simp [ShardRun.start]⟩⟩
    simp [ShardRun.start, hq]
  have hgen : ∀ (es : List ShardEvent) (r0 r : ShardRun), r0.Fifo → r0.run es = .ok r →
      r.Fifo := by
    intro es
    induction es with
    | nil =>
      intro r0 r h0 h
      cases h
      exact h0
    | cons e es ih =>
      intro r0 r h0 h
      obtain ⟨r1, h1, h⟩ := Except.bind_eq_ok h
      exact ih r1 r (h0.step_fifo e h1) h
  intro es r h
  obtain ⟨h1, h2⟩ := hgen es _ r hstart h
  refine ⟨h1, fun hstop => ?_⟩
  rcases h2 with ⟨hrun, _⟩ | ⟨_, before, hb, hn⟩
  · rw [hstop] at hrun; cases hrun
  · exact ⟨before, hb, hn, by rw [h1, hb]⟩

/-- C30 (the code departs from the claim): one shard of the store of
`Config("db", "/tmp", 2, 32, 1, 1, 1, false)`. A client pushes `Add(c, x)` and
`Add(d, x)`, the worker runs both, the merger of the tree makes a pass; the client
pushes `Add(a, x)` and `Add(b, x)`, the worker runs both, the merger makes a pass; the
client pushes `Get(a)` and the worker runs it. The worker ran the tasks in the order in
which they were pushed, `Get(a)` after `Add(a, x)`, and no other write to `a` was
pushed; the promise of `Get(a)` is fulfilled with a null pointer ("not found") and not
with `x`. -/
theorem shard_get_misses_added_key :
    (do
      let config ← Config.new ['d', 'b'] ['/', 't', 'm', 'p'] 2 32 1 1 1 false
      let p ← KVStorePartition.new config 0
      let r ← (ShardRun.start p).run
        [.add keyC valX, .add keyD valX, .work, .work, .merge,
         .add keyA valX, .add keyB valX, .work, .work, .merge,
         .get keyA, .work]
      pure (decide (r.pushed = r.popped ∧ r.part.m_queue = []), r.popped,
        r.part.m_promises)) =
      .ok (true,
           [Task.add keyC valX, Task.add keyD valX, Task.add keyA valX, Task.add keyB valX,
            Task.get keyA 0],
           [some none]) := by
  decide

/-! ## Destroy and close -/

/-- C34: on a store that has not been destroyed (and whose tree is running, as it is in
every such store), `destroy()` returns; afterwards the memtable is empty and the table
list of every level is empty, and the close path (the destructors of `KVStore` and
`LSMTree`, whatever the schedule of the merger) leaves the store exactly as it is: it
flushes no memtable and merges no Level 0 into Level 1. -/
theorem destroy_then_close (s : KVStore) (hlive : s.m_destroyed = false)
    (hrun : s.m_tree.m_terminate_merge = false) :
    ∃ s1, s.destroy = .ok s1 ∧ s1.m_destroyed = true ∧ s1.m_tree.m_terminate_merge = true ∧
      s1.m_memtable.m_table = [] ∧ s1.m_tree.m_level0.m_tables = [] ∧
      (∀ l ∈ s1.m_tree.m_levels, l.m_tables = []) ∧
      s1.m_tree.close = .ok s1.m_tree ∧
      ∀ pass_first merger_runs, s1.close pass_first merger_runs = .ok s1 := by
  refine ⟨{ s with
      m_memtable := s.m_memtable.clear, m_tree := s.m_tree.destroy, m_destroyed := true },
    ?_, rfl, ?_, rfl, ?_, ?_, ?_, ?_⟩
  · simp only [KVStore.destroy, hlive]
    rfl
  · simp [LSMTree.destroy, hrun]
  · simp [LSMTree.destroy, hrun, Level.destroy]
  · intro l hl
    simp only [LSMTree.destroy, hrun, Bool.false_eq_true, if_false, List.mem_map] at hl
    obtain ⟨l0, _, rfl⟩ := hl
    rfl
  · simp [LSMTree.close, LSMTree.destroy, hrun, pure, Except.pure]
  · intro pass_first merger_runs
    cases pass_first <;> cases merger_runs <;>
      simp [KVStore.close, LSMTree.close, LSMTree.merger_pass, LSMTree.destroy, hrun, bind,
        Except.bind, pure, Except.pure]

/-- Witness of C34: `durableStore` holds a memtable entry and a table in each of its
three levels; after `destroy()` nothing is left and the close changes nothing. -/
theorem destroy_then_close_witness :
    durableStore.m_destroyed = false ∧ durableStore.m_tree.m_terminate_merge = false ∧
    durableStore.m_tree.m_level0.m_tables.length = 1 ∧
    ∃ s1, durableStore.destroy = .ok s1 ∧ s1.m_tree.m_level0.m_tables = [] ∧
      (∀ l ∈ s1.m_tree.m_levels, l.m_tables = []) ∧
      ∀ pass_first merger_runs, s1.close pass_first merger_runs = .ok s1 :=
  ⟨rfl, rfl, rfl,
   (destroy_then_close durableStore rfl rfl).imp
     (fun _ h => ⟨h.1, h.2.2.2.2.1, h.2.2.2.2.2.1, h.2.2.2.2.2.2.2⟩)⟩

/-! ## The order of the memtable -/

theorem MemTable.add_table {mt mt1 : MemTable} {key value : Buffer}
    (h : mt.add key value = .ok mt1) :
    mt1.m_table = (mapUpsert key.bytes value.bytes mt.m_table).1 := by
  unfold MemTable.add at h
  obtain ⟨_, _, h⟩ := Except.bind_eq_ok h
  cases h
  rfl

theorem MemTable.addAll_sorted : ∀ (recs : List KeyValue) (mt mt1 : MemTable), mt.Sorted →
    MemTable.addAll mt recs = .ok mt1 → mt1.Sorted := by
  intro recs
  induction recs with
  | nil =>
    intro mt mt1 hs h
    cases h
    exact hs
  | cons r recs ih =>
    intro mt mt1 hs h
    obtain ⟨m1, h1, h⟩ := Except.bind_eq_ok h
    refine ih m1 mt1 ?_ h
    unfold MemTable.Sorted
    rw [MemTable.add_table h1]
    exact (mapUpsert_spec r.key.bytes r.value.bytes mt.m_table hs).1

/-- C35: the order of the map of the memtable (`std::less<std::string>`) is the order
of `Buffer::compare`: `a` precedes `b` exactly when `compare(a, b) < 0`. Hence the
entries of a memtable filled by `add` calls are, in iteration order, strictly ascending
under `compare`, and every table that `dump_memtable` makes of a memtable holds
strictly ascending records, on which the binary search of `Table::get` returns the
value stored with the key and "not found" for any other key. -/
theorem map_order_is_compare (a b : Buffer) :
    (strLt a.bytes b.bytes = true ↔ a.compare b < 0) ∧
    (∀ (recs : List KeyValue) (mt : MemTable), MemTable.addAll MemTable.new recs = .ok mt →
      mt.Sorted ∧ ∀ rs : List KeyValue, rs.map KeyValue.pair = mt.m_table → Ascending rs) ∧
    (∀ (l l1 : Level) (mt : MemTable), mt.Sorted → l.m_config.table_size < U32 →
      (∀ e ∈ mt.m_table, fitsEntry l.m_config.table_size e) →
      Level0.dump_memtable l mt = .ok l1 →
      ∃ chunks : List (List KeyValue),
        l1.m_tables = l.m_tables ++ chunks.map (fun c => some (tableOf l.m_config.table_size c)) ∧
        chunks.flatten.map KeyValue.pair = mt.m_table ∧
        ∀ c ∈ chunks, Ascending c ∧
          ∀ key, (tableOf l.m_config.table_size c).get key = .ok (lookup c key)) := by
  refine ⟨strLt_iff_compare a b, ?_, ?_⟩
  · intro recs mt h
    have hs : mt.Sorted := MemTable.addAll_sorted recs MemTable.new mt List.Pairwise.nil h
    refine ⟨hs, fun rs hrs => Ascending.of_sorted rs ?_⟩
    rw [hrs]
    exact hs
  · intro l l1 mt hs hS hfit hd
    obtain ⟨chunks, h1, _, h3, h4, _⟩ := Level0.dump_memtable_result hS hfit hd
    refine ⟨chunks, h1, h4, fun c hc => ?_⟩
    have hasc : Ascending chunks.flatten := by
      apply Ascending.of_sorted
      rw [h4]
      exact hs
    have hc' : Ascending c := Ascending.of_mem_flatten hasc hc
    exact ⟨hc', fun key => (h3 c hc).get_eq hc' key⟩

/-- Witness of C35: `a` precedes `b` in both orders, and the memtable filled with
`b -> y`, then `a -> x` iterates `a`, `b`. -/
theorem map_order_is_compare_witness :
    strLt keyA.bytes keyB.bytes = true ∧ keyA.compare keyB < 0 ∧
    MemTable.addAll MemTable.new [recB, recA]
      = .ok { m_table := [([97], [120]), ([98], [121])], m_size := 4 } ∧
    MemTable.Sorted { m_table := [([97], [120]), ([98], [121])], m_size := 4 } ∧
    Ascending [recA, recB] :=
  ⟨by decide, (map_order_is_compare keyA keyB).1.mp (by decide), by decide,
   ((map_order_is_compare keyA keyB).2.1 [recB, recA]
      { m_table := [([97], [120]), ([98], [121])], m_size := 4 } (by decide)).1,
   ((map_order_is_compare keyA keyB).2.1 [recB, recA]
      { m_table := [([97], [120]), ([98], [121])], m_size := 4 } (by decide)).2
      [recA, recB] rfl⟩

/-! ## The space invariant of the builder -/

/-- C36 (the code departs from the claim): a builder with `table_size = 4294967295`
accepts the 65535 records `bigRecs 65535` of 65532 bytes each, and then one more
record of 65532 bytes, because the 32-bit sum of the size test wraps to 0. After that
accepted `add` the invariant is broken,
`head_index + 4 * (number of offsets) + 4 = 4294967300 > 4294967295`, and `finalize`
stops at the length assertion of `appendBack`. -/
theorem finalize_asserts_after_wrapped_add :
    TableBuilder.addMany (TableBuilder.new 4294967295) (bigRecs 65535)
      = .ok (builderOf 4294967295 (bigRecs 65535), bigRecs 65535) ∧
    (builderOf 4294967295 (bigRecs 65535)).add (bigKey 65535) bigValue
      = .ok (builderOf 4294967295 (bigRecs 65536), true) ∧
    (builderMap 4294967295 (bigRecs 65536)).m_head_index
      + 4 * (builderOf 4294967295 (bigRecs 65536)).m_index.length + 4 = 4294967300 ∧
    (builderOf 4294967295 (bigRecs 65536)).m_table_size = 4294967295 ∧
    (builderOf 4294967295 (bigRecs 65536)).finalize = .error .assertion := by
  refine ⟨addMany_bigRecs_all 65535 (Nat.le_refl _) (by decide), add_bigRec_wraps 65535 rfl, ?_,
    rfl, finalize_bigRecs_fails 65536 rfl⟩
  rw [builderMap_head, encLen_bigRecs, builderOf_index, offsetsFrom_length, bigRecs_length]

/-- The space invariant of the builder when the 32-bit sum cannot wrap: after every
`add` on a builder that holds the records `cur`, the head region, the offset index and
the entry count fit the table. -/
theorem TableBuilder.Holds.space_invariant {b b1 : TableBuilder} {S : Nat}
    {cur : List KeyValue} (h : b.Holds S cur) (hS : S + 131074 < U32) {k v : Buffer}
    (hfit : cur = [] ∨ encLen cur + 4 * cur.length + 4 ≤ S)
    (hadd : b.add k v = .ok (b1, true)) :
    b1 = builderOf S (cur ++ [KeyValue.mk k v]) ∧
    encLen (cur ++ [KeyValue.mk k v]) + 4 * (cur ++ [KeyValue.mk k v]).length + 4 ≤ S := by
  have h2 := h.add_fits hS hfit hadd
  simp only [if_true] at h2
  have h3 : encLen (cur ++ [KeyValue.mk k v])
      + 4 * (cur ++ [KeyValue.mk k v]).length + 4 ≤ S := by
    rcases h2 with h2 | h2
    · simp at h2
    · exact h2
  refine ⟨?_, h3⟩
  have he := h.add_eq (by omega) k v
  rw [he] at hadd
  split at hadd
  · cases hadd
  · split at hadd
    · cases hadd
    · split at hadd
      · cases hadd
        rfl
      · cases hadd

/-! ## Random access and iteration -/

theorem encLen_take_strict (rs : List KeyValue) (i j : Nat) (hij : i < j)
    (hj : j ≤ rs.length) : encLen (rs.take i) < encLen (rs.take j) := by
  induction j with
  | zero => omega
  | succ j ih =>
    obtain ⟨r, hr⟩ := exists_getElem? rs j (by omega)
    have hs := encLen_take_succ rs j r hr
    have hge := r.byteSize_ge
    by_cases hc : i = j
    · subst hc
      omega
    · have := ih (by omega) (by omega)
      omega

/-- C38: in a finalized table with the records `rs` (`E = |rs|` entries), forward
iteration yields `rs`, `table[i]` is the `i`-th of them for every `i < E`, and the
offsets in the index are strictly increasing. -/
theorem index_matches_iteration (t : Table) (rs : List KeyValue) (h : t.Holds rs) :
    t.records = .ok rs ∧ t.size = rs.length ∧
    (∀ i, i < t.size → ∃ r, rs[i]? = some r ∧ t.get_at i = .ok r) ∧
    (∀ i, i < t.size → ∃ o,
      Table.entryOffset t.m_mmap t.m_index t.m_num_entries i = .ok o ∧
      o = encLen (rs.take i)) ∧
    ∀ i j oi oj, i < j → j < t.size →
      Table.entryOffset t.m_mmap t.m_index t.m_num_entries i = .ok oi →
      Table.entryOffset t.m_mmap t.m_index t.m_num_entries j = .ok oj → oi < oj := by
  have hn : t.m_num_entries = rs.length := h.num
  have hoff : ∀ i, i < rs.length →
      Table.entryOffset t.m_mmap t.m_index t.m_num_entries i = .ok (encLen (rs.take i)) := by
    intro i hi
    have := Table.entryOffset_eq h.map i hi
    rw [h.fields]
    exact this
  refine ⟨h.records_eq, hn, ?_, ?_, ?_⟩
  · intro i hi
    obtain ⟨r, hr⟩ := exists_getElem? rs i (by rw [← hn]; exact hi)
    exact ⟨r, hr, h.get_at i r hr⟩
  · intro i hi
    exact ⟨_, hoff i (by rw [← hn]; exact hi), rfl⟩
  · intro i j oi oj hij hj hi' hj'
    have hj2 : j < rs.length := by rw [← hn]; exact hj
    rw [hoff i (by omega)] at hi'
    rw [hoff j hj2] at hj'
    cases hi'
    cases hj'
    exact encLen_take_strict rs i j hij (by omega)

/-- Witness of C38: the table that a builder of table size 32 makes of `a -> x`,
`b -> y`: `table[1]` is `b -> y`, the second record of the iteration. -/
theorem index_matches_iteration_witness :
    (tableOf 32 [recA, recB]).Holds [recA, recB] ∧
    (tableOf 32 [recA, recB]).records = .ok [recA, recB] ∧
    ∃ r, [recA, recB][1]? = some r ∧ (tableOf 32 [recA, recB]).get_at 1 = .ok r :=
  ⟨tableOf_holds 32 _ (by decide) (by simp) (by decide) (by decide),
   (index_matches_iteration (tableOf 32 [recA, recB]) [recA, recB]
      (tableOf_holds 32 _ (by decide) (by simp) (by decide) (by decide))).1,
   (index_matches_iteration (tableOf 32 [recA, recB]) [recA, recB]
      (tableOf_holds 32 _ (by decide) (by simp) (by decide) (by decide))).2.2.1 1 (by decide)⟩

/-! ## The flush rule of the store -/

theorem mapUpsert_keeps (key value : Bytes) :
    ∀ l : List (Bytes × Bytes),
      (key, value) ∈ (mapUpsert key value l).1 ∧
      l.length ≤ (mapUpsert key value l).1.length ∧
      ∀ e ∈ l, e ∈ (mapUpsert key value l).1 ∨
        (e.1 = key ∧ (mapUpsert key value l).2 = some e.2)
  | [] => ⟨by simp [mapUpsert], by simp [mapUpsert], by simp⟩
  | (k, v) :: rest => by
    obtain ⟨ih1, ih2, ih3⟩ := mapUpsert_keeps key value rest
    unfold mapUpsert
    by_cases h1 : strLt key k = true
    · simp only [h1, if_true]
      refine ⟨by simp, by simp, ?_⟩
      intro e he
      exact Or.inl (List.mem_cons_of_mem _ he)
    · have h1' : strLt key k = false := by simpa using h1
      by_cases h2 : strLt k key = true
      · simp only [h1', h2, if_true, Bool.false_eq_true, if_false]
        refine ⟨List.mem_cons_of_mem _ ih1, by simpa using ih2, ?_⟩
        intro e he
        rcases List.mem_cons.mp he with he | he
        · exact Or.inl (by rw [he]; exact List.mem_cons_self _ _)
        · rcases ih3 e he with h | h
          · exact Or.inl (List.mem_cons_of_mem _ h)
          · exact Or.inr h
      · have h2' : strLt k key = false := by simpa using h2
        have hk : key = k := strLt_antisymm_eq key k h1' h2'
        simp only [h1', h2', Bool.false_eq_true, if_false]
        subst hk
        refine ⟨List.mem_cons_self _ _, by simp, ?_⟩
        intro e he
        rcases List.mem_cons.mp he with he | he
        · exact Or.inr (by rw [he]; exact ⟨rfl, rfl⟩)
        · exact Or.inl (List.mem_cons_of_mem _ he)

theorem MemTable.size_eq_ok {mt : MemTable} {n : Nat} (h : mt.size = .ok n) : n = mt.m_size := by
  unfold MemTable.size at h
  obtain ⟨_, _, h⟩ := Except.bind_eq_ok h
  cases h
  rfl

/-- C31: every accepted `add(k, v)` first upserts `k -> v` into the memtable. If the
size of the memtable then exceeds `memtable_size`, the whole memtable is dumped to
Level 0 (when the records fit a fresh table, Level 0 receives tables whose records are
exactly the entries of the memtable, in order), no other level changes, and the
memtable becomes empty; otherwise the memtable keeps the upserted map and the tree does
not change. Either way the size of the memtable is at most `memtable_size` afterwards.
Every accepted `remove(k)` upserts `k -> ""`: the map holds `k -> ""`, every entry with
another key is kept, the map does not shrink, and the tree does not change. -/
theorem add_flush_rule (s : KVStore) (key value : Buffer) :
    (∀ s1, s.add key value = .ok s1 →
      ∃ mt1, s.m_memtable.add key value = .ok mt1 ∧
        mt1.m_table = (mapUpsert key.bytes value.bytes s.m_memtable.m_table).1 ∧
        mt1.size = .ok mt1.m_size ∧
        (mt1.m_size > s.m_config.memtable_size →
          s1.m_memtable = MemTable.new ∧
          s.m_tree.dump_memtable mt1 = .ok s1.m_tree ∧
          Level0.dump_memtable s.m_tree.m_level0 mt1 = .ok s1.m_tree.m_level0 ∧
          s1.m_tree.m_levels = s.m_tree.m_levels ∧
          (s.m_tree.m_level0.m_config.table_size < U32 →
            (∀ e ∈ mt1.m_table, fitsEntry s.m_tree.m_level0.m_config.table_size e) →
            ∃ chunks : List (List KeyValue),
              s1.m_tree.m_level0.m_tables = s.m_tree.m_level0.m_tables ++
                chunks.map (fun c => some (tableOf s.m_tree.m_level0.m_config.table_size c)) ∧
              (∀ c ∈ chunks, (tableOf s.m_tree.m_level0.m_config.table_size c).Holds c) ∧
              chunks.flatten.map KeyValue.pair = mt1.m_table)) ∧
        (mt1.m_size ≤ s.m_config.memtable_size →
          s1.m_memtable = mt1 ∧ s1.m_tree = s.m_tree) ∧
        s1.m_memtable.size = .ok s1.m_memtable.m_size ∧
        s1.m_memtable.m_size ≤ s.m_config.memtable_size) ∧
    (∀ s1, s.remove key = .ok s1 →
      s1.m_tree = s.m_tree ∧
      s.m_memtable.add key Buffer.empty = .ok s1.m_memtable ∧
      s1.m_memtable.m_table = (mapUpsert key.bytes [] s.m_memtable.m_table).1 ∧
      (key.bytes, []) ∈ s1.m_memtable.m_table ∧
      s.m_memtable.m_table.length ≤ s1.m_memtable.m_table.length ∧
      ∀ e ∈ s.m_memtable.m_table, e.1 ≠ key.bytes → e ∈ s1.m_memtable.m_table) := by
  constructor
  · intro s1 h
    unfold KVStore.add at h
    obtain ⟨_, _, h⟩ := Except.bind_eq_ok h
    obtain ⟨_, _, h⟩ := Except.bind_eq_ok h
    obtain ⟨mt1, hadd, h⟩ := Except.bind_eq_ok h
    obtain ⟨sz, hsz, h⟩ := Except.bind_eq_ok h
    have hszv : sz = mt1.m_size := MemTable.size_eq_ok hsz
    subst hszv
    refine ⟨mt1, hadd, MemTable.add_table hadd, hsz, ?_⟩
    by_cases hc : mt1.m_size > s.m_config.memtable_size
    · rw [if_pos hc] at h
      obtain ⟨tree, htree, h⟩ := Except.bind_eq_ok h
      cases h
      have hd := htree
      unfold LSMTree.dump_memtable at hd
      obtain ⟨_, _, hd⟩ := Except.bind_eq_ok hd
      obtain ⟨sz2, hsz2, hd⟩ := Except.bind_eq_ok hd
      have hsz2v : sz2 = mt1.m_size := MemTable.size_eq_ok hsz2
      subst hsz2v
      have hne : ¬ mt1.m_size = 0 := by omega
      rw [if_neg hne] at hd
      obtain ⟨l0, hl0, hd⟩ := Except.bind_eq_ok hd
      cases hd
      refine ⟨fun _ => ⟨rfl, htree, hl0, rfl, ?_⟩, fun hle => absurd hc (by omega), rfl, ?_⟩
      · intro hS hfit
        obtain ⟨chunks, h1, _, h3, h4, _⟩ := Level0.dump_memtable_result hS hfit hl0
        exact ⟨chunks, h1, h3, h4⟩
      · exact Nat.zero_le _
    · rw [if_neg hc] at h
      cases h
      exact ⟨fun hgt => absurd hgt hc, fun _ => ⟨rfl, rfl⟩, hsz, by
        show mt1.m_size ≤ _
        omega⟩
  · intro s1 h
    unfold KVStore.remove at h
    obtain ⟨_, _, h⟩ := Except.bind_eq_ok h
    obtain ⟨_, _, h⟩ := Except.bind_eq_ok h
    obtain ⟨mt1, hadd, h⟩ := Except.bind_eq_ok h
    cases h
    have ht : mt1.m_table = (mapUpsert key.bytes [] s.m_memtable.m_table).1 :=
      MemTable.add_table hadd
    obtain ⟨k1, k2, k3⟩ := mapUpsert_keeps key.bytes [] s.m_memtable.m_table
    refine ⟨rfl, hadd, ht, ?_, ?_, ?_⟩
    · show (key.bytes, []) ∈ mt1.m_table
      rw [ht]; exact k1
    · show _ ≤ mt1.m_table.length
      rw [ht]; exact k2
    · intro e he hne
      show e ∈ mt1.m_table
      rw [ht]
      rcases k3 e he with h | h
      · exact h
      · exact absurd h.1 hne

/-- Witness of C31: `durableStore` (`memtable_size = 100`) keeps `a -> x`, `b -> y` in the
memtable after `add(a, x)`; `flushStore` (`memtable_size = 1`) dumps them to Level 0 and
empties the memtable; `remove(b)` on `durableStore` leaves `b -> ""` in the memtable. -/
theorem add_flush_rule_witness :
    durableStore.add keyA valX
      = .ok { durableStore with
              m_memtable := { m_table := [([97], [120]), ([98], [121])], m_size := 4 } } ∧
    flushStore.add keyA valX = .ok flushedStore ∧
    flushedStore.m_memtable.m_size ≤ flushStore.m_config.memtable_size ∧
    flushedStore.m_tree.m_levels = flushStore.m_tree.m_levels ∧
    durableStore.remove keyB
      = .ok { durableStore with m_memtable := { m_table := [([98], [])], m_size := 1 } } ∧
    (keyB.bytes, []) ∈ [(([98] : Bytes), ([] : Bytes))] :=
  have h1 : durableStore.add keyA valX
      = .ok { durableStore with
              m_memtable := { m_table := [([97], [120]), ([98], [121])], m_size := 4 } } := by
    decide
  have h2 : flushStore.add keyA valX = .ok flushedStore := by decide
  have h3 : durableStore.remove keyB
      = .ok { durableStore with m_memtable := { m_table := [([98], [])], m_size := 1 } } := by
    decide
  by
    obtain ⟨mt1, e, _, _, hgt, _, _, hle⟩ := (add_flush_rule flushStore keyA valX).1 _ h2
    have e2 : flushStore.m_memtable.add keyA valX
        = .ok { m_table := [([97], [120]), ([98], [121])], m_size := 4 } := by decide
    rw [e2] at e
    cases e
    exact ⟨h1, h2, hle, (hgt (by decide)).2.2.2.1, h3,
      ((add_flush_rule durableStore keyB valX).2 _ h3).2.2.2.1⟩

/-! ## The span of overlapping tables -/

theorem Buffer.min_cases (a b : Buffer) :
    (Buffer.min a b = a ∨ Buffer.min a b = b) ∧
    ¬ a.compare (Buffer.min a b) < 0 ∧ ¬ b.compare (Buffer.min a b) < 0 := by
  unfold Buffer.min
  by_cases h : a.lt b = true
  · rw [if_pos h]
    have h' : a.compare b < 0 := by simpa [Buffer.lt] using h
    exact ⟨Or.inl rfl, Buffer.compare_irrefl _, Buffer.compare_asymm h'⟩
  · rw [if_neg h]
    have h' : ¬ a.compare b < 0 := by simpa [Buffer.lt] using h
    exact ⟨Or.inr rfl, h', Buffer.compare_irrefl _⟩

theorem Buffer.max_cases (a b : Buffer) :
    (Buffer.max a b = a ∨ Buffer.max a b = b) ∧
    ¬ (Buffer.max a b).compare a < 0 ∧ ¬ (Buffer.max a b).compare b < 0 := by
  unfold Buffer.max
  by_cases h : a.gt b = true
  · rw [if_pos h]
    have h' : b.compare a < 0 := by
      rw [Buffer.compare_swap]
      simpa [Buffer.gt] using h
    exact ⟨Or.inl rfl, Buffer.compare_irrefl _, Buffer.compare_asymm h'⟩
  · rw [if_neg h]
    have h' : ¬ b.compare a < 0 := by
      rw [Buffer.compare_swap]
      simpa [Buffer.gt] using h
    exact ⟨Or.inr rfl, h', Buffer.compare_irrefl _⟩

/-- The overlap test of `merge_with` holds exactly when the two ranges share a key. -/
theorem overlap_test_iff (t : Table) (mn mx : Buffer) :
    (Buffer.min t.max_key mx).ge (Buffer.max t.min_key mn) = true ↔ t.SharesKey mn mx := by
  obtain ⟨hm, hm1, hm2⟩ := Buffer.min_cases t.max_key mx
  obtain ⟨hM, hM1, hM2⟩ := Buffer.max_cases t.min_key mn
  have hge : (Buffer.min t.max_key mx).ge (Buffer.max t.min_key mn) = true ↔
      ¬ (Buffer.min t.max_key mx).compare (Buffer.max t.min_key mn) < 0 := by
    simp only [Buffer.ge, decide_eq_true_eq]
    omega
  rw [hge]
  constructor
  · intro h
    exact ⟨Buffer.max t.min_key mn,
      ⟨hM1, Buffer.not_lt_of_not_lt_of_not_lt h hm1⟩, hM2,
      Buffer.not_lt_of_not_lt_of_not_lt h hm2⟩
  · rintro ⟨k, ⟨h1, h2⟩, h3, h4⟩
    have hMk : ¬ k.compare (Buffer.max t.min_key mn) < 0 := by
      rcases hM with e | e <;> rw [e]
      · exact h1
      · exact h3
    have hkm : ¬ (Buffer.min t.max_key mx).compare k < 0 := by
      rcases hm with e | e <;> rw [e]
      · exact h2
      · exact h4
    exact Buffer.not_lt_of_not_lt_of_not_lt hMk hkm

theorem chain_of_disjoint : ∀ (ts : List Table),
    (∀ t ∈ ts, ¬ t.max_key.compare t.min_key < 0) →
    ts.Pairwise (fun t t' => ¬ t'.min_key.compare t.min_key < 0) →
    ts.Pairwise (fun t t' => ¬ ∃ key, t.InRange key ∧ t'.InRange key) →
    ts.Pairwise (fun t t' => t.max_key.compare t'.min_key < 0) ∧
    ts.Pairwise (fun t t' => t.min_key.compare t'.min_key < 0) := by
  intro ts hwf hs hd
  have key : ∀ t ∈ ts, ∀ t' ∈ ts, ¬ t'.min_key.compare t.min_key < 0 →
      (¬ ∃ key, t.InRange key ∧ t'.InRange key) → t.max_key.compare t'.min_key < 0 ∧
        t.min_key.compare t'.min_key < 0 := by
    intro t ht t' ht' h1 h2
    have hlt : t.max_key.compare t'.min_key < 0 := by
      by_contra hc
      rcases Buffer.compare_trichotomy t.max_key t'.min_key with h | h | h
      · exact hc h
      · exact h2 ⟨t'.min_key, ⟨h1, by rw [h]; exact Buffer.compare_irrefl _⟩,
          ⟨Buffer.compare_irrefl _, hwf t' ht'⟩⟩
      · exact h2 ⟨t'.min_key, ⟨h1, hc⟩, ⟨Buffer.compare_irrefl _, hwf t' ht'⟩⟩
    refine ⟨hlt, ?_⟩
    rcases Buffer.lt_of_not_lt_of_lt (hwf t ht) hlt with h | h
    · exact h
    · rw [h]; exact hlt
  have hboth := hs.and hd
  constructor
  · exact (List.Pairwise.and_mem.1 hboth).imp (fun ⟨ha, hb, h1, h2⟩ => (key _ ha _ hb h1 h2).1)
  · exact (List.Pairwise.and_mem.1 hboth).imp (fun ⟨ha, hb, h1, h2⟩ => (key _ ha _ hb h1 h2).2)

theorem LevelN.overlapLoop_span (ts : List Table) (mn mx : Buffer)
    (hwf : ∀ t ∈ ts, ¬ t.max_key.compare t.min_key < 0)
    (hsorted : ts.Pairwise (fun t t' => ¬ t'.min_key.compare t.min_key < 0))
    (hdisj : ts.Pairwise (fun t t' => ¬ ∃ key, t.InRange key ∧ t'.InRange key)) :
    ∃ A O B : List Table, ts = A ++ (O ++ B) ∧
      (∀ t ∈ O, t.SharesKey mn mx) ∧ (∀ t ∈ A, ¬ t.SharesKey mn mx) ∧
      (∀ t ∈ B, ¬ t.SharesKey mn mx) ∧
      ∃ first last : Nat,
        LevelN.overlapLoop mn mx ts.length (ts.map some) 0 ts.length ts.length []
          = .ok (first, last, O.map some) ∧
        (O ≠ [] → first = A.length ∧ last = A.length + O.length - 1) ∧
        (O = [] → first = ts.length ∧ last = ts.length) ∧
        ∀ merged : table_list, ∃ A' B' : List Table,
          LevelN.replaceTables (ts.map some) first last merged
            = A'.map some ++ (merged ++ B'.map some) ∧
          A' ++ B' = A ++ B ∧ (O ≠ [] → A' = A ∧ B' = B) := by
  by_cases hmm : mx.compare mn < 0
  · have hno : ∀ t ∈ ts, ¬ t.SharesKey mn mx := by
      rintro t _ ⟨k, _, h3, h4⟩
      exact Buffer.not_lt_of_not_lt_of_not_lt h3 h4 hmm
    have hf : ∀ t ∈ ts, (Buffer.min t.max_key mx).ge (Buffer.max t.min_key mn) = false := by
      intro t ht
      rw [← Bool.not_eq_true, overlap_test_iff]
      exact hno t ht
    refine ⟨ts, [], [], by simp, by simp, hno, by simp, ts.length, ts.length, ?_,
      fun h => absurd rfl h, fun _ => ⟨rfl, rfl⟩, ?_⟩
    · have := LevelN.overlapLoop_skip mn mx ts.length ts [] hf 0 ts.length ts.length []
      rw [List.append_nil] at this
      rw [this]
      rfl
    · intro merged
      refine ⟨ts, [], ?_, rfl, fun h => absurd rfl h⟩
      have := LevelN.replaceTables_none (ts.map some) merged
      rw [List.length_map] at this
      rw [this]
      simp
  · obtain ⟨hchain, hstrict⟩ := chain_of_disjoint ts hwf hsorted hdisj
    obtain ⟨A, O, B, hts, hA, hO, hB⟩ := split_by_range mn mx ts hwf hchain hstrict
    have hwf' : ∀ t ∈ A ++ (O ++ B), ¬ t.max_key.compare t.min_key < 0 := by
      rw [← hts]; exact hwf
    have hloop := LevelN.overlapLoop_sorted mn mx A O B hmm hwf' hA hO hB
    rw [← hts] at hloop
    have hOs : ∀ t ∈ O, t.SharesKey mn mx := by
      intro t ht
      rw [← overlap_test_iff, overlaps_iff _ _ _ _ (hwf' t (by simp [ht])) hmm]
      exact hO t ht
    have hAs : ∀ t ∈ A, ¬ t.SharesKey mn mx := by
      intro t ht
      rw [← overlap_test_iff, overlaps_iff _ _ _ _ (hwf' t (by simp [ht])) hmm]
      exact fun h => h.1 (hA t ht)
    have hBs : ∀ t ∈ B, ¬ t.SharesKey mn mx := by
      intro t ht
      rw [← overlap_test_iff, overlaps_iff _ _ _ _ (hwf' t (by simp [ht])) hmm]
      exact fun h => h.2 (hB t ht).2
    by_cases hOe : O = []
    · rw [if_pos hOe] at hloop
      refine ⟨A, O, B, hts, hOs, hAs, hBs, ts.length, ts.length, ?_,
        fun h => absurd hOe h, fun _ => ⟨rfl, rfl⟩, ?_⟩
      · rw [hloop, hOe]; rfl
      · intro merged
        refine ⟨ts, [], ?_, ?_, fun h => absurd hOe h⟩
        · have := LevelN.replaceTables_none (ts.map some) merged
          rw [List.length_map] at this
          rw [this]
          simp
        · rw [hts, hOe]; simp
    · rw [if_neg hOe] at hloop
      refine ⟨A, O, B, hts, hOs, hAs, hBs, A.length, A.length + O.length - 1, hloop,
        fun _ => ⟨rfl, rfl⟩, fun h => absurd h hOe, ?_⟩
      intro merged
      refine ⟨A, B, ?_, rfl, fun _ => ⟨rfl, rfl⟩⟩
      have := LevelN.replaceTables_overlap (A.map some) (O.map some) (B.map some) merged
        (by simpa using hOe)
      simp only [List.length_map] at this
      rw [hts, List.map_append, List.map_append, this]

/-- C33: let the tables `ts` of a Level N have non-empty key ranges, be sorted by
`min_key` and be pairwise disjoint. For every range `[mn, mx]` the list splits as
`A ++ O ++ B`, where `O` holds exactly the tables whose key range shares a key with
`[mn, mx]`; the overlap loop of `merge_with` selects `O`, which occupies the consecutive
positions `first..last`; and replacing the span by the merged tables leaves the tables
of `A` and `B`, unchanged and in the same order, around the merged tables. Both
`merge_with(Level0)` and `merge_with(LevelN)` do this with the key range of their
snapshot. -/
theorem overlap_span (ts : List Table)
    (hwf : ∀ t ∈ ts, ¬ t.max_key.compare t.min_key < 0)
    (hsorted : ts.Pairwise (fun t t' => ¬ t'.min_key.compare t.min_key < 0))
    (hdisj : ts.Pairwise (fun t t' => ¬ ∃ key, t.InRange key ∧ t'.InRange key)) :
    (∀ mn mx : Buffer, ∃ A O B : List Table, ts = A ++ (O ++ B) ∧
      (∀ t ∈ O, t.SharesKey mn mx) ∧ (∀ t ∈ A, ¬ t.SharesKey mn mx) ∧
      (∀ t ∈ B, ¬ t.SharesKey mn mx) ∧
      ∃ first last : Nat,
        LevelN.overlapLoop mn mx ts.length (ts.map some) 0 ts.length ts.length []
          = .ok (first, last, O.map some) ∧
        (O ≠ [] → first = A.length ∧ last = A.length + O.length - 1) ∧
        (O = [] → first = ts.length ∧ last = ts.length) ∧
        ∀ merged : table_list, ∃ A' B' : List Table,
          LevelN.replaceTables (ts.map some) first last merged
            = A'.map some ++ (merged ++ B'.map some) ∧
          A' ++ B' = A ++ B ∧ (O ≠ [] → A' = A ∧ B' = B)) ∧
    (∀ self other a b : Level, self.m_tables = ts.map some →
      LevelN.merge_with_level0 self other = .ok (a, b) →
      ∃ (t0 : Table) (mn mx : Buffer) (A O B A' B' : List Table) (merged : table_list),
        LevelN.tableAt other.m_tables.reverse 0 = .ok t0 ∧
        LevelN.rangeLoop other.m_tables.reverse t0.min_key t0.max_key = .ok (mn, mx) ∧
        ts = A ++ (O ++ B) ∧ (∀ t ∈ O, t.SharesKey mn mx) ∧
        (∀ t ∈ A, ¬ t.SharesKey mn mx) ∧ (∀ t ∈ B, ¬ t.SharesKey mn mx) ∧
        TableBuilder.merge_tables (other.m_tables.reverse ++ O.map some) self.m_config
          = .ok merged ∧
        a.m_tables = A'.map some ++ (merged ++ B'.map some) ∧ A' ++ B' = A ++ B) ∧
    (∀ self other a b : Level, self.m_tables = ts.map some →
      LevelN.merge_with_levelN self other = .ok (a, b) →
      ∃ (t0 tlast : Table) (A O B A' B' : List Table) (merged : table_list),
        LevelN.tableAt other.m_tables 0 = .ok t0 ∧
        LevelN.tableAt other.m_tables (other.m_tables.length - 1) = .ok tlast ∧
        ts = A ++ (O ++ B) ∧ (∀ t ∈ O, t.SharesKey t0.min_key tlast.max_key) ∧
        (∀ t ∈ A, ¬ t.SharesKey t0.min_key tlast.max_key) ∧
        (∀ t ∈ B, ¬ t.SharesKey t0.min_key tlast.max_key) ∧
        TableBuilder.merge_tables (other.m_tables ++ O.map some) self.m_config = .ok merged ∧
        a.m_tables = A'.map some ++ (merged ++ B'.map some) ∧ A' ++ B' = A ++ B) := by
  refine ⟨fun mn mx => LevelN.overlapLoop_span ts mn mx hwf hsorted hdisj, ?_, ?_⟩
  · intro self other a b hself h
    unfold LevelN.merge_with_level0 at h
    obtain ⟨t0, ht0, h⟩ := Except.bind_eq_ok h
    obtain ⟨⟨mn, mx⟩, hrange, h⟩ := Except.bind_eq_ok h
    obtain ⟨⟨first, last, ov⟩, hov, h⟩ := Except.bind_eq_ok h
    obtain ⟨merged, hmerged, h⟩ := Except.bind_eq_ok h
    cases h
    obtain ⟨A, O, B, hts, hO, hA, hB, f, l, hloop, _, _, hrep⟩ :=
      LevelN.overlapLoop_span ts mn mx hwf hsorted hdisj
    rw [hself, List.length_map, hloop] at hov
    cases hov
    obtain ⟨A', B', hr, hab, _⟩ := hrep merged
    refine ⟨t0, mn, mx, A, O, B, A', B', merged, ht0, hrange, hts, hO, hA, hB, hmerged, ?_, hab⟩
    show LevelN.replaceTables self.m_tables _ _ _ = _
    rw [hself]
    exact hr
  · intro self other a b hself h
    unfold LevelN.merge_with_levelN at h
    obtain ⟨t0, ht0, h⟩ := Except.bind_eq_ok h
    obtain ⟨tlast, htlast, h⟩ := Except.bind_eq_ok h
    obtain ⟨⟨first, last, ov⟩, hov, h⟩ := Except.bind_eq_ok h
    obtain ⟨merged, hmerged, h⟩ := Except.bind_eq_ok h
    cases h
    obtain ⟨A, O, B, hts, hO, hA, hB, f, l, hloop, _, _, hrep⟩ :=
      LevelN.overlapLoop_span ts t0.min_key tlast.max_key hwf hsorted hdisj
    rw [hself, List.length_map, hloop] at hov
    cases hov
    obtain ⟨A', B', hr, hab, _⟩ := hrep merged
    refine ⟨t0, tlast, A, O, B, A', B', merged, ht0, htlast, hts, hO, hA, hB, hmerged, ?_, hab⟩
    show LevelN.replaceTables self.m_tables _ _ _ = _
    rw [hself]
    exact hr

/-- Witness of C33: the level with the tables `[a -> x, b -> y]` and `[c -> z]` and the
range `[b, b]`: the key ranges are non-empty, sorted and disjoint, and the tables split
around the span of the tables that share a key with `[b, b]`. -/
theorem overlap_span_witness :
    (∀ t ∈ [tableOf 32 [recA, recB], tableOf 32 [recC]],
      ¬ t.max_key.compare t.min_key < 0) ∧
    [tableOf 32 [recA, recB], tableOf 32 [recC]].Pairwise
      (fun t t' => ¬ t'.min_key.compare t.min_key < 0) ∧
    [tableOf 32 [recA, recB], tableOf 32 [recC]].Pairwise
      (fun t t' => ¬ ∃ key, t.InRange key ∧ t'.InRange key) ∧
    (tableOf 32 [recA, recB]).SharesKey keyB keyB ∧
    ∃ A O B : List Table, [tableOf 32 [recA, recB], tableOf 32 [recC]] = A ++ (O ++ B) ∧
      (∀ t ∈ O, t.SharesKey keyB keyB) ∧ (∀ t ∈ A, ¬ t.SharesKey keyB keyB) ∧
      (∀ t ∈ B, ¬ t.SharesKey keyB keyB) := by
  have h1 : ∀ t ∈ [tableOf 32 [recA, recB], tableOf 32 [recC]],
      ¬ t.max_key.compare t.min_key < 0 := by decide
  have h2 : [tableOf 32 [recA, recB], tableOf 32 [recC]].Pairwise
      (fun t t' => ¬ t'.min_key.compare t.min_key < 0) := by decide
  have h3 : [tableOf 32 [recA, recB], tableOf 32 [recC]].Pairwise
      (fun t t' => ¬ ∃ key, t.InRange key ∧ t'.InRange key) := by
    refine List.Pairwise.cons ?_ (List.Pairwise.cons (by simp) List.Pairwise.nil)
    intro t' ht'
    rw [List.mem_singleton] at ht'
    subst ht'
    rintro ⟨k, ⟨_, h2⟩, ⟨h3, _⟩⟩
    exact Buffer.not_lt_of_not_lt_of_not_lt h3 h2 (by decide)
  obtain ⟨A, O, B, hts, hO, hA, hB, _⟩ :=
    (overlap_span [tableOf 32 [recA, recB], tableOf 32 [recC]] h1 h2 h3).1 keyB keyB
  exact ⟨h1, h2, h3, ⟨keyB, ⟨by decide, by decide⟩, by decide, by decide⟩, A, O, B, hts, hO,
    hA, hB⟩

/-! ## Tables that reach Level 0 during a merge -/

theorem Level0.dump_memtable_appends {l l1 : Level} {mt : MemTable}
    (h : Level0.dump_memtable l mt = .ok l1) :
    ∃ new : table_list, l1.m_tables = l.m_tables ++ new ∧ l1.m_config = l.m_config := by
  rw [Level0.dump_memtable_eq] at h
  obtain ⟨out, _, h⟩ := Except.bind_eq_ok h
  obtain ⟨fin, _, h⟩ := Except.bind_eq_ok h
  cases h
  exact ⟨_, rfl, rfl⟩

theorem Level0.dumpAll_appends : ∀ (mts : List MemTable) (l l1 : Level),
    Level0.dumpAll l mts = .ok l1 →
    ∃ later : table_list, l1.m_tables = l.m_tables ++ later ∧ l1.m_config = l.m_config ∧
      (mts = [] → later = [])
  | [], l, l1, h => by
    cases h
    exact ⟨[], by simp, rfl, fun _ => rfl⟩
  | mt :: rest, l, l1, h => by
    unfold Level0.dumpAll at h
    obtain ⟨l2, h2, h⟩ := Except.bind_eq_ok h
    obtain ⟨new, hn, hc⟩ := Level0.dump_memtable_appends h2
    obtain ⟨later, hl, hc2, _⟩ := Level0.dumpAll_appends rest l2 l1 h
    exact ⟨new ++ later, by rw [hl, hn, List.append_assoc], by rw [hc2, hc],
      fun hc => by cases hc⟩

theorem LevelN.merge_with_level0_phases (self other : Level) :
    LevelN.merge_with_level0_during self other [] = LevelN.merge_with_level0 self other := by
  unfold LevelN.merge_with_level0_during LevelN.merge_with_level0 LevelN.merge_snapshot
    LevelN.snapshot_level0 LevelN.publish_level0 Level0.dumpAll
  simp only [bind, Except.bind, pure, Except.pure]
  cases LevelN.tableAt other.m_tables.reverse 0 with
  | error e => rfl
  | ok t0 =>
    simp only []
    cases LevelN.rangeLoop other.m_tables.reverse t0.min_key t0.max_key with
    | error e => rfl
    | ok r =>
      obtain ⟨mn, mx⟩ := r
      simp only []
      cases LevelN.overlapLoop mn mx self.m_tables.length self.m_tables 0 self.m_tables.length
          self.m_tables.length [] with
      | error e => rfl
      | ok r =>
        obtain ⟨first, last, ov⟩ := r
        simp only []
        cases TableBuilder.merge_tables (other.m_tables.reverse ++ ov) self.m_config with
        | error e => rfl
        | ok merged => rfl

/-- C32: a run of `merge_with(Level0)` in which Level 0 held the tables
`other.m_tables` (`k` of them) at snapshot time and the dumps of `mts` appended the
tables `later` (`m` of them) before the publish step: after the publish step Level 0
holds exactly `later`, in insertion order, and the snapshotted tables are gone. With
nothing appended Level 0 is empty, and the run is the run of `merge_with`. -/
theorem publish_keeps_later_tables (self other : Level) (mts : List MemTable) :
    (∀ (other1 : Level) (later merged : table_list) (first last : Nat),
      other1.m_tables = other.m_tables ++ later →
      (LevelN.publish_level0 self other1 (LevelN.snapshot_level0 other).2 first last
        merged).2.m_tables = later) ∧
    (∀ a b : Level, LevelN.merge_with_level0_during self other mts = .ok (a, b) →
      ∃ (other1 : Level) (later : table_list),
        Level0.dumpAll other mts = .ok other1 ∧
        other1.m_tables = other.m_tables ++ later ∧
        b.m_tables = later ∧
        other1.m_tables.length = other.m_tables.length + b.m_tables.length ∧
        (mts = [] → b.m_tables = [])) ∧
    LevelN.merge_with_level0_during self other [] = LevelN.merge_with_level0 self other ∧
    (∀ a b : Level, LevelN.merge_with_level0 self other = .ok (a, b) → b.m_tables = []) := by
  have hpub : ∀ (other1 : Level) (later merged : table_list) (first last : Nat),
      other1.m_tables = other.m_tables ++ later →
      (LevelN.publish_level0 self other1 (LevelN.snapshot_level0 other).2 first last
        merged).2.m_tables = later := by
    intro other1 later merged first last h
    show other1.m_tables.drop other.m_tables.length = later
    rw [h, List.drop_left']
    rfl
  refine ⟨hpub, ?_, LevelN.merge_with_level0_phases self other, ?_⟩
  · intro a b h
    unfold LevelN.merge_with_level0_during at h
    obtain ⟨other1, hd, h⟩ := Except.bind_eq_ok h
    obtain ⟨⟨first, last, merged⟩, _, h⟩ := Except.bind_eq_ok h
    cases h
    obtain ⟨later, hl, _, hnil⟩ := Level0.dumpAll_appends mts other other1 hd
    have hb : List.drop (LevelN.snapshot_level0 other).2 other1.m_tables = later :=
      hpub other1 later merged first last hl
    refine ⟨other1, later, hd, hl, hb, ?_, ?_⟩
    · show _ = _ + (List.drop (LevelN.snapshot_level0 other).2 other1.m_tables).length
      rw [hb, hl, List.length_append]
    · intro hm
      show List.drop (LevelN.snapshot_level0 other).2 other1.m_tables = []
      rw [hb]
      exact hnil hm
  · intro a b h
    exact (LevelN.merge_with_level0_frame h).2.2

/-- Witness of C32: Level 1 holds `[c -> z]`, Level 0 holds `[a -> x]` at snapshot time
and the memtable `a -> x` is dumped before the publish step: Level 0 is left with the
table of that dump. -/
theorem publish_keeps_later_tables_witness :
    LevelN.merge_with_level0_during upperC lowerA [memA]
      = .ok ({ upperC with m_tables := [some (tableOf 32 [recC]), some (tableOf 32 [recA])] },
             { lowerA with m_tables := [some (tableOf 32 [recA])] }) ∧
    ∃ (other1 : Level) (later : table_list),
      Level0.dumpAll lowerA [memA] = .ok other1 ∧
      other1.m_tables = lowerA.m_tables ++ later ∧
      later = [some (tableOf 32 [recA])] := by
  have h : LevelN.merge_with_level0_during upperC lowerA [memA]
      = .ok ({ upperC with m_tables := [some (tableOf 32 [recC]), some (tableOf 32 [recA])] },
             { lowerA with m_tables := [some (tableOf 32 [recA])] }) := by
    decide
  obtain ⟨other1, later, h1, h2, h3, _⟩ :=
    (publish_keeps_later_tables upperC lowerA [memA]).2.1 _ _ h
  exact ⟨h, other1, later, h1, h2, h3.symm⟩

/-! ## The number of runs of the merge loop -/

theorem mergeLoopCount_fst : ∀ (fuel : Nat) (st : TableBuilder.MergeState),
    (TableBuilder.mergeLoopCount fuel st).map Prod.fst = TableBuilder.mergeLoop fuel st := by
  intro fuel
  induction fuel with
  | zero => intro st; rfl
  | succ fuel ih =>
    intro st
    cases hits : st.iterators with
    | nil => simp only [TableBuilder.mergeLoopCount, TableBuilder.mergeLoop, hits]; rfl
    | cons first others =>
      simp only [TableBuilder.mergeLoopCount, TableBuilder.mergeLoop, hits, bind, Except.bind]
      cases TableBuilder.mergeStep st first others with
      | error e => rfl
      | ok st1 =>
        simp only []
        rw [← ih st1]
        cases TableBuilder.mergeLoopCount fuel st1 with
        | error e => rfl
        | ok r => rfl

theorem mergeStep_iterators {st st1 : TableBuilder.MergeState} {first : Table × Nat}
    {others : List (Table × Nat)} {its : List (List KeyValue)}
    (hrep : List.Forall₂ IterRep (first :: others) its)
    (hstep : TableBuilder.mergeStep st first others = .ok st1) :
    ∃ (r : Nat) (item : KeyValue) (rest : List KeyValue), its[r]? = some (item :: rest) ∧
      List.Forall₂ IterRep st1.iterators (advance its r) := by
  obtain ⟨ifirst, iothers, item, rest, iterators', hits, hrem, hadv, heq⟩ :=
    mergeStep_eq st first others its hrep
  refine ⟨_, item, rest, by rw [hits]; exact hrem, ?_⟩
  rw [heq] at hstep
  split at hstep
  · cases hstep
    exact hadv
  · cases hroll : TableBuilder.addOrRoll st.builder st.result item with
    | error e => rw [hroll] at hstep; cases hstep
    | ok br =>
      rw [hroll] at hstep
      cases hstep
      exact hadv

/-- The loop body runs once per record of the inputs. -/
theorem mergeLoopCount_total : ∀ (fuel : Nat) (st st1 : TableBuilder.MergeState)
    (its : List (List KeyValue)) (n : Nat), List.Forall₂ IterRep st.iterators its →
    TableBuilder.mergeLoopCount fuel st = .ok (st1, n) →
    n = totalRecords its ∧ st1.iterators = [] := by
  intro fuel
  induction fuel with
  | zero => intro st st1 its n _ h; cases h
  | succ fuel ih =>
    intro st st1 its n hrep h
    cases hits : st.iterators with
    | nil =>
      rw [hits] at hrep
      cases hrep
      simp only [TableBuilder.mergeLoopCount, hits, pure, Except.pure] at h
      cases h
      exact ⟨rfl, hits⟩
    | cons first others =>
      rw [hits] at hrep
      simp only [TableBuilder.mergeLoopCount, hits] at h
      obtain ⟨st2, hstep, h⟩ := Except.bind_eq_ok h
      obtain ⟨⟨st3, m⟩, hrec, h⟩ := Except.bind_eq_ok h
      cases h
      obtain ⟨r, item, rest, hrem, hadv⟩ := mergeStep_iterators hrep hstep
      obtain ⟨hm, hend⟩ := ih st2 st3 (advance its r) m hadv hrec
      have htot := advance_total its r item rest hrem
      exact ⟨by omega, hend⟩

theorem mergeStream_mem : ∀ (fuel : Nat) (its : List (List KeyValue)) (last : Buffer),
    (∀ rem ∈ its, rem ≠ []) →
    ∀ x ∈ mergeStream fuel its last, ∃ rem ∈ its, x ∈ rem := by
  intro fuel
  induction fuel with
  | zero => intro its last _ x hx; simp [mergeStream] at hx
  | succ fuel ih =>
    intro its last hne x hx
    cases its with
    | nil => simp [mergeStream] at hx
    | cons first others =>
      simp only [mergeStream] at hx
      generalize hidx : minIndex (others.map headKey) 1 0 (headKey first) = idx at hx
      cases hg : (first :: others).getD idx [] with
      | nil => rw [hg] at hx; simp at hx
      | cons item rest =>
        rw [hg] at hx
        have hin : item :: rest ∈ first :: others := by
          rw [List.getD_eq_getElem?_getD] at hg
          cases hq : (first :: others)[idx]? with
          | none => rw [hq] at hg; cases hg
          | some rem =>
            rw [hq] at hg
            simp only [Option.getD_some] at hg
            rw [← hg]
            exact mem_of_getElem? _ _ _ hq
        have hrec : ∀ l, x ∈ mergeStream fuel (advance (first :: others) idx) l →
            ∃ rem ∈ first :: others, x ∈ rem := by
          intro l hxl
          obtain ⟨rem', hrem', hx'⟩ := ih _ l
            (fun rem hr => (advance_sub _ idx hne rem hr).1) x hxl
          obtain ⟨_, rem, hrem, hsub⟩ := advance_sub _ idx hne rem' hrem'
          exact ⟨rem, hrem, hsub.subset hx'⟩
        simp only [] at hx
        split at hx
        · exact hrec _ hx
        · rcases List.mem_cons.mp hx with h | h
          · exact ⟨item :: rest, hin, by rw [h]; exact List.mem_cons_self _ _⟩
          · exact hrec _ h

theorem mergeStream_ne_nil (inputs : List (List KeyValue)) (hin : inputs ≠ [])
    (hne : ∀ rs ∈ inputs, rs ≠ []) (hkeys : ∀ rs ∈ inputs, ∀ r ∈ rs, r.key.size ≠ 0) :
    mergeStream (totalRecords inputs + 1) inputs Buffer.empty ≠ [] := by
  cases inputs with
  | nil => exact absurd rfl hin
  | cons first others =>
    have hmin : IsFirstMin ((first :: others).map headKey)
        (minIndex (others.map headKey) 1 0 (headKey first)) := by
      rw [List.map_cons]; exact minIndex_isFirstMin _ _
    obtain ⟨rem, hrem⟩ := exists_getElem? (first :: others)
      (minIndex (others.map headKey) 1 0 (headKey first)) (by
        have := hmin.1; rw [List.length_map] at this; exact this)
    have hmem := mem_of_getElem? _ _ _ hrem
    cases rem with
    | nil => exact absurd rfl (hne _ hmem)
    | cons item rest =>
      have hget : (first :: others).getD
          (minIndex (others.map headKey) 1 0 (headKey first)) [] = item :: rest := by
        rw [List.getD_eq_getElem?_getD, hrem]; rfl
      have hk : item.key ≠ Buffer.empty :=
        Buffer.size_ne_zero_ne_empty (hkeys _ hmem item (List.mem_cons_self _ _))
      simp only [mergeStream, hget, if_neg hk]
      exact List.cons_ne_nil _ _

/-- The loop of `merge_tables` returns within its budget when the 32-bit sum of the
size test cannot wrap and the records fit a fresh output table. -/
theorem mergeLoop_returns {tables : table_list} {inputs : List (List KeyValue)}
    (hT : TablesHold tables inputs) (config : LevelConfig)
    (hS : config.table_size + 131074 < U32)
    (hfit : ∀ rs ∈ inputs, ∀ r ∈ rs, fits config.table_size r) :
    ∃ (iterators : List (Table × Nat)) (st : TableBuilder.MergeState),
      TableBuilder.openIterators tables = .ok iterators ∧
      List.Forall₂ IterRep iterators inputs ∧
      (iterators.map (fun it => it.1.m_num_entries)).sum = totalRecords inputs ∧
      TableBuilder.mergeLoopCount ((iterators.map (fun it => it.1.m_num_entries)).sum + 1)
        { builder := TableBuilder.new config.table_size, result := [],
          last_added_key := Buffer.empty, iterators := iterators }
        = .ok (st, totalRecords inputs) ∧
      st.iterators = [] ∧
      (tables ≠ [] → ∃ result, TableBuilder.merge_tables tables config = .ok result) := by
  obtain ⟨hne, hkeys⟩ := hT.facts
  obtain ⟨iterators, hopen, hrep, hsum⟩ := openIterators_eq hT
  have hall : ∀ r ∈ mergeStream (totalRecords inputs + 1) inputs Buffer.empty,
      fits config.table_size r ∧ r.key.size ≠ 0 := by
    intro r hr
    obtain ⟨rs, hrs, hrrs⟩ := mergeStream_mem _ inputs _ hne r hr
    exact ⟨hfit rs hrs r hrrs, hkeys rs hrs r hrrs⟩
  obtain ⟨b', res', cur', hemit, hholds, hinv, hcur⟩ :=
    emitAll_total hS _ (TableBuilder.new config.table_size) [] [] (TableBuilder.new_holds _)
      (Or.inl rfl) hall
  have hloop := mergeLoop_eq (totalRecords inputs + 1)
    { builder := TableBuilder.new config.table_size, result := [],
      last_added_key := Buffer.empty, iterators := iterators } inputs hrep (by omega)
  simp only [] at hloop
  rw [hemit, ← mergeLoopCount_fst] at hloop
  cases hc : TableBuilder.mergeLoopCount (totalRecords inputs + 1)
      { builder := TableBuilder.new config.table_size, result := [],
        last_added_key := Buffer.empty, iterators := iterators } with
  | error e => rw [hc] at hloop; cases hloop
  | ok r =>
    obtain ⟨st, n⟩ := r
    obtain ⟨hn, hend⟩ := mergeLoopCount_total _ _ st inputs n hrep hc
    subst hn
    refine ⟨iterators, st, hopen, hrep, hsum, by rw [hsum]; exact hc, hend, ?_⟩
    intro hne'
    have hin : inputs ≠ [] := by
      intro h
      subst h
      cases hT
      exact hne' rfl
    have hS' : config.table_size < U32 := by omega
    have hcn : cur' ≠ [] := hcur (Or.inr (mergeStream_ne_nil inputs hin hne hkeys))
    have hbe : b' = builderOf config.table_size cur' := by
      rcases hholds.2.2 with ⟨_, hc⟩ | hbe
      · exact absurd hc hcn
      · exact hbe
    have hroom : 4 * cur'.length + 4 ≤ config.table_size - encLen cur' := by
      rcases hinv with h | h
      · exact absurd h hcn
      · omega
    refine ⟨res' ++ [some (tableOf config.table_size cur')], ?_⟩
    rw [merge_tables_eq hT config, hemit]
    simp only [bind, Except.bind]
    rw [hbe, TableBuilder.finalize_builderOf _ cur' hS' hholds.2.1 hcn, if_pos hroom]
    rfl

theorem byteSize_le_encLen (rs : List KeyValue) (r : KeyValue) (h : r ∈ rs) :
    r.byteSize ≤ encLen rs := by
  induction rs with
  | nil => simp at h
  | cons a rs ih =>
    rw [encLen_cons]
    rcases List.mem_cons.mp h with h | h
    · subst h; omega
    · have := ih h; omega

/-- A table that a builder of table size `S` finalizes is well formed, and each of its
records fits a fresh table of size `S`, when the 32-bit sum of the size test cannot
wrap. -/
theorem finalized_holds_fits {S : Nat} (hS : S + 131074 < U32) {rs acc : List KeyValue}
    {b b' : TableBuilder} {t : Table}
    (hadd : TableBuilder.addMany (TableBuilder.new S) rs = .ok (b, acc))
    (hfin : b.finalize = .ok (b', some t)) :
    t.Holds acc ∧ ∀ r ∈ acc, fits S r := by
  have hS' : S < U32 := by omega
  have hh := TableBuilder.Holds.addMany_ok hS' rs (TableBuilder.new_holds S) hadd
  have hf := TableBuilder.Holds.addMany_fits hS rs (TableBuilder.new_holds S) (Or.inl rfl) hadd
  simp only [List.nil_append] at hh hf
  obtain ⟨hne, _, hholds⟩ := hh.finalize_some hS' hfin
  refine ⟨hholds, ?_⟩
  intro r hr
  have h1 := byteSize_le_encLen acc r hr
  have h2 : 0 < acc.length := List.length_pos.mpr hne
  rcases hf with hf | hf
  · exact absurd hf hne
  · show r.byteSize + 8 ≤ S
    omega

theorem forall₂_right_mem {α β : Type} {P : α → β → Prop} {l : List α} {bs : List β}
    (h : List.Forall₂ P l bs) : ∀ b ∈ bs, ∃ a ∈ l, P a b := by
  induction h with
  | nil => intro b hb; simp at hb
  | cons hab _ ih =>
    intro b hb
    rcases List.mem_cons.mp hb with hb | hb
    · subst hb
      exact ⟨_, List.mem_cons_self _ _, hab⟩
    · obtain ⟨a, ha, hp⟩ := ih b hb
      exact ⟨a, List.mem_cons_of_mem _ ha, hp⟩

theorem openIterators_fst : ∀ (tables : table_list) (iterators : List (Table × Nat)),
    TableBuilder.openIterators tables = .ok iterators →
    iterators.map (fun it => some it.1) = tables ∧ ∀ it ∈ iterators, it.2 = it.1.begin_
  | [], iterators, h => by
    cases h
    exact ⟨rfl, by simp⟩
  | tp :: rest, iterators, h => by
    unfold TableBuilder.openIterators at h
    obtain ⟨t, ht, h⟩ := Except.bind_eq_ok h
    obtain ⟨others, ho, h⟩ := Except.bind_eq_ok h
    cases h
    obtain ⟨h1, h2⟩ := openIterators_fst rest others ho
    cases tp with
    | none => cases ht
    | some t0 =>
      cases ht
      refine ⟨by simp [h1], ?_⟩
      intro it hit
      rcases List.mem_cons.mp hit with hit | hit
      · subst hit; rfl
      · exact h2 it hit

/-- An iterator that starts at `begin()` equals `end()` after exactly as many advances
as the table has entries. -/
theorem Table.Holds.iterate_end {t : Table} {rs : List KeyValue} (h : t.Holds rs) :
    ∀ j, j ≤ t.size → ((t.iter_next)^[j] t.begin_ = t.end_ ↔ j = t.size) := by
  have hsize : t.size = rs.length := h.num
  have hpos : ∀ j, j ≤ rs.length → (t.iter_next)^[j] t.begin_ = encLen (rs.take j) := by
    intro j
    induction j with
    | zero => intro _; rfl
    | succ j ih =>
      intro hj
      obtain ⟨r, hr⟩ := exists_getElem? rs j (by omega)
      rw [Function.iterate_succ_apply', ih (by omega), h.iter_next j r hr]
  intro j hj
  rw [hsize] at hj ⊢
  rw [hpos j hj, Table.end_, h.end_eq]
  constructor
  · intro he
    by_contra hne
    have := encLen_take_lt rs j (by omega)
    omega
  · intro he
    rw [he, List.take_length]

/-- One run of the loop body moves exactly one iterator, by one record, and removes it
when it has reached `end()`. -/
theorem mergeStep_moves_one {s s1 : TableBuilder.MergeState} {first : Table × Nat}
    {others : List (Table × Nat)} (h : TableBuilder.mergeStep s first others = .ok s1) :
    ∃ (i : Nat) (t : Table) (cur : Nat), (first :: others)[i]? = some (t, cur) ∧
      s1.iterators =
        if t.iter_next cur = t.end_ then
          ((first :: others).set i (t, t.iter_next cur)).eraseIdx i
        else (first :: others).set i (t, t.iter_next cur) := by
  have hsnd := findMin_snd others [first] 0 first (by simp)
  simp only [List.length_singleton, List.singleton_append] at hsnd
  unfold TableBuilder.mergeStep at h
  simp only [] at h
  refine ⟨(TableBuilder.findMin others 1 0 first).1, (TableBuilder.findMin others 1 0 first).2.1,
    (TableBuilder.findMin others 1 0 first).2.2, hsnd, ?_⟩
  split at h
  · obtain ⟨br, _, h⟩ := Except.bind_eq_ok h
    cases h
    rfl
  · cases h
    rfl

/-- C39: let every table of `tables` have been finalized by a builder whose table size
is at most `config.table_size`, with `config.table_size + 131074 < 2^32`. Then the loop
of `merge_tables` returns: every run of its body moves exactly one iterator by one
record and removes it when it equals `end()` of its table, an iterator that starts at
`begin()` equals `end()` after exactly `size()` advances, the body runs exactly as many
times as the inputs have entries, and the loop leaves no iterator. `merge_tables`
returns its result when `tables` is not empty. -/
theorem merge_loop_count (tables : table_list) (config : LevelConfig)
    (hS : config.table_size + 131074 < U32)
    (hfin : ∀ tp ∈ tables, ∃ (S : Nat) (rs acc : List KeyValue) (b b' : TableBuilder)
      (t : Table), S ≤ config.table_size ∧
      TableBuilder.addMany (TableBuilder.new S) rs = .ok (b, acc) ∧
      b.finalize = .ok (b', some t) ∧ tp = some t) :
    ∃ (iterators : List (Table × Nat)) (st : TableBuilder.MergeState),
      TableBuilder.openIterators tables = .ok iterators ∧
      iterators.map (fun it => some it.1) = tables ∧
      (∀ it ∈ iterators, it.2 = it.1.begin_) ∧
      TableBuilder.mergeLoopCount ((iterators.map (fun it => it.1.m_num_entries)).sum + 1)
        { builder := TableBuilder.new config.table_size, result := [],
          last_added_key := Buffer.empty, iterators := iterators }
        = .ok (st, (iterators.map (fun it => it.1.size)).sum) ∧
      TableBuilder.mergeLoop ((iterators.map (fun it => it.1.m_num_entries)).sum + 1)
        { builder := TableBuilder.new config.table_size, result := [],
          last_added_key := Buffer.empty, iterators := iterators } = .ok st ∧
      st.iterators = [] ∧
      (∀ it ∈ iterators, ∀ j, j ≤ it.1.size →
        ((it.1.iter_next)^[j] it.1.begin_ = it.1.end_ ↔ j = it.1.size)) ∧
      (∀ (s s1 : TableBuilder.MergeState) (first : Table × Nat)
          (others : List (Table × Nat)),
        TableBuilder.mergeStep s first others = .ok s1 →
        ∃ (i : Nat) (t : Table) (cur : Nat), (first :: others)[i]? = some (t, cur) ∧
          s1.iterators =
            if t.iter_next cur = t.end_ then
              ((first :: others).set i (t, t.iter_next cur)).eraseIdx i
            else (first :: others).set i (t, t.iter_next cur)) ∧
      (tables ≠ [] → ∃ result, TableBuilder.merge_tables tables config = .ok result) := by
  have hS' : config.table_size < U32 := by omega
  obtain ⟨inputs, hP⟩ := forall₂_of_forall_exists
    (fun (tp : TablePtr) (rs : List KeyValue) =>
      (∃ t, tp = some t ∧ Table.Holds t rs) ∧ ∀ r ∈ rs, fits config.table_size r) tables (by
      intro tp htp
      obtain ⟨S, rs, acc, b, b', t, hle, hadd, hf, he⟩ := hfin tp htp
      obtain ⟨hh, hfits⟩ := finalized_holds_fits (by omega) hadd hf
      refine ⟨acc, ⟨t, he, hh⟩, ?_⟩
      intro r hr
      have := hfits r hr
      unfold fits at this ⊢
      omega)
  have hT : TablesHold tables inputs := hP.imp (fun _ _ h => h.1)
  have hfit : ∀ rs ∈ inputs, ∀ r ∈ rs, fits config.table_size r := by
    intro rs hrs
    obtain ⟨_, _, h⟩ := forall₂_right_mem hP rs hrs
    exact h.2
  obtain ⟨iterators, st, hopen, hrep, hsum, hcount, hend, hres⟩ :=
    mergeLoop_returns hT config hS hfit
  obtain ⟨hfst, hbegin⟩ := openIterators_fst tables iterators hopen
  have hsize : (iterators.map (fun it => it.1.size)).sum = totalRecords inputs := hsum
  have hloop := mergeLoopCount_fst ((iterators.map (fun it => it.1.m_num_entries)).sum + 1)
    { builder := TableBuilder.new config.table_size, result := [],
      last_added_key := Buffer.empty, iterators := iterators }
  rw [hcount] at hloop
  refine ⟨iterators, st, hopen, hfst, hbegin, by rw [hsize]; exact hcount, hloop.symm, hend,
    ?_, fun s s1 first others h => mergeStep_moves_one h, hres⟩
  intro it hit j hj
  obtain ⟨rs, _, hr⟩ := forall₂_right_mem hrep.flip it hit
  obtain ⟨_, pre, hh, _⟩ := hr
  exact hh.iterate_end j hj

/-- Witness of C39: the tables `[a -> x, b -> y]` and `[c -> z]`, both finalized by a
builder of table size 32: the loop body runs three times. -/
theorem merge_loop_count_witness :
    sampleConfig.table_size + 131074 < U32 ∧
    TableBuilder.addMany (TableBuilder.new 32) [recA, recB]
      = .ok (builderOf 32 [recA, recB], [recA, recB]) ∧
    (builderOf 32 [recA, recB]).finalize
      = .ok (TableBuilder.new 32, some (tableOf 32 [recA, recB])) ∧
    TableBuilder.addMany (TableBuilder.new 32) [recC] = .ok (builderOf 32 [recC], [recC]) ∧
    (builderOf 32 [recC]).finalize = .ok (TableBuilder.new 32, some (tableOf 32 [recC])) ∧
    ∃ (iterators : List (Table × Nat)) (st : TableBuilder.MergeState),
      TableBuilder.openIterators [some (tableOf 32 [recA, recB]), some (tableOf 32 [recC])]
        = .ok iterators ∧
      iterators.map (fun it => some it.1)
        = [some (tableOf 32 [recA, recB]), some (tableOf 32 [recC])] ∧
      TableBuilder.mergeLoopCount ((iterators.map (fun it => it.1.m_num_entries)).sum + 1)
        { builder := TableBuilder.new sampleConfig.table_size, result := [],
          last_added_key := Buffer.empty, iterators := iterators }
        = .ok (st, (iterators.map (fun it => it.1.size)).sum) := by
  have h1 : TableBuilder.addMany (TableBuilder.new 32) [recA, recB]
      = .ok (builderOf 32 [recA, recB], [recA, recB]) := by decide
  have h2 : (builderOf 32 [recA, recB]).finalize
      = .ok (TableBuilder.new 32, some (tableOf 32 [recA, recB])) := by decide
  have h3 : TableBuilder.addMany (TableBuilder.new 32) [recC]
      = .ok (builderOf 32 [recC], [recC]) := by decide
  have h4 : (builderOf 32 [recC]).finalize
      = .ok (TableBuilder.new 32, some (tableOf 32 [recC])) := by decide
  obtain ⟨iterators, st, ho, hf, _, hc, _⟩ :=
    merge_loop_count [some (tableOf 32 [recA, recB]), some (tableOf 32 [recC])] sampleConfig
      (by decide) (by
        intro tp htp
        rcases List.mem_cons.mp htp with h | h
        · exact ⟨32, _, _, _, _, _, Nat.le_refl _, h1, h2, h⟩
        · rw [List.mem_singleton] at h
          exact ⟨32, _, _, _, _, _, Nat.le_refl _, h3, h4, h⟩)
  exact ⟨by decide, h1, h2, h3, h4, iterators, st, ho, hf, hc⟩

/-! ## The records of a level after a merge -/

theorem Level.mem_recs {l : Level} {r : KeyValue} :
    r ∈ l.recs ↔ ∃ t, some t ∈ l.m_tables ∧ r ∈ t.recs := by
  unfold Level.recs
  simp only [List.mem_flatten, List.mem_map, List.mem_filterMap, id]
  constructor
  · rintro ⟨rs, ⟨t, ⟨tp, htp, he⟩, ht⟩, hr⟩
    subst he
    exact ⟨t, htp, by rw [ht]; exact hr⟩
  · rintro ⟨t, ht, hr⟩
    exact ⟨t.recs, ⟨t, ⟨some t, ht, rfl⟩, rfl⟩, hr⟩

theorem all_some_eq_map {α : Type} {P : α → Prop} (l : List (Option α))
    (h : ∀ x ∈ l, ∃ t, x = some t ∧ P t) : ∃ ts : List α, l = ts.map some ∧ ∀ t ∈ ts, P t := by
  induction l with
  | nil => exact ⟨[], rfl, by simp⟩
  | cons x l ih =>
    obtain ⟨t, ht, hp⟩ := h x (List.mem_cons_self _ _)
    obtain ⟨ts, hts, hall⟩ := ih (fun y hy => h y (List.mem_cons_of_mem _ hy))
    refine ⟨t :: ts, by rw [ht, hts]; rfl, ?_⟩
    intro y hy
    rcases List.mem_cons.mp hy with hy | hy
    · subst hy; exact hp
    · exact hall y hy

theorem LevelN.overlapLoop_subset (mn mx : Buffer) (endIdx : Nat) :
    ∀ (ts : List Table) (i first last : Nat) (acc : table_list) (f l : Nat)
      (acc' : table_list),
      LevelN.overlapLoop mn mx endIdx (ts.map some) i first last acc = .ok (f, l, acc') →
      ∃ O : List Table, acc' = acc ++ O.map some ∧ ∀ t ∈ O, t ∈ ts := by
  intro ts
  induction ts with
  | nil =>
    intro i first last acc f l acc' h
    cases h
    exact ⟨[], by simp, by simp⟩
  | cons t ts ih =>
    intro i first last acc f l acc' h
    simp only [List.map_cons, LevelN.overlapLoop, deref, bind, Except.bind] at h
    split at h
    · obtain ⟨O, hO, hsub⟩ := ih _ _ _ _ _ _ _ h
      refine ⟨t :: O, by rw [hO]; simp, ?_⟩
      intro x hx
      rcases List.mem_cons.mp hx with hx | hx
      · subst hx; exact List.mem_cons_self _ _
      · exact List.mem_cons_of_mem _ (hsub x hx)
    · obtain ⟨O, hO, hsub⟩ := ih _ _ _ _ _ _ _ h
      exact ⟨O, hO, fun x hx => List.mem_cons_of_mem _ (hsub x hx)⟩

theorem LevelN.replaceTables_mem (m_tables merged : table_list) (first last : Nat) :
    ∀ x ∈ LevelN.replaceTables m_tables first last merged, x ∈ m_tables ∨ x ∈ merged := by
  intro x hx
  unfold LevelN.replaceTables at hx
  simp only [] at hx
  split at hx
  · rcases List.mem_append.mp hx with hx | hx
    · rcases List.mem_append.mp hx with hx | hx
      · have := List.mem_of_mem_take hx
        rcases List.mem_append.mp this with h | h
        · exact Or.inl (List.mem_of_mem_take h)
        · exact Or.inl (List.mem_of_mem_drop h)
      · exact Or.inr hx
    · have := List.mem_of_mem_drop hx
      rcases List.mem_append.mp this with h | h
      · exact Or.inl (List.mem_of_mem_take h)
      · exact Or.inl (List.mem_of_mem_drop h)
  · rcases List.mem_append.mp hx with hx | hx
    · rcases List.mem_append.mp hx with hx | hx
      · exact Or.inl (List.mem_of_mem_take hx)
      · exact Or.inr hx
    · exact Or.inl (List.mem_of_mem_drop hx)

/-- The tables that `merge_tables` makes of well-formed, ascending inputs are well
formed and ascending, and each of their records is a record of an input. -/
theorem merge_tables_good {S : Nat} (hS : S < U32) (vs : List Table) (config : LevelConfig)
    (hcfg : config.table_size = S) (hg : ∀ t ∈ vs, t.Good S) {merged : table_list}
    (hm : TableBuilder.merge_tables (vs.map some) config = .ok merged) :
    ∀ tp ∈ merged, ∃ t, tp = some t ∧ t.Good S ∧ ∀ r ∈ t.recs, ∃ v ∈ vs, r ∈ v.recs := by
  have hT := tablesHold_of_good vs hg
  have hasc : ∀ rs ∈ vs.map Table.recs, Ascending rs := by
    intro rs hrs
    obtain ⟨t, ht, he⟩ := List.mem_map.mp hrs
    rw [← he]; exact (hg t ht).2.1
  have hfit : ∀ rs ∈ vs.map Table.recs, ∀ r ∈ rs, fits config.table_size r := by
    intro rs hrs
    obtain ⟨t, ht, he⟩ := List.mem_map.mp hrs
    rw [← he, hcfg]; exact (hg t ht).2.2
  obtain ⟨chunks, hres, hholds, hflat⟩ :=
    merge_tables_result hT hasc config (by rw [hcfg]; exact hS) hfit hm
  obtain ⟨hne, hkeys⟩ := hT.facts
  obtain ⟨hsasc, _, hsmem⟩ := mergeStream_inputs _ hne hkeys hasc
  rw [← hflat] at hsasc hsmem
  intro tp htp
  rw [hres] at htp
  obtain ⟨c, hc, he⟩ := List.mem_map.mp htp
  have hh := hholds c hc
  rw [hcfg] at hh he
  have hrecs : (tableOf S c).recs = c := hh.recs_eq
  have hmemc : ∀ r ∈ c, ∃ v ∈ vs, r ∈ v.recs := by
    intro r hr
    obtain ⟨rs, hrs, hrrs⟩ := hsmem r (List.mem_flatten.mpr ⟨c, hc, hr⟩)
    obtain ⟨v, hv, hve⟩ := List.mem_map.mp hrs
    exact ⟨v, hv, by rw [hve]; exact hrrs⟩
  refine ⟨tableOf S c, he.symm, ⟨by rw [hrecs]; exact hh, by
    rw [hrecs]; exact Ascending.of_mem_flatten hsasc hc, ?_⟩, by rw [hrecs]; exact hmemc⟩
  rw [hrecs]
  intro r hr
  obtain ⟨v, hv, hrv⟩ := hmemc r hr
  exact (hg v hv).2.2 r hrv

/-- The common part of both `merge_with` members: the tables of the level after the
merge are well formed, and each of their records was a record of the level or of the
snapshot `us`. -/
theorem LevelN.merge_core {S : Nat} (hS : S < U32) (self : Level) (ts us : List Table)
    (mn mx : Buffer) (first last : Nat) (ov merged : table_list)
    (hts : self.m_tables = ts.map some) (hgt : ∀ t ∈ ts, t.Good S) (hgu : ∀ t ∈ us, t.Good S)
    (hcfg : self.m_config.table_size = S)
    (hov : LevelN.overlapLoop mn mx self.m_tables.length self.m_tables 0
      self.m_tables.length self.m_tables.length [] = .ok (first, last, ov))
    (hm : TableBuilder.merge_tables (us.map some ++ ov) self.m_config = .ok merged) :
    ∀ tp ∈ LevelN.replaceTables self.m_tables first last merged,
      ∃ t, tp = some t ∧ t.Good S ∧
        ∀ r ∈ t.recs, (∃ u ∈ us, r ∈ u.recs) ∨ (∃ t0 ∈ ts, r ∈ t0.recs) := by
  rw [hts] at hov
  obtain ⟨O, hO, hsub⟩ := LevelN.overlapLoop_subset mn mx _ ts _ _ _ _ _ _ _ hov
  rw [List.nil_append] at hO
  rw [hO, ← List.map_append] at hm
  have hgv : ∀ t ∈ us ++ O, t.Good S := by
    intro t ht
    rcases List.mem_append.mp ht with h | h
    · exact hgu t h
    · exact hgt t (hsub t h)
  have hmg := merge_tables_good hS (us ++ O) self.m_config hcfg hgv hm
  intro tp htp
  rcases LevelN.replaceTables_mem _ _ _ _ tp htp with h | h
  · rw [hts] at h
    obtain ⟨t, ht, he⟩ := List.mem_map.mp h
    exact ⟨t, he.symm, hgt t ht, fun r hr => Or.inr ⟨t, ht, hr⟩⟩
  · obtain ⟨t, he, hg, hr⟩ := hmg tp h
    refine ⟨t, he, hg, ?_⟩
    intro r hrt
    obtain ⟨v, hv, hrv⟩ := hr r hrt
    rcases List.mem_append.mp hv with hv | hv
    · exact Or.inl ⟨v, hv, hrv⟩
    · exact Or.inr ⟨v, hsub v hv, hrv⟩

theorem LevelGood.tables {S : Nat} {l : Level} (h : LevelGood S l) :
    ∃ ts : List Table, l.m_tables = ts.map some ∧ ∀ t ∈ ts, t.Good S :=
  all_some_eq_map l.m_tables h.2

theorem Level.mem_recs_map {l : Level} {ts : List Table} (h : l.m_tables = ts.map some)
    {r : KeyValue} : r ∈ l.recs ↔ ∃ t ∈ ts, r ∈ t.recs := by
  rw [Level.mem_recs, h]
  constructor
  · rintro ⟨t, ht, hr⟩
    obtain ⟨t', ht', he⟩ := List.mem_map.mp ht
    cases he
    exact ⟨t, ht', hr⟩
  · rintro ⟨t, ht, hr⟩
    exact ⟨t, List.mem_map.mpr ⟨t, ht, rfl⟩, hr⟩

/-- What both `merge_with` members leave: the merged-into level is well formed and each
of its records was a record of one of the two levels; the other level is empty. -/
theorem LevelN.merge_with_records {S : Nat} (hS : S < U32) {self other a b : Level}
    (hself : LevelGood S self) (hother : LevelGood S other)
    (h : LevelN.merge_with_level0 self other = .ok (a, b) ∨
      LevelN.merge_with_levelN self other = .ok (a, b)) :
    LevelGood S a ∧ LevelGood S b ∧ b.m_tables = [] ∧
    a.m_config = self.m_config ∧ b.m_config = other.m_config ∧
    ∀ r ∈ a.recs, r ∈ other.recs ∨ r ∈ self.recs := by
  obtain ⟨ts, hts, hgt⟩ := hself.tables
  obtain ⟨us, hus, hgu⟩ := hother.tables
  have key : ∀ (first last : Nat) (merged : table_list),
      (∀ tp ∈ LevelN.replaceTables self.m_tables first last merged,
        ∃ t, tp = some t ∧ t.Good S ∧
          ∀ r ∈ t.recs, (∃ u ∈ us, r ∈ u.recs) ∨ (∃ t0 ∈ ts, r ∈ t0.recs)) →
      LevelGood S { self with m_tables := LevelN.replaceTables self.m_tables first last merged } ∧
      ∀ r ∈ Level.recs
          { self with m_tables := LevelN.replaceTables self.m_tables first last merged },
        r ∈ other.recs ∨ r ∈ self.recs := by
    intro first last merged hall
    refine ⟨⟨hself.1, fun tp htp => ?_⟩, ?_⟩
    · obtain ⟨t, he, hg, _⟩ := hall tp htp
      exact ⟨t, he, hg⟩
    · intro r hr
      obtain ⟨t, ht, hrt⟩ := Level.mem_recs.mp hr
      obtain ⟨t', he, _, hsub⟩ := hall _ ht
      cases he
      rcases hsub r hrt with h | h
      · exact Or.inl ((Level.mem_recs_map hus).mpr h)
      · exact Or.inr ((Level.mem_recs_map hts).mpr h)
  rcases h with h | h
  · have hfr := LevelN.merge_with_level0_frame h
    unfold LevelN.merge_with_level0 at h
    obtain ⟨t0, _, h⟩ := Except.bind_eq_ok h
    obtain ⟨⟨mn, mx⟩, _, h⟩ := Except.bind_eq_ok h
    obtain ⟨⟨first, last, ov⟩, hov, h⟩ := Except.bind_eq_ok h
    obtain ⟨merged, hm, h⟩ := Except.bind_eq_ok h
    cases h
    rw [hus, ← List.map_reverse] at hm
    have hall := LevelN.merge_core hS self ts us.reverse mn mx first last ov merged hts hgt
      (fun t ht => hgu t (List.mem_reverse.mp ht)) hself.1 hov hm
    have hall' : ∀ tp ∈ LevelN.replaceTables self.m_tables first last merged,
        ∃ t, tp = some t ∧ t.Good S ∧
          ∀ r ∈ t.recs, (∃ u ∈ us, r ∈ u.recs) ∨ (∃ t0 ∈ ts, r ∈ t0.recs) := by
      intro tp htp
      obtain ⟨t, he, hg, hr⟩ := hall tp htp
      refine ⟨t, he, hg, fun r hrt => ?_⟩
      rcases hr r hrt with ⟨u, hu, hru⟩ | h
      · exact Or.inl ⟨u, List.mem_reverse.mp hu, hru⟩
      · exact Or.inr h
    obtain ⟨k1, k2⟩ := key first last merged hall'
    exact ⟨k1, ⟨hother.1, by simp⟩, hfr.2.2, rfl, rfl, k2⟩
  · have hfr := LevelN.merge_with_levelN_frame h
    unfold LevelN.merge_with_levelN at h
    obtain ⟨t0, _, h⟩ := Except.bind_eq_ok h
    obtain ⟨tlast, _, h⟩ := Except.bind_eq_ok h
    obtain ⟨⟨first, last, ov⟩, hov, h⟩ := Except.bind_eq_ok h
    obtain ⟨merged, hm, h⟩ := Except.bind_eq_ok h
    cases h
    rw [hus] at hm
    have hall := LevelN.merge_core hS self ts us t0.min_key tlast.max_key first last ov merged
      hts hgt hgu hself.1 hov hm
    obtain ⟨k1, k2⟩ := key first last merged hall
    exact ⟨k1, ⟨hother.1, by simp⟩, rfl, rfl, rfl, k2⟩

/-! ## Flushes -/

/-- When the 32-bit sum of the size test cannot wrap, a dump that returns has only
handed over entries that fit a fresh table. -/
theorem dumpLoop_fits {S : Nat} (hS : S + 131074 < U32) (items : List (Bytes × Bytes)) :
    ∀ (b : TableBuilder) (res : table_list) (cur : List KeyValue) (b' : TableBuilder)
      (res' : table_list), b.Holds S cur →
      (cur = [] ∨ encLen cur + 4 * cur.length + 4 ≤ S) →
      Level0.dumpLoop b res items = .ok (b', res') → ∀ e ∈ items, fitsEntry S e := by
  have hS' : S < U32 := by omega
  induction items with
  | nil => intro b res cur b' res' _ _ _ e he; simp at he
  | cons item rest ih =>
    intro b res cur b' res' hb hinv hd
    unfold Level0.dumpLoop at hd
    obtain ⟨k, hk1, hd⟩ := Except.bind_eq_ok hd
    obtain ⟨v, hv1, hd⟩ := Except.bind_eq_ok hd
    obtain ⟨⟨b1, added⟩, hadd, hd⟩ := Except.bind_eq_ok hd
    have hkb := (Buffer.ofString_ok hk1).1
    have hvb := (Buffer.ofString_ok hv1).1
    have hitem : ∀ cur1 : List KeyValue,
        encLen (cur1 ++ [KeyValue.mk k v]) + 4 * (cur1 ++ [KeyValue.mk k v]).length + 4 ≤ S →
        fitsEntry S item := by
      intro cur1 h
      rw [encLen_append, encLen_cons, encLen_nil, List.length_append] at h
      simp only [KeyValue.byteSize, Buffer.total_size, Buffer.size, List.length_singleton,
        hkb, hvb] at h
      unfold fitsEntry
      omega
    cases added with
    | true =>
      simp only [Bool.not_true, Bool.false_eq_true, if_false] at hd
      have hfits := hb.add_fits hS hinv hadd
      simp only [if_true] at hfits
      have hb1 := (hb.add_ok hS' hadd).2
      simp only [if_true] at hb1
      have hrest := ih b1 res _ b' res' hb1 hfits hd
      have hle : encLen (cur ++ [KeyValue.mk k v])
          + 4 * (cur ++ [KeyValue.mk k v]).length + 4 ≤ S := by
        rcases hfits with h | h
        · simp at h
        · exact h
      intro e he
      rcases List.mem_cons.mp he with he | he
      · subst he; exact hitem cur hle
      · exact hrest e he
    | false =>
      simp only [Bool.not_false, if_true] at hd
      obtain ⟨⟨b2, t⟩, hfin, hd⟩ := Except.bind_eq_ok hd
      obtain ⟨⟨b3, r3⟩, hadd2, hd⟩ := Except.bind_eq_ok hd
      obtain ⟨_, hassert, hd⟩ := Except.bind_eq_ok hd
      have hr3 : r3 = true := by
        cases r3 with
        | true => rfl
        | false => cases hassert
      subst hr3
      have hb2 := TableBuilder.Holds.after_rejected hb hS' hadd hfin
      have hfits := hb2.add_fits hS (Or.inl rfl) hadd2
      simp only [if_true] at hfits
      have hb3 := (hb2.add_ok hS' hadd2).2
      simp only [if_true] at hb3
      have hrest := ih b3 _ _ b' res' hb3 hfits hd
      have hle : encLen ([] ++ [KeyValue.mk k v])
          + 4 * ([] ++ [KeyValue.mk k v]).length + 4 ≤ S := by
        rcases hfits with h | h
        · simp at h
        · exact h
      intro e he
      rcases List.mem_cons.mp he with he | he
      · subst he; exact hitem [] hle
      · exact hrest e he

theorem Ascending.disjoint_chunks (chunks : List (List KeyValue))
    (h : Ascending chunks.flatten) :
    chunks.Pairwise (fun a b => ∀ r ∈ a, ∀ r' ∈ b, r.key ≠ r'.key) := by
  have := (List.pairwise_flatten.mp h).2
  exact this.imp (fun hab r hr r' hr' => Buffer.compare_lt_ne (hab r hr r' hr'))

/-- What a flush that returns leaves in Level 0, when the memtable is in map order and
the 32-bit sum of the size test cannot wrap: the tables that Level 0 held, followed by
well-formed tables of consecutive pieces of the memtable, no two of which share a
key. -/
theorem Level0.dump_memtable_chunks {S : Nat} (hS : S + 131074 < U32) {l l1 : Level}
    {mt : MemTable} (hcfg : l.m_config.table_size = S) (hsorted : mt.Sorted)
    (hd : Level0.dump_memtable l mt = .ok l1) :
    ∃ chunks : List (List KeyValue),
      l1.m_tables = l.m_tables ++ chunks.map (fun c => some (tableOf S c)) ∧
      l1.m_config = l.m_config ∧
      (∀ c ∈ chunks, (tableOf S c).Good S ∧ (tableOf S c).recs = c ∧
        ∀ r ∈ c, r.pair ∈ mt.m_table) ∧
      chunks.Pairwise (fun a b => ∀ r ∈ a, ∀ r' ∈ b, r.key ≠ r'.key) := by
  have hS' : S < U32 := by omega
  have hfit : ∀ e ∈ mt.m_table, fitsEntry l.m_config.table_size e := by
    have hd2 := hd
    rw [Level0.dump_memtable_eq] at hd2
    obtain ⟨⟨b, res⟩, hloop, _⟩ := Except.bind_eq_ok hd2
    rw [hcfg] at hloop ⊢
    exact dumpLoop_fits hS mt.m_table _ _ [] _ _ (TableBuilder.new_holds S) (Or.inl rfl) hloop
  obtain ⟨chunks, h1, h2, h3, h4, h5⟩ :=
    Level0.dump_memtable_result (by rw [hcfg]; exact hS') hfit hd
  rw [hcfg] at h1 h3 h5
  have hasc : Ascending chunks.flatten := Ascending.of_sorted _ (by rw [h4]; exact hsorted)
  refine ⟨chunks, h1, h2, ?_, Ascending.disjoint_chunks chunks hasc⟩
  intro c hc
  have hh := h3 c hc
  have hrecs : (tableOf S c).recs = c := hh.recs_eq
  refine ⟨⟨by rw [hrecs]; exact hh, by rw [hrecs]; exact Ascending.of_mem_flatten hasc hc, ?_⟩,
    hrecs, ?_⟩
  · rw [hrecs]
    intro r hr
    exact (h5 r (List.mem_flatten.mpr ⟨c, hc, hr⟩)).1
  · intro r hr
    rw [← h4]
    exact List.mem_map.mpr ⟨r, List.mem_flatten.mpr ⟨c, hc, hr⟩, rfl⟩

/-! ## The order of the places of a key -/

theorem ComesFrom.extend {fl : List MemTable} {r : KeyValue} {n : Nat} (h : ComesFrom fl r n)
    (extra : List MemTable) : ComesFrom (fl ++ extra) r n := by
  obtain ⟨mt, hmt, hr⟩ := h
  have hlt := getElem?_lt_length _ _ _ hmt
  exact ⟨mt, by rw [List.getElem?_append_left hlt]; exact hmt, hr⟩

theorem ComesFrom.lt {fl : List MemTable} {r : KeyValue} {n : Nat} (h : ComesFrom fl r n) :
    n < fl.length := by
  obtain ⟨mt, hmt, _⟩ := h
  exact getElem?_lt_length _ _ _ hmt

theorem ComesFrom.last (fl : List MemTable) (mt : MemTable) {r : KeyValue}
    (h : r.pair ∈ mt.m_table) : ComesFrom (fl ++ [mt]) r fl.length :=
  ⟨mt, by simp, h⟩

theorem MoreRecent.extend_flushes {fl : List MemTable} {r r' : KeyValue} (h : MoreRecent fl r r')
    (extra : List MemTable) : MoreRecent (fl ++ extra) r r' := by
  obtain ⟨n, n', hlt, h1, h2⟩ := h
  exact ⟨n, n', hlt, h1.extend extra, h2.extend extra⟩

theorem Level.recs_nil {l : Level} (h : l.m_tables = []) : l.recs = [] := by
  unfold Level.recs
  rw [h]
  rfl

theorem pairwise_of_forall {α : Type} {R : α → α → Prop} (l : List α)
    (h : ∀ a ∈ l, ∀ b ∈ l, R a b) : l.Pairwise R := by
  induction l with
  | nil => exact List.Pairwise.nil
  | cons a l ih =>
    exact List.Pairwise.cons
      (fun b hb => h a (List.mem_cons_self _ _) b (List.mem_cons_of_mem _ hb))
      (ih (fun x hx y hy => h x (List.mem_cons_of_mem _ hx) y (List.mem_cons_of_mem _ hy)))

theorem TreeInv.more_flushes {S : Nat} {fl : List MemTable} {t : LSMTree} (h : TreeInv S fl t)
    (extra : List MemTable) : TreeInv S (fl ++ extra) t where
  running := h.running
  good := h.good
  origin := fun l hl r hr => by
    obtain ⟨n, hn⟩ := h.origin l hl r hr
    exact ⟨n, hn.extend extra⟩
  level0 := h.level0.imp (fun hab ta tb ha hb r hr r' hr' hk =>
    (hab ta tb ha hb r hr r' hr' hk).extend_flushes extra)
  levels := h.levels.imp (fun hab r hr r' hr' hk => (hab r hr r' hr' hk).extend_flushes extra)

/-- A flush keeps the order of the places: the new tables of Level 0 hold records of
the newest flush, no two of them share a key, and every other record of the tree comes
from an earlier flush. -/
theorem TreeInv.flush {S : Nat} (hS : S + 131074 < U32) {fl : List MemTable} {t t1 : LSMTree}
    {mt : MemTable} (h : TreeInv S fl t) (hsorted : mt.Sorted)
    (hd : t.dump_memtable mt = .ok t1) : TreeInv S (fl ++ [mt]) t1 := by
  unfold LSMTree.dump_memtable at hd
  obtain ⟨_, _, hd⟩ := Except.bind_eq_ok hd
  obtain ⟨sz, _, hd⟩ := Except.bind_eq_ok hd
  split at hd
  · cases hd
    exact h.more_flushes [mt]
  · obtain ⟨l0, hl0, hd⟩ := Except.bind_eq_ok hd
    cases hd
    have hg0 := h.good t.m_level0 (List.mem_cons_self _ _)
    obtain ⟨chunks, h1, h2, h3, h4⟩ := Level0.dump_memtable_chunks hS hg0.1 hsorted hl0
    have hnew : ∀ r ∈ l0.recs, r ∈ t.m_level0.recs ∨ ComesFrom (fl ++ [mt]) r fl.length := by
      intro r hr
      obtain ⟨tb, htb, hrt⟩ := Level.mem_recs.mp hr
      rw [h1] at htb
      rcases List.mem_append.mp htb with htb | htb
      · exact Or.inl (Level.mem_recs.mpr ⟨tb, htb, hrt⟩)
      · obtain ⟨c, hc, he⟩ := List.mem_map.mp htb
        cases he
        rw [(h3 c hc).2.1] at hrt
        exact Or.inr (ComesFrom.last fl mt ((h3 c hc).2.2 r hrt))
    have hold : ∀ l ∈ t.m_level0 :: t.m_levels, ∀ r' ∈ l.recs, ∀ r : KeyValue,
        ComesFrom (fl ++ [mt]) r fl.length → MoreRecent (fl ++ [mt]) r r' := by
      intro l hl r' hr' r hr
      obtain ⟨n', hn'⟩ := h.origin l hl r' hr'
      exact ⟨fl.length, n', hn'.lt, hr, hn'.extend [mt]⟩
    refine ⟨h.running, ?_, ?_, ?_, ?_⟩
    · intro l hl
      rcases List.mem_cons.mp hl with hl | hl
      · subst hl
        refine ⟨by rw [h2]; exact hg0.1, ?_⟩
        intro tp htp
        rw [h1] at htp
        rcases List.mem_append.mp htp with htp | htp
        · exact hg0.2 tp htp
        · obtain ⟨c, hc, he⟩ := List.mem_map.mp htp
          exact ⟨_, he.symm, (h3 c hc).1⟩
      · exact h.good l (List.mem_cons_of_mem _ hl)
    · intro l hl r hr
      rcases List.mem_cons.mp hl with hl | hl
      · subst hl
        rcases hnew r hr with h0 | h0
        · obtain ⟨n, hn⟩ := h.origin t.m_level0 (List.mem_cons_self _ _) r h0
          exact ⟨n, hn.extend [mt]⟩
        · exact ⟨_, h0⟩
      · obtain ⟨n, hn⟩ := h.origin l (List.mem_cons_of_mem _ hl) r hr
        exact ⟨n, hn.extend [mt]⟩
    · show l0.m_tables.Pairwise (TableNewer (fl ++ [mt]))
      rw [h1, List.pairwise_append]
      refine ⟨(h.more_flushes [mt]).level0, ?_, ?_⟩
      · rw [List.pairwise_map]
        refine (List.Pairwise.and_mem.1 h4).imp ?_
        intro a b hab ta tb ha hb r hr r' hr' hk
        exfalso
        cases ha
        cases hb
        rw [(h3 a hab.1).2.1] at hr
        rw [(h3 b hab.2.1).2.1] at hr'
        exact hab.2.2 r hr r' hr' hk
      · intro a ha b hb ta tb hta htb r hr r' hr' hk
        subst hta
        obtain ⟨c, hc, he⟩ := List.mem_map.mp hb
        rw [htb] at he
        cases he
        rw [(h3 c hc).2.1] at hr'
        exact hold t.m_level0 (List.mem_cons_self _ _) r (Level.mem_recs.mpr ⟨ta, ha, hr⟩) r'
          (ComesFrom.last fl mt ((h3 c hc).2.2 r' hr'))
    · show (l0 :: t.m_levels).Pairwise (LevelNewer (fl ++ [mt]))
      have hlv := (h.more_flushes [mt]).levels
      rw [List.pairwise_cons] at hlv ⊢
      refine ⟨?_, hlv.2⟩
      intro lb hlb r hr r' hr' hk
      rcases hnew r hr with h0 | h0
      · exact hlv.1 lb hlb r h0 r' hr' hk
      · exact hold lb (List.mem_cons_of_mem _ hlb) r' hr' r h0

/-- The cascade of `background_merger` keeps the levels well formed and in order of
recency, and every record that it leaves was a record of one of the levels. -/
theorem LSMTree.cascade_newer {S : Nat} (hS : S < U32) (fl : List MemTable) :
    ∀ (rest : List Level) (prev : Level) (ls : List Level),
      (∀ l ∈ prev :: rest, LevelGood S l) → (prev :: rest).Pairwise (LevelNewer fl) →
      LSMTree.cascade prev rest = .ok ls →
      (∀ l ∈ ls, LevelGood S l) ∧ ls.Pairwise (LevelNewer fl) ∧
      ∀ l ∈ ls, ∀ r ∈ l.recs, ∃ l0 ∈ prev :: rest, r ∈ l0.recs := by
  intro rest
  induction rest with
  | nil =>
    intro prev ls hg hp h
    cases h
    exact ⟨hg, hp, fun l hl r hr => ⟨l, hl, hr⟩⟩
  | cons curr rest ih =>
    intro prev ls hg hp h
    unfold LSMTree.cascade at h
    rw [List.pairwise_cons] at hp
    by_cases hn : prev.needs_merging = true
    · simp only [hn, Bool.not_true, Bool.false_eq_true, if_false] at h
      obtain ⟨⟨curr1, prev1⟩, hm, h⟩ := Except.bind_eq_ok h
      obtain ⟨tail, htail, h⟩ := Except.bind_eq_ok h
      cases h
      obtain ⟨hg1, hg2, hnil, _, _, hsub⟩ := LevelN.merge_with_records hS
        (hg curr (by simp)) (hg prev (by simp)) (Or.inr hm)
      have hp2 := hp.2
      rw [List.pairwise_cons] at hp2
      have hg' : ∀ l ∈ curr1 :: rest, LevelGood S l := by
        intro l hl
        rcases List.mem_cons.mp hl with hl | hl
        · subst hl; exact hg1
        · exact hg l (by simp [hl])
      have hp' : (curr1 :: rest).Pairwise (LevelNewer fl) := by
        rw [List.pairwise_cons]
        refine ⟨?_, hp2.2⟩
        intro l hl r hr r' hr' hk
        rcases hsub r hr with h0 | h0
        · exact hp.1 l (List.mem_cons_of_mem _ hl) r h0 r' hr' hk
        · exact hp2.1 l hl r h0 r' hr' hk
      obtain ⟨i1, i2, i3⟩ := ih curr1 tail hg' hp' htail
      have hrn : prev1.recs = [] := Level.recs_nil hnil
      refine ⟨?_, ?_, ?_⟩
      · intro l hl
        rcases List.mem_cons.mp hl with hl | hl
        · subst hl; exact hg2
        · exact i1 l hl
      · rw [List.pairwise_cons]
        refine ⟨?_, i2⟩
        intro l _ r hr
        rw [hrn] at hr
        simp at hr
      · intro l hl r hr
        rcases List.mem_cons.mp hl with hl | hl
        · subst hl
          rw [hrn] at hr
          simp at hr
        · obtain ⟨l0, hl0, hr0⟩ := i3 l hl r hr
          rcases List.mem_cons.mp hl0 with hl0 | hl0
          · subst hl0
            rcases hsub r hr0 with h0 | h0
            · exact ⟨prev, by simp, h0⟩
            · exact ⟨curr, by simp, h0⟩
          · exact ⟨l0, by simp [hl0], hr0⟩
    · simp only [hn, Bool.not_false, if_true] at h
      obtain ⟨tail, htail, h⟩ := Except.bind_eq_ok h
      cases h
      obtain ⟨i1, i2, i3⟩ := ih curr tail (fun l hl => hg l (List.mem_cons_of_mem _ hl)) hp.2
        htail
      refine ⟨?_, ?_, ?_⟩
      · intro l hl
        rcases List.mem_cons.mp hl with hl | hl
        · subst hl; exact hg _ (by simp)
        · exact i1 l hl
      · rw [List.pairwise_cons]
        refine ⟨?_, i2⟩
        intro l hl r hr r' hr' hk
        obtain ⟨l0, hl0, hr0⟩ := i3 l hl r' hr'
        exact hp.1 l0 hl0 r hr r' hr0 hk
      · intro l hl r hr
        rcases List.mem_cons.mp hl with hl | hl
        · subst hl; exact ⟨_, by simp, hr⟩
        · obtain ⟨l0, hl0, hr0⟩ := i3 l hl r hr
          exact ⟨l0, List.mem_cons_of_mem _ hl0, hr0⟩

/-- A pass of the background merger keeps the order of the places: records only move
to the next level, together with all the records of their level. -/
theorem TreeInv.pass {S : Nat} (hS : S < U32) {fl : List MemTable} {t t1 : LSMTree}
    (h : TreeInv S fl t) (hp : t.merger_pass = .ok t1) : TreeInv S fl t1 := by
  unfold LSMTree.merger_pass at hp
  simp only [h.running, Bool.false_eq_true, if_false] at hp
  by_cases hn : t.m_level0.needs_merging = true
  · simp only [hn, Bool.not_true, Bool.false_eq_true, if_false] at hp
    cases hl : t.m_levels with
    | nil => rw [hl] at hp; cases hp
    | cons level1 rest =>
      rw [hl] at hp
      obtain ⟨⟨a, b⟩, hm, hp⟩ := Except.bind_eq_ok hp
      obtain ⟨ls, hls, hp⟩ := Except.bind_eq_ok hp
      cases hp
      have hgood := h.good
      have horigin := h.origin
      have hlevels := h.levels
      rw [hl] at hgood horigin hlevels
      obtain ⟨hg1, hg2, hnil, _, _, hsub⟩ := LevelN.merge_with_records hS
        (hgood level1 (by simp)) (hgood t.m_level0 (by simp)) (Or.inl hm)
      rw [List.pairwise_cons] at hlevels
      have hp2 := hlevels.2
      rw [List.pairwise_cons] at hp2
      have hg' : ∀ l ∈ a :: rest, LevelGood S l := by
        intro l hl
        rcases List.mem_cons.mp hl with hl | hl
        · subst hl; exact hg1
        · exact hgood l (by simp [hl])
      have hp' : (a :: rest).Pairwise (LevelNewer fl) := by
        rw [List.pairwise_cons]
        refine ⟨?_, hp2.2⟩
        intro l hl r hr r' hr' hk
        rcases hsub r hr with h0 | h0
        · exact hlevels.1 l (List.mem_cons_of_mem _ hl) r h0 r' hr' hk
        · exact hp2.1 l hl r h0 r' hr' hk
      obtain ⟨i1, i2, i3⟩ := LSMTree.cascade_newer hS fl rest a ls hg' hp' hls
      have hrn : b.recs = [] := Level.recs_nil hnil
      refine ⟨rfl, ?_, ?_, ?_, ?_⟩
      · intro l hl
        rcases List.mem_cons.mp hl with hl | hl
        · subst hl; exact hg2
        · exact i1 l hl
      · intro l hl r hr
        rcases List.mem_cons.mp hl with hl | hl
        · subst hl
          rw [hrn] at hr
          simp at hr
        · obtain ⟨l0, hl0, hr0⟩ := i3 l hl r hr
          rcases List.mem_cons.mp hl0 with hl0 | hl0
          · subst hl0
            rcases hsub r hr0 with h0 | h0
            · exact horigin t.m_level0 (by simp) r h0
            · exact horigin level1 (by simp) r h0
          · exact horigin l0 (by simp [hl0]) r hr0
      · show b.m_tables.Pairwise (TableNewer fl)
        rw [hnil]
        exact List.Pairwise.nil
      · show (b :: ls).Pairwise (LevelNewer fl)
        rw [List.pairwise_cons]
        refine ⟨?_, i2⟩
        intro l _ r hr
        rw [hrn] at hr
        simp at hr
  · simp only [hn, Bool.not_false, if_true] at hp
    cases hp
    exact h

/-- Every state of a sequential run keeps the order of the places. -/
theorem TreeInv.run {S : Nat} (hS : S + 131074 < U32) : ∀ (es : List TreeEvent)
    (fl : List MemTable) (t t1 : LSMTree), TreeInv S fl t →
    (∀ mt ∈ TreeEvent.flushes es, mt.Sorted) → t.run es = .ok t1 →
    TreeInv S (fl ++ TreeEvent.flushes es) t1 := by
  intro es
  induction es with
  | nil =>
    intro fl t t1 h _ hr
    cases hr
    simpa [TreeEvent.flushes] using h
  | cons e es ih =>
    intro fl t t1 h hs hr
    unfold LSMTree.run at hr
    obtain ⟨t2, hstep, hrest⟩ := Except.bind_eq_ok hr
    clear hr
    cases e with
    | flush mt =>
      have h2 := h.flush hS (hs mt (by simp [TreeEvent.flushes])) hstep
      have := ih (fl ++ [mt]) t2 t1 h2
        (fun m hm => hs m (by simp [TreeEvent.flushes, hm])) hrest
      simpa [TreeEvent.flushes] using this
    | pass =>
      have h2 := h.pass (by omega) hstep
      exact ih fl t2 t1 h2 (fun m hm => hs m (by simpa [TreeEvent.flushes] using hm)) hrest

theorem Config.levelsLoop_table_size (name : List Char) (ts th : Nat) (ow : Bool) :
    ∀ (dirs : List (List Char)) (i t : Nat),
      ∀ c ∈ Config.levelsLoop name ts th ow dirs i t, c.table_size = ts := by
  intro dirs
  induction dirs with
  | nil => intro i t c hc; simp [Config.levelsLoop] at hc
  | cons d ds ih =>
    intro i t c hc
    simp only [Config.levelsLoop, List.mem_cons] at hc
    rcases hc with hc | hc
    · rw [hc]; rfl
    · exact ih _ _ c hc

/-- The tree that the constructor makes of a configuration of the `Config` constructor
is empty, and all its levels have the table size of the configuration. -/
theorem TreeInv.new {name path : List Char} {L ts th mem par : Nat} {ow : Bool}
    {config : Config} {t : LSMTree}
    (hc : Config.new name path L ts th mem par ow = .ok config)
    (ht : LSMTree.new config = .ok t) : TreeInv ts [] t := by
  obtain ⟨_, _, _, hcfg⟩ := Config.new_ok hc
  have hsize : ∀ c ∈ config.levels, c.table_size = ts := by
    rw [hcfg]
    exact Config.levelsLoop_table_size _ _ _ _ _ _ _
  unfold LSMTree.new at ht
  obtain ⟨_, _, ht⟩ := Except.bind_eq_ok ht
  cases hh : config.levels with
  | nil => rw [hh] at ht; cases ht
  | cons c0 tail =>
  rw [hh] at ht hsize
  simp only [List.head?_cons, List.tail_cons] at ht
  cases ht
  have hc0' : c0 ∈ c0 :: tail := List.mem_cons_self _ _
  have hall : ∀ l ∈ Level.new c0 :: tail.map Level.new,
      l.m_tables = [] ∧ l.m_config ∈ c0 :: tail := by
    intro l hl
    rcases List.mem_cons.mp hl with hl | hl
    · subst hl; exact ⟨rfl, hc0'⟩
    · obtain ⟨c, hc, he⟩ := List.mem_map.mp hl
      subst he
      exact ⟨rfl, List.mem_cons_of_mem _ hc⟩
  refine ⟨rfl, ?_, ?_, List.Pairwise.nil, ?_⟩
  · intro l hl
    obtain ⟨h1, h2⟩ := hall l hl
    exact ⟨hsize _ h2, by rw [h1]; simp⟩
  · intro l hl r hr
    rw [Level.recs_nil (hall l hl).1] at hr
    simp at hr
  · apply pairwise_of_forall
    intro a ha b _ r hr
    rw [Level.recs_nil (hall a ha).1] at hr
    simp at hr

/-- C37: take a tree made from a configuration of the `Config` constructor with
`table_size + 131074 < 2^32`, and a sequential run of flushes of memtables in map order
and of merger passes that returns. A record comes from flush `n` when the `n`-th
flushed memtable holds its key with its value. In the tree that the run leaves every
table is well formed and every record comes from a flush; when two tables of Level 0
hold a key, the record of the later-inserted table comes from a more recent flush; and
when two levels hold a key, the record of the lower-numbered level comes from a more
recent flush. When no entry is flushed twice, so that a record identifies its flush,
the flush of the one record is more recent than the flush of the other. -/
theorem newer_place_newer_flush (name path : List Char) (L ts th mem par : Nat) (ow : Bool)
    (config : Config) (es : List TreeEvent) (tree : LSMTree)
    (hc : Config.new name path L ts th mem par ow = .ok config)
    (hS : ts + 131074 < U32)
    (hmaps : ∀ mt ∈ TreeEvent.flushes es, mt.Sorted)
    (hrun : (LSMTree.new config >>= fun t => t.run es) = .ok tree) :
    (∀ l ∈ tree.m_level0 :: tree.m_levels, ∀ tp ∈ l.m_tables,
      ∃ t, tp = some t ∧ t.records = .ok t.recs) ∧
    (∀ l ∈ tree.m_level0 :: tree.m_levels, ∀ r ∈ l.recs,
      ∃ n, ComesFrom (TreeEvent.flushes es) r n) ∧
    (∀ (i j : Nat) (ta tb : Table), i < j →
      tree.m_level0.m_tables[i]? = some (some ta) →
      tree.m_level0.m_tables[j]? = some (some tb) →
      ∀ r ∈ ta.recs, ∀ r' ∈ tb.recs, r.key = r'.key →
        MoreRecent (TreeEvent.flushes es) r' r ∧
        (DistinctFlushes (TreeEvent.flushes es) → ∀ n n',
          ComesFrom (TreeEvent.flushes es) r n → ComesFrom (TreeEvent.flushes es) r' n' →
          n < n')) ∧
    (∀ (i j : Nat) (la lb : Level), i < j →
      (tree.m_level0 :: tree.m_levels)[i]? = some la →
      (tree.m_level0 :: tree.m_levels)[j]? = some lb →
      ∀ r ∈ la.recs, ∀ r' ∈ lb.recs, r.key = r'.key →
        MoreRecent (TreeEvent.flushes es) r r' ∧
        (DistinctFlushes (TreeEvent.flushes es) → ∀ n n',
          ComesFrom (TreeEvent.flushes es) r n → ComesFrom (TreeEvent.flushes es) r' n' →
          n' < n)) := by
  obtain ⟨t0, hnew, hrun⟩ := Except.bind_eq_ok hrun
  have hinv := TreeInv.run hS es [] t0 tree (TreeInv.new hc hnew) hmaps hrun
  rw [List.nil_append] at hinv
  have hcanon : ∀ r r' : KeyValue, MoreRecent (TreeEvent.flushes es) r r' →
      DistinctFlushes (TreeEvent.flushes es) → ∀ n n',
      ComesFrom (TreeEvent.flushes es) r n → ComesFrom (TreeEvent.flushes es) r' n' →
      n' < n := by
    intro r r' ⟨m, m', hlt, h1, h2⟩ hd n n' hn hn'
    rw [hd n m r hn h1, hd n' m' r' hn' h2]
    exact hlt
  refine ⟨?_, hinv.origin, ?_, ?_⟩
  · intro l hl tp htp
    obtain ⟨t, he, hg⟩ := (hinv.good l hl).2 tp htp
    exact ⟨t, he, hg.1.records_eq⟩
  · intro i j ta tb hij hi hj r hr r' hr' hk
    have h := pairwise_getElem? hinv.level0 hi hj hij ta tb rfl rfl r hr r' hr' hk
    exact ⟨h, fun hd n n' hn hn' => hcanon r' r h hd n' n hn' hn⟩
  · intro i j la lb hij hi hj r hr r' hr' hk
    have h := pairwise_getElem? hinv.levels hi hj hij r hr r' hr' hk
    exact ⟨h, fun hd n n' hn hn' => hcanon r r' h hd n n' hn hn'⟩

/-- Witness of C37: in the tree of `recencyRun`, Level 0 holds `a -> z` of flush 2 and
Level 1 holds `a -> y` of flush 1. -/
theorem newer_place_newer_flush_witness :
    Config.new ['d', 'b'] ['/', 't', 'm', 'p'] 3 32 1 100 1 false = .ok durableConfig ∧
    (∀ mt ∈ TreeEvent.flushes recencyRun, mt.Sorted) ∧
    (LSMTree.new durableConfig >>= fun t => t.run recencyRun) = .ok recencyTree ∧
    recA3 ∈ recencyTree.m_level0.recs ∧
    (∀ l ∈ recencyTree.m_levels.head?, recA2 ∈ l.recs) ∧
    MoreRecent (TreeEvent.flushes recencyRun) recA3 recA2 := by
  have h1 : Config.new ['d', 'b'] ['/', 't', 'm', 'p'] 3 32 1 100 1 false
      = .ok durableConfig := by
    decide
  have h2 : ∀ mt ∈ TreeEvent.flushes recencyRun, mt.Sorted := by
    intro mt hmt
    simp only [recencyRun, TreeEvent.flushes, List.mem_cons, List.mem_singleton,
      List.not_mem_nil, or_false] at hmt
    rcases hmt with h | h | h <;> subst h <;> exact List.pairwise_singleton _ _
  have h3 : (LSMTree.new durableConfig >>= fun t => t.run recencyRun) = .ok recencyTree := by
    decide
  have hholds3 : (tableOf 32 [recA3]).Holds [recA3] :=
    tableOf_holds 32 _ (by decide) (by simp) (by decide) (by decide)
  have hholds2 : (tableOf 32 [recA2]).Holds [recA2] :=
    tableOf_holds 32 _ (by decide) (by simp) (by decide) (by decide)
  have h4 : recA3 ∈ recencyTree.m_level0.recs :=
    Level.mem_recs.mpr ⟨tableOf 32 [recA3], List.mem_singleton.mpr rfl, by
      rw [hholds3.recs_eq]; exact List.mem_singleton.mpr rfl⟩
  have h5 : recA2 ∈ Level.recs
      { m_config := LevelConfig.new ['/', 't', 'm', 'p'] ['d', 'b'] 1 32 1 false
        m_tables := [some (tableOf 32 [recA2])] } :=
    Level.mem_recs.mpr ⟨tableOf 32 [recA2], List.mem_singleton.mpr rfl, by
      rw [hholds2.recs_eq]; exact List.mem_singleton.mpr rfl⟩
  refine ⟨h1, h2, h3, h4, ?_, ?_⟩
  · intro l hl
    cases hl
    exact h5
  · exact ((newer_place_newer_flush _ _ _ _ _ _ _ _ _ recencyRun recencyTree h1 (by decide) h2
      h3).2.2.2 0 1 _ _ (by decide) rfl rfl recA3 h4 recA2 h5 rfl).1

/-- The tree of a store is terminated exactly when the store has been destroyed: the
constructor establishes this, and `add`, `remove`, `destroy` and the passes of the
merger keep it. -/
theorem KVStore.tree_runs_iff_live (s s1 : KVStore) (config : Config) (key value : Buffer) :
    (KVStore.new config = .ok s1 → s1.m_tree.m_terminate_merge = s1.m_destroyed) ∧
    (s.m_tree.m_terminate_merge = s.m_destroyed →
      (s.add key value = .ok s1 ∨ s.remove key = .ok s1 ∨ s.destroy = .ok s1 ∨
        s.merger_pass = .ok s1) →
      s1.m_tree.m_terminate_merge = s1.m_destroyed) := by
  have hdump : ∀ (t t1 : LSMTree) (mt : MemTable), t.dump_memtable mt = .ok t1 →
      t1.m_terminate_merge = t.m_terminate_merge := by
    intro t t1 mt h
    unfold LSMTree.dump_memtable at h
    obtain ⟨_, _, h⟩ := Except.bind_eq_ok h
    obtain ⟨_, _, h⟩ := Except.bind_eq_ok h
    split at h
    · cases h; rfl
    · obtain ⟨_, _, h⟩ := Except.bind_eq_ok h
      cases h
      rfl
  have hlive : ∀ s0 : KVStore, assert (!s0.m_destroyed) = .ok () → s0.m_destroyed = false := by
    intro s0 h
    cases hd : s0.m_destroyed with
    | false => rfl
    | true => rw [hd] at h; cases h
  constructor
  · intro h
    unfold KVStore.new LSMTree.new at h
    obtain ⟨t, ht, h⟩ := Except.bind_eq_ok h
    cases h
    obtain ⟨_, _, ht⟩ := Except.bind_eq_ok ht
    cases hh : config.levels.head? with
    | none => rw [hh] at ht; cases ht
    | some c0 =>
      rw [hh] at ht
      cases ht
      rfl
  · intro hinv h
    rcases h with h | h | h | h
    · unfold KVStore.add at h
      obtain ⟨_, _, h⟩ := Except.bind_eq_ok h
      obtain ⟨_, _, h⟩ := Except.bind_eq_ok h
      obtain ⟨mt1, _, h⟩ := Except.bind_eq_ok h
      obtain ⟨sz, _, h⟩ := Except.bind_eq_ok h
      split at h
      · obtain ⟨tree, htree, h⟩ := Except.bind_eq_ok h
        cases h
        show tree.m_terminate_merge = s.m_destroyed
        rw [hdump _ _ _ htree]
        exact hinv
      · cases h
        exact hinv
    · unfold KVStore.remove at h
      obtain ⟨_, _, h⟩ := Except.bind_eq_ok h
      obtain ⟨_, _, h⟩ := Except.bind_eq_ok h
      obtain ⟨mt1, _, h⟩ := Except.bind_eq_ok h
      cases h
      exact hinv
    · unfold KVStore.destroy at h
      obtain ⟨_, ha, h⟩ := Except.bind_eq_ok h
      cases h
      have hd := hlive s ha
      rw [hd] at hinv
      show s.m_tree.destroy.m_terminate_merge = true
      simp [LSMTree.destroy, hinv]
    · unfold KVStore.merger_pass at h
      obtain ⟨tree, htree, h⟩ := Except.bind_eq_ok h
      cases h
      show tree.m_terminate_merge = s.m_destroyed
      rw [← hinv]
      unfold LSMTree.merger_pass at htree
      split at htree
      · cases htree; rfl
      · split at htree
        · cases htree; rfl
        · cases hl : s.m_tree.m_levels with
          | nil => rw [hl] at htree; cases htree
          | cons level1 rest =>
            rw [hl] at htree
            obtain ⟨⟨a, b⟩, _, htree⟩ := Except.bind_eq_ok htree
            obtain ⟨ls, _, htree⟩ := Except.bind_eq_ok htree
            cases htree
            rfl

/-! ## Closing and reopening a store -/

theorem Level.HoldsSorted.good {S : Nat} {l : Level} {sorted : List Table}
    (h : Level.HoldsSorted S l sorted) : ∀ x ∈ sorted, x.Good S := by
  obtain ⟨_, _, _, _, _, _, hg, _⟩ := h
  exact hg

theorem Level.needs_merging_ne {l : Level} (h : l.needs_merging = true) : l.m_tables ≠ [] := by
  intro hc
  simp [Level.needs_merging, hc] at h

theorem busy_tables_good :
    ((tableOf 32 [recC]).Good 32 ∧ (tableOf 32 [recC]).recs = [recC]) ∧
    ((tableOf 32 [recB]).Good 32 ∧ (tableOf 32 [recB]).recs = [recB]) ∧
    ((tableOf 32 [recDelA]).Good 32 ∧ (tableOf 32 [recDelA]).recs = [recDelA]) ∧
    ((tableOf 32 [recA]).Good 32 ∧ (tableOf 32 [recA]).recs = [recA]) :=
  ⟨tableOf_single_good _ (tableOf_holds 32 _ (by decide) (by simp) (by decide) (by decide))
      (by unfold fits; decide),
   tableOf_single_good _ (tableOf_holds 32 _ (by decide) (by simp) (by decide) (by decide))
      (by unfold fits; decide),
   tableOf_single_good _ (tableOf_holds 32 _ (by decide) (by simp) (by decide) (by decide))
      (by unfold fits; decide),
   tableOf_single_good _ (tableOf_holds 32 _ (by decide) (by simp) (by decide) (by decide))
      (by unfold fits; decide)⟩

theorem stale_tables_good :
    ((tableOf 32 [recA]).Good 32 ∧ (tableOf 32 [recA]).recs = [recA]) ∧
    ((tableOf 32 [recC]).Good 32 ∧ (tableOf 32 [recC]).recs = [recC]) ∧
    ((tableOf 32 [recB]).Good 32 ∧ (tableOf 32 [recB]).recs = [recB]) :=
  ⟨busy_tables_good.2.2.2, busy_tables_good.1, busy_tables_good.2.1⟩

theorem staleStore_ordered : staleStore.Ordered 32 where
  live := rfl
  running := rfl
  config := rfl
  levels := rfl
  upper := by simp [staleStore]
  level0 := ⟨rfl, rfl, rfl⟩
  levelN := by
    intro l hl
    simp only [staleStore, List.mem_cons, List.mem_singleton, List.not_mem_nil,
      or_false] at hl
    rcases hl with rfl | rfl <;> exact ⟨by decide, rfl, rfl⟩
  mem_sorted := by
    unfold MemTable.Sorted
    simp only [staleStore]
    decide
  mem_valid := by
    intro e he
    simp only [staleStore, List.mem_cons, List.mem_singleton, List.not_mem_nil,
      or_false] at he
    rcases he with rfl | rfl <;> (unfold fitsEntry; decide)
  mem_size := Or.inl ⟨by decide, by simp [staleStore]⟩
  tables0 := ⟨[tableOf 32 [recA]], rfl, by
    intro t ht
    rw [List.mem_singleton] at ht
    rw [ht]
    exact stale_tables_good.1.1⟩
  tablesN := by
    intro l hl
    simp only [staleStore, List.mem_cons, List.mem_singleton, List.not_mem_nil,
      or_false] at hl
    rcases hl with rfl | rfl
    · refine ⟨[tableOf 32 [recC]], rfl, ?_, inKeyOrder_single _ _ stale_tables_good.2.1.2⟩
      intro t ht
      rw [List.mem_singleton] at ht
      rw [ht]
      exact stale_tables_good.2.1.1
    · refine ⟨[tableOf 32 [recB]], rfl, ?_, inKeyOrder_single _ _ stale_tables_good.2.2.2⟩
      intro t ht
      rw [List.mem_singleton] at ht
      rw [ht]
      exact stale_tables_good.2.2.1
  few := by
    intro l hl
    simp only [staleStore, List.mem_cons, List.mem_singleton, List.not_mem_nil,
      or_false] at hl
    have h0 : staleStore.m_tree.m_level0.recordCount = 1 := by
      rw [Level.recordCount_eq _ [tableOf 32 [recA]] rfl]
      simp [stale_tables_good.1.2]
    rw [h0]
    rcases hl with rfl | rfl
    · rw [Level.recordCount_eq _ [tableOf 32 [recC]] rfl]
      simp [stale_tables_good.2.1.2, staleStore]
    · rw [Level.recordCount_eq _ [tableOf 32 [recB]] rfl]
      simp [stale_tables_good.2.2.2, staleStore]

/-- The close with a pass of the merger from a state with every level in key order,
through the slip of `merge_with` (C1..C3): the flush leaves `[a -> x]` and
`[a -> y, b -> ""]` in Level 0; their merge meets no table of Level 1 and is inserted
at `end()`, behind `[c -> z]`; the cascade reads the range `[c, b]` off the first and the
last table of Level 1, finds no overlap with `[b -> y]` in Level 2, and inserts
`[a -> y, b -> ""]` and `[c -> z]` behind it. Before the close `get(b)` returns "not
found"; the reopened store sorts the three tables of Level 2 by `min_key` and its
binary search ends at `[b -> y]`: `get(b)` returns `y`. Without the pass the reopened
store returns "not found". -/
theorem close_with_pass_returns_stale_value :
    (do
      let before ← staleStore.get keyB
      let s1 ← staleStore.close false true
      let s2 ← KVStore.load staleStore.m_config s1.dirs
      let after ← s2.get keyB
      let s3 ← staleStore.close false false
      let s4 ← KVStore.load staleStore.m_config s3.dirs
      let idle ← s4.get keyB
      pure (before, after, idle, s1.dirs.map List.length, s3.dirs.map List.length))
    = .ok (none, some ⟨[121], by decide⟩, none, [0, 0, 3], [0, 2, 1]) := by
  decide

/-! ## The store at the end of a call -/

/-- `MemTable::add` returns the memtable of `add_end` when the assertion holds. -/
theorem MemTable.add_end_value (m : MemTable) (key value : Buffer) :
    m.add key value = (m.add_end key value).2.map (fun _ => (m.add_end key value).1) := by
  unfold MemTable.add MemTable.add_end
  simp only [bind, Except.bind, pure, Except.pure]
  cases (mapUpsert key.bytes value.bytes m.m_table).2 with
  | none =>
    simp only []
    cases assert (decide ((m.m_size + key.size + value.size) % U32 ≠ 0)) <;> rfl
  | some old =>
    simp only []
    cases assert (decide ((m.m_size + U32 - old.length % U32 + value.size) % U32 ≠ 0)) <;> rfl

/-- `KVStore::add` returns the store of `add_end` when no assertion stops the call. -/
theorem KVStore.add_end_eq (s : KVStore) (key value : Buffer) :
    s.add key value = (s.add_end key value).2.map (fun _ => (s.add_end key value).1) := by
  unfold KVStore.add KVStore.add_end
  cases h1 : assert (!s.m_destroyed) with
  | error e => rfl
  | ok u =>
    cases h2 : assert (decide (key.size > 0) && decide (value.size > 0)) with
    | error e => rfl
    | ok u2 =>
      simp only [bind, Except.bind, MemTable.add_end_value]
      cases h3 : (s.m_memtable.add_end key value).2 with
      | error e =>
        have : s.m_memtable.add_end key value =
            ((s.m_memtable.add_end key value).1, .error e) := by rw [← h3]
        rw [this]
        rfl
      | ok u3 =>
        have : s.m_memtable.add_end key value =
            ((s.m_memtable.add_end key value).1, .ok u3) := by rw [← h3]
        rw [this]
        simp only [Except.map]
        cases h4 : (s.m_memtable.add_end key value).1.size with
        | error e => rfl
        | ok sz =>
          simp only []
          by_cases h5 : sz > s.m_config.memtable_size
          · simp only [if_pos h5]
            cases h6 : s.m_tree.dump_memtable (s.m_memtable.add_end key value).1 with
            | error e => rfl
            | ok tree => rfl
          · simp only [if_neg h5]
            rfl

/-- `KVStore::remove` returns the store of `remove_end` when no assertion stops the
call. -/
theorem KVStore.remove_end_eq (s : KVStore) (key : Buffer) :
    s.remove key = (s.remove_end key).2.map (fun _ => (s.remove_end key).1) := by
  unfold KVStore.remove KVStore.remove_end
  cases h1 : assert (!s.m_destroyed) with
  | error e => rfl
  | ok u =>
    cases h2 : assert (decide (key.size > 0)) with
    | error e => rfl
    | ok u2 =>
      simp only [bind, Except.bind, MemTable.add_end_value]
      cases h3 : (s.m_memtable.add_end key Buffer.empty).2 with
      | error e => rfl
      | ok u3 => rfl

/-- `KVStore::destroy` returns the store of `destroy_end` when its assertion holds. -/
theorem KVStore.destroy_end_eq (s : KVStore) :
    s.destroy = (s.destroy_end).2.map (fun _ => (s.destroy_end).1) := by
  unfold KVStore.destroy KVStore.destroy_end
  cases h1 : assert (!s.m_destroyed) with
  | error e => rfl
  | ok u => rfl

theorem KVStore.end_destroyed (s : KVStore) (key value : Buffer)
    (h : s.m_destroyed = true) :
    s.add_end key value = (s, .error .assertion) ∧ s.remove_end key = (s, .error .assertion) ∧
    s.destroy_end = (s, .error .assertion) := by
  simp only [KVStore.add_end, KVStore.remove_end, KVStore.destroy_end, h, Bool.not_true]
  exact ⟨rfl, rfl, rfl⟩

theorem KVStore.end_empty_key (s : KVStore) (key value : Buffer) (h : key.size = 0) :
    s.add_end key value = (s, .error .assertion) ∧
    s.remove_end key = (s, .error .assertion) := by
  simp only [KVStore.add_end, KVStore.remove_end, h]
  cases s.m_destroyed <;> exact ⟨rfl, rfl⟩

theorem KVStore.end_empty_value (s : KVStore) (key value : Buffer) (h : value.size = 0) :
    s.add_end key value = (s, .error .assertion) := by
  simp only [KVStore.add_end, h]
  cases s.m_destroyed
  · by_cases hk : key.size > 0
    · simp [hk, assert]
    · simp [hk, assert]
  · rfl

/-! ## Calls on a store with well-formed tables -/

/-- The binary search of `LevelN::get` over well-formed tables, in whatever order,
returns. -/
theorem LevelN.getLoop_total {S : Nat} (ts : List Table) (hg : ∀ t ∈ ts, t.Good S)
    (key : Buffer) :
    ∀ (fuel : Nat) (min max : Int), 0 ≤ min → max < ts.length → min ≤ max + 1 →
      max - min + 1 < fuel →
      ∃ v, LevelN.getLoop (ts.map some) key fuel min max = .ok v := by
  intro fuel
  induction fuel with
  | zero => intro min max _ _ _ hf; omega
  | succ fuel ih =>
    intro min max hmin hmax _ hf
    by_cases hmm : min ≤ max
    · obtain ⟨table, htable⟩ := exists_getElem? ts ((min + max) / 2).toNat (by omega)
      have htm := mem_of_getElem? _ _ _ htable
      simp only [LevelN.getLoop, if_pos hmm, LevelN.tableAt_map ts _ table htable, bind,
        Except.bind]
      by_cases hlt : key.lt table.min_key = true
      · rw [if_pos hlt]
        exact ih min ((min + max) / 2 - 1) hmin (by omega) (by omega) (by omega)
      · rw [if_neg hlt]
        by_cases hgt : key.gt table.max_key = true
        · rw [if_pos hgt]
          exact ih ((min + max) / 2 + 1) max (by omega) hmax (by omega) (by omega)
        · rw [if_neg hgt]
          exact ⟨_, (hg table htm).1.get_eq (hg table htm).2.1 key⟩
    · simp only [LevelN.getLoop, if_neg hmm]
      exact ⟨none, rfl⟩

/-- `LevelN::get` on a level of at most 2^30 well-formed tables returns. -/
theorem LevelN.get_total {S : Nat} (l : Level) (hl : LevelGood S l)
    (hlen : l.m_tables.length ≤ 1073741824) (key : Buffer) :
    ∃ v, LevelN.get l key = .ok v := by
  obtain ⟨ts, hts, hg⟩ := hl.tables
  rw [hts, List.length_map] at hlen
  unfold LevelN.get
  rw [hts, List.length_map, LevelN.toInt32_pred _ hlen]
  exact LevelN.getLoop_total ts hg key (ts.length + 1) 0 ((ts.length : Int) - 1) (le_refl _)
    (by omega) (by omega) (by omega)

/-- The loop of `LSMTree::get` over levels of at most 2^30 well-formed tables each
returns. -/
theorem LSMTree.getLoop_returns {S : Nat} (key : Buffer) :
    ∀ (ls : List Level), (∀ l ∈ ls, LevelGood S l ∧ l.m_tables.length ≤ 1073741824) →
      ∃ v, LSMTree.getLoop key ls = .ok v := by
  intro ls
  induction ls with
  | nil => intro _; exact ⟨none, rfl⟩
  | cons l ls ih =>
    intro h
    obtain ⟨v, hv⟩ := LevelN.get_total l (h l (List.mem_cons_self _ _)).1
      (h l (List.mem_cons_self _ _)).2 key
    obtain ⟨w, hw⟩ := ih (fun x hx => h x (List.mem_cons_of_mem _ hx))
    cases v with
    | some b =>
      refine ⟨some b, ?_⟩
      simp only [LSMTree.getLoop, hv]
      rfl
    | none =>
      refine ⟨w, ?_⟩
      have : LSMTree.getLoop key (l :: ls) = LSMTree.getLoop key ls := by
        simp only [LSMTree.getLoop, hv]
        rfl
      rw [this, hw]

theorem KVStore.Sound.mem_counter {s : KVStore} {S : Nat} (h : s.Sound S) :
    (s.m_memtable.m_size ≠ 0 ∧ s.m_memtable.m_table ≠ []) ∨
      (s.m_memtable.m_size = 0 ∧ s.m_memtable.m_table = []) := by
  rw [h.mem_size]
  unfold MemTable.byteSum
  cases hm : s.m_memtable.m_table with
  | nil => exact Or.inr ⟨rfl, rfl⟩
  | cons e rest =>
    refine Or.inl ⟨?_, by simp⟩
    have he := (h.mem_valid e (by rw [hm]; exact List.mem_cons_self _ _)).1
    have : 0 < e.1.length := List.length_pos.mpr he
    simp only [List.map_cons, List.sum_cons]
    omega

/-- On a store in a state `Sound` whose levels hold at most 2^30 tables each, `get`
returns for every key. -/
theorem KVStore.Sound.get_accepted {s : KVStore} {S : Nat} (h : s.Sound S)
    (hlen : ∀ l ∈ s.m_tree.m_levels, l.m_tables.length ≤ 1073741824) (key : Buffer) :
    ∃ v, s.get key = .ok v := by
  obtain ⟨ts0, hts0, hg0⟩ := (h.levels _ (List.mem_cons_self _ _)).tables
  obtain ⟨rs, hrs⟩ := exists_records s.m_memtable.m_table
    (fun e he => ⟨(h.mem_valid e he).2.1, (h.mem_valid e he).2.2.1⟩)
  have hrsv : ∀ r ∈ rs, r.value.size < 65535 := by
    intro r hr
    have : r.pair ∈ s.m_memtable.m_table := by
      rw [← hrs]; exact List.mem_map_of_mem _ hr
    exact (h.mem_valid _ this).2.2.1
  have hA := MemTable.get_lookup_records s.m_memtable rs key hrs hrsv
  have hB := Level0.get_eq_firstValue s.m_tree.m_level0 ts0 key hts0 hg0
  obtain ⟨c, hC⟩ := @LSMTree.getLoop_returns S key s.m_tree.m_levels
    (fun l hl => ⟨h.levels l (List.mem_cons_of_mem _ hl), hlen l hl⟩)
  exact ⟨_, KVStore.get_of_parts s key _ _ c h.live h.running hA hB hC⟩

/-- `KVStore::add` on a store in a state `Sound`: a record with a non-empty key and
value that fits a fresh table is accepted when the counter of the memtable cannot wrap,
and the store is in a state `Sound` again. -/
theorem KVStore.Sound.add_accepted {s : KVStore} {S : Nat} (hS : S + 131074 < U32)
    (h : s.Sound S) (key value : Buffer) (hk : 0 < key.size) (hv : 0 < value.size)
    (hk2 : key.size < 65535) (hv2 : value.size < 65535)
    (hfit : 4 + key.size + value.size + 8 ≤ S)
    (hsum : s.m_memtable.byteSum + key.size + value.size < U32) :
    ∃ s1, s.add key value = .ok s1 ∧ s1.Sound S := by
  obtain ⟨mt1, hadd, hsorted1, hexact1, hne0, hne, _, hmem⟩ :=
    MemTable.add_exact s.m_memtable key value h.mem_sorted h.mem_size hk hsum
  have hsize1 : (mt1.m_size ≠ 0 ∧ mt1.m_table ≠ []) ∨ (mt1.m_size = 0 ∧ mt1.m_table = []) :=
    Or.inl ⟨hne0, hne⟩
  have hvalid1 : ∀ e ∈ mt1.m_table,
      e.1 ≠ [] ∧ e.1.length < 65535 ∧ e.2.length < 65535 ∧ fitsEntry S e := by
    intro e he
    rcases hmem e he with he | rfl
    · exact h.mem_valid e he
    · refine ⟨?_, hk2, hv2, ?_⟩
      · intro hc
        have hc' : key.bytes = [] := hc
        simp only [Buffer.size, hc', List.length_nil] at hk
        omega
      · simp only [fitsEntry, Buffer.size] at hfit ⊢
        omega
  unfold KVStore.add
  rw [h.live]
  have ha1 : assert (!false) = .ok () := rfl
  have ha2 : assert (decide (key.size > 0) && decide (value.size > 0)) = .ok () := by
    simp [assert, hk, hv]
  simp only [ha1, ha2, hadd, MemTable.size_ok mt1 hsize1, bind, Except.bind]
  by_cases hflush : mt1.m_size > s.m_config.memtable_size
  · rw [if_pos hflush]
    have hl0 := h.levels _ (List.mem_cons_self _ _)
    obtain ⟨ts0, hts0, hg0⟩ := hl0.tables
    obtain ⟨rs1, hrs1⟩ := exists_records mt1.m_table
      (fun e he => ⟨(hvalid1 e he).2.1, (hvalid1 e he).2.2.1⟩)
    obtain ⟨l0, ts0', hdump, hc0, ht0, hg0', _⟩ := LSMTree.dump_memtable_spec hS s.m_tree mt1
      ts0 rs1 h.running hl0.1 hts0 hg0 hrs1 hsorted1 hvalid1 hsize1
    simp only [hdump]
    refine ⟨_, rfl, ⟨rfl, h.running, h.upper, ?_, ?_, ?_, rfl⟩⟩
    · intro l hl
      rcases List.mem_cons.mp hl with hl | hl
      · have hl' : l = l0 := hl
        rw [hl']
        refine ⟨by rw [hc0]; exact hl0.1, ?_⟩
        intro tp htp
        rw [ht0] at htp
        obtain ⟨t, ht, rfl⟩ := List.mem_map.mp htp
        exact ⟨t, rfl, hg0' t ht⟩
      · exact h.levels l (List.mem_cons_of_mem _ hl)
    · exact List.Pairwise.nil
    · intro e he
      exact absurd he (List.not_mem_nil _)
  · rw [if_neg hflush]
    exact ⟨_, rfl, ⟨rfl, h.running, h.upper, h.levels, hsorted1, hvalid1, hexact1⟩⟩

/-- `KVStore::remove` with a non-empty key on a store in a state `Sound` is accepted
when the counter of the memtable cannot wrap; the store is in a state `Sound` again
when the deletion marker fits a fresh table. -/
theorem KVStore.Sound.remove_accepted {s : KVStore} {S : Nat} (h : s.Sound S) (key : Buffer)
    (hk : 0 < key.size) (hsum : s.m_memtable.byteSum + key.size < U32) :
    ∃ s1, s.remove key = .ok s1 ∧
      (key.size < 65535 → 4 + key.size + 8 ≤ S → s1.Sound S) := by
  obtain ⟨mt1, hadd, hsorted1, hexact1, _, _, _, hmem⟩ :=
    MemTable.add_exact s.m_memtable key Buffer.empty h.mem_sorted h.mem_size hk (by
      show _ + _ + 0 < _
      omega)
  unfold KVStore.remove
  rw [h.live]
  have ha1 : assert (!false) = .ok () := rfl
  have ha2 : assert (decide (key.size > 0)) = .ok () := by
    simp [assert, hk]
  simp only [ha1, ha2, hadd, bind, Except.bind]
  refine ⟨_, rfl, fun hk2 hfit =>
    ⟨rfl, h.running, h.upper, h.levels, hsorted1, ?_, hexact1⟩⟩
  intro e he
  rcases hmem e he with he | rfl
  · exact h.mem_valid e he
  · refine ⟨?_, hk2, by show (0 : Nat) < 65535; omega, ?_⟩
    · intro hc
      have hc' : key.bytes = [] := hc
      simp only [Buffer.size, hc', List.length_nil] at hk
      omega
    · simp only [fitsEntry, Buffer.size] at hfit ⊢
      show key.bytes.length + 2 + (0 + 2) + 8 ≤ S
      omega

/-! ## The merger on well-formed tables -/

theorem LevelN.overlapLoop_total (mn mx : Buffer) (endIdx : Nat) (ts : List Table) :
    ∀ (i first last : Nat) (acc : table_list),
      ∃ r, LevelN.overlapLoop mn mx endIdx (ts.map some) i first last acc = .ok r := by
  induction ts with
  | nil => intro i first last acc; exact ⟨_, rfl⟩
  | cons t ts ih =>
    intro i first last acc
    simp only [List.map_cons, LevelN.overlapLoop, deref, bind, Except.bind]
    split
    · exact ih _ _ _ _
    · exact ih _ _ _ _

/-- The merge of `merge_with` over well-formed tables returns: the tables of the merged
level, which is not empty, and the overlapping tables that the scan of the level
collected. -/
theorem LevelN.merge_scan_total {S : Nat} (hS : S + 131074 < U32) (self : Level)
    (ts vs : List Table) (mn mx : Buffer) (hgt : ∀ t ∈ ts, t.Good S)
    (hgv : ∀ t ∈ vs, t.Good S) (hne : vs ≠ []) (hcfg : self.m_config.table_size = S) :
    ∃ first last ov merged,
      LevelN.overlapLoop mn mx ts.length (ts.map some) 0 ts.length ts.length []
        = .ok (first, last, ov) ∧
      TableBuilder.merge_tables (vs.map some ++ ov) self.m_config = .ok merged := by
  obtain ⟨⟨first, last, ov⟩, hov⟩ :=
    LevelN.overlapLoop_total mn mx ts.length ts 0 ts.length ts.length []
  obtain ⟨O, hO, hsub⟩ := LevelN.overlapLoop_subset mn mx _ ts _ _ _ _ _ _ _ hov
  rw [List.nil_append] at hO
  have hgin : ∀ t ∈ vs ++ O, t.Good S := by
    intro t ht
    rcases List.mem_append.mp ht with h | h
    · exact hgv t h
    · exact hgt t (hsub t h)
  have hT := tablesHold_of_good (vs ++ O) hgin
  have hinasc : ∀ rs ∈ (vs ++ O).map Table.recs, Ascending rs := by
    intro rs hrs
    obtain ⟨t, ht, rfl⟩ := List.mem_map.mp hrs
    exact (hgin t ht).2.1
  have hinfit : ∀ rs ∈ (vs ++ O).map Table.recs, ∀ r ∈ rs,
      fits self.m_config.table_size r := by
    intro rs hrs
    obtain ⟨t, ht, rfl⟩ := List.mem_map.mp hrs
    rw [hcfg]
    exact (hgin t ht).2.2
  have hinne : (vs ++ O).map Table.recs ≠ [] := by
    intro hc
    rw [List.map_eq_nil_iff, List.append_eq_nil] at hc
    exact hne hc.1
  obtain ⟨merged, hmerge⟩ := merge_tables_succeeds hT hinasc self.m_config
    (by rw [hcfg]; exact hS) hinfit hinne
  refine ⟨first, last, ov, merged, hov, ?_⟩
  rw [hO, ← List.map_append]
  exact hmerge

/-- Both `merge_with` members return when the tables of the two levels are well formed
and the merged level is not empty. -/
theorem LevelN.merge_with_total {S : Nat} (hS : S + 131074 < U32) {self other : Level}
    (hself : LevelGood S self) (hother : LevelGood S other) (hne : other.m_tables ≠ []) :
    (∃ r, LevelN.merge_with_level0 self other = .ok r) ∧
    (∃ r, LevelN.merge_with_levelN self other = .ok r) := by
  obtain ⟨ts, hts, hgt⟩ := hself.tables
  obtain ⟨us, hus, hgu⟩ := hother.tables
  have hune : us ≠ [] := by
    intro hc
    rw [hc] at hus
    exact hne hus
  have hlen : 0 < us.length := List.length_pos.mpr hune
  constructor
  · have hgr : ∀ t ∈ us.reverse, t.Good S := fun t ht => hgu t (List.mem_reverse.mp ht)
    have hrne : us.reverse ≠ [] := by simpa using hune
    obtain ⟨t0, h0⟩ := exists_getElem? us.reverse 0 (by rw [List.length_reverse]; exact hlen)
    obtain ⟨mn, mx, hrl, _⟩ := LevelN.rangeLoop_spec us.reverse t0.min_key t0.max_key
    obtain ⟨first, last, ov, merged, hov, hm⟩ :=
      LevelN.merge_scan_total hS self ts us.reverse mn mx hgt hgr hrne hself.1
    unfold LevelN.merge_with_level0
    simp only [hus, hts, ← List.map_reverse, List.length_map, LevelN.tableAt_map _ _ _ h0, hrl,
      hov, hm, bind, Except.bind, pure, Except.pure]
    exact ⟨_, rfl⟩
  · obtain ⟨t0, h0⟩ := exists_getElem? us 0 hlen
    obtain ⟨tl, hl⟩ := exists_getElem? us (us.length - 1) (by omega)
    obtain ⟨first, last, ov, merged, hov, hm⟩ :=
      LevelN.merge_scan_total hS self ts us t0.min_key tl.max_key hgt hgu hune hself.1
    unfold LevelN.merge_with_levelN
    simp only [hus, hts, List.length_map, LevelN.tableAt_map _ _ _ h0,
      LevelN.tableAt_map _ _ _ hl, hov, hm, bind, Except.bind, pure, Except.pure]
    exact ⟨_, rfl⟩

/-- The cascade of `background_merger` over levels of well-formed tables returns, and
leaves levels of well-formed tables. -/
theorem LSMTree.cascade_total {S : Nat} (hS : S + 131074 < U32) :
    ∀ (rest : List Level) (prev : Level), (∀ l ∈ prev :: rest, LevelGood S l) →
      ∃ ls, LSMTree.cascade prev rest = .ok ls ∧ ls ≠ [] ∧ ∀ l ∈ ls, LevelGood S l := by
  intro rest
  induction rest with
  | nil =>
    intro prev hg
    exact ⟨[prev], rfl, by simp, hg⟩
  | cons curr rest ih =>
    intro prev hg
    have hgp := hg prev (List.mem_cons_self _ _)
    have hgc := hg curr (by simp)
    unfold LSMTree.cascade
    by_cases hn : prev.needs_merging = true
    · obtain ⟨⟨curr1, prev1⟩, hm⟩ :=
        (LevelN.merge_with_total hS hgc hgp (Level.needs_merging_ne hn)).2
      obtain ⟨hg1, hg2, _⟩ := LevelN.merge_with_records (by omega) hgc hgp (Or.inr hm)
      obtain ⟨tail, htail, _, hgt⟩ := ih curr1 (by
        intro l hl
        rcases List.mem_cons.mp hl with hl | hl
        · rw [hl]; exact hg1
        · exact hg l (by simp [hl]))
      simp only [hn, Bool.not_true, Bool.false_eq_true, if_false, hm, htail, bind, Except.bind,
        pure, Except.pure]
      refine ⟨_, rfl, by simp, ?_⟩
      intro l hl
      rcases List.mem_cons.mp hl with hl | hl
      · rw [hl]; exact hg2
      · exact hgt l hl
    · obtain ⟨tail, htail, _, hgt⟩ := ih curr (fun l hl => hg l (List.mem_cons_of_mem _ hl))
      simp only [hn, Bool.not_false, if_true, htail, bind, Except.bind, pure, Except.pure]
      refine ⟨_, rfl, by simp, ?_⟩
      intro l hl
      rcases List.mem_cons.mp hl with hl | hl
      · rw [hl]; exact hgp
      · exact hgt l hl

/-- A pass of the background merger on a store in a state `Sound` returns, and the
store is in a state `Sound` again. -/
theorem KVStore.Sound.merger_pass_keeps {s : KVStore} {S : Nat} (hS : S + 131074 < U32)
    (h : s.Sound S) :
    ∃ s1, s.merger_pass = .ok s1 ∧ s1.Sound S := by
  unfold KVStore.merger_pass LSMTree.merger_pass
  simp only [h.running, Bool.false_eq_true, if_false]
  by_cases hn : s.m_tree.m_level0.needs_merging = true
  · simp only [hn, Bool.not_true, Bool.false_eq_true, if_false]
    cases hl : s.m_tree.m_levels with
    | nil => exact absurd hl h.upper
    | cons level1 rest =>
      have hlevels := h.levels
      rw [hl] at hlevels
      have hg0 := hlevels _ (List.mem_cons_self _ _)
      have hg1 := hlevels level1 (by simp)
      obtain ⟨⟨a, b⟩, hm⟩ :=
        (LevelN.merge_with_total hS hg1 hg0 (Level.needs_merging_ne hn)).1
      obtain ⟨hga, hgb, _⟩ := LevelN.merge_with_records (by omega) hg1 hg0 (Or.inl hm)
      obtain ⟨ls, hls, hne, hgl⟩ := LSMTree.cascade_total hS rest a (by
        intro l hl'
        rcases List.mem_cons.mp hl' with hl' | hl'
        · rw [hl']; exact hga
        · exact hlevels l (by simp [hl']))
      simp only [hm, hls, bind, Except.bind, pure, Except.pure]
      refine ⟨_, rfl, ⟨h.live, rfl, hne, ?_, h.mem_sorted, h.mem_valid, h.mem_size⟩⟩
      intro l hl'
      rcases List.mem_cons.mp hl' with hl' | hl'
      · rw [hl']; exact hgb
      · exact hgl l hl'
  · simp only [hn, Bool.not_false, if_true, bind, Except.bind, pure, Except.pure]
    exact ⟨_, rfl, h⟩

/-- The constructor over empty level directories leaves a store in a state `Sound`. -/
theorem KVStore.Sound.of_new {name path : List Char} {L ts th mem par : Nat} {ow : Bool}
    {config : Config} {s : KVStore}
    (hc : Config.new name path L ts th mem par ow = .ok config)
    (hs : KVStore.new config = .ok s) : s.Sound ts := by
  have hv := KVStore.new_value config
  rw [hs] at hv
  by_cases hlen : 1 < config.levels.length
  · rw [if_pos hlen] at hv
    have hs1 := Except.ok.inj hv
    unfold KVStore.new at hs
    obtain ⟨t, ht, hs2⟩ := Except.bind_eq_ok hs
    cases hs2
    have hinv := TreeInv.new hc ht
    refine ⟨rfl, hinv.running, ?_, hinv.good, List.Pairwise.nil, ?_, rfl⟩
    · have hl : t.m_levels = config.levels.tail.map Level.new :=
        congrArg (fun x => x.m_tree.m_levels) hs1
      show t.m_levels ≠ []
      rw [hl]
      intro hc
      have := congrArg List.length hc
      simp only [List.length_map, List.length_tail, List.length_nil] at this
      omega
    · intro e he
      exact absurd he (List.not_mem_nil _)
  · rw [if_neg hlen] at hv
    cases hv

/-- A state `Ordered` with an exact memtable counter is a state `Sound`. -/
theorem KVStore.Ordered.sound {s : KVStore} {S : Nat} (h : s.Ordered S)
    (hexact : s.m_memtable.m_size = s.m_memtable.byteSum) : s.Sound S := by
  refine ⟨h.live, h.running, h.upper, ?_, h.mem_sorted, h.mem_valid, hexact⟩
  intro l hl
  rcases List.mem_cons.mp hl with hl | hl
  · rw [hl]
    obtain ⟨ts0, hts0, hg0⟩ := h.tables0
    refine ⟨h.level0.2.1, ?_⟩
    intro tp htp
    rw [hts0] at htp
    obtain ⟨t, ht, rfl⟩ := List.mem_map.mp htp
    exact ⟨t, rfl, hg0 t ht⟩
  · obtain ⟨ts, hts, hg, _⟩ := h.tablesN l hl
    refine ⟨(h.levelN l hl).2.1, ?_⟩
    intro tp htp
    rw [hts] at htp
    obtain ⟨t, ht, rfl⟩ := List.mem_map.mp htp
    exact ⟨t, rfl, hg t ht⟩

/-- C25 (amended): `add`, `remove` and `destroy` return the store of `add_end`,
`remove_end` and `destroy_end`, which follow the members of the store to the end of the
call. `KVStore` rejects by an assertion failure, with the memtable and the tree as they
were before the call, `add` and `remove` with an empty key, `add` with a zero-length
value, and every `add`, `remove` or `destroy` on a destroyed store; `get` on a destroyed
store is rejected too (`get` writes to no member). On a store that has not been
destroyed `destroy` is always accepted. The other calls can still fail an assertion
further down. They are accepted on a store in a state `Sound` for a table size with
`table_size + 131074 < 2^32` (well-formed tables whose records fit a fresh table, in
whatever order, and a memtable counter equal to the byte sum of its entries): `get` for
every key when no level holds more than 2^30 tables; `remove` with a non-empty key when
the counter cannot wrap; `add` with a non-empty key and value, each shorter than 65535
bytes, when the record fits a fresh table (`4 + |k| + |v| + 8 <= table_size`) and the
counter cannot wrap. The state `Sound` is the one that the code keeps: the constructor
establishes it, `add` keeps it, `remove` keeps it when the deletion marker fits a fresh
table, and every pass of the background merger returns and keeps it. -/
theorem kvstore_call_checks (s : KVStore) (key value : Buffer) :
    (s.add key value = (s.add_end key value).2.map (fun _ => (s.add_end key value).1) ∧
      s.remove key = (s.remove_end key).2.map (fun _ => (s.remove_end key).1) ∧
      s.destroy = s.destroy_end.2.map (fun _ => s.destroy_end.1)) ∧
    (s.m_destroyed = true →
      (s.get key = .error .assertion ∧ s.add key value = .error .assertion ∧
        s.remove key = .error .assertion ∧ s.destroy = .error .assertion) ∧
      s.add_end key value = (s, .error .assertion) ∧
      s.remove_end key = (s, .error .assertion) ∧ s.destroy_end = (s, .error .assertion)) ∧
    (key.size = 0 →
      (s.add key value = .error .assertion ∧ s.remove key = .error .assertion) ∧
      s.add_end key value = (s, .error .assertion) ∧
      s.remove_end key = (s, .error .assertion)) ∧
    (value.size = 0 →
      s.add key value = .error .assertion ∧ s.add_end key value = (s, .error .assertion)) ∧
    (s.m_destroyed = false → ∃ s1, s.destroy = .ok s1) ∧
    (∀ S, S + 131074 < U32 → s.Sound S →
      ((∀ l ∈ s.m_tree.m_levels, l.m_tables.length ≤ 1073741824) →
        ∃ v, s.get key = .ok v) ∧
      (0 < key.size → s.m_memtable.byteSum + key.size < U32 →
        ∃ s1, s.remove key = .ok s1 ∧
          (key.size < 65535 → 4 + key.size + 8 ≤ S → s1.Sound S)) ∧
      (0 < key.size → 0 < value.size → key.size < 65535 → value.size < 65535 →
        4 + key.size + value.size + 8 ≤ S →
        s.m_memtable.byteSum + key.size + value.size < U32 →
        ∃ s1, s.add key value = .ok s1 ∧ s1.Sound S) ∧
      ∃ s1, s.merger_pass = .ok s1 ∧ s1.Sound S) ∧
    (∀ (name path : List Char) (L ts th mem par : Nat) (ow : Bool) (config : Config)
      (s0 : KVStore), Config.new name path L ts th mem par ow = .ok config →
      KVStore.new config = .ok s0 → s0.Sound ts) := by
  refine ⟨⟨KVStore.add_end_eq s key value, KVStore.remove_end_eq s key,
      KVStore.destroy_end_eq s⟩,
    fun hd => ⟨KVStore.rejects_destroyed s key value hd, KVStore.end_destroyed s key value hd⟩,
    fun hk => ⟨KVStore.rejects_empty_key s key value hk, KVStore.end_empty_key s key value hk⟩,
    fun hv => ⟨KVStore.rejects_empty_value s key value hv,
      KVStore.end_empty_value s key value hv⟩,
    ?_, ?_, ?_⟩
  · intro hlive
    simp only [KVStore.destroy, hlive]
    exact ⟨_, rfl⟩
  · intro S hS h
    exact ⟨fun hlen => h.get_accepted hlen key,
      fun hk hsum => h.remove_accepted key hk hsum,
      fun hk hv hk2 hv2 hfit hsum => h.add_accepted hS key value hk hv hk2 hv2 hfit hsum,
      h.merger_pass_keeps hS⟩
  · intro name path L ts th mem par ow config s0 hc hs
    exact KVStore.Sound.of_new hc hs

/-- Witness of C25 (amended): `durableStore` is in a state `Sound`; it accepts `get(a)`,
`remove(a)`, `add(a, x)`, a pass of the merger and `destroy()`, and rejects `add` with an
empty key or an empty value, which leave it as it is. -/
theorem kvstore_call_checks_witness :
    durableStore.m_destroyed = false ∧ 32 + 131074 < U32 ∧ durableStore.Sound 32 ∧
    (durableStore.add Buffer.empty valX = .error .assertion ∧
      durableStore.add_end Buffer.empty valX = (durableStore, .error .assertion)) ∧
    (durableStore.add keyA Buffer.empty = .error .assertion ∧
      durableStore.add_end keyA Buffer.empty = (durableStore, .error .assertion)) ∧
    (∃ s1, durableStore.destroy = .ok s1) ∧
    (∃ v, durableStore.get keyA = .ok v) ∧
    (∃ s1, durableStore.remove keyA = .ok s1 ∧
      (keyA.size < 65535 → 4 + keyA.size + 8 ≤ 32 → s1.Sound 32)) ∧
    (∃ s1, durableStore.add keyA valX = .ok s1 ∧ s1.Sound 32) ∧
    (∃ s1, durableStore.merger_pass = .ok s1 ∧ s1.Sound 32) :=
  ⟨rfl, by decide, durableStore_ordered.sound (by decide),
   ⟨((kvstore_call_checks durableStore Buffer.empty valX).2.2.1 rfl).1.1,
    ((kvstore_call_checks durableStore Buffer.empty valX).2.2.1 rfl).2.1⟩,
   (kvstore_call_checks durableStore keyA Buffer.empty).2.2.2.1 rfl,
   (kvstore_call_checks durableStore keyA valX).2.2.2.2.1 rfl,
   ((kvstore_call_checks durableStore keyA valX).2.2.2.2.2.1 32 (by decide)
      (durableStore_ordered.sound (by decide))).1 (by decide),
   ((kvstore_call_checks durableStore keyA valX).2.2.2.2.2.1 32 (by decide)
      (durableStore_ordered.sound (by decide))).2.1 (by decide) (by decide),
   ((kvstore_call_checks durableStore keyA valX).2.2.2.2.2.1 32 (by decide)
      (durableStore_ordered.sound (by decide))).2.2.1 (by decide) (by decide) (by decide)
      (by decide) (by decide) (by decide),
   ((kvstore_call_checks durableStore keyA valX).2.2.2.2.2.1 32 (by decide)
      (durableStore_ordered.sound (by decide))).2.2.2⟩

end KV
